import Mathlib

/-! Ghost-layer construction of t8code (`t8_forest_ghost.cxx`).

A shallow embedding of the ghost-layer core: the remote index
(`t8_ghost_add_remote`), discovery (`t8_forest_ghost_fill_remote`), the wire
codec (`t8_forest_ghost_send_start`, `t8_forest_ghost_parse_received_message`)
and the receive loop (`t8_forest_ghost_receive`), together with
`t8_forest_ghost_create`, the read queries and the reference counting.

Conventions of the embedding.

* Raw memory is a list of bytes; a byte is a natural number (below 256 when it
  is produced by the code itself).
* `size_t` and `t8_gloidx_t` are 8 bytes wide, `t8_eclass_t` 4 bytes,
  `t8_locidx_t` is a 32 bit signed integer.  Integers are stored little endian.
* An `sc_array_t` is its element size together with the list of its elements,
  every element being the bytes of one slot.
* An `sc_hash_t` is the list of its entries in insertion order; two entries are
  the same key when the equality function of the table says so.
* `T8_ASSERT` aborts: a function whose assertion fails, or which reads or
  writes outside a buffer, returns `Except.error`; so does a function that
  calls through a pointer that was never assigned or releases a buffer that
  was never allocated.
-/

namespace T8Ghost

/-! ## Failures -/

/-- The ways in which a run of the code stops without a result. -/
inductive Failure where
  /-- A `T8_ASSERT` (or an assertion inside an `sc` container) failed; the
  number is the line of `t8_forest_ghost.cxx`. -/
  | assertion (line : Nat)
  /-- A read or write outside the bounds of a buffer or array. -/
  | out_of_bounds
  /-- The blocking probe waits for a message that never arrives. -/
  | no_message
  /-- A call through a pointer that was never assigned, or the release of a
  buffer that was never allocated. -/
  | invalid_pointer
  deriving DecidableEq, Repr

/-- The macro `T8_ASSERT (c)` at the given source line. -/
def T8_ASSERT (line : Nat) (c : Bool) : Except Failure Unit :=
  if c then .ok () else .error (.assertion line)

/-! ## Machine integers and raw memory -/

/-- Width in bytes of `size_t`. -/
def sizeof_size_t : Nat := 8

/-- Width in bytes of `t8_gloidx_t` (a 64 bit signed integer). -/
def sizeof_t8_gloidx_t : Nat := 8

/-- Width in bytes of `t8_eclass_t` (an enumeration). -/
def sizeof_t8_eclass_t : Nat := 4

/-- The object representation of an unsigned integer of `w` bytes. -/
def bytes_of_uint : Nat → Nat → List Nat
  | 0, _ => []
  | w + 1, v => (v % 256) :: bytes_of_uint w (v / 256)

/-- The unsigned integer stored in a run of bytes. -/
def uint_of_bytes : List Nat → Nat
  | [] => 0
  | b :: bs => b + 256 * uint_of_bytes bs

/-- The object representation of a signed integer of `w` bytes (two's
complement). -/
def bytes_of_sint (w : Nat) (v : Int) : List Nat :=
  bytes_of_uint w (v % (2 : Int) ^ (8 * w)).toNat

/-- The signed integer of `w` bytes stored in a run of bytes. -/
def sint_of_bytes (w : Nat) (bs : List Nat) : Int :=
  let u : Nat := uint_of_bytes bs
  if u < 2 ^ (8 * w - 1) then (u : Int) else (u : Int) - (2 : Int) ^ (8 * w)

/-- Conversion of a `size_t` value to the 32 bit signed `t8_locidx_t`. -/
def locidx_of_size_t (v : Nat) : Int :=
  let u : Nat := v % 2 ^ 32
  if u < 2 ^ 31 then (u : Int) else (u : Int) - (2 : Int) ^ 32

/-- Conversion `(size_t) i` of an `int`. -/
def size_t_of_int (i : Int) : Nat :=
  (i % (2 : Int) ^ 64).toNat

/-- The call `memcpy (dst + off, src, src.length)` on a buffer `dst`. -/
def memcpy (dst : List Nat) (off : Nat) (src : List Nat) :
    Except Failure (List Nat) :=
  if off + src.length ≤ dst.length then
    .ok (dst.take off ++ src ++ dst.drop (off + src.length))
  else .error .out_of_bounds

/-- Reading `n` bytes at offset `off` of a buffer. -/
def read_bytes (buf : List Nat) (off n : Nat) : Except Failure (List Nat) :=
  if off + n ≤ buf.length then .ok ((buf.drop off).take n)
  else .error .out_of_bounds

/-- The read `*(size_t *) (buf + off)`. -/
def read_size_t (buf : List Nat) (off : Nat) : Except Failure Nat :=
  (read_bytes buf off sizeof_size_t).map uint_of_bytes

/-- The read `*(t8_gloidx_t *) (buf + off)`. -/
def read_t8_gloidx_t (buf : List Nat) (off : Nat) : Except Failure Int :=
  (read_bytes buf off sizeof_t8_gloidx_t).map (sint_of_bytes sizeof_t8_gloidx_t)

/-- The read `*(t8_eclass_t *) (buf + off)`. -/
def read_t8_eclass_t (buf : List Nat) (off : Nat) : Except Failure Nat :=
  (read_bytes buf off sizeof_t8_eclass_t).map uint_of_bytes

/-- Modelled from the spec: the macro `T8_ADD_PADDING` of `t8.h`, which is not
part of the sources at hand.  It gives the number of bytes that round the
running offset `x` up to the next multiple of the padding size `P`. -/
def T8_ADD_PADDING (P x : Nat) : Nat :=
  (P - x % P) % P

/-! ## Elements, schemes and containers -/

/-- An element: opaque bytes whose width is the element size of its scheme. -/
abbrev t8_element_t := List Nat

/-- The element class, the value of the enumeration `t8_eclass_t`. -/
abbrev t8_eclass_t := Nat

/-- The number of element classes; also used as the invalid class. -/
def T8_ECLASS_COUNT : t8_eclass_t := 8

/-- The operations of `t8_eclass_scheme_c` that the ghost code calls. -/
structure t8_eclass_scheme_c where
  /-- The number of bytes of one element. -/
  t8_element_size : Nat
  t8_element_level : t8_element_t → Int
  t8_element_maxlevel : Int
  t8_element_get_linear_id : t8_element_t → Int → Nat
  /-- The bytes that `t8_element_copy (source, dest)` stores in `dest`. -/
  t8_element_copy : t8_element_t → t8_element_t
  t8_element_num_faces : t8_element_t → Nat
  t8_element_num_face_children : t8_element_t → Nat → Nat
  /-- The contents of an element right after `t8_element_new`. -/
  t8_element_new : t8_element_t

/-- An `sc_array_t`: the element size and the elements in order. -/
structure sc_array_t where
  elem_size : Nat
  elems : List (List Nat)
  deriving DecidableEq, Repr

/-- The field `elem_count`. -/
def sc_array_t.elem_count (a : sc_array_t) : Nat := a.elems.length

/-- The bytes behind the field `array`. -/
def sc_array_t.array (a : sc_array_t) : List Nat := a.elems.flatten

/-- The result of `sc_array_init (a, elem_size)`. -/
def sc_array_init (elem_size : Nat) : sc_array_t :=
  { elem_size := elem_size, elems := [] }

/-- Cutting a run of bytes into `n` slots of `size` bytes each. -/
def slots (size : Nat) : Nat → List Nat → List (List Nat)
  | 0, _ => []
  | n + 1, bs => bs.take size :: slots size n (bs.drop size)

/-! ## The ghost structure -/

/-- The information stored for the ghost trees. -/
structure t8_ghost_tree_t where
  global_id : Int
  eclass : t8_eclass_t
  elements : sc_array_t
  deriving DecidableEq, Repr

/-- The entries of the hash table `global_tree_to_ghost_tree`. -/
structure t8_ghost_gtree_hash_t where
  global_id : Int
  index : Nat
  deriving DecidableEq, Repr

/-- The entries of the hash table `process_offsets`.  A field is `none` when
the local variable stored into it was never assigned. -/
structure t8_ghost_process_hash_t where
  mpirank : Int
  tree_index : Option Nat
  first_element : Option Nat
  deriving DecidableEq, Repr

/-- The information stored for the remote trees. -/
structure t8_ghost_remote_tree_t where
  global_id : Int
  mpirank : Int
  eclass : t8_eclass_t
  elements : sc_array_t
  deriving DecidableEq, Repr

/-- The entries of the hash array `remote_ghosts`. -/
structure t8_ghost_remote_t where
  remote_rank : Int
  remote_trees : List t8_ghost_remote_tree_t
  deriving DecidableEq, Repr

/-- The ghost types. -/
inductive t8_ghost_type_t where
  | T8_GHOST_NONE
  | T8_GHOST_FACES
  | T8_GHOST_EDGES
  | T8_GHOST_VERTICES
  deriving DecidableEq, Repr

/-- The structure `t8_forest_ghost_struct_t`. -/
structure t8_forest_ghost where
  /-- The reference counter `rc.refcount`. -/
  rc : Int
  num_ghosts_elements : Nat
  num_remote_elements : Nat
  ghost_type : t8_ghost_type_t
  ghost_trees : List t8_ghost_tree_t
  global_tree_to_ghost_tree : List t8_ghost_gtree_hash_t
  process_offsets : List t8_ghost_process_hash_t
  /-- The array `remote_ghosts->a`; its hash finds an entry by its rank. -/
  remote_ghosts : List t8_ghost_remote_t
  remote_processes : List Int
  deriving DecidableEq, Repr

/-- The structure that `t8_forest_ghost_init` allocates. -/
def t8_forest_ghost_init (ghost_type : t8_ghost_type_t) :
    Except Failure t8_forest_ghost := do
  T8_ASSERT 182 (decide (ghost_type = .T8_GHOST_FACES))
  pure { rc := 1,
         num_ghosts_elements := 0,
         num_remote_elements := 0,
         ghost_type := ghost_type,
         ghost_trees := [],
         global_tree_to_ghost_tree := [],
         process_offsets := [],
         remote_ghosts := [],
         remote_processes := [] }

/-- The empty ghost layer for face ghosts, as `t8_forest_ghost_init` builds
it. -/
def ghost_new : t8_forest_ghost :=
  { rc := 1,
    num_ghosts_elements := 0,
    num_remote_elements := 0,
    ghost_type := .T8_GHOST_FACES,
    ghost_trees := [],
    global_tree_to_ghost_tree := [],
    process_offsets := [],
    remote_ghosts := [],
    remote_processes := [] }

/-- The profile of a forest, as far as the ghost code writes it. -/
structure t8_profile_t where
  ghosts_remotes : Nat
  ghosts_received : Nat
  ghosts_shipped : Nat
  /-- The field `ghost_runtime`; the readings of `sc_MPI_Wtime` enter as
  integers. -/
  ghost_runtime : Int := 0
  deriving DecidableEq, Repr

/-- The forest as the ghost code queries it.  The topology and partition
routines are collaborators and enter as functions. -/
structure t8_forest_t where
  mpirank : Int
  mpisize : Int
  ghost_type : t8_ghost_type_t
  profile : Option t8_profile_t
  ghosts : Option t8_forest_ghost
  /-- The result of `t8_forest_get_first_local_tree_id`. -/
  first_local_tree_id : Int
  /-- The result of `t8_forest_get_num_local_trees`. -/
  num_local_trees : Nat
  /-- The class of a local tree (`t8_forest_get_tree_class`,
  `t8_forest_get_eclass`). -/
  tree_class : Nat → t8_eclass_t
  /-- The elements of a local tree in their stored order. -/
  tree_elements : Nat → List t8_element_t
  /-- The result of `t8_forest_get_eclass_scheme`. -/
  scheme : t8_eclass_t → t8_eclass_scheme_c
  /-- The result of `t8_forest_element_neighbor_eclass (forest, ltreeid, elem, face)`. -/
  element_neighbor_eclass : Nat → t8_element_t → Nat → t8_eclass_t
  /-- The call `t8_forest_element_half_face_neighbors (forest, ltreeid, elem,
  neighs, face, num_neighs)`: the returned neighbour tree and the element
  written to `neighs[i]` for every `i < num_neighs`. -/
  element_half_face_neighbors :
    Nat → t8_element_t → Nat → Nat → Int × (Nat → t8_element_t)
  /-- The call `t8_forest_element_face_neighbor (forest, ltreeid, elem, neigh,
  face, neigh_face)`: the returned neighbour tree, the element written to
  `neigh` and the value written to `neigh_face`. -/
  element_face_neighbor : Nat → t8_element_t → Nat → Int × t8_element_t × Int
  /-- The result of `t8_forest_element_find_owner (forest, gtreeid, element, eclass)`. -/
  element_find_owner : Int → t8_element_t → t8_eclass_t → Int
  /-- The owners that `t8_forest_element_owners_at_face` appends. -/
  element_owners_at_face : Int → t8_element_t → t8_eclass_t → Int → List Int
  /-- The result of `t8_forest_is_committed`. -/
  committed : Bool := true

/-! ## The remote index -/

/-- The result of `t8_ghost_init_remote_tree`: a remote tree without
elements. -/
def t8_ghost_init_remote_tree (forest : t8_forest_t) (gtreeid : Int)
    (remote_rank : Int) (eclass : t8_eclass_t) : t8_ghost_remote_tree_t :=
  let ts := forest.scheme eclass
  let local_treeid := gtreeid - forest.first_local_tree_id
  { global_id := gtreeid,
    mpirank := remote_rank,
    eclass := forest.tree_class local_treeid.toNat,
    elements := sc_array_init ts.t8_element_size }

/-- The position of the entry of rank `remote_rank` in the hash array
`remote_ghosts`, when there is one. -/
def sc_hash_array_lookup : List t8_ghost_remote_t → Int → Option Nat
  | [], _ => none
  | e :: es, remote_rank =>
    if e.remote_rank = remote_rank then some 0
    else (sc_hash_array_lookup es remote_rank).map (· + 1)

/-- The last part of `t8_ghost_add_remote`: a copy of `elem` is pushed to the
elements of `remote_tree` unless the last element there has the same level and
linear id. -/
def add_remote_element (ts : t8_eclass_scheme_c)
    (remote_tree : t8_ghost_remote_tree_t) (elem : t8_element_t) :
    t8_ghost_remote_tree_t :=
  let level := ts.t8_element_level elem
  match remote_tree.elements.elems.getLast? with
  | none =>
    { remote_tree with elements :=
        { remote_tree.elements with
          elems := remote_tree.elements.elems ++ [ts.t8_element_copy elem] } }
  | some elem_copy =>
    let copy_level := ts.t8_element_level elem_copy
    if level ≠ copy_level ∨
        ts.t8_element_get_linear_id elem_copy copy_level ≠
          ts.t8_element_get_linear_id elem level then
      { remote_tree with elements :=
          { remote_tree.elements with
            elems := remote_tree.elements.elems ++ [ts.t8_element_copy elem] } }
    else remote_tree

/-- The function `t8_ghost_add_remote`: add a new element to the remote hash
table (if not already in it). -/
def t8_ghost_add_remote (forest : t8_forest_t) (ghost : t8_forest_ghost)
    (remote_rank : Int) (ltreeid : Nat) (elem : t8_element_t) :
    Except Failure t8_forest_ghost :=
  let eclass := forest.tree_class ltreeid
  let ts := forest.scheme eclass
  let gtreeid := forest.first_local_tree_id + (ltreeid : Int)
  match sc_hash_array_lookup ghost.remote_ghosts remote_rank with
  | none =>
    -- the remote rank was not in the array and is inserted now
    let remote_tree :=
      t8_ghost_init_remote_tree forest gtreeid remote_rank eclass
    let remote_tree := add_remote_element ts remote_tree elem
    .ok { ghost with
          remote_ghosts := ghost.remote_ghosts ++
            [{ remote_rank := remote_rank, remote_trees := [remote_tree] }],
          remote_processes := ghost.remote_processes ++ [remote_rank] }
  | some index =>
    match ghost.remote_ghosts[index]? with
    | none => .error .out_of_bounds
    | some remote_entry =>
      if remote_entry.remote_rank ≠ remote_rank then .error (.assertion 527)
      else
      match remote_entry.remote_trees.getLast? with
      | none => .error .out_of_bounds
      | some remote_tree =>
        if remote_tree.global_id ≠ gtreeid then
          -- a new remote tree is pushed
          let remote_tree :=
            t8_ghost_init_remote_tree forest gtreeid remote_rank eclass
          let remote_tree := add_remote_element ts remote_tree elem
          .ok { ghost with
                remote_ghosts := ghost.remote_ghosts.set index
                  { remote_entry with
                    remote_trees := remote_entry.remote_trees ++ [remote_tree] } }
        else
          let remote_tree := add_remote_element ts remote_tree elem
          .ok { ghost with
                remote_ghosts := ghost.remote_ghosts.set index
                  { remote_entry with
                    remote_trees :=
                      remote_entry.remote_trees.dropLast ++ [remote_tree] } }

/-! ## Discovery -/

/-- One call of `t8_element_destroy` on the scratch buffer `half_neighbors`:
the class of the scheme it is called on (`none` when that scheme pointer was
never assigned), the length passed, the class whose scheme created the
buffer (`none` when the buffer was never allocated), and the number of
elements that the buffer holds. -/
structure destroy_call where
  scheme : Option t8_eclass_t
  length : Nat
  owner : Option t8_eclass_t
  allocated : Nat
  deriving DecidableEq, Repr

/-- The local variables of `t8_forest_ghost_fill_remote` that live across
iterations, together with the ghost structure that is being filled. -/
structure fill_remote_locals where
  ghost : t8_forest_ghost
  /-- The slots of the scratch buffer; empty while nothing is allocated. -/
  half_neighbors : List t8_element_t
  /-- The class whose scheme created the slots of the scratch buffer. -/
  half_neighbors_owner : Option t8_eclass_t
  max_num_face_children : Nat
  last_class : t8_eclass_t
  /-- The class of the scheme `neigh_scheme` points to. -/
  neigh_scheme : Option t8_eclass_t
  /-- The class of the scheme `prev_neigh_scheme` points to. -/
  prev_neigh_scheme : Option t8_eclass_t
  /-- The calls of `t8_element_destroy` on the scratch buffer so far. -/
  destroyed : List destroy_call
  deriving DecidableEq, Repr

/-- The regrow step of the half neighbour branch: the scratch buffer is
reallocated when it is too short or the neighbour class changed. -/
def fill_remote_regrow (forest : t8_forest_t) (st : fill_remote_locals)
    (neigh_class : t8_eclass_t) (num_face_children : Nat) :
    fill_remote_locals :=
  if st.max_num_face_children < num_face_children ∨
      st.last_class ≠ neigh_class then
    let destroyed :=
      if st.max_num_face_children > 0 then
        st.destroyed ++ [{ scheme := st.prev_neigh_scheme,
                           length := st.max_num_face_children,
                           owner := st.half_neighbors_owner,
                           allocated := st.half_neighbors.length }]
      else st.destroyed
    { st with
      destroyed := destroyed,
      half_neighbors :=
        List.replicate num_face_children
          (forest.scheme neigh_class).t8_element_new,
      half_neighbors_owner := some neigh_class,
      max_num_face_children := num_face_children,
      last_class := neigh_class,
      prev_neigh_scheme := some neigh_class }
  else st

/-- Writing the elements `f 0, ..., f (n - 1)` to the first `n` slots of the
scratch buffer. -/
def write_half_neighbors (buf : List t8_element_t) (n : Nat)
    (f : Nat → t8_element_t) : Except Failure (List t8_element_t) :=
  if n ≤ buf.length then .ok ((List.range n).map f ++ buf.drop n)
  else .error .out_of_bounds

/-- The body of the loop over the face children: the owner of one half
neighbour is looked up and the element is added as a remote element when the
owner is another process. -/
def fill_remote_child (forest : t8_forest_t) (itree : Nat) (elem : t8_element_t)
    (neighbor_tree : Int) (neigh_class : t8_eclass_t)
    (half_neighbors : List t8_element_t)
    (ghost : t8_forest_ghost) (ichild : Nat) : Except Failure t8_forest_ghost :=
  match half_neighbors[ichild]? with
  | none => .error .out_of_bounds
  | some child => do
    let owner := forest.element_find_owner neighbor_tree child neigh_class
    T8_ASSERT 680 (decide (0 ≤ owner ∧ owner < forest.mpisize))
    if owner ≠ forest.mpirank then
      t8_ghost_add_remote forest ghost owner itree elem
    else pure ghost

/-- The body of the loop over the owners at a face (second method). -/
def fill_remote_owner (forest : t8_forest_t) (itree : Nat) (elem : t8_element_t)
    (ghost : t8_forest_ghost) (owner : Int) : Except Failure t8_forest_ghost := do
  T8_ASSERT 709 (decide (0 ≤ owner ∧ owner < forest.mpisize))
  if owner ≠ forest.mpirank then
    t8_ghost_add_remote forest ghost owner itree elem
  else pure ghost

/-- The body of the face loop of `t8_forest_ghost_fill_remote`. -/
def fill_remote_face (forest : t8_forest_t) (ghost_method : Int) (itree : Nat)
    (elem : t8_element_t) (is_atom : Bool) (st : fill_remote_locals)
    (iface : Nat) : Except Failure fill_remote_locals := do
  let tree_class := forest.tree_class itree
  let ts := forest.scheme tree_class
  let neigh_class := forest.element_neighbor_eclass itree elem iface
  let st := { st with neigh_scheme := some neigh_class }
  if ghost_method = 0 then
    let num_face_children := ts.t8_element_num_face_children elem iface
    let st := fill_remote_regrow forest st neigh_class num_face_children
    let (neighbor_tree, half_neighbors) ←
      if !is_atom then do
        let r := forest.element_half_face_neighbors itree elem iface
          num_face_children
        let buf ← write_half_neighbors st.half_neighbors num_face_children r.2
        pure (r.1, buf)
      else do
        let r := forest.element_face_neighbor itree elem iface
        let buf ← write_half_neighbors st.half_neighbors 1 (fun _ => r.2.1)
        pure (r.1, buf)
    let st := { st with half_neighbors := half_neighbors }
    if neighbor_tree ≥ 0 then
      let ghost ← (List.range num_face_children).foldlM
        (fill_remote_child forest itree elem neighbor_tree neigh_class
          half_neighbors) st.ghost
      pure { st with ghost := ghost }
    else pure st
  else
    let r := forest.element_face_neighbor itree elem iface
    let neighbor_tree := r.1
    if neighbor_tree ≥ 0 then
      let owners := forest.element_owners_at_face neighbor_tree r.2.1
        neigh_class r.2.2
      T8_ASSERT 704 (decide (owners.length > 0))
      let ghost ← owners.foldlM (fill_remote_owner forest itree elem) st.ghost
      pure { st with ghost := ghost }
    else pure st

/-- The body of the element loop of `t8_forest_ghost_fill_remote`. -/
def fill_remote_element (forest : t8_forest_t) (ghost_method : Int)
    (itree : Nat) (st : fill_remote_locals) (elem : t8_element_t) :
    Except Failure fill_remote_locals :=
  let ts := forest.scheme (forest.tree_class itree)
  let num_faces := ts.t8_element_num_faces elem
  let is_atom := decide (ts.t8_element_level elem = ts.t8_element_maxlevel)
  (List.range num_faces).foldlM
    (fill_remote_face forest ghost_method itree elem is_atom) st

/-- The body of the tree loop of `t8_forest_ghost_fill_remote`. -/
def fill_remote_tree (forest : t8_forest_t) (ghost_method : Int)
    (st : fill_remote_locals) (itree : Nat) :
    Except Failure fill_remote_locals :=
  (forest.tree_elements itree).foldlM
    (fill_remote_element forest ghost_method itree) st

/-- What `t8_forest_ghost_fill_remote` leaves behind: the ghost structure, the
profile of the forest and the calls of `t8_element_destroy` on the scratch
buffer (the last one being the final clean-up). -/
structure fill_remote_result where
  ghost : t8_forest_ghost
  profile : Option t8_profile_t
  destroyed : List destroy_call
  deriving DecidableEq, Repr

/-- The function `t8_forest_ghost_fill_remote`: fill the remote ghosts of a
ghost structure. -/
def t8_forest_ghost_fill_remote (forest : t8_forest_t) (ghost : t8_forest_ghost)
    (ghost_method : Int) : Except Failure fill_remote_result := do
  let st : fill_remote_locals :=
    { ghost := ghost,
      half_neighbors := [],
      half_neighbors_owner := none,
      max_num_face_children := 0,
      last_class := T8_ECLASS_COUNT,
      neigh_scheme := none,
      prev_neigh_scheme := none,
      destroyed := [] }
  let st ← (List.range forest.num_local_trees).foldlM
    (fill_remote_tree forest ghost_method) st
  let profile := forest.profile.map fun p =>
    { p with ghosts_remotes := st.ghost.remote_processes.length }
  -- lines 728-731: the call goes through `neigh_scheme` and the buffer
  -- `half_neighbors` is released, whether or not a face was ever visited
  if ghost_method = 0 ∧
      (st.neigh_scheme.isNone ∨ st.half_neighbors_owner.isNone) then
    .error .invalid_pointer
  else
    let destroyed :=
      if ghost_method = 0 then
        st.destroyed ++ [{ scheme := st.neigh_scheme,
                           length := st.max_num_face_children,
                           owner := st.half_neighbors_owner,
                           allocated := st.half_neighbors.length }]
      else st.destroyed
    pure { ghost := st.ghost, profile := profile, destroyed := destroyed }

/-! ## The wire codec: sending -/

/-- One round of the loop of `t8_forest_ghost_send_start` that counts the bytes
of a remote tree. -/
def send_count_tree (P : Nat) (num_bytes : Nat)
    (remote_tree : t8_ghost_remote_tree_t) : Nat :=
  let num_bytes := num_bytes + sizeof_t8_gloidx_t
  let num_bytes := num_bytes + T8_ADD_PADDING P num_bytes
  let num_bytes := num_bytes + sizeof_t8_eclass_t
  let num_bytes := num_bytes + T8_ADD_PADDING P num_bytes
  let element_bytes :=
    remote_tree.elements.elem_size * remote_tree.elements.elem_count
  let num_bytes := num_bytes + sizeof_size_t
  let num_bytes := num_bytes + T8_ADD_PADDING P num_bytes
  let num_bytes := num_bytes + element_bytes
  num_bytes + T8_ADD_PADDING P num_bytes

/-- The byte count `num_bytes` that `t8_forest_ghost_send_start` computes for
the trees of one remote rank. -/
def send_count_bytes (P : Nat) (remote_trees : List t8_ghost_remote_tree_t) :
    Nat :=
  let num_bytes := 0 + sizeof_size_t
  let num_bytes := num_bytes + T8_ADD_PADDING P num_bytes
  remote_trees.foldl (send_count_tree P) num_bytes

/-- The variables of the writing pass of `t8_forest_ghost_send_start`. -/
structure send_write_state where
  buffer : List Nat
  bytes_written : Nat
  num_remote_elements : Nat
  deriving DecidableEq, Repr

/-- The steps `memcpy (current_buffer + bytes_written, source, size);
bytes_written += size; bytes_written += T8_ADD_PADDING (bytes_written);` of
the writing pass of `t8_forest_ghost_send_start`, where `source` is the memory
behind the source pointer.  It returns the buffer and `bytes_written`. -/
def send_store (P : Nat) (buffer : List Nat) (bytes_written : Nat)
    (source : List Nat) (size : Nat) : Except Failure (List Nat × Nat) := do
  let bytes ← read_bytes source 0 size
  let buffer ← memcpy buffer bytes_written bytes
  let bytes_written := bytes_written + size
  pure (buffer, bytes_written + T8_ADD_PADDING P bytes_written)

/-- One round of the loop of `t8_forest_ghost_send_start` that stores a remote
tree in the send buffer. -/
def send_write_tree (P : Nat) (remote_rank : Int) (st : send_write_state)
    (remote_tree : t8_ghost_remote_tree_t) : Except Failure send_write_state := do
  T8_ASSERT 850 (decide (remote_tree.mpirank = remote_rank))
  let r ← send_store P st.buffer st.bytes_written
    (bytes_of_sint sizeof_t8_gloidx_t remote_tree.global_id) sizeof_t8_gloidx_t
  let r ← send_store P r.1 r.2
    (bytes_of_uint sizeof_t8_eclass_t remote_tree.eclass) sizeof_t8_eclass_t
  let r ← send_store P r.1 r.2
    (bytes_of_uint sizeof_size_t remote_tree.elements.elem_count) sizeof_size_t
  let element_bytes :=
    remote_tree.elements.elem_size * remote_tree.elements.elem_count
  let r ← send_store P r.1 r.2 remote_tree.elements.array element_bytes
  pure { buffer := r.1,
         bytes_written := r.2,
         num_remote_elements :=
           st.num_remote_elements + remote_tree.elements.elem_count }

/-- A message handed to `sc_MPI_Isend`: the receiver and the bytes sent. -/
structure t8_ghost_mpi_send_info_t where
  recv_rank : Int
  num_bytes : Nat
  buffer : List Nat
  deriving DecidableEq, Repr

/-- The part of the process loop of `t8_forest_ghost_send_start` that fills
the send buffer for one remote rank from its entry in `remote_ghosts`.  It
returns the send information and the new value of `num_remote_elements`. -/
def send_start_buffer (P : Nat) (remote_rank : Int)
    (remote_entry : t8_ghost_remote_t) (num_remote_elements : Nat) :
    Except Failure (t8_ghost_mpi_send_info_t × Nat) := do
  T8_ASSERT 790 (decide (remote_entry.remote_rank = remote_rank))
  let remote_trees := remote_entry.remote_trees
  let num_bytes := send_count_bytes P remote_trees
  -- the buffer is allocated and filled with zeros
  let buffer := List.replicate num_bytes 0
  let r ← send_store P buffer 0
    (bytes_of_uint sizeof_size_t remote_trees.length) sizeof_size_t
  let st ← remote_trees.foldlM (send_write_tree P remote_rank)
    { buffer := r.1, bytes_written := r.2,
      num_remote_elements := num_remote_elements }
  T8_ASSERT 881 (decide (st.bytes_written = num_bytes))
  let message ← read_bytes st.buffer 0 st.bytes_written
  pure ({ recv_rank := remote_rank, num_bytes := num_bytes, buffer := message },
        st.num_remote_elements)

/-- The body of the process loop of `t8_forest_ghost_send_start`. -/
def send_start_rank (P : Nat)
    (st : t8_forest_ghost × List t8_ghost_mpi_send_info_t) (remote_rank : Int) :
    Except Failure (t8_forest_ghost × List t8_ghost_mpi_send_info_t) :=
  let ghost := st.1
  match sc_hash_array_lookup ghost.remote_ghosts remote_rank with
  | none => .error (.assertion 785)
  | some first_remote_index =>
    match ghost.remote_ghosts[first_remote_index]? with
    | none => .error .out_of_bounds
    | some remote_entry => do
      let r ← send_start_buffer P remote_rank remote_entry
        ghost.num_remote_elements
      pure ({ ghost with num_remote_elements := r.2 }, st.2 ++ [r.1])

/-- The function `t8_forest_ghost_send_start`: the ghost structure with its
counter of remote elements and the messages posted, one for each remote
rank. -/
def t8_forest_ghost_send_start (P : Nat) (ghost : t8_forest_ghost) :
    Except Failure (t8_forest_ghost × List t8_ghost_mpi_send_info_t) :=
  ghost.remote_processes.foldlM (send_start_rank P) (ghost, [])

/-! ## The wire codec: parsing -/

/-- The variables of the tree loop of
`t8_forest_ghost_parse_received_message`. -/
structure parse_state where
  ghost : t8_forest_ghost
  bytes_read : Nat
  first_tree_index : Option Nat
  first_element_index : Option Nat
  deriving DecidableEq, Repr

/-- The search for a global tree id in the hash table
`global_tree_to_ghost_tree`. -/
def gtree_hash_lookup (table : List t8_ghost_gtree_hash_t) (global_id : Int) :
    Option t8_ghost_gtree_hash_t :=
  table.find? (fun e => decide (e.global_id = global_id))

/-- The search for a rank in the hash table `process_offsets`. -/
def process_hash_lookup (table : List t8_ghost_process_hash_t) (mpirank : Int) :
    Option t8_ghost_process_hash_t :=
  table.find? (fun e => decide (e.mpirank = mpirank))

/-- A ghost tree with further elements behind those it holds. -/
def ghost_tree_append (added : List (List Nat)) (t : t8_ghost_tree_t) :
    t8_ghost_tree_t :=
  { t with elements := { t.elements with elems := t.elements.elems ++ added } }

/-- Appending received elements to the element array of the ghost tree at
position `index`: the array is grown and the new slots are filled from the
bytes `data`. -/
def ghost_tree_insert (ghost_trees : List t8_ghost_tree_t) (index : Nat)
    (size num_elements : Nat) (data : List Nat) : List t8_ghost_tree_t :=
  ghost_trees.modify (ghost_tree_append (slots size num_elements data)) index

/-- The fields at the head of a tree in a message. -/
structure tree_header where
  global_id : Int
  eclass : t8_eclass_t
  num_elements : Nat
  /-- The offset `bytes_read` behind the header and its padding. -/
  bytes_read : Nat
  deriving DecidableEq, Repr

/-- The first part of the body of the tree loop of
`t8_forest_ghost_parse_received_message`: the global id, the element class and
the number of elements of a tree are read at the offset `bytes_read`. -/
def parse_tree_header (P : Nat) (recv_buffer : List Nat) (bytes_read : Nat) :
    Except Failure tree_header := do
  let global_id ← read_t8_gloidx_t recv_buffer bytes_read
  let bytes_read := bytes_read + sizeof_t8_gloidx_t
  let bytes_read := bytes_read + T8_ADD_PADDING P bytes_read
  let eclass ← read_t8_eclass_t recv_buffer bytes_read
  let bytes_read := bytes_read + sizeof_t8_eclass_t
  let bytes_read := bytes_read + T8_ADD_PADDING P bytes_read
  let num_elements ← read_size_t recv_buffer bytes_read
  let bytes_read := bytes_read + sizeof_size_t
  let bytes_read := bytes_read + T8_ADD_PADDING P bytes_read
  pure { global_id := global_id, eclass := eclass,
         num_elements := num_elements, bytes_read := bytes_read }

/-- The body of the tree loop of `t8_forest_ghost_parse_received_message`. -/
def parse_tree (P : Nat) (forest : t8_forest_t) (recv_buffer : List Nat)
    (itree : Nat) (st : parse_state) : Except Failure parse_state := do
  let ghost := st.ghost
  let header ← parse_tree_header P recv_buffer st.bytes_read
  let global_id := header.global_id
  let eclass := header.eclass
  let num_elements := header.num_elements
  let bytes_read := header.bytes_read
  let ghost := { ghost with
    num_ghosts_elements := ghost.num_ghosts_elements + num_elements }
  let ts := forest.scheme eclass
  let (ghost, index, old_elem_count) ←
    match gtree_hash_lookup ghost.global_tree_to_ghost_tree global_id with
    | none =>
      -- the tree was not stored already
      let index := ghost.ghost_trees.length
      let ghost_tree : t8_ghost_tree_t :=
        { global_id := global_id, eclass := eclass,
          elements := sc_array_init ts.t8_element_size }
      (pure ({ ghost with
               global_tree_to_ghost_tree := ghost.global_tree_to_ghost_tree ++
                 [{ global_id := global_id, index := index }],
               ghost_trees := ghost.ghost_trees ++ [ghost_tree] },
             index, 0) : Except Failure (t8_forest_ghost × Nat × Nat))
    | some found_tree => do
      T8_ASSERT 1040 (decide (found_tree.global_id = global_id))
      match ghost.ghost_trees[found_tree.index]? with
      | none => throw .out_of_bounds
      | some ghost_tree =>
        T8_ASSERT 1044 (decide (ghost_tree.eclass = eclass))
        T8_ASSERT 1045 (decide (ghost_tree.global_id = global_id))
        T8_ASSERT 1046
          (decide (ghost_tree.elements.elem_size = ts.t8_element_size))
        pure (ghost, found_tree.index, ghost_tree.elements.elem_count)
  let first_tree_index :=
    if itree = 0 then some index else st.first_tree_index
  let first_element_index :=
    if itree = 0 then some old_elem_count else st.first_element_index
  let data ← read_bytes recv_buffer bytes_read
    (num_elements * ts.t8_element_size)
  let ghost := { ghost with
    ghost_trees := ghost_tree_insert ghost.ghost_trees index
      ts.t8_element_size num_elements data }
  let bytes_read := bytes_read + num_elements * ts.t8_element_size
  let bytes_read := bytes_read + T8_ADD_PADDING P bytes_read
  pure { ghost := ghost, bytes_read := bytes_read,
         first_tree_index := first_tree_index,
         first_element_index := first_element_index }

/-- The tree loop `for (itree = 0; itree < num_trees; itree++)` of
`t8_forest_ghost_parse_received_message`; the first argument is
`num_trees - itree`. -/
def parse_trees (P : Nat) (forest : t8_forest_t) (recv_buffer : List Nat) :
    Nat → Nat → parse_state → Except Failure parse_state
  | 0, _, st => .ok st
  | n + 1, itree, st =>
    match parse_tree P forest recv_buffer itree st with
    | .error e => .error e
    | .ok st => parse_trees P forest recv_buffer n (itree + 1) st

/-- The function `t8_forest_ghost_parse_received_message`: parse a message
from a remote process and include the received elements in the ghost
structure. -/
def t8_forest_ghost_parse_received_message (P : Nat) (forest : t8_forest_t)
    (ghost : t8_forest_ghost) (recv_rank : Int) (recv_buffer : List Nat)
    (recv_bytes : Int) : Except Failure t8_forest_ghost := do
  let count ← read_size_t recv_buffer 0
  let num_trees := locidx_of_size_t count
  let bytes_read := 0 + sizeof_size_t
  let bytes_read := bytes_read + T8_ADD_PADDING P bytes_read
  let st ← parse_trees P forest recv_buffer num_trees.toNat 0
    { ghost := ghost, bytes_read := bytes_read,
      first_tree_index := none, first_element_index := none }
  T8_ASSERT 1070 (decide (st.bytes_read = size_t_of_int recv_bytes))
  let ghost := st.ghost
  match process_hash_lookup ghost.process_offsets recv_rank with
  | some _ => throw (.assertion 1083)
  | none =>
    pure { ghost with
           process_offsets := ghost.process_offsets ++
             [{ mpirank := recv_rank,
                tree_index := st.first_tree_index,
                first_element := st.first_element_index }] }

/-! ## The receive loop -/

/-- The entries of the lookup table `recv_list_entries_hash`. -/
structure t8_recv_list_entry_t where
  rank : Int
  pos_in_remote_processes : Nat
  deriving DecidableEq, Repr

/-- A message that the probe announces: its source and its bytes. -/
structure mpi_message where
  MPI_SOURCE : Int
  bytes : List Nat
  deriving DecidableEq, Repr

/-- The variables of the receive loop of `t8_forest_ghost_receive`.  The
component `ghost` is what the parse routine updates. -/
structure receive_state (σ : Type) where
  ghost : σ
  buffer : List (List Nat)
  recv_bytes : List Int
  received_flag : List Int
  received_messages : Nat
  last_rank_parsed : Int

/-- The hash table of all ranks from which we receive and their position in
the sorted array `remote_processes`; the first argument is the position of the
first rank of the list. -/
def recv_list_entries_build :
    Nat → List Int → List t8_recv_list_entry_t →
      Except Failure (List t8_recv_list_entry_t)
  | _, [], table => .ok table
  | proc_pos, rank :: ranks, table =>
    match table.find? (fun e => decide (e.rank = rank)) with
    | some _ => .error (.assertion 1187)
    | none =>
      recv_list_entries_build (proc_pos + 1) ranks
        (table ++ [{ rank := rank, pos_in_remote_processes := proc_pos }])

/-- The loop `for (parse_it = last_rank_parsed + 1; parse_it < num_remotes &&
received_flag[parse_it] == 1; parse_it++)` that parses the messages which can
be parsed in order of their rank; the first argument is
`num_remotes - parse_it`. -/
def receive_parse_loop {σ : Type}
    (parse : σ → Int → List Nat → Int → Except Failure σ)
    (remote_processes : List Int) :
    Nat → Nat → receive_state σ → Except Failure (receive_state σ)
  | 0, _, st => .ok st
  | k + 1, parse_it, st =>
    match st.received_flag[parse_it]? with
    | none => .error .out_of_bounds
    | some flag =>
      if flag = 1 then
        match remote_processes[parse_it]?, st.buffer[parse_it]?,
            st.recv_bytes[parse_it]? with
        | some recv_rank, some buffer, some recv_bytes =>
          match parse st.ghost recv_rank buffer recv_bytes with
          | .error e => .error e
          | .ok ghost =>
            receive_parse_loop parse remote_processes k (parse_it + 1)
              { st with ghost := ghost,
                        last_rank_parsed := st.last_rank_parsed + 1 }
        | _, _, _ => .error .out_of_bounds
      else .ok st

/-- The loop `while (received_messages < num_remotes)` of
`t8_forest_ghost_receive`, run on the messages in the order in which the probe
announces them. -/
def receive_loop {σ : Type}
    (parse : σ → Int → List Nat → Int → Except Failure σ)
    (remote_processes : List Int) (table : List t8_recv_list_entry_t)
    (num_remotes : Nat) :
    receive_state σ → List mpi_message → Except Failure (receive_state σ)
  | st, [] =>
    if st.received_messages < num_remotes then .error .no_message else .ok st
  | st, status :: arrivals =>
    if st.received_messages < num_remotes then
      let recv_rank := status.MPI_SOURCE
      match table.find? (fun e => decide (e.rank = recv_rank)) with
      | none => .error (.assertion 1231)
      | some found =>
        let proc_pos := found.pos_in_remote_processes
        let st : receive_state σ := { st with
          buffer := st.buffer.set proc_pos status.bytes,
          recv_bytes := st.recv_bytes.set proc_pos (status.bytes.length : Int) }
        match st.received_flag[proc_pos]? with
        | none => .error .out_of_bounds
        | some flag =>
          if flag ≠ 0 then .error (.assertion 1242)
          else
            let st : receive_state σ := { st with
              received_flag := st.received_flag.set proc_pos 1,
              received_messages := st.received_messages + 1 }
            if ¬ (st.last_rank_parsed < (proc_pos : Int)) then
              .error (.assertion 1247)
            else
              let parse_it := (st.last_rank_parsed + 1).toNat
              match receive_parse_loop parse remote_processes
                  (num_remotes - parse_it) parse_it st with
              | .error e => .error e
              | .ok st =>
                receive_loop parse remote_processes table num_remotes st arrivals
    else .ok st

/-- The body of `t8_forest_ghost_receive` for an arbitrary parse routine:
`remote_processes` is the array of remote ranks on entry, `ghost` is handed to
`parse` for every message.  It returns the final `ghost`. -/
def ghost_receive_with {σ : Type}
    (parse : σ → Int → List Nat → Int → Except Failure σ)
    (remote_processes : List Int) (ghost : σ) (arrivals : List mpi_message) :
    Except Failure σ :=
  let num_remotes := remote_processes.length
  if num_remotes = 0 then .ok ghost
  else
    let remote_processes := remote_processes.insertionSort (· ≤ ·)
    match recv_list_entries_build 0 remote_processes [] with
    | .error e => .error e
    | .ok table =>
      match receive_loop parse remote_processes table num_remotes
          { ghost := ghost,
            buffer := List.replicate num_remotes [],
            recv_bytes := List.replicate num_remotes 0,
            received_flag := List.replicate num_remotes 0,
            received_messages := 0,
            last_rank_parsed := -1 } arrivals with
      | .error e => .error e
      | .ok st =>
        if st.received_flag.any (fun flag => decide (flag ≠ 1)) then
          .error (.assertion 1302)
        else if st.last_rank_parsed ≠ (num_remotes : Int) - 1 then
          .error (.assertion 1305)
        else .ok st.ghost

/-- The function `t8_forest_ghost_receive`: probe for all incoming messages
from the remote ranks and receive them. -/
def t8_forest_ghost_receive (P : Nat) (forest : t8_forest_t)
    (ghost : t8_forest_ghost) (arrivals : List mpi_message) :
    Except Failure t8_forest_ghost := do
  T8_ASSERT 1128 forest.committed
  ghost_receive_with
    (fun g recv_rank buffer recv_bytes =>
      t8_forest_ghost_parse_received_message P forest g recv_rank buffer
        recv_bytes)
    ghost.remote_processes
    { ghost with
      remote_processes := ghost.remote_processes.insertionSort (· ≤ ·) }
    arrivals

/-! ## The read queries -/

/-- The function `t8_forest_ghost_num_trees`: the number of trees in a
ghost. -/
def t8_forest_ghost_num_trees (forest : t8_forest_t) : Int :=
  match forest.ghosts with
  | none => 0
  | some ghost => locidx_of_size_t ghost.ghost_trees.length

/-- The call `t8_sc_array_index_locidx (array, it)`: the entry of an array at
an index of type `t8_locidx_t`. -/
def t8_sc_array_index_locidx {α : Type} (array : List α) (it : Int) :
    Except Failure α :=
  if it < 0 then .error .out_of_bounds
  else
    match array[it.toNat]? with
    | none => .error .out_of_bounds
    | some entry => .ok entry

/-- The function `t8_forest_ghost_get_tree`: given an index into the array
`ghost_trees`, the ghost tree. -/
def t8_forest_ghost_get_tree (forest : t8_forest_t) (lghost_tree : Int) :
    Except Failure t8_ghost_tree_t := do
  T8_ASSERT 235 forest.committed
  match forest.ghosts with
  | none => .error (.assertion 237)
  | some ghost =>
    T8_ASSERT 239 (decide (0 ≤ lghost_tree ∧
      lghost_tree < t8_forest_ghost_num_trees forest))
    t8_sc_array_index_locidx ghost.ghost_trees lghost_tree

/-- The function `t8_forest_ghost_tree_num_elements`. -/
def t8_forest_ghost_tree_num_elements (forest : t8_forest_t)
    (lghost_tree : Int) : Except Failure Int := do
  T8_ASSERT 255 forest.committed
  let ghost_tree ← t8_forest_ghost_get_tree forest lghost_tree
  pure (locidx_of_size_t ghost_tree.elements.elem_count)

/-- The function `t8_forest_ghost_get_tree_class`. -/
def t8_forest_ghost_get_tree_class (forest : t8_forest_t)
    (lghost_tree : Int) : Except Failure t8_eclass_t := do
  T8_ASSERT 266 forest.committed
  let ghost_tree ← t8_forest_ghost_get_tree forest lghost_tree
  pure ghost_tree.eclass

/-- The function `t8_forest_ghost_get_global_treeid`. -/
def t8_forest_ghost_get_global_treeid (forest : t8_forest_t)
    (lghost_tree : Int) : Except Failure Int := do
  T8_ASSERT 278 forest.committed
  let ghost_tree ← t8_forest_ghost_get_tree forest lghost_tree
  pure ghost_tree.global_id

/-- The function `t8_forest_ghost_get_element`: given an index into the array
`ghost_trees` and for that tree an element index, the element. -/
def t8_forest_ghost_get_element (forest : t8_forest_t) (lghost_tree : Int)
    (lelement : Int) : Except Failure t8_element_t := do
  T8_ASSERT 292 forest.committed
  let ghost_tree ← t8_forest_ghost_get_tree forest lghost_tree
  let num_elements ← t8_forest_ghost_tree_num_elements forest lghost_tree
  T8_ASSERT 295 (decide (0 ≤ lelement ∧ lelement < num_elements))
  t8_sc_array_index_locidx ghost_tree.elements.elems lelement

/-! ## Construction of the ghost layer -/

/-- The outcome of `t8_forest_ghost_create`: the forest afterwards and the
messages that were posted. -/
structure ghost_create_result where
  forest : t8_forest_t
  posted : List t8_ghost_mpi_send_info_t

/-- The function `t8_forest_ghost_send_end`: wait for the sends and free the
send buffers. -/
def t8_forest_ghost_send_end (forest : t8_forest_t) : Except Failure Unit :=
  T8_ASSERT 904 forest.committed

/-- The function `t8_forest_ghost_create`: create one layer of ghost elements.
The pair `wtime` holds the two readings of `sc_MPI_Wtime`, and `arrivals` are
the messages that the probe announces. -/
def t8_forest_ghost_create (P : Nat) (forest : t8_forest_t) (wtime : Int × Int)
    (arrivals : List mpi_message) : Except Failure ghost_create_result :=
  if forest.ghost_type = .T8_GHOST_NONE then
    .ok { forest := forest, posted := [] }
  else do
    let forest : t8_forest_t := { forest with
      profile := forest.profile.map fun p =>
        { p with ghost_runtime := - wtime.1 } }
    let ghost ← t8_forest_ghost_init forest.ghost_type
    let forest : t8_forest_t := { forest with ghosts := some ghost }
    let filled ← t8_forest_ghost_fill_remote forest ghost 0
    let forest : t8_forest_t := { forest with
      profile := filled.profile, ghosts := some filled.ghost }
    let sent ← t8_forest_ghost_send_start P filled.ghost
    let forest : t8_forest_t := { forest with ghosts := some sent.1 }
    let ghost ← t8_forest_ghost_receive P forest sent.1 arrivals
    let forest : t8_forest_t := { forest with ghosts := some ghost }
    t8_forest_ghost_send_end forest
    pure { forest := { forest with
             profile := forest.profile.map fun p =>
               { p with ghost_runtime := p.ghost_runtime + wtime.2,
                        ghosts_received := ghost.num_ghosts_elements,
                        ghosts_shipped := ghost.num_remote_elements } },
           posted := sent.2 }

/-! ## References -/

/-- The value of a handle of type `t8_forest_ghost_t`: the null pointer, a
pointer to a ghost structure, or a pointer to a structure that `T8_FREE` has
released. -/
inductive t8_forest_ghost_t where
  | NULL
  | live (ghost : t8_forest_ghost)
  | freed
  deriving DecidableEq, Repr

/-- Modelled from the spec: `t8_refcount_ref` takes one more reference. -/
def t8_refcount_ref (refcount : Int) : Int := refcount + 1

/-- Modelled from the spec: `t8_refcount_unref` gives up one reference and
tells whether none is left. -/
def t8_refcount_unref (refcount : Int) : Int × Bool :=
  (refcount - 1, decide (refcount - 1 = 0))

/-- Modelled from the spec: `t8_refcount_is_last` tells whether the caller
holds the last reference. -/
def t8_refcount_is_last (refcount : Int) : Bool := decide (refcount = 1)

/-- The function `t8_forest_ghost_reset`: completely destroy a ghost
structure.  The argument is the handle `*pghost` of the caller, the result is
that handle on return.  The last statement `pghost = NULL` assigns to the
parameter, so the handle of the caller keeps the address of the released
structure. -/
def t8_forest_ghost_reset (pghost : t8_forest_ghost_t) :
    Except Failure t8_forest_ghost_t :=
  match pghost with
  | .NULL => .error (.assertion 1461)
  | .freed => .error .out_of_bounds
  | .live ghost => do
    T8_ASSERT 1462 (decide (ghost.rc = 0))
    pure .freed

/-- The function `t8_forest_ghost_ref`. -/
def t8_forest_ghost_ref (ghost : t8_forest_ghost_t) :
    Except Failure t8_forest_ghost_t :=
  match ghost with
  | .NULL => .error (.assertion 1503)
  | .freed => .error .out_of_bounds
  | .live ghost => .ok (.live { ghost with rc := t8_refcount_ref ghost.rc })

/-- The function `t8_forest_ghost_unref`; argument and result are the handle
`*pghost` of the caller before and after the call. -/
def t8_forest_ghost_unref (pghost : t8_forest_ghost_t) :
    Except Failure t8_forest_ghost_t :=
  match pghost with
  | .NULL => .error (.assertion 1515)
  | .freed => .error .out_of_bounds
  | .live ghost =>
    let r := t8_refcount_unref ghost.rc
    if r.2 then t8_forest_ghost_reset (.live { ghost with rc := r.1 })
    else .ok (.live { ghost with rc := r.1 })

/-- The function `t8_forest_ghost_destroy`; argument and result are the handle
`*pghost` of the caller before and after the call. -/
def t8_forest_ghost_destroy (pghost : t8_forest_ghost_t) :
    Except Failure t8_forest_ghost_t :=
  match pghost with
  | .NULL => .error (.assertion 1525)
  | .freed => .error .out_of_bounds
  | .live ghost => do
    T8_ASSERT 1525 (t8_refcount_is_last ghost.rc)
    let handle ← t8_forest_ghost_unref pghost
    T8_ASSERT 1528 (decide (handle = .NULL))
    pure handle

/-! ## Notions used in the statements -/

/-- The pair of level and linear id (at that level) by which
`t8_ghost_add_remote` recognises an element. -/
def element_key (ts : t8_eclass_scheme_c) (e : t8_element_t) : Int × Nat :=
  (ts.t8_element_level e, ts.t8_element_get_linear_id e (ts.t8_element_level e))

/-- No two adjacent elements of the list share both level and linear id. -/
def no_adjacent_duplicates (ts : t8_eclass_scheme_c)
    (elems : List t8_element_t) : Prop :=
  elems.Chain' (fun a b => element_key ts a ≠ element_key ts b)

/-- The copy of an element has the level and the linear ids of the element,
for every scheme of the forest. -/
def copy_preserves_key (forest : t8_forest_t) : Prop :=
  ∀ (c : t8_eclass_t) (e : t8_element_t),
    (forest.scheme c).t8_element_level ((forest.scheme c).t8_element_copy e) =
      (forest.scheme c).t8_element_level e ∧
    ∀ l, (forest.scheme c).t8_element_get_linear_id
        ((forest.scheme c).t8_element_copy e) l =
      (forest.scheme c).t8_element_get_linear_id e l

/-- A call of `t8_ghost_add_remote`: the remote rank, the local tree and the
element. -/
structure add_remote_call where
  remote_rank : Int
  ltreeid : Nat
  elem : t8_element_t
  deriving DecidableEq, Repr

/-- The ghost structure after a sequence of calls of `t8_ghost_add_remote`. -/
def add_remote_calls (forest : t8_forest_t) (ghost : t8_forest_ghost)
    (calls : List add_remote_call) : Except Failure t8_forest_ghost :=
  calls.foldlM
    (fun g c => t8_ghost_add_remote forest g c.remote_rank c.ltreeid c.elem) ghost

/-- The remote trees of one rank after `t8_ghost_add_remote` for that rank, as
a function of the remote trees before: only the last tree is compared with
the global id of the local tree. -/
def remote_trees_add (forest : t8_forest_t) (remote_rank : Int) (ltreeid : Nat)
    (elem : t8_element_t) (remote_trees : List t8_ghost_remote_tree_t) :
    List t8_ghost_remote_tree_t :=
  let eclass := forest.tree_class ltreeid
  let ts := forest.scheme eclass
  let gtreeid := forest.first_local_tree_id + (ltreeid : Int)
  match remote_trees.getLast? with
  | none =>
    [add_remote_element ts
      (t8_ghost_init_remote_tree forest gtreeid remote_rank eclass) elem]
  | some remote_tree =>
    if remote_tree.global_id ≠ gtreeid then
      remote_trees ++ [add_remote_element ts
        (t8_ghost_init_remote_tree forest gtreeid remote_rank eclass) elem]
    else remote_trees.dropLast ++ [add_remote_element ts remote_tree elem]

/-- The remote trees stored for a rank: those of the entry that the hash array
finds for the rank, none when there is no entry. -/
def remote_trees_of (ghost : t8_forest_ghost) (remote_rank : Int) :
    List t8_ghost_remote_tree_t :=
  match sc_hash_array_lookup ghost.remote_ghosts remote_rank with
  | none => []
  | some index =>
    match ghost.remote_ghosts[index]? with
    | none => []
    | some remote_entry => remote_entry.remote_trees

/-- Every entry of `remote_ghosts` holds at least one remote tree. -/
def remote_entries_nonempty (ghost : t8_forest_ghost) : Prop :=
  ∀ b ∈ ghost.remote_ghosts, b.remote_trees ≠ []

/-- A remote tree belongs to a local tree of the forest, has the class of that
tree, and holds no two adjacent elements with the same level and linear id. -/
def remote_tree_ok (forest : t8_forest_t) (rt : t8_ghost_remote_tree_t) : Prop :=
  (∃ t : Nat, rt.global_id = forest.first_local_tree_id + (t : Int) ∧
    rt.eclass = forest.tree_class t) ∧
  no_adjacent_duplicates (forest.scheme rt.eclass) rt.elements.elems

/-- The invariant of the remote index: every entry holds at least one remote
tree and every remote tree satisfies `remote_tree_ok`. -/
def remote_index_ok (forest : t8_forest_t) (ghost : t8_forest_ghost) : Prop :=
  ∀ b ∈ ghost.remote_ghosts,
    b.remote_trees ≠ [] ∧ ∀ rt ∈ b.remote_trees, remote_tree_ok forest rt

/-- A scheme with elements of `size` bytes for the examples: the first byte of
an element is its level, the second byte its linear id; copying is the
identity. -/
def example_scheme (size : Nat) : t8_eclass_scheme_c :=
  { t8_element_size := size,
    t8_element_level := fun e => (e.headD 0 : Nat),
    t8_element_maxlevel := 5,
    t8_element_get_linear_id := fun e _ => e.getD 1 0,
    t8_element_copy := id,
    t8_element_num_faces := fun _ => 2,
    t8_element_num_face_children := fun _ _ => 2,
    t8_element_new := List.replicate size 0 }

/-- A forest for the examples: rank 0 of 3 holds the two local trees 10 and 11
of class 2 with elements of 3 bytes.  Face 0 of every element is a domain
boundary; across face 1 the first half neighbour belongs to rank 1 and the
second to rank 2. -/
def example_forest : t8_forest_t :=
  { mpirank := 0,
    mpisize := 3,
    ghost_type := .T8_GHOST_FACES,
    profile := none,
    ghosts := none,
    first_local_tree_id := 10,
    num_local_trees := 2,
    tree_class := fun _ => 2,
    tree_elements := fun t => if t = 0 then [[1, 0, 7], [1, 1, 7]] else [[2, 4, 9]],
    scheme := fun _ => example_scheme 3,
    element_neighbor_eclass := fun _ _ _ => 2,
    element_half_face_neighbors := fun t e f _ =>
      (if f = 0 then -1 else 10 + (t : Int), fun i => [e.headD 0 + 1, i, 0]),
    element_face_neighbor := fun t e _ => (10 + (t : Int), e, 0),
    element_find_owner := fun _ e _ => if e.getD 1 0 = 0 then 1 else 2,
    element_owners_at_face := fun _ _ _ _ => [1] }

/-- One tree of a message as the parse routine reads it: the global id, the
element class and the elements. -/
structure tree_record where
  global_id : Int
  eclass : t8_eclass_t
  elems : List (List Nat)
  deriving DecidableEq, Repr

/-- The tree that starts at offset `bytes_read` of a message, read field by
field as the tree loop of `t8_forest_ghost_parse_received_message` does, and
the offset behind it. -/
def read_tree_record (P : Nat) (forest : t8_forest_t) (recv_buffer : List Nat)
    (bytes_read : Nat) : Except Failure (tree_record × Nat) :=
  match parse_tree_header P recv_buffer bytes_read with
  | .error e => .error e
  | .ok header =>
    let ts := forest.scheme header.eclass
    match read_bytes recv_buffer header.bytes_read
        (header.num_elements * ts.t8_element_size) with
    | .error e => .error e
    | .ok data =>
      let bytes_read := header.bytes_read + header.num_elements * ts.t8_element_size
      let bytes_read := bytes_read + T8_ADD_PADDING P bytes_read
      .ok ({ global_id := header.global_id, eclass := header.eclass,
             elems := slots ts.t8_element_size header.num_elements data },
           bytes_read)

/-- The next `n` trees of a message from offset `bytes_read` on. -/
def read_tree_records (P : Nat) (forest : t8_forest_t) (recv_buffer : List Nat) :
    Nat → Nat → Except Failure (List tree_record × Nat)
  | 0, bytes_read => .ok ([], bytes_read)
  | n + 1, bytes_read =>
    match read_tree_record P forest recv_buffer bytes_read with
    | .error e => .error e
    | .ok r =>
      match read_tree_records P forest recv_buffer n r.2 with
      | .error e => .error e
      | .ok rs => .ok (r.1 :: rs.1, rs.2)

/-- The trees of a message in the order in which they are stored. -/
def message_records (P : Nat) (forest : t8_forest_t) (recv_buffer : List Nat) :
    Except Failure (List tree_record) :=
  match read_size_t recv_buffer 0 with
  | .error e => .error e
  | .ok count =>
    match read_tree_records P forest recv_buffer (locidx_of_size_t count).toNat
        (0 + sizeof_size_t + T8_ADD_PADDING P (0 + sizeof_size_t)) with
    | .error e => .error e
    | .ok rs => .ok rs.1

/-- The ghost structure after one round of the tree loop of the parse routine
that found no failed assertion, as a function of the tree read. -/
def ghost_add_record (forest : t8_forest_t) (ghost : t8_forest_ghost)
    (r : tree_record) : t8_forest_ghost :=
  match gtree_hash_lookup ghost.global_tree_to_ghost_tree r.global_id with
  | none =>
    { ghost with
      num_ghosts_elements := ghost.num_ghosts_elements + r.elems.length,
      global_tree_to_ghost_tree := ghost.global_tree_to_ghost_tree ++
        [{ global_id := r.global_id, index := ghost.ghost_trees.length }],
      ghost_trees := ghost.ghost_trees ++
        [{ global_id := r.global_id, eclass := r.eclass,
           elements := { elem_size := (forest.scheme r.eclass).t8_element_size,
                         elems := r.elems } }] }
  | some found_tree =>
    { ghost with
      num_ghosts_elements := ghost.num_ghosts_elements + r.elems.length,
      ghost_trees := ghost.ghost_trees.modify (ghost_tree_append r.elems)
        found_tree.index }

/-- A message handed to the parse routine: the sender, the buffer and the
number of bytes received. -/
structure parse_call where
  recv_rank : Int
  recv_buffer : List Nat
  recv_bytes : Int
  deriving DecidableEq, Repr

/-- The ghost structure after a sequence of calls of
`t8_forest_ghost_parse_received_message`. -/
def parse_calls (P : Nat) (forest : t8_forest_t) (ghost : t8_forest_ghost)
    (calls : List parse_call) : Except Failure t8_forest_ghost :=
  calls.foldlM
    (fun g c => t8_forest_ghost_parse_received_message P forest g c.recv_rank
      c.recv_buffer c.recv_bytes) ghost

/-- The array `ghost_trees` was only extended: every tree that was there keeps
its position, global id, class and element size, and its elements are a
leading part of the elements it holds afterwards. -/
def ghost_trees_extend (old new : List t8_ghost_tree_t) : Prop :=
  old.length ≤ new.length ∧
  ∀ (i : Nat) (t : t8_ghost_tree_t), old[i]? = some t →
    ∃ t', new[i]? = some t' ∧ t'.global_id = t.global_id ∧ t'.eclass = t.eclass ∧
      t'.elements.elem_size = t.elements.elem_size ∧
      ∃ added, t'.elements.elems = t.elements.elems ++ added

/-- The hash table `global_tree_to_ghost_tree` lists, in the order of
`ghost_trees`, the global id and the position of every ghost tree, and no two
ghost trees have the same global id. -/
def ghost_index_ok (ghost : t8_forest_ghost) : Prop :=
  ghost.global_tree_to_ghost_tree.length = ghost.ghost_trees.length ∧
  (∀ (i : Nat) (t : t8_ghost_tree_t), ghost.ghost_trees[i]? = some t →
    ghost.global_tree_to_ghost_tree[i]? =
      some { global_id := t.global_id, index := i }) ∧
  (ghost.ghost_trees.map (·.global_id)).Nodup

/-- A message for the examples, with padding size 8: the trees 10 (class 2,
elements `[1, 0, 7]` and `[1, 1, 7]`) and 11 (class 2, element `[2, 4, 9]`). -/
def example_message_a : List Nat :=
  bytes_of_uint 8 2 ++
  bytes_of_sint 8 10 ++ bytes_of_uint 4 2 ++ List.replicate 4 0 ++
  bytes_of_uint 8 2 ++ [1, 0, 7, 1, 1, 7] ++ List.replicate 2 0 ++
  bytes_of_sint 8 11 ++ bytes_of_uint 4 2 ++ List.replicate 4 0 ++
  bytes_of_uint 8 1 ++ [2, 4, 9] ++ List.replicate 5 0

/-- A second message for the examples: the trees 11 (class 2, element
`[3, 5, 9]`) and 12 (class 2, element `[4, 6, 9]`). -/
def example_message_b : List Nat :=
  bytes_of_uint 8 2 ++
  bytes_of_sint 8 11 ++ bytes_of_uint 4 2 ++ List.replicate 4 0 ++
  bytes_of_uint 8 1 ++ [3, 5, 9] ++ List.replicate 5 0 ++
  bytes_of_sint 8 12 ++ bytes_of_uint 4 2 ++ List.replicate 4 0 ++
  bytes_of_uint 8 1 ++ [4, 6, 9] ++ List.replicate 5 0

/-- The two example messages, received from the ranks 1 and 2. -/
def example_parse_calls : List parse_call :=
  [{ recv_rank := 1, recv_buffer := example_message_a, recv_bytes := 72 },
   { recv_rank := 2, recv_buffer := example_message_b, recv_bytes := 72 }]

/-- The ghost structure that parsing the two example messages into the empty
ghost structure gives. -/
def example_ghost_parsed : t8_forest_ghost :=
  { rc := 1,
    num_ghosts_elements := 5,
    num_remote_elements := 0,
    ghost_type := .T8_GHOST_FACES,
    ghost_trees :=
      [{ global_id := 10, eclass := 2,
         elements := { elem_size := 3, elems := [[1, 0, 7], [1, 1, 7]] } },
       { global_id := 11, eclass := 2,
         elements := { elem_size := 3, elems := [[2, 4, 9], [3, 5, 9]] } },
       { global_id := 12, eclass := 2,
         elements := { elem_size := 3, elems := [[4, 6, 9]] } }],
    global_tree_to_ghost_tree :=
      [{ global_id := 10, index := 0 }, { global_id := 11, index := 1 },
       { global_id := 12, index := 2 }],
    process_offsets :=
      [{ mpirank := 1, tree_index := some 0, first_element := some 0 },
       { mpirank := 2, tree_index := some 1, first_element := some 1 }],
    remote_ghosts := [],
    remote_processes := [] }

/-- The ghost structure that parsing the first example message into the empty
ghost structure gives. -/
def example_ghost_first : t8_forest_ghost :=
  { rc := 1,
    num_ghosts_elements := 3,
    num_remote_elements := 0,
    ghost_type := .T8_GHOST_FACES,
    ghost_trees :=
      [{ global_id := 10, eclass := 2,
         elements := { elem_size := 3, elems := [[1, 0, 7], [1, 1, 7]] } },
       { global_id := 11, eclass := 2,
         elements := { elem_size := 3, elems := [[2, 4, 9]] } }],
    global_tree_to_ghost_tree :=
      [{ global_id := 10, index := 0 }, { global_id := 11, index := 1 }],
    process_offsets :=
      [{ mpirank := 1, tree_index := some 0, first_element := some 0 }],
    remote_ghosts := [],
    remote_processes := [] }

/-- The elements that the ghost trees with the given global id hold, in the
order of `ghost_trees`. -/
def ghost_tree_elements (ghost_trees : List t8_ghost_tree_t) (global_id : Int) :
    List (List Nat) :=
  (ghost_trees.filter (fun t => decide (t.global_id = global_id))).flatMap
    (·.elements.elems)

/-- The elements of the trees with the given global id among a list of trees
read from a message, in the order of the message. -/
def records_block (rs : List tree_record) (global_id : Int) : List (List Nat) :=
  (rs.filter (fun r => decide (r.global_id = global_id))).flatMap (·.elems)

/-- The block of elements that a message holds for the tree with the given
global id. -/
def message_block (P : Nat) (forest : t8_forest_t) (recv_buffer : List Nat)
    (global_id : Int) : List (List Nat) :=
  match message_records P forest recv_buffer with
  | .error _ => []
  | .ok rs => records_block rs global_id

/-- A message for the examples whose first tree, 10, holds no element and
whose second tree, 11, holds the element `[2, 4, 9]`. -/
def example_message_empty_first : List Nat :=
  bytes_of_uint 8 2 ++
  bytes_of_sint 8 10 ++ bytes_of_uint 4 2 ++ List.replicate 4 0 ++
  bytes_of_uint 8 0 ++
  bytes_of_sint 8 11 ++ bytes_of_uint 4 2 ++ List.replicate 4 0 ++
  bytes_of_uint 8 1 ++ [2, 4, 9] ++ List.replicate 5 0

/-- The bytes that the writing pass of `t8_forest_ghost_send_start` stores for
one field at offset `off`: the field and the padding behind it. -/
def encode_field (P : Nat) (off : Nat) (field : List Nat) : List Nat :=
  field ++ List.replicate (T8_ADD_PADDING P (off + field.length)) 0

/-- The bytes that the writing pass of `t8_forest_ghost_send_start` stores for
a remote tree when it starts at offset `off`: the global id, the class, the
number of elements and the elements, each followed by its padding. -/
def encode_tree (P : Nat) (off : Nat) (rt : t8_ghost_remote_tree_t) : List Nat :=
  let e1 := encode_field P off (bytes_of_sint sizeof_t8_gloidx_t rt.global_id)
  let e2 := encode_field P (off + e1.length)
    (bytes_of_uint sizeof_t8_eclass_t rt.eclass)
  let e3 := encode_field P (off + e1.length + e2.length)
    (bytes_of_uint sizeof_size_t rt.elements.elem_count)
  let e4 := encode_field P (off + e1.length + e2.length + e3.length)
    rt.elements.array
  e1 ++ (e2 ++ (e3 ++ e4))

/-- The bytes stored for a list of remote trees from offset `off` on. -/
def encode_trees (P : Nat) : Nat → List t8_ghost_remote_tree_t → List Nat
  | _, [] => []
  | off, rt :: rts =>
    encode_tree P off rt ++ encode_trees P (send_count_tree P off rt) rts

/-- The message for the remote trees of one rank: the number of trees, its
padding and the trees. -/
def encode_message (P : Nat) (remote_trees : List t8_ghost_remote_tree_t) :
    List Nat :=
  let e0 := encode_field P 0 (bytes_of_uint sizeof_size_t remote_trees.length)
  e0 ++ encode_trees P e0.length remote_trees

/-- The values of a remote tree fit their types: the global id is a 64 bit
signed integer, the class fits the 4 bytes of the enumeration, the number of
elements fits `size_t`, every element has `elem_size` bytes, and the tree
belongs to the rank. -/
def remote_tree_well_typed (remote_rank : Int) (rt : t8_ghost_remote_tree_t) :
    Prop :=
  -(2 : Int) ^ 63 ≤ rt.global_id ∧ rt.global_id < (2 : Int) ^ 63 ∧
  rt.eclass < 2 ^ 32 ∧
  rt.elements.elem_count < 2 ^ 64 ∧
  (∀ e ∈ rt.elements.elems, e.length = rt.elements.elem_size) ∧
  rt.mpirank = remote_rank

/-- The values of an entry of `remote_ghosts` fit their types, and the length
of its message fits the `int` that counts the bytes of a message. -/
def remote_entry_well_typed (P : Nat) (remote_entry : t8_ghost_remote_t) : Prop :=
  (∀ rt ∈ remote_entry.remote_trees,
    remote_tree_well_typed remote_entry.remote_rank rt) ∧
  send_count_bytes P remote_entry.remote_trees < 2 ^ 31

/-- The assertions of the tree loop of the parse routine hold for a tree read
from a message: when the global id is already in the hash table, the entry
found and the ghost tree it names have that global id, and the ghost tree has
the class and the element size of the tree read. -/
def record_accepted (forest : t8_forest_t) (ghost : t8_forest_ghost)
    (r : tree_record) : Prop :=
  ∀ found, gtree_hash_lookup ghost.global_tree_to_ghost_tree r.global_id =
      some found →
    found.global_id = r.global_id ∧
    ∃ t, ghost.ghost_trees[found.index]? = some t ∧ t.eclass = r.eclass ∧
      t.global_id = r.global_id ∧
      t.elements.elem_size = (forest.scheme r.eclass).t8_element_size

/-- The assertions of the tree loop hold for every tree of a list, each at the
time it is added. -/
def records_accepted (forest : t8_forest_t) :
    t8_forest_ghost → List tree_record → Prop
  | _, [] => True
  | ghost, r :: rs =>
    record_accepted forest ghost r ∧
      records_accepted forest (ghost_add_record forest ghost r) rs

/-- The tree that the parse routine reads for a remote tree. -/
def record_of_remote_tree (rt : t8_ghost_remote_tree_t) : tree_record :=
  { global_id := rt.global_id, eclass := rt.eclass, elems := rt.elements.elems }

/-- The bytes of the message that arrives from a rank (empty when there is
none). -/
def message_from (arrivals : List mpi_message) (rank : Int) : List Nat :=
  ((arrivals.find? (fun m => decide (m.MPI_SOURCE = rank))).map (·.bytes)).getD []

/-- Parsing, rank after rank in the order of the list `ranks`, the message that
arrived from each rank. -/
def parse_in_order {σ : Type}
    (parse : σ → Int → List Nat → Int → Except Failure σ)
    (arrivals : List mpi_message) (ranks : List Int) (ghost : σ) :
    Except Failure σ :=
  ranks.foldlM
    (fun g rank => parse g rank (message_from arrivals rank)
      ((message_from arrivals rank).length : Int)) ghost

/-- The entries that `recv_list_entries_build` adds for a list of ranks whose
first rank has position `proc_pos`. -/
def recv_list_entries_from : Nat → List Int → List t8_recv_list_entry_t
  | _, [] => []
  | proc_pos, rank :: ranks =>
    { rank := rank, pos_in_remote_processes := proc_pos } ::
      recv_list_entries_from (proc_pos + 1) ranks

/-- The state of the receive loop after the messages `received` have arrived
and the messages of the first `p` ranks of the sorted array `ranks` have been
parsed. -/
def receive_inv {σ : Type} (ranks : List Int) (arrivals received : List mpi_message)
    (p : Nat) (st : receive_state σ) : Prop :=
  st.buffer.length = ranks.length ∧
  st.recv_bytes.length = ranks.length ∧
  st.received_flag.length = ranks.length ∧
  st.received_messages = received.length ∧
  st.last_rank_parsed = (p : Int) - 1 ∧
  p ≤ ranks.length ∧
  (∀ (i : Nat) (r : Int), ranks[i]? = some r →
    (r ∈ received.map (·.MPI_SOURCE) →
      st.received_flag[i]? = some 1 ∧
      st.buffer[i]? = some (message_from arrivals r) ∧
      st.recv_bytes[i]? = some ((message_from arrivals r).length : Int)) ∧
    (r ∉ received.map (·.MPI_SOURCE) → st.received_flag[i]? = some 0)) ∧
  (∀ i : Nat, i < p → st.received_flag[i]? = some 1) ∧
  (p < ranks.length → st.received_flag[p]? = some 0)

/-- The ghost structure after a call of `t8_ghost_add_remote`, left as it was
when the call fails. -/
def add_remote_total (forest : t8_forest_t) (ghost : t8_forest_ghost)
    (c : add_remote_call) : t8_forest_ghost :=
  match t8_ghost_add_remote forest ghost c.remote_rank c.ltreeid c.elem with
  | .ok g => g
  | .error _ => ghost

/-- The calls of `t8_ghost_add_remote` that the half neighbour branch of
`t8_forest_ghost_fill_remote` makes for one face of an element below the
maximum level: one call for every half neighbour that another process owns,
none when the face is a boundary of the domain. -/
def face_calls (forest : t8_forest_t) (itree : Nat) (elem : t8_element_t)
    (iface : Nat) : List add_remote_call :=
  let ts := forest.scheme (forest.tree_class itree)
  let neigh_class := forest.element_neighbor_eclass itree elem iface
  let num_face_children := ts.t8_element_num_face_children elem iface
  let r := forest.element_half_face_neighbors itree elem iface num_face_children
  if r.1 ≥ 0 then
    (List.range num_face_children).flatMap fun ichild =>
      let owner := forest.element_find_owner r.1 (r.2 ichild) neigh_class
      if owner ≠ forest.mpirank then
        [{ remote_rank := owner, ltreeid := itree, elem := elem }]
      else []
  else []

/-- The calls of `t8_ghost_add_remote` for one element, face after face. -/
def element_calls (forest : t8_forest_t) (itree : Nat) (elem : t8_element_t) :
    List add_remote_call :=
  (List.range
    ((forest.scheme (forest.tree_class itree)).t8_element_num_faces elem)).flatMap
    (face_calls forest itree elem)

/-- The calls of `t8_ghost_add_remote` for one local tree, element after
element. -/
def tree_calls (forest : t8_forest_t) (itree : Nat) : List add_remote_call :=
  (forest.tree_elements itree).flatMap (element_calls forest itree)

/-- The calls of `t8_ghost_add_remote` for the whole forest, tree after
tree. -/
def forest_calls (forest : t8_forest_t) : List add_remote_call :=
  (List.range forest.num_local_trees).flatMap (tree_calls forest)

/-- The owner lookup returns a rank of the communicator. -/
def owners_valid (forest : t8_forest_t) : Prop :=
  ∀ (gtreeid : Int) (e : t8_element_t) (c : t8_eclass_t),
    0 ≤ forest.element_find_owner gtreeid e c ∧
    forest.element_find_owner gtreeid e c < forest.mpisize

/-- Every element of every local tree is below the maximum level of its
scheme. -/
def below_maxlevel (forest : t8_forest_t) : Prop :=
  ∀ (itree : Nat), ∀ e ∈ forest.tree_elements itree,
    (forest.scheme (forest.tree_class itree)).t8_element_level e <
      (forest.scheme (forest.tree_class itree)).t8_element_maxlevel

/-- The scratch buffer has as many slots as `max_num_face_children` says. -/
def scratch_ok (st : fill_remote_locals) : Prop :=
  st.half_neighbors.length = st.max_num_face_children

/-- The remote tree of rank `r` for the local tree `itree` that holds copies
of `elems`, in their order. -/
def remote_tree_with (forest : t8_forest_t) (r : Int) (itree : Nat)
    (elems : List t8_element_t) : t8_ghost_remote_tree_t :=
  { global_id := forest.first_local_tree_id + (itree : Int),
    mpirank := r,
    eclass := forest.tree_class itree,
    elements :=
      { elem_size := (forest.scheme (forest.tree_class itree)).t8_element_size,
        elems := elems.map (forest.scheme (forest.tree_class itree)).t8_element_copy } }

/-- The element `e` of the local tree `itree` has a face with a non-negative
neighbour tree across which one of the half neighbours has the owner `r`, and
`r` is not the rank of this process. -/
def ships_to (forest : t8_forest_t) (itree : Nat) (r : Int) (e : t8_element_t) :
    Bool :=
  let ts := forest.scheme (forest.tree_class itree)
  decide (r ≠ forest.mpirank) &&
  (List.range (ts.t8_element_num_faces e)).any fun iface =>
    let neigh_class := forest.element_neighbor_eclass itree e iface
    let num_face_children := ts.t8_element_num_face_children e iface
    let nb := forest.element_half_face_neighbors itree e iface num_face_children
    decide (nb.1 ≥ 0) &&
    (List.range num_face_children).any fun ichild =>
      decide (forest.element_find_owner nb.1 (nb.2 ichild) neigh_class = r)

/-- The elements of the local tree `itree` that `ships_to` selects for rank
`r`, in the order of the tree. -/
def shipped_elements (forest : t8_forest_t) (itree : Nat) (r : Int) :
    List t8_element_t :=
  (forest.tree_elements itree).filter (ships_to forest itree r)

/-- The remote trees that the selection `shipped_elements` describes for rank
`r`: one for every local tree with a selected element, in the order of the
local trees. -/
def discovered_trees (forest : t8_forest_t) (r : Int) :
    List t8_ghost_remote_tree_t :=
  (List.range forest.num_local_trees).filterMap fun itree =>
    if (shipped_elements forest itree r).isEmpty then none
    else some (remote_tree_with forest r itree (shipped_elements forest itree r))

/-- Among the elements of a local tree selected for one rank, no two
consecutive ones share both level and linear id. -/
def shipped_distinct (forest : t8_forest_t) : Prop :=
  ∀ (itree : Nat) (r : Int),
    no_adjacent_duplicates (forest.scheme (forest.tree_class itree))
      (shipped_elements forest itree r)

/-- No two consecutive elements of a local tree share both level and linear
id. -/
def consecutive_distinct (forest : t8_forest_t) : Prop :=
  ∀ itree : Nat,
    no_adjacent_duplicates (forest.scheme (forest.tree_class itree))
      (forest.tree_elements itree)

/-- No local tree lists two elements that share both level and linear id: the
leaves of a tree are distinct, as they are in every committed forest. -/
def leaves_distinct (forest : t8_forest_t) : Prop :=
  ∀ itree : Nat,
    (forest.tree_elements itree).Pairwise
      (fun a b => element_key (forest.scheme (forest.tree_class itree)) a ≠
        element_key (forest.scheme (forest.tree_class itree)) b)

/-- A list of elements that is no list of leaves: the only local tree lists an
element, a second element, and the first element again.  The first element has a half neighbour on rank 1
across face 1; the second element has all its neighbours on this rank. -/
def repeat_forest : t8_forest_t :=
  { mpirank := 0,
    mpisize := 3,
    ghost_type := .T8_GHOST_FACES,
    profile := none,
    ghosts := none,
    first_local_tree_id := 10,
    num_local_trees := 1,
    tree_class := fun _ => 2,
    tree_elements := fun _ => [[1, 0, 7], [1, 1, 7], [1, 0, 7]],
    scheme := fun _ => example_scheme 3,
    element_neighbor_eclass := fun _ _ _ => 2,
    element_half_face_neighbors := fun t e f _ =>
      (if f = 0 then -1 else 10 + (t : Int), fun i => [e.getD 1 0, i, 0]),
    element_face_neighbor := fun t e _ => (10 + (t : Int), e, 0),
    element_find_owner := fun _ e _ =>
      if e.headD 0 = 0 ∧ e.getD 1 0 = 0 then 1 else 0,
    element_owners_at_face := fun _ _ _ _ => [1] }

/-- The remote trees `base` followed, when `acc` is not empty, by the remote
tree of the local tree `itree` that holds copies of `acc`. -/
def remote_trees_extend (forest : t8_forest_t) (r : Int) (itree : Nat)
    (base : List t8_ghost_remote_tree_t) (acc : List t8_element_t) :
    List t8_ghost_remote_tree_t :=
  if acc.isEmpty then base else base ++ [remote_tree_with forest r itree acc]

/-- The remote trees of rank `r` after the calls of a list that address rank
`r`. -/
def remote_trees_after (forest : t8_forest_t) (r : Int)
    (trees : List t8_ghost_remote_tree_t) (calls : List add_remote_call) :
    List t8_ghost_remote_tree_t :=
  (calls.filter (fun c => decide (c.remote_rank = r))).foldl
    (fun ts c => remote_trees_add forest r c.ltreeid c.elem ts) trees

/-- The elements of a list of ghost trees, tree after tree. -/
def ghost_elements (trees : List t8_ghost_tree_t) : List (List Nat) :=
  trees.flatMap (·.elements.elems)

/-- The trees of the message of a call, in the order of the message (none
when the message cannot be read). -/
def records_of (P : Nat) (forest : t8_forest_t) (c : parse_call) :
    List tree_record :=
  match message_records P forest c.recv_buffer with
  | .ok rs => rs
  | .error _ => []

/-- The trees of the messages of a list of calls, message after message. -/
def calls_records (P : Nat) (forest : t8_forest_t) (calls : List parse_call) :
    List tree_record :=
  calls.flatMap (records_of P forest)

/-- The elements of a list of trees read from messages, tree after tree. -/
def records_elements (rs : List tree_record) : List (List Nat) :=
  rs.flatMap (·.elems)

/-- The global ids of the trees never decrease along the list. -/
def records_sorted (rs : List tree_record) : Prop :=
  (rs.map (·.global_id)).Pairwise (· ≤ ·)

/-- Every tree of the list holds at least one element. -/
def records_nonempty (rs : List tree_record) : Prop :=
  ∀ r ∈ rs, r.elems ≠ []

/-- The position of element `k` of the ghost tree `i` in the sequence of all
ghost elements. -/
def ghost_position (trees : List t8_ghost_tree_t) (i k : Nat) : Nat :=
  (ghost_elements (trees.take i)).length + k

/-- The hash table of the ghost trees is consistent and the global ids of the
ghost trees increase along `ghost_trees`. -/
def ghost_sorted (ghost : t8_forest_ghost) : Prop :=
  ghost_index_ok ghost ∧ (ghost.ghost_trees.map (·.global_id)).Pairwise (· < ·)

/-- A message for the examples that holds the tree 11 (class 2) with the
element `[3, 5, 9]`. -/
def example_message_c : List Nat :=
  bytes_of_uint 8 1 ++
  bytes_of_sint 8 11 ++ bytes_of_uint 4 2 ++ List.replicate 4 0 ++
  bytes_of_uint 8 1 ++ [3, 5, 9] ++ List.replicate 5 0

/-- Two messages whose trees are not in the order of the global ids: rank 1
sends tree 11, then rank 2 sends the trees 10 and 11. -/
def unordered_parse_calls : List parse_call :=
  [{ recv_rank := 1, recv_buffer := example_message_c, recv_bytes := 40 },
   { recv_rank := 2, recv_buffer := example_message_a, recv_bytes := 72 }]

/-- The neighbour tree id that the face loop of `t8_forest_ghost_fill_remote`
obtains for a face: from the half neighbours when the half neighbour method is
used for an element below the maximum level, from the face neighbour
otherwise. -/
def face_neighbor_tree (forest : t8_forest_t) (ghost_method : Int) (itree : Nat)
    (elem : t8_element_t) (is_atom : Bool) (iface : Nat) : Int :=
  if ghost_method = 0 ∧ is_atom = false then
    (forest.element_half_face_neighbors itree elem iface
      ((forest.scheme (forest.tree_class itree)).t8_element_num_face_children
        elem iface)).1
  else (forest.element_face_neighbor itree elem iface).1

/-- The scratch buffer `half_neighbors` as the half neighbour branch of the
face loop leaves it before the owners are looked up. -/
def face_buffer (forest : t8_forest_t) (itree : Nat) (elem : t8_element_t)
    (is_atom : Bool) (st : fill_remote_locals) (iface : Nat) :
    Except Failure (List t8_element_t) :=
  let nc := forest.element_neighbor_eclass itree elem iface
  let n := (forest.scheme (forest.tree_class itree)).t8_element_num_face_children
    elem iface
  let st1 := fill_remote_regrow forest { st with neigh_scheme := some nc } nc n
  if is_atom = false then
    write_half_neighbors st1.half_neighbors n
      (forest.element_half_face_neighbors itree elem iface n).2
  else
    write_half_neighbors st1.half_neighbors 1
      (fun _ => (forest.element_face_neighbor itree elem iface).2.1)

/-- No entry of `remote_ghosts` is for the rank of this process, and that rank
is not in `remote_processes`. -/
def self_excluded (forest : t8_forest_t) (ghost : t8_forest_ghost) : Prop :=
  (∀ b ∈ ghost.remote_ghosts, b.remote_rank ≠ forest.mpirank) ∧
  forest.mpirank ∉ ghost.remote_processes

/-- The element `e` of the local tree `itree` has a face for which the face
loop obtains a non-negative neighbour tree id. -/
def open_face (forest : t8_forest_t) (ghost_method : Int) (itree : Nat)
    (e : t8_element_t) : Prop :=
  ∃ iface, iface < (forest.scheme (forest.tree_class itree)).t8_element_num_faces e ∧
    0 ≤ face_neighbor_tree forest ghost_method itree e
      (decide ((forest.scheme (forest.tree_class itree)).t8_element_level e =
        (forest.scheme (forest.tree_class itree)).t8_element_maxlevel)) iface

/-- A remote tree of rank `r` is filed under a local tree of the forest: it has
the global id, the class and the element size of that tree, carries the rank,
and each of its elements is the copy of an element of that tree that has a
face with a non-negative neighbour tree id. -/
def remote_tree_sound (forest : t8_forest_t) (ghost_method : Int) (r : Int)
    (rt : t8_ghost_remote_tree_t) : Prop :=
  ∃ itree : Nat, itree < forest.num_local_trees ∧
    rt.global_id = forest.first_local_tree_id + (itree : Int) ∧
    rt.eclass = forest.tree_class itree ∧
    rt.elements.elem_size = (forest.scheme (forest.tree_class itree)).t8_element_size ∧
    rt.mpirank = r ∧
    ∀ x ∈ rt.elements.elems, ∃ e ∈ forest.tree_elements itree,
      open_face forest ghost_method itree e ∧
      x = (forest.scheme (forest.tree_class itree)).t8_element_copy e

/-- Every remote tree of every entry of `remote_ghosts` satisfies
`remote_tree_sound` for the rank of its entry. -/
def remote_index_sound (forest : t8_forest_t) (ghost_method : Int)
    (ghost : t8_forest_ghost) : Prop :=
  ∀ b ∈ ghost.remote_ghosts, ∀ rt ∈ b.remote_trees,
    remote_tree_sound forest ghost_method b.remote_rank rt

/-- The forest with other routines for the owner lookup. -/
def with_owners (forest : t8_forest_t)
    (find_owner : Int → t8_element_t → t8_eclass_t → Int)
    (owners_at_face : Int → t8_element_t → t8_eclass_t → Int → List Int) :
    t8_forest_t :=
  { forest with element_find_owner := find_owner,
                element_owners_at_face := owners_at_face }

/-- A forest for the examples whose only element has the domain boundary at
both faces. -/
def boundary_forest : t8_forest_t :=
  { example_forest with
    num_local_trees := 1,
    tree_elements := fun _ => [[1, 0, 7]],
    element_half_face_neighbors := fun _ e _ _ => (-1, fun i => [e.headD 0 + 1, i, 0]),
    element_face_neighbor := fun _ e _ => (-1, e, 0) }

/-- The array `remote_processes` lists the ranks of the entries of
`remote_ghosts` in their order, and no two entries are for the same rank. -/
def remote_ranks_ok (ghost : t8_forest_ghost) : Prop :=
  ghost.remote_processes = ghost.remote_ghosts.map (·.remote_rank) ∧
  (ghost.remote_ghosts.map (·.remote_rank)).Nodup

/-- Calls of `t8_ghost_add_remote` for the examples: two elements of the
local tree 0 and one of the local tree 1 for rank 1, one element of the local
tree 1 for rank 2. -/
def example_add_calls : List add_remote_call :=
  [{ remote_rank := 1, ltreeid := 0, elem := [1, 0, 7] },
   { remote_rank := 1, ltreeid := 0, elem := [1, 1, 7] },
   { remote_rank := 2, ltreeid := 1, elem := [2, 4, 9] },
   { remote_rank := 1, ltreeid := 1, elem := [2, 4, 9] }]

/-- The message that `t8_forest_ghost_send_start` posts for an entry of
`remote_ghosts`. -/
def message_of (P : Nat) (b : t8_ghost_remote_t) : t8_ghost_mpi_send_info_t :=
  { recv_rank := b.remote_rank,
    num_bytes := send_count_bytes P b.remote_trees,
    buffer := encode_message P b.remote_trees }

/-- The number of elements in the remote trees of a list of entries. -/
def remote_elements_total (bs : List t8_ghost_remote_t) : Nat :=
  (bs.map fun b => (b.remote_trees.map (·.elements.elem_count)).sum).sum

/-- The values of all remote trees fit their types. -/
def remote_index_well_typed (ghost : t8_forest_ghost) : Prop :=
  ∀ b ∈ ghost.remote_ghosts, ∀ rt ∈ b.remote_trees,
    remote_tree_well_typed b.remote_rank rt

/-- Every remote tree of every entry holds at least one element. -/
def remote_trees_nonempty (ghost : t8_forest_ghost) : Prop :=
  ∀ b ∈ ghost.remote_ghosts, ∀ rt ∈ b.remote_trees, rt.elements.elems ≠ []

/-- The ghost structure after the calls `example_add_calls` on the empty ghost
structure. -/
def example_ghost_remote : t8_forest_ghost :=
  { ghost_new with
    remote_ghosts :=
      [{ remote_rank := 1,
         remote_trees :=
           [{ global_id := 10, mpirank := 1, eclass := 2,
              elements := { elem_size := 3, elems := [[1, 0, 7], [1, 1, 7]] } },
            { global_id := 11, mpirank := 1, eclass := 2,
              elements := { elem_size := 3, elems := [[2, 4, 9]] } }] },
       { remote_rank := 2,
         remote_trees :=
           [{ global_id := 11, mpirank := 2, eclass := 2,
              elements := { elem_size := 3, elems := [[2, 4, 9]] } }] }],
    remote_processes := [1, 2] }

/-- Modelled from the spec: a system of processes is the list of their ghost
structures, the process of rank `i` at position `i`.  Every process runs
`t8_forest_ghost_send_start`; the result lists, rank after rank, the ghost
structure and the messages posted. -/
def system_send (P : Nat) :
    List t8_forest_ghost →
      Except Failure (List (t8_forest_ghost × List t8_ghost_mpi_send_info_t))
  | [] => .ok []
  | g :: gs =>
    match t8_forest_ghost_send_start P g with
    | .error e => .error e
    | .ok r =>
      match system_send P gs with
      | .error e => .error e
      | .ok rs => .ok (r :: rs)

/-- Modelled from the spec: the messages that the transport delivers to the
process of rank `j`, in the order of the ranks of their senders; `i` is the
rank of the first sender of the list. -/
def inbox_from (j : Nat) :
    Nat → List (t8_forest_ghost × List t8_ghost_mpi_send_info_t) → List parse_call
  | _, [] => []
  | i, s :: rest =>
    ((s.2.filter (fun m => decide (m.recv_rank = (j : Int)))).map fun m =>
      { recv_rank := (i : Int), recv_buffer := m.buffer,
        recv_bytes := (m.num_bytes : Int) }) ++
    inbox_from j (i + 1) rest

/-- Modelled from the spec: every process of the list `ranks` parses the
messages delivered to it, each message once. -/
def system_receive (P : Nat) (forest : t8_forest_t)
    (sent : List (t8_forest_ghost × List t8_ghost_mpi_send_info_t)) :
    List Nat → Except Failure (List t8_forest_ghost)
  | [] => .ok []
  | j :: js =>
    match sent[j]? with
    | none => .error .out_of_bounds
    | some s =>
      match parse_calls P forest s.1 (inbox_from j 0 sent) with
      | .error e => .error e
      | .ok g =>
        match system_receive P forest sent js with
        | .error e => .error e
        | .ok gs => .ok (g :: gs)

/-- Modelled from the spec: the exchange of the ghost elements in a system of
processes: all processes send, then every process parses what it was sent. -/
def system_exchange (P : Nat) (forest : t8_forest_t) (gs : List t8_forest_ghost) :
    Except Failure (List t8_forest_ghost) :=
  match system_send P gs with
  | .error e => .error e
  | .ok sent => system_receive P forest sent (List.range sent.length)

/-- What the exchange needs of the ghost structure of a process after
Discovery in a system of `N` processes: the remote ranks are ranks of the
system and listed once, the values of the remote trees fit their types, the
receivers have the element sizes of the sender, and the two counters are still
zero. -/
def sender_ok (P : Nat) (forest : t8_forest_t) (N : Nat) (g : t8_forest_ghost) :
    Prop :=
  remote_ranks_ok g ∧
  (∀ b ∈ g.remote_ghosts, remote_entry_well_typed P b) ∧
  (∀ b ∈ g.remote_ghosts, ∀ rt ∈ b.remote_trees,
    (forest.scheme rt.eclass).t8_element_size = rt.elements.elem_size) ∧
  (∀ b ∈ g.remote_ghosts, 0 ≤ b.remote_rank ∧ b.remote_rank < (N : Int)) ∧
  g.num_remote_elements = 0 ∧ g.num_ghosts_elements = 0

/-- The number of elements in the remote trees of an entry. -/
def entry_elements (b : t8_ghost_remote_t) : Nat :=
  (b.remote_trees.map (·.elements.elem_count)).sum

/-- A system of three processes for the examples: rank 0 ships elements to the
ranks 1 and 2, rank 1 ships one element to rank 0, rank 2 ships nothing. -/
def example_system : List t8_forest_ghost :=
  [example_ghost_remote,
   { ghost_new with
     remote_ghosts :=
       [{ remote_rank := 0,
          remote_trees :=
            [{ global_id := 12, mpirank := 0, eclass := 2,
               elements := { elem_size := 3, elems := [[4, 6, 9]] } }] }],
     remote_processes := [0] },
   ghost_new]

/-- The calls of the parse routine that the receive loop makes for a list of
ranks: for every rank the message that arrived from it and its length. -/
def calls_in_order (arrivals : List mpi_message) (ranks : List Int) :
    List parse_call :=
  ranks.map fun r =>
    { recv_rank := r, recv_buffer := message_from arrivals r,
      recv_bytes := ((message_from arrivals r).length : Int) }

/-- The ghost structure of a process that expects messages from the ranks 1,
2 and 3, before `t8_forest_ghost_receive`. -/
def example_ghost_waiting : t8_forest_ghost :=
  { ghost_new with remote_processes := [1, 2, 3] }

/-- The messages of the ranks 1, 2 and 3 in the order 3, 2, 1 of their
arrival. -/
def example_arrivals : List mpi_message :=
  [{ MPI_SOURCE := 3, bytes := example_message_c },
   { MPI_SOURCE := 2, bytes := example_message_b },
   { MPI_SOURCE := 1, bytes := example_message_a }]

/-- A forest whose only element is at the maximum level of its scheme.  Face 0
is a domain boundary; the face neighbour across face 1 is owned by this
process (rank 0), as is every element of level 5; an element whose first byte
is 0, such as the contents of a slot right after `t8_element_new`, is looked
up as owned by rank 2. -/
def atom_forest : t8_forest_t :=
  { example_forest with
    num_local_trees := 1,
    tree_elements := fun _ => [[5, 1, 7]],
    element_face_neighbor := fun _ e f => (if f = 0 then -1 else 10, e, 0),
    element_find_owner := fun _ e _ => if e.headD 0 = 5 then 0 else 2 }

/-- The global ids of the remote trees of every entry increase along the
entry and belong to local trees up to `itree`. -/
def remote_trees_sorted (forest : t8_forest_t) (itree : Nat)
    (ghost : t8_forest_ghost) : Prop :=
  ∀ b ∈ ghost.remote_ghosts,
    (b.remote_trees.map (·.global_id)).Pairwise (· < ·) ∧
    ∀ rt ∈ b.remote_trees,
      rt.global_id ≤ forest.first_local_tree_id + (itree : Int)

/-- The forest of the examples with the ghost type `T8_GHOST_NONE` and a
profile. -/
def none_forest : t8_forest_t :=
  { example_forest with
    ghost_type := .T8_GHOST_NONE,
    profile := some { ghosts_remotes := 4, ghosts_received := 5,
                      ghosts_shipped := 6, ghost_runtime := 7 } }

/-- A ghost layer for the examples with the two ghost trees 20 (two elements)
and 21 (one element). -/
def example_ghost_layer : t8_forest_ghost :=
  { ghost_new with
    num_ghosts_elements := 3,
    ghost_trees :=
      [{ global_id := 20, eclass := 2,
         elements := { elem_size := 3, elems := [[1, 0, 7], [1, 1, 7]] } },
       { global_id := 21, eclass := 3,
         elements := { elem_size := 3, elems := [[2, 4, 9]] } }],
    global_tree_to_ghost_tree :=
      [{ global_id := 20, index := 0 }, { global_id := 21, index := 1 }] }

/-- The forest of the examples with the ghost layer `example_ghost_layer`. -/
def ghost_forest : t8_forest_t :=
  { example_forest with ghosts := some example_ghost_layer }

/-- An entry of the remote index for the examples: the trees 10 (two elements)
and 11 (one element) for rank 1. -/
def example_remote_entry : t8_ghost_remote_t :=
  { remote_rank := 1,
    remote_trees :=
      [{ global_id := 10, mpirank := 1, eclass := 2,
         elements := { elem_size := 3, elems := [[1, 0, 7], [1, 1, 7]] } },
       { global_id := 11, mpirank := 1, eclass := 2,
         elements := { elem_size := 3, elems := [[2, 4, 9]] } }] }

/-- The counter `num_ghosts_elements` is the number of elements of all ghost
trees. -/
def ghost_counter_ok (ghost : t8_forest_ghost) : Prop :=
  ghost.num_ghosts_elements =
    (ghost.ghost_trees.map (·.elements.elem_count)).sum

/-- A message of 8 bytes (padding size 8) whose tree count is `2 ^ 31`. -/
def example_message_wide : List Nat := bytes_of_uint 8 (2 ^ 31)

/-- The forest of the examples on a process without local trees. -/
def empty_forest : t8_forest_t :=
  { example_forest with num_local_trees := 0 }

/-- The forest of the examples with two local trees that hold no element. -/
def hollow_forest : t8_forest_t :=
  { example_forest with tree_elements := fun _ => [] }

/-- The local variables on entry of `t8_forest_ghost_fill_remote`. -/
def fill_remote_start (ghost : t8_forest_ghost) : fill_remote_locals :=
  { ghost := ghost, half_neighbors := [], half_neighbors_owner := none,
    max_num_face_children := 0, last_class := T8_ECLASS_COUNT,
    neigh_scheme := none, prev_neigh_scheme := none, destroyed := [] }

/-- The local variables after the regrow step of the face `iface` of an
element: `neigh_scheme` is assigned and the scratch buffer is reallocated when
the code finds that necessary.  The neighbours of the face are constructed
into the buffer `half_neighbors` of this state. -/
def face_regrown (forest : t8_forest_t) (itree : Nat) (elem : t8_element_t)
    (st : fill_remote_locals) (iface : Nat) : fill_remote_locals :=
  fill_remote_regrow forest
    { st with neigh_scheme := some (forest.element_neighbor_eclass itree elem iface) }
    (forest.element_neighbor_eclass itree elem iface)
    ((forest.scheme (forest.tree_class itree)).t8_element_num_face_children
      elem iface)

/-- The state of the scratch buffer between two rounds of the face loop:
either no face was visited yet and nothing is allocated, or the buffer holds
`max_num_face_children > 0` elements that the scheme of the class `last_class`
created, and `neigh_scheme` and `prev_neigh_scheme` are the scheme of that
class. -/
def scratch_owned (st : fill_remote_locals) : Prop :=
  st.half_neighbors.length = st.max_num_face_children ∧
  ((st.half_neighbors_owner = none ∧ st.max_num_face_children = 0 ∧
      st.last_class = T8_ECLASS_COUNT ∧ st.neigh_scheme = none) ∨
    (st.half_neighbors_owner = some st.last_class ∧
      st.prev_neigh_scheme = some st.last_class ∧
      st.neigh_scheme = some st.last_class ∧ 0 < st.max_num_face_children))

/-- A call of `t8_element_destroy` on the scratch buffer is made through the
scheme of the class that allocated the buffer and passes the number of
elements that the buffer holds. -/
def destroy_call_ok (c : destroy_call) : Prop :=
  c.scheme = c.owner ∧ c.owner ≠ none ∧ c.length = c.allocated

/-- At every face of every local element the neighbour class is one of the
`T8_ECLASS_COUNT` element classes and the face has at least one child. -/
def faces_proper (forest : t8_forest_t) : Prop :=
  ∀ itree, itree < forest.num_local_trees →
    ∀ e ∈ forest.tree_elements itree,
      ∀ iface, iface < (forest.scheme (forest.tree_class itree)).t8_element_num_faces e →
        forest.element_neighbor_eclass itree e iface < T8_ECLASS_COUNT ∧
        0 < (forest.scheme (forest.tree_class itree)).t8_element_num_face_children
          e iface

/-- Some local element has a face, so that the face loop of Discovery runs at
least once. -/
def face_visited (forest : t8_forest_t) : Prop :=
  ∃ itree, itree < forest.num_local_trees ∧
    ∃ e ∈ forest.tree_elements itree,
      0 < (forest.scheme (forest.tree_class itree)).t8_element_num_faces e

/-- The forest of the examples with neighbours of class 2 across face 0 and of
class 3 across face 1, so that the neighbour class changes from face to
face. -/
def mixed_forest : t8_forest_t :=
  { example_forest with
    element_neighbor_eclass := fun _ _ iface => if iface = 0 then 2 else 3 }

/-- The scratch buffer is in order and so is every call of
`t8_element_destroy` made so far. -/
def scratch_calls_ok (st : fill_remote_locals) : Prop :=
  scratch_owned st ∧ ∀ c ∈ st.destroyed, destroy_call_ok c

/-- Local variables of Discovery for the examples, as after a face with
neighbour class 2: the scratch buffer holds two elements of the scheme of
class 2. -/
def example_locals : fill_remote_locals :=
  { ghost := ghost_new, half_neighbors := [[2, 0, 0], [2, 1, 0]],
    half_neighbors_owner := some 2, max_num_face_children := 2, last_class := 2,
    neigh_scheme := some 2, prev_neigh_scheme := some 2, destroyed := [] }

/-- The variables of the receive loop on entry: the arrays are allocated for
`num_remotes` ranks and zeroed, no message was received or parsed. -/
def receive_start {σ : Type} (num_remotes : Nat) (ghost : σ) : receive_state σ :=
  { ghost := ghost,
    buffer := List.replicate num_remotes [],
    recv_bytes := List.replicate num_remotes 0,
    received_flag := List.replicate num_remotes 0,
    received_messages := 0,
    last_rank_parsed := -1 }

/-- A message from rank 7, which is no remote rank of the examples. -/
def example_stranger : mpi_message :=
  { MPI_SOURCE := 7, bytes := example_message_a }

/-! ## Theorems -/

/-! ### The remote index -/

theorem sc_hash_array_lookup_some {a : List t8_ghost_remote_t} {r : Int} {i : Nat}
    (h : sc_hash_array_lookup a r = some i) :
    ∃ e, a[i]? = some e ∧ e.remote_rank = r := by
  induction a generalizing i with
  | nil => simp [sc_hash_array_lookup] at h
  | cons x xs ih =>
    simp only [sc_hash_array_lookup] at h
    split at h
    · rename_i hx
      cases h
      exact ⟨x, by simp, hx⟩
    · cases hl : sc_hash_array_lookup xs r with
      | none => simp [hl] at h
      | some j =>
        simp [hl] at h
        subst h
        obtain ⟨e, he, her⟩ := ih hl
        exact ⟨e, by simpa using he, her⟩

theorem element_key_copy {forest : t8_forest_t} (hcopy : copy_preserves_key forest)
    (c : t8_eclass_t) (e : t8_element_t) :
    element_key (forest.scheme c) ((forest.scheme c).t8_element_copy e) =
      element_key (forest.scheme c) e := by
  obtain ⟨h1, h2⟩ := hcopy c e
  simp [element_key, h1, h2]

theorem add_remote_element_eclass (ts : t8_eclass_scheme_c)
    (rt : t8_ghost_remote_tree_t) (e : t8_element_t) :
    (add_remote_element ts rt e).eclass = rt.eclass ∧
    (add_remote_element ts rt e).global_id = rt.global_id ∧
    (add_remote_element ts rt e).mpirank = rt.mpirank ∧
    (add_remote_element ts rt e).elements.elem_size = rt.elements.elem_size := by
  unfold add_remote_element
  split
  · simp
  · simp only []
    split <;> simp

/-- The elements of a remote tree after `add_remote_element`, as a function of
the elements before. -/
theorem add_remote_element_elems (ts : t8_eclass_scheme_c)
    (rt : t8_ghost_remote_tree_t) (e : t8_element_t) :
    (add_remote_element ts rt e).elements.elems =
      match rt.elements.elems.getLast? with
      | none => rt.elements.elems ++ [ts.t8_element_copy e]
      | some last =>
        if element_key ts last = element_key ts e then rt.elements.elems
        else rt.elements.elems ++ [ts.t8_element_copy e] := by
  unfold add_remote_element
  cases h : rt.elements.elems.getLast? with
  | none => simp
  | some last =>
    simp only [element_key, Prod.mk.injEq]
    by_cases h1 : ts.t8_element_level e = ts.t8_element_level last
    · by_cases h2 : ts.t8_element_get_linear_id last (ts.t8_element_level last) =
          ts.t8_element_get_linear_id e (ts.t8_element_level e)
      · simp [h1, h2]
      · rw [h1] at h2
        simp [h1, h2]
    · have h1' : ¬ ts.t8_element_level last = ts.t8_element_level e := fun h => h1 h.symm
      simp [h1, h1']

theorem remote_trees_add_ne_nil (forest : t8_forest_t) (r : Int) (t : Nat)
    (e : t8_element_t) (trees : List t8_ghost_remote_tree_t) :
    remote_trees_add forest r t e trees ≠ [] := by
  unfold remote_trees_add
  simp only []
  split
  · simp
  · split <;> simp

theorem t8_ghost_add_remote_new {forest : t8_forest_t} {g : t8_forest_ghost}
    {r : Int} (t : Nat) (e : t8_element_t)
    (h : sc_hash_array_lookup g.remote_ghosts r = none) :
    t8_ghost_add_remote forest g r t e =
      .ok { g with
            remote_ghosts := g.remote_ghosts ++
              [{ remote_rank := r,
                 remote_trees := remote_trees_add forest r t e [] }],
            remote_processes := g.remote_processes ++ [r] } := by
  simp [t8_ghost_add_remote, h, remote_trees_add]

theorem t8_ghost_add_remote_old {forest : t8_forest_t} {g : t8_forest_ghost}
    {r : Int} {i : Nat} {b : t8_ghost_remote_t} (t : Nat) (e : t8_element_t)
    (h : sc_hash_array_lookup g.remote_ghosts r = some i)
    (hb : g.remote_ghosts[i]? = some b) (hne : b.remote_trees ≠ []) :
    t8_ghost_add_remote forest g r t e =
      .ok { g with
            remote_ghosts := g.remote_ghosts.set i
              { remote_rank := b.remote_rank,
                remote_trees := remote_trees_add forest r t e b.remote_trees } } := by
  obtain ⟨b', hb', hr⟩ := sc_hash_array_lookup_some h
  rw [hb] at hb'
  cases hb'
  obtain ⟨last, hlast⟩ : ∃ last, b.remote_trees.getLast? = some last := by
    cases hl : b.remote_trees.getLast? with
    | none => exact absurd (List.getLast?_eq_none_iff.mp hl) hne
    | some last => exact ⟨last, rfl⟩
  simp only [t8_ghost_add_remote, h, hb, hr, hlast, remote_trees_add]
  by_cases hg : last.global_id = forest.first_local_tree_id + (t : Int)
  · simp [hg]
  · simp [hg]

theorem no_adjacent_duplicates_add {forest : t8_forest_t}
    (hcopy : copy_preserves_key forest) (c : t8_eclass_t)
    (rt : t8_ghost_remote_tree_t) (e : t8_element_t)
    (h : no_adjacent_duplicates (forest.scheme c) rt.elements.elems) :
    no_adjacent_duplicates (forest.scheme c)
      (add_remote_element (forest.scheme c) rt e).elements.elems := by
  rw [add_remote_element_elems]
  unfold no_adjacent_duplicates at *
  cases hl : rt.elements.elems.getLast? with
  | none =>
    have : rt.elements.elems = [] := List.getLast?_eq_none_iff.mp hl
    simp [this]
  | some last =>
    simp only []
    split
    · exact h
    · rename_i hk
      rw [List.chain'_append]
      refine ⟨h, by simp, ?_⟩
      intro x hx y hy
      simp only [hl, Option.mem_def, Option.some.injEq] at hx
      simp only [List.head?_cons, Option.mem_def, Option.some.injEq] at hy
      subst hx hy
      rw [element_key_copy hcopy]
      exact hk

theorem init_remote_tree_ok (forest : t8_forest_t) (r : Int) (t : Nat) :
    remote_tree_ok forest
      (t8_ghost_init_remote_tree forest (forest.first_local_tree_id + (t : Int)) r
        (forest.tree_class t)) := by
  refine ⟨⟨t, rfl, ?_⟩, ?_⟩
  · simp [t8_ghost_init_remote_tree]
  · simp [t8_ghost_init_remote_tree, no_adjacent_duplicates, sc_array_init]

theorem add_remote_element_ok {forest : t8_forest_t}
    (hcopy : copy_preserves_key forest) (rt : t8_ghost_remote_tree_t)
    (e : t8_element_t) (h : remote_tree_ok forest rt) :
    remote_tree_ok forest (add_remote_element (forest.scheme rt.eclass) rt e) := by
  obtain ⟨⟨t, h1, h2⟩, h3⟩ := h
  obtain ⟨e1, e2, _, _⟩ := add_remote_element_eclass (forest.scheme rt.eclass) rt e
  refine ⟨⟨t, by rw [e2, h1], by rw [e1, h2]⟩, ?_⟩
  rw [e1]
  exact no_adjacent_duplicates_add hcopy _ rt e h3

theorem remote_trees_add_ok {forest : t8_forest_t}
    (hcopy : copy_preserves_key forest) (r : Int) (t : Nat) (e : t8_element_t)
    (trees : List t8_ghost_remote_tree_t)
    (h : ∀ rt ∈ trees, remote_tree_ok forest rt) :
    ∀ rt ∈ remote_trees_add forest r t e trees, remote_tree_ok forest rt := by
  have hnew : remote_tree_ok forest
      (add_remote_element (forest.scheme (forest.tree_class t))
        (t8_ghost_init_remote_tree forest (forest.first_local_tree_id + (t : Int)) r
          (forest.tree_class t)) e) := by
    have h0 := init_remote_tree_ok forest r t
    have h1 := add_remote_element_ok hcopy _ e h0
    have h2 : (t8_ghost_init_remote_tree forest
        (forest.first_local_tree_id + (t : Int)) r (forest.tree_class t)).eclass =
        forest.tree_class t := by simp [t8_ghost_init_remote_tree]
    rw [h2] at h1
    exact h1
  unfold remote_trees_add
  simp only []
  cases hl : trees.getLast? with
  | none =>
    intro rt hrt
    simp only [List.mem_singleton] at hrt
    subst hrt
    exact hnew
  | some last =>
    have hmem : last ∈ trees := List.mem_of_getLast?_eq_some hl
    simp only []
    split
    · intro rt hrt
      rcases List.mem_append.mp hrt with h1 | h1
      · exact h rt h1
      · simp only [List.mem_singleton] at h1
        subst h1
        exact hnew
    · rename_i hg
      simp only [ne_eq, Decidable.not_not] at hg
      intro rt hrt
      rcases List.mem_append.mp hrt with h1 | h1
      · exact h rt (List.mem_of_mem_dropLast h1)
      · simp only [List.mem_singleton] at h1
        subst h1
        have hlast := h last hmem
        obtain ⟨⟨t', ht1, ht2⟩, _⟩ := id hlast
        have htt : t' = t := by
          rw [ht1] at hg
          omega
        subst htt
        have := add_remote_element_ok hcopy last e hlast
        rw [ht2] at this
        exact this

/-- A loop in which every round succeeds and keeps an invariant succeeds and
keeps the invariant. -/
theorem foldlM_invariant {α σ : Type} (f : σ → α → Except Failure σ)
    (I : σ → Prop) (h : ∀ s a, I s → ∃ s', f s a = .ok s' ∧ I s') :
    ∀ (l : List α) (s : σ), I s → ∃ s', l.foldlM f s = .ok s' ∧ I s' := by
  intro l
  induction l with
  | nil => intro s hs; exact ⟨s, rfl, hs⟩
  | cons a l ih =>
    intro s hs
    obtain ⟨s1, h1, hI1⟩ := h s a hs
    obtain ⟨s2, h2, hI2⟩ := ih s1 hI1
    refine ⟨s2, ?_, hI2⟩
    simp only [List.foldlM_cons, h1, bind, Except.bind, h2]

theorem t8_ghost_add_remote_ok {forest : t8_forest_t}
    (hcopy : copy_preserves_key forest) (g : t8_forest_ghost) (r : Int) (t : Nat)
    (e : t8_element_t) (h : remote_index_ok forest g) :
    ∃ g', t8_ghost_add_remote forest g r t e = .ok g' ∧ remote_index_ok forest g' := by
  cases hl : sc_hash_array_lookup g.remote_ghosts r with
  | none =>
    refine ⟨_, t8_ghost_add_remote_new t e hl, ?_⟩
    intro b hb
    simp only [List.mem_append, List.mem_singleton] at hb
    rcases hb with hb | hb
    · exact h b hb
    · subst hb
      exact ⟨remote_trees_add_ne_nil forest r t e [],
        remote_trees_add_ok hcopy r t e [] (by simp)⟩
  | some i =>
    obtain ⟨b, hb, _⟩ := sc_hash_array_lookup_some hl
    have hbm : b ∈ g.remote_ghosts := List.getElem?_mem hb
    refine ⟨_, t8_ghost_add_remote_old t e hl hb (h b hbm).1, ?_⟩
    intro b' hb'
    simp only at hb'
    rcases List.mem_or_eq_of_mem_set hb' with h1 | h1
    · exact h b' h1
    · subst h1
      exact ⟨remote_trees_add_ne_nil forest r t e b.remote_trees,
        remote_trees_add_ok hcopy r t e b.remote_trees (h b hbm).2⟩

theorem ghost_new_remote_index_ok (forest : t8_forest_t) :
    remote_index_ok forest ghost_new := by
  intro b hb
  simp [ghost_new] at hb

theorem add_remote_calls_ok {forest : t8_forest_t}
    (hcopy : copy_preserves_key forest) (calls : List add_remote_call)
    (g : t8_forest_ghost) (h : remote_index_ok forest g) :
    ∃ g', add_remote_calls forest g calls = .ok g' ∧ remote_index_ok forest g' :=
  foldlM_invariant _ (remote_index_ok forest)
    (fun s a hs => t8_ghost_add_remote_ok hcopy s a.remote_rank a.ltreeid a.elem hs)
    calls g h

/-- C2 (dedup invariant): starting from the empty ghost layer, every sequence
of calls of `t8_ghost_add_remote` runs to the end, provided the copy of an
element keeps its level and linear id, and afterwards no remote tree of any
entry of `remote_ghosts` holds two adjacent elements that share both level and
linear id. -/
theorem C2_dedup_invariant (forest : t8_forest_t)
    (hcopy : copy_preserves_key forest) (calls : List add_remote_call) :
    ∃ ghost, add_remote_calls forest ghost_new calls = .ok ghost ∧
      ∀ b ∈ ghost.remote_ghosts, ∀ rt ∈ b.remote_trees,
        no_adjacent_duplicates (forest.scheme rt.eclass) rt.elements.elems := by
  obtain ⟨g, hg, hI⟩ :=
    add_remote_calls_ok hcopy calls ghost_new (ghost_new_remote_index_ok forest)
  exact ⟨g, hg, fun b hb rt hrt => ((hI b hb).2 rt hrt).2⟩

theorem C2_dedup_invariant_witness :
    copy_preserves_key example_forest ∧
    ∃ ghost, add_remote_calls example_forest ghost_new
        [⟨1, 0, [1, 0, 7]⟩, ⟨1, 0, [1, 0, 7]⟩, ⟨2, 0, [1, 0, 7]⟩,
         ⟨1, 0, [1, 1, 7]⟩, ⟨1, 1, [2, 4, 9]⟩] = .ok ghost ∧
      ∀ b ∈ ghost.remote_ghosts, ∀ rt ∈ b.remote_trees,
        no_adjacent_duplicates (example_forest.scheme rt.eclass) rt.elements.elems :=
  ⟨fun _ _ => ⟨rfl, fun _ => rfl⟩,
   C2_dedup_invariant example_forest (fun _ _ => ⟨rfl, fun _ => rfl⟩) _⟩


/-! ### The parse routine -/

theorem slots_length (size n : Nat) (bs : List Nat) :
    (slots size n bs).length = n := by
  induction n generalizing bs with
  | zero => rfl
  | succ n ih => simp [slots, ih]

theorem modify_append_last {α : Type} (f : α → α) (l : List α) (x : α) :
    List.modify f l.length (l ++ [x]) = l ++ [f x] := by
  induction l with
  | nil => simp
  | cons a l ih => simp [ih]

theorem T8_ASSERT_ok {line : Nat} {c : Bool} (h : T8_ASSERT line c = .ok ()) :
    c = true := by
  unfold T8_ASSERT at h
  split at h
  · assumption
  · cases h

/-- What one successful round of the tree loop of the parse routine does, in
terms of the tree it read. -/
theorem parse_tree_ok {P : Nat} {forest : t8_forest_t} {buf : List Nat}
    {itree : Nat} {st st' : parse_state}
    (h : parse_tree P forest buf itree st = .ok st') :
    ∃ r : tree_record,
      read_tree_record P forest buf st.bytes_read = .ok (r, st'.bytes_read) ∧
      st'.ghost = ghost_add_record forest st.ghost r ∧
      (∀ found, gtree_hash_lookup st.ghost.global_tree_to_ghost_tree r.global_id
          = some found →
        found.global_id = r.global_id ∧
        ∃ t, st.ghost.ghost_trees[found.index]? = some t ∧
          t.eclass = r.eclass ∧ t.global_id = r.global_id ∧
          t.elements.elem_size = (forest.scheme r.eclass).t8_element_size ∧
          (itree = 0 → st'.first_tree_index = some found.index ∧
            st'.first_element_index = some t.elements.elems.length)) ∧
      (gtree_hash_lookup st.ghost.global_tree_to_ghost_tree r.global_id = none →
        (itree = 0 → st'.first_tree_index = some st.ghost.ghost_trees.length ∧
            st'.first_element_index = some 0)) ∧
      (itree ≠ 0 → st'.first_tree_index = st.first_tree_index ∧
        st'.first_element_index = st.first_element_index) := by
  unfold parse_tree at h
  simp only [bind, Except.bind, pure, Except.pure] at h
  cases hh : parse_tree_header P buf st.bytes_read with
  | error e => simp [hh] at h
  | ok header =>
    simp only [hh] at h
    cases hl : gtree_hash_lookup st.ghost.global_tree_to_ghost_tree header.global_id with
    | none =>
      simp only [hl] at h
      cases hd : read_bytes buf header.bytes_read
          (header.num_elements * (forest.scheme header.eclass).t8_element_size) with
      | error e => simp [hd] at h
      | ok data =>
        simp only [hd, Except.ok.injEq] at h
        subst h
        refine ⟨⟨header.global_id, header.eclass,
          slots (forest.scheme header.eclass).t8_element_size header.num_elements data⟩,
          ?_, ?_, ?_, ?_, ?_⟩
        · simp [read_tree_record, hh, hd]
        · simp [ghost_add_record, hl, slots_length, ghost_tree_insert,
            modify_append_last, sc_array_init, ghost_tree_append]
        · intro found hf
          simp [hl] at hf
        · intro _ h0
          simp [h0]
        · intro h0
          simp [h0]
    | some found =>
      simp only [hl] at h
      cases ha : T8_ASSERT 1040 (decide (found.global_id = header.global_id)) with
      | error e => simp [ha] at h
      | ok u =>
        simp only [ha] at h
        cases ht : st.ghost.ghost_trees[found.index]? with
        | none => simp [ht, throw, throwThe, MonadExceptOf.throw] at h
        | some t =>
          simp only [ht] at h
          cases ha1 : T8_ASSERT 1044 (decide (t.eclass = header.eclass)) with
          | error e => simp [ha1] at h
          | ok u1 =>
            simp only [ha1] at h
            cases ha2 : T8_ASSERT 1045 (decide (t.global_id = header.global_id)) with
            | error e => simp [ha2] at h
            | ok u2 =>
              simp only [ha2] at h
              cases ha3 : T8_ASSERT 1046 (decide (t.elements.elem_size =
                  (forest.scheme header.eclass).t8_element_size)) with
              | error e => simp [ha3] at h
              | ok u3 =>
                simp only [ha3] at h
                cases hd : read_bytes buf header.bytes_read
                    (header.num_elements *
                      (forest.scheme header.eclass).t8_element_size) with
                | error e => simp [hd] at h
                | ok data =>
                  simp only [hd, Except.ok.injEq] at h
                  subst h
                  have e0 := of_decide_eq_true (T8_ASSERT_ok ha)
                  have e1 := of_decide_eq_true (T8_ASSERT_ok ha1)
                  have e2 := of_decide_eq_true (T8_ASSERT_ok ha2)
                  have e3 := of_decide_eq_true (T8_ASSERT_ok ha3)
                  refine ⟨⟨header.global_id, header.eclass,
                    slots (forest.scheme header.eclass).t8_element_size
                      header.num_elements data⟩, ?_, ?_, ?_, ?_, ?_⟩
                  · simp [read_tree_record, hh, hd]
                  · simp [ghost_add_record, hl, slots_length, ghost_tree_insert]
                  · intro found' hf
                    simp only [hl, Option.some.injEq] at hf
                    subst hf
                    refine ⟨e0, t, ht, e1, e2, e3, ?_⟩
                    intro h0
                    simp [h0, sc_array_t.elem_count]
                  · intro hn
                    simp [hl] at hn
                  · intro h0
                    simp [h0]

/-- The tree loop of the parse routine reads the trees of the message one
after the other and adds each of them to the ghost structure. -/
theorem parse_trees_ok {P : Nat} {forest : t8_forest_t} {buf : List Nat} :
    ∀ (n itree : Nat) (st st' : parse_state),
      parse_trees P forest buf n itree st = .ok st' →
      ∃ rs : List tree_record,
        read_tree_records P forest buf n st.bytes_read = .ok (rs, st'.bytes_read) ∧
        st'.ghost = rs.foldl (ghost_add_record forest) st.ghost ∧
        rs.length = n := by
  intro n
  induction n with
  | zero =>
    intro itree st st' h
    simp only [parse_trees, Except.ok.injEq] at h
    subst h
    exact ⟨[], rfl, rfl, rfl⟩
  | succ n ih =>
    intro itree st st' h
    simp only [parse_trees] at h
    cases h1 : parse_tree P forest buf itree st with
    | error e => simp [h1] at h
    | ok st1 =>
      simp only [h1] at h
      obtain ⟨r, hr, hg, _⟩ := parse_tree_ok h1
      obtain ⟨rs, hrs, hgs, hlen⟩ := ih (itree + 1) st1 st' h
      refine ⟨r :: rs, ?_, ?_, by simp [hlen]⟩
      · simp [read_tree_records, hr, hrs]
      · simp [hgs, hg]

theorem parse_trees_first {P : Nat} {forest : t8_forest_t} {buf : List Nat} :
    ∀ (n itree : Nat) (st st' : parse_state),
      parse_trees P forest buf n itree st = .ok st' → itree ≠ 0 →
      st'.first_tree_index = st.first_tree_index ∧
      st'.first_element_index = st.first_element_index := by
  intro n
  induction n with
  | zero =>
    intro itree st st' h _
    simp only [parse_trees, Except.ok.injEq] at h
    subst h
    exact ⟨rfl, rfl⟩
  | succ n ih =>
    intro itree st st' h h0
    simp only [parse_trees] at h
    cases h1 : parse_tree P forest buf itree st with
    | error e => simp [h1] at h
    | ok st1 =>
      simp only [h1] at h
      obtain ⟨r, _, _, _, _, hkeep⟩ := parse_tree_ok h1
      obtain ⟨e1, e2⟩ := ih (itree + 1) st1 st' h (by omega)
      obtain ⟨k1, k2⟩ := hkeep h0
      exact ⟨e1.trans k1, e2.trans k2⟩

theorem foldl_ghost_add_record_frame (forest : t8_forest_t)
    (rs : List tree_record) (g : t8_forest_ghost) :
    (rs.foldl (ghost_add_record forest) g).process_offsets = g.process_offsets ∧
    (rs.foldl (ghost_add_record forest) g).remote_ghosts = g.remote_ghosts ∧
    (rs.foldl (ghost_add_record forest) g).remote_processes = g.remote_processes ∧
    (rs.foldl (ghost_add_record forest) g).num_remote_elements =
      g.num_remote_elements ∧
    (rs.foldl (ghost_add_record forest) g).rc = g.rc ∧
    (rs.foldl (ghost_add_record forest) g).ghost_type = g.ghost_type := by
  induction rs generalizing g with
  | nil => simp
  | cons r rs ih =>
    simp only [List.foldl_cons]
    obtain ⟨h1, h2, h3, h4, h5, h6⟩ := ih (ghost_add_record forest g r)
    have hstep : (ghost_add_record forest g r).process_offsets = g.process_offsets ∧
        (ghost_add_record forest g r).remote_ghosts = g.remote_ghosts ∧
        (ghost_add_record forest g r).remote_processes = g.remote_processes ∧
        (ghost_add_record forest g r).num_remote_elements = g.num_remote_elements ∧
        (ghost_add_record forest g r).rc = g.rc ∧
        (ghost_add_record forest g r).ghost_type = g.ghost_type := by
      unfold ghost_add_record
      split <;> simp
    obtain ⟨s1, s2, s3, s4, s5, s6⟩ := hstep
    exact ⟨h1.trans s1, h2.trans s2, h3.trans s3, h4.trans s4, h5.trans s5,
      h6.trans s6⟩

/-- What a successful call of the parse routine does: the trees of the message
are added one after the other, then the sender is entered into
`process_offsets`, where it was not present before. -/
theorem parse_received_message_ok {P : Nat} {forest : t8_forest_t}
    {g g' : t8_forest_ghost} {r : Int} {buf : List Nat} {n : Int}
    (h : t8_forest_ghost_parse_received_message P forest g r buf n = .ok g') :
    ∃ (rs : List tree_record) (fti fei : Option Nat),
      message_records P forest buf = .ok rs ∧
      process_hash_lookup g.process_offsets r = none ∧
      g' = { rs.foldl (ghost_add_record forest) g with
             process_offsets := g.process_offsets ++
               [{ mpirank := r, tree_index := fti, first_element := fei }] } := by
  unfold t8_forest_ghost_parse_received_message at h
  simp only [bind, Except.bind, pure, Except.pure] at h
  cases hc : read_size_t buf 0 with
  | error e => simp [hc] at h
  | ok count =>
    simp only [hc, Nat.zero_add] at h
    cases hp : parse_trees P forest buf (locidx_of_size_t count).toNat 0
        { ghost := g,
          bytes_read := sizeof_size_t + T8_ADD_PADDING P sizeof_size_t,
          first_tree_index := none, first_element_index := none } with
    | error e => rw [hp] at h; simp at h
    | ok st =>
      rw [hp] at h
      simp only [] at h
      cases ha : T8_ASSERT 1070 (decide (st.bytes_read = size_t_of_int n)) with
      | error e => simp [ha] at h
      | ok u =>
        simp only [ha] at h
        obtain ⟨rs, hrs, hg, _⟩ := parse_trees_ok _ _ _ _ hp
        have hframe := (foldl_ghost_add_record_frame forest rs g).1
        cases hl : process_hash_lookup st.ghost.process_offsets r with
        | some x => simp [hl, throw, throwThe, MonadExceptOf.throw] at h
        | none =>
          simp only [hl, Except.ok.injEq] at h
          refine ⟨rs, st.first_tree_index, st.first_element_index, ?_, ?_, ?_⟩
          · simp only [Nat.zero_add] at hrs ⊢
            simp [message_records, hc, hrs]
          · rw [hg, hframe] at hl
            exact hl
          · rw [← h, hg, hframe]


theorem map_modify_of_eq {α β : Type} (g : α → β) (f : α → α)
    (h : ∀ x, g (f x) = g x) : ∀ (n : Nat) (l : List α),
    (List.modify f n l).map g = l.map g := by
  intro n l
  induction l generalizing n with
  | nil => simp
  | cons a l ih =>
    cases n with
    | zero => simp [h]
    | succ n => simp [ih]

theorem gtree_hash_lookup_none {table : List t8_ghost_gtree_hash_t} {gid : Int}
    (h : gtree_hash_lookup table gid = none) : ∀ e ∈ table, e.global_id ≠ gid := by
  intro e he
  have := List.find?_eq_none.mp h e he
  simpa using this

theorem gtree_hash_lookup_some {table : List t8_ghost_gtree_hash_t} {gid : Int}
    {found : t8_ghost_gtree_hash_t} (h : gtree_hash_lookup table gid = some found) :
    found ∈ table ∧ found.global_id = gid := by
  refine ⟨List.mem_of_find?_eq_some h, ?_⟩
  have := List.find?_some h
  simpa using this

theorem ghost_index_ok_new : ghost_index_ok ghost_new := by
  refine ⟨rfl, ?_, ?_⟩
  · intro i t h
    simp [ghost_new] at h
  · simp [ghost_new]

/-- Under the invariant, a tree with the global id exists exactly when the
hash table finds the id, and then the entry found names the position of the
tree. -/
theorem ghost_index_lookup {g : t8_forest_ghost} (hok : ghost_index_ok g)
    {gid : Int} {found : t8_ghost_gtree_hash_t}
    (h : gtree_hash_lookup g.global_tree_to_ghost_tree gid = some found) :
    ∃ t, g.ghost_trees[found.index]? = some t ∧ t.global_id = gid := by
  obtain ⟨hm, hg⟩ := gtree_hash_lookup_some h
  obtain ⟨hlen, hidx, _⟩ := hok
  obtain ⟨i, hi⟩ := List.mem_iff_getElem?.mp hm
  have hlt : i < g.ghost_trees.length := by
    have := (List.getElem?_eq_some_iff.mp hi).1
    omega
  have ht : g.ghost_trees[i]? = some g.ghost_trees[i] := List.getElem?_eq_getElem hlt
  have := hidx i _ ht
  rw [hi] at this
  simp only [Option.some.injEq] at this
  subst this
  exact ⟨g.ghost_trees[i], ht, hg⟩

theorem ghost_index_no_tree {g : t8_forest_ghost} (hok : ghost_index_ok g)
    {gid : Int} (h : gtree_hash_lookup g.global_tree_to_ghost_tree gid = none) :
    ∀ t ∈ g.ghost_trees, t.global_id ≠ gid := by
  intro t ht hg
  obtain ⟨i, hi⟩ := List.mem_iff_getElem?.mp ht
  have := hok.2.1 i t hi
  exact gtree_hash_lookup_none h _ (List.getElem?_mem this) hg

theorem ghost_add_record_index_ok (forest : t8_forest_t) {g : t8_forest_ghost}
    (hok : ghost_index_ok g) (r : tree_record) :
    ghost_index_ok (ghost_add_record forest g r) := by
  unfold ghost_add_record
  cases hl : gtree_hash_lookup g.global_tree_to_ghost_tree r.global_id with
  | none =>
    have hno := ghost_index_no_tree hok hl
    obtain ⟨hlen, hidx, hnd⟩ := hok
    refine ⟨by simp [hlen], ?_, ?_⟩
    · intro i t hi
      simp only at hi ⊢
      by_cases hlt : i < g.ghost_trees.length
      · rw [List.getElem?_append_left hlt] at hi
        rw [List.getElem?_append_left (by omega)]
        exact hidx i t hi
      · have hge : g.ghost_trees.length ≤ i := by omega
        rw [List.getElem?_append_right hge] at hi
        rw [List.getElem?_append_right (by omega)]
        have hi0 : i - g.ghost_trees.length = 0 := by
          by_contra hne
          have : i - g.ghost_trees.length ≥ 1 := by omega
          obtain ⟨k, hk⟩ : ∃ k, i - g.ghost_trees.length = k + 1 := ⟨_, (Nat.sub_add_cancel this).symm⟩
          rw [hk] at hi
          simp at hi
        rw [hi0] at hi
        simp only [List.getElem?_cons_zero, Option.some.injEq] at hi
        subst hi
        have : i = g.ghost_trees.length := by omega
        subst this
        simp [hlen]
    · simp only [List.map_append, List.map_cons, List.map_nil]
      rw [List.nodup_append]
      refine ⟨hnd, by simp, ?_⟩
      intro a ha hb
      simp only [List.mem_singleton] at hb
      subst hb
      obtain ⟨t, ht, hg⟩ := List.mem_map.mp ha
      exact hno t ht hg
  | some found =>
    obtain ⟨hlen, hidx, hnd⟩ := hok
    refine ⟨by simp [hlen], ?_, ?_⟩
    · intro i t hi
      simp only at hi ⊢
      rw [List.getElem?_modify] at hi
      cases ho : g.ghost_trees[i]? with
      | none => simp [ho] at hi
      | some t0 =>
        rw [ho] at hi
        have h0 := hidx i t0 ho
        by_cases hfi : found.index = i
        · simp [hfi] at hi
          subst hi
          simpa [ghost_tree_append] using h0
        · simp [hfi] at hi
          subst hi
          exact h0
    · simp only
      rw [map_modify_of_eq (fun t : t8_ghost_tree_t => t.global_id)
        (ghost_tree_append r.elems) (fun _ => rfl)]
      exact hnd

theorem foldl_ghost_add_record_index_ok (forest : t8_forest_t)
    (rs : List tree_record) {g : t8_forest_ghost} (hok : ghost_index_ok g) :
    ghost_index_ok (rs.foldl (ghost_add_record forest) g) := by
  induction rs generalizing g with
  | nil => exact hok
  | cons r rs ih => exact ih (ghost_add_record_index_ok forest hok r)

theorem parse_received_message_index_ok {P : Nat} {forest : t8_forest_t}
    {g g' : t8_forest_ghost} {r : Int} {buf : List Nat} {n : Int}
    (hok : ghost_index_ok g)
    (h : t8_forest_ghost_parse_received_message P forest g r buf n = .ok g') :
    ghost_index_ok g' := by
  obtain ⟨rs, fti, fei, _, _, hg⟩ := parse_received_message_ok h
  have := foldl_ghost_add_record_index_ok forest rs hok
  subst hg
  exact this

/-- A loop that keeps an invariant whenever a round succeeds keeps it when the
whole loop succeeds. -/
theorem foldlM_preserves {α σ : Type} (f : σ → α → Except Failure σ)
    (I : σ → Prop) (h : ∀ s a s', I s → f s a = .ok s' → I s') :
    ∀ (l : List α) (s s' : σ), I s → l.foldlM f s = .ok s' → I s' := by
  intro l
  induction l with
  | nil =>
    intro s s' hs hr
    simp only [List.foldlM_nil, pure, Except.pure, Except.ok.injEq] at hr
    subst hr
    exact hs
  | cons a l ih =>
    intro s s' hs hr
    simp only [List.foldlM_cons, bind, Except.bind] at hr
    cases h1 : f s a with
    | error e => simp [h1] at hr
    | ok s1 =>
      simp only [h1] at hr
      exact ih s1 s' (h s a s1 hs h1) hr

theorem parse_calls_index_ok {P : Nat} {forest : t8_forest_t}
    (calls : List parse_call) {g g' : t8_forest_ghost} (hok : ghost_index_ok g)
    (h : parse_calls P forest g calls = .ok g') : ghost_index_ok g' :=
  foldlM_preserves _ ghost_index_ok
    (fun _ _ _ hs hr => parse_received_message_index_ok hs hr) calls g g' hok h


/-- C8 (ghost tree uniqueness): after any sequence of calls of
`t8_forest_ghost_parse_received_message` on the empty ghost structure that
runs to the end, no two entries of `ghost_trees` have the same global tree id;
the messages may come from several senders and name the same global ids. -/
theorem C8_ghost_tree_unique (P : Nat) (forest : t8_forest_t)
    (calls : List parse_call) (ghost : t8_forest_ghost)
    (h : parse_calls P forest ghost_new calls = .ok ghost) :
    (ghost.ghost_trees.map (·.global_id)).Nodup :=
  (parse_calls_index_ok calls ghost_index_ok_new h).2.2

theorem C8_ghost_tree_unique_witness :
    parse_calls 8 example_forest ghost_new example_parse_calls =
      .ok example_ghost_parsed ∧
    (example_ghost_parsed.ghost_trees.map (·.global_id)).Nodup :=
  ⟨rfl, C8_ghost_tree_unique 8 example_forest example_parse_calls
    example_ghost_parsed rfl⟩

theorem ghost_index_ok_lookup_self {g : t8_forest_ghost} (hok : ghost_index_ok g)
    {i : Nat} {t : t8_ghost_tree_t} (ht : g.ghost_trees[i]? = some t) :
    gtree_hash_lookup g.global_tree_to_ghost_tree t.global_id =
      some { global_id := t.global_id, index := i } := by
  have hent := hok.2.1 i t ht
  cases hl : gtree_hash_lookup g.global_tree_to_ghost_tree t.global_id with
  | none =>
    exact absurd rfl (gtree_hash_lookup_none hl _ (List.getElem?_mem hent))
  | some found =>
    obtain ⟨t', ht', hg'⟩ := ghost_index_lookup hok hl
    obtain ⟨hm, hfg⟩ := gtree_hash_lookup_some hl
    -- the two trees have the same global id, hence the same position
    have hnd := hok.2.2
    have hi : i < g.ghost_trees.length := (List.getElem?_eq_some_iff.mp ht).1
    have hj : found.index < g.ghost_trees.length :=
      (List.getElem?_eq_some_iff.mp ht').1
    have e1 : (g.ghost_trees.map (·.global_id))[i]? = some t.global_id := by
      simp [ht]
    have e2 : (g.ghost_trees.map (·.global_id))[found.index]? = some t.global_id := by
      simp [ht', hg']
    have hij : found.index = i := by
      have hi' : i < (g.ghost_trees.map (·.global_id)).length := by simpa using hi
      have hj' : found.index < (g.ghost_trees.map (·.global_id)).length := by
        simpa using hj
      have a1 := (List.getElem?_eq_some_iff.mp e1).2
      have a2 := (List.getElem?_eq_some_iff.mp e2).2
      exact (List.Nodup.getElem_inj_iff hnd).mp (a2.trans a1.symm)
    cases found with
    | mk fg fi =>
      simp only at hfg hij
      subst hfg hij
      rfl

/-- C9 (global id map consistency): after any sequence of parse calls on the
empty ghost structure that runs to the end, the entry that
`global_tree_to_ghost_tree` holds for the global id of `ghost_trees[i]` has
index `i`, and every entry of the map names an existing ghost tree with the
global id of the entry. -/
theorem C9_global_id_map_consistent (P : Nat) (forest : t8_forest_t)
    (calls : List parse_call) (ghost : t8_forest_ghost)
    (h : parse_calls P forest ghost_new calls = .ok ghost) :
    (∀ (i : Nat) (t : t8_ghost_tree_t), ghost.ghost_trees[i]? = some t →
      gtree_hash_lookup ghost.global_tree_to_ghost_tree t.global_id =
        some { global_id := t.global_id, index := i }) ∧
    (∀ e ∈ ghost.global_tree_to_ghost_tree,
      ∃ t, ghost.ghost_trees[e.index]? = some t ∧ t.global_id = e.global_id) := by
  have hok := parse_calls_index_ok calls ghost_index_ok_new h
  refine ⟨fun i t ht => ghost_index_ok_lookup_self hok ht, ?_⟩
  intro e he
  obtain ⟨i, hi⟩ := List.mem_iff_getElem?.mp he
  have hlt : i < ghost.ghost_trees.length := by
    have := (List.getElem?_eq_some_iff.mp hi).1
    have := hok.1
    omega
  have ht : ghost.ghost_trees[i]? = some ghost.ghost_trees[i] :=
    List.getElem?_eq_getElem hlt
  have := hok.2.1 i _ ht
  rw [hi] at this
  simp only [Option.some.injEq] at this
  subst this
  exact ⟨ghost.ghost_trees[i], ht, rfl⟩

theorem C9_global_id_map_consistent_witness :
    parse_calls 8 example_forest ghost_new example_parse_calls =
      .ok example_ghost_parsed ∧
    (∀ (i : Nat) (t : t8_ghost_tree_t),
      example_ghost_parsed.ghost_trees[i]? = some t →
      gtree_hash_lookup example_ghost_parsed.global_tree_to_ghost_tree t.global_id =
        some { global_id := t.global_id, index := i }) ∧
    (∀ e ∈ example_ghost_parsed.global_tree_to_ghost_tree,
      ∃ t, example_ghost_parsed.ghost_trees[e.index]? = some t ∧
        t.global_id = e.global_id) :=
  ⟨rfl, C9_global_id_map_consistent 8 example_forest example_parse_calls
    example_ghost_parsed rfl⟩

theorem ghost_trees_extend_refl (l : List t8_ghost_tree_t) :
    ghost_trees_extend l l :=
  ⟨Nat.le_refl _, fun _ t ht => ⟨t, ht, rfl, rfl, rfl, [], by simp⟩⟩

theorem ghost_trees_extend_trans {a b c : List t8_ghost_tree_t}
    (h1 : ghost_trees_extend a b) (h2 : ghost_trees_extend b c) :
    ghost_trees_extend a c := by
  refine ⟨Nat.le_trans h1.1 h2.1, ?_⟩
  intro i t ht
  obtain ⟨t1, ht1, g1, c1, s1, x1, e1⟩ := h1.2 i t ht
  obtain ⟨t2, ht2, g2, c2, s2, x2, e2⟩ := h2.2 i t1 ht1
  exact ⟨t2, ht2, g2.trans g1, c2.trans c1, s2.trans s1, x1 ++ x2,
    by rw [e2, e1, List.append_assoc]⟩

theorem ghost_add_record_extend (forest : t8_forest_t) (g : t8_forest_ghost)
    (r : tree_record) :
    ghost_trees_extend g.ghost_trees (ghost_add_record forest g r).ghost_trees := by
  unfold ghost_add_record
  split
  · refine ⟨by simp, ?_⟩
    intro i t ht
    have hlt : i < g.ghost_trees.length := (List.getElem?_eq_some_iff.mp ht).1
    refine ⟨t, ?_, rfl, rfl, rfl, [], by simp⟩
    simp only
    rw [List.getElem?_append_left hlt]
    exact ht
  · rename_i found _
    refine ⟨by simp, ?_⟩
    intro i t ht
    simp only
    rw [List.getElem?_modify, ht]
    by_cases hfi : found.index = i
    · exact ⟨ghost_tree_append r.elems t, by simp [hfi], rfl, rfl, rfl, r.elems, rfl⟩
    · exact ⟨t, by simp [hfi], rfl, rfl, rfl, [], by simp⟩

theorem foldl_ghost_add_record_extend (forest : t8_forest_t)
    (rs : List tree_record) (g : t8_forest_ghost) :
    ghost_trees_extend g.ghost_trees
      (rs.foldl (ghost_add_record forest) g).ghost_trees := by
  induction rs generalizing g with
  | nil => exact ghost_trees_extend_refl _
  | cons r rs ih =>
    exact ghost_trees_extend_trans (ghost_add_record_extend forest g r)
      (ih (ghost_add_record forest g r))

/-- C10 (ghost tree stability): a call of the parse routine that runs to the
end keeps every ghost tree that existed before at its position, with its
global id, class and element size, and keeps its elements as the leading part
of its element array; new ghost trees and new elements are appended at the
end only. -/
theorem C10_ghost_tree_stability (P : Nat) (forest : t8_forest_t)
    (ghost ghost' : t8_forest_ghost) (recv_rank : Int) (recv_buffer : List Nat)
    (recv_bytes : Int)
    (h : t8_forest_ghost_parse_received_message P forest ghost recv_rank
      recv_buffer recv_bytes = .ok ghost') :
    ghost.ghost_trees.length ≤ ghost'.ghost_trees.length ∧
    ∀ (i : Nat) (t : t8_ghost_tree_t), ghost.ghost_trees[i]? = some t →
      ∃ t', ghost'.ghost_trees[i]? = some t' ∧ t'.global_id = t.global_id ∧
        t'.eclass = t.eclass ∧
        t'.elements.elem_size = t.elements.elem_size ∧
        ∃ added, t'.elements.elems = t.elements.elems ++ added := by
  obtain ⟨rs, fti, fei, _, _, hg⟩ := parse_received_message_ok h
  have := foldl_ghost_add_record_extend forest rs ghost
  subst hg
  exact this

theorem C10_ghost_tree_stability_witness :
    t8_forest_ghost_parse_received_message 8 example_forest example_ghost_first 2
      example_message_b 72 = .ok example_ghost_parsed ∧
    example_ghost_first.ghost_trees.length ≤
      example_ghost_parsed.ghost_trees.length ∧
    ∀ (i : Nat) (t : t8_ghost_tree_t),
      example_ghost_first.ghost_trees[i]? = some t →
      ∃ t', example_ghost_parsed.ghost_trees[i]? = some t' ∧
        t'.global_id = t.global_id ∧ t'.eclass = t.eclass ∧
        t'.elements.elem_size = t.elements.elem_size ∧
        ∃ added, t'.elements.elems = t.elements.elems ++ added :=
  ⟨rfl, C10_ghost_tree_stability 8 example_forest example_ghost_first
    example_ghost_parsed 2 example_message_b 72 rfl⟩


theorem ghost_tree_elements_append (a b : List t8_ghost_tree_t) (gid : Int) :
    ghost_tree_elements (a ++ b) gid =
      ghost_tree_elements a gid ++ ghost_tree_elements b gid := by
  simp [ghost_tree_elements, List.filter_append, List.flatMap_append]

theorem ghost_tree_elements_single (t : t8_ghost_tree_t) (gid : Int) :
    ghost_tree_elements [t] gid =
      if t.global_id = gid then t.elements.elems else [] := by
  by_cases h : t.global_id = gid <;> simp [ghost_tree_elements, List.filter, h]

theorem ghost_tree_elements_none (l : List t8_ghost_tree_t) (gid : Int)
    (h : ∀ t ∈ l, t.global_id ≠ gid) : ghost_tree_elements l gid = [] := by
  have : l.filter (fun t => decide (t.global_id = gid)) = [] := by
    rw [List.filter_eq_nil_iff]
    intro t ht
    simpa using h t ht
  simp [ghost_tree_elements, this]

theorem ghost_tree_elements_cons (t : t8_ghost_tree_t) (l : List t8_ghost_tree_t)
    (gid : Int) :
    ghost_tree_elements (t :: l) gid =
      ghost_tree_elements [t] gid ++ ghost_tree_elements l gid :=
  ghost_tree_elements_append [t] l gid

/-- Adding a tree read from a message appends its elements to the elements
held for its global id and leaves the elements of other ids alone. -/
theorem ghost_add_record_elements (forest : t8_forest_t) {g : t8_forest_ghost}
    (hok : ghost_index_ok g) (r : tree_record) (gid : Int) :
    ghost_tree_elements (ghost_add_record forest g r).ghost_trees gid =
      ghost_tree_elements g.ghost_trees gid ++
        (if r.global_id = gid then r.elems else []) := by
  unfold ghost_add_record
  cases hl : gtree_hash_lookup g.global_tree_to_ghost_tree r.global_id with
  | none =>
    simp only
    rw [ghost_tree_elements_append, ghost_tree_elements_single]
  | some found =>
    simp only
    obtain ⟨t, ht, hg⟩ := ghost_index_lookup hok hl
    have hlt : found.index < g.ghost_trees.length :=
      (List.getElem?_eq_some_iff.mp ht).1
    obtain ⟨A, a, B, hsplit, hlen, hmod⟩ :=
      List.exists_of_modify (ghost_tree_append r.elems) hlt
    rw [hmod]
    have ha : a = t := by
      rw [hsplit] at ht
      rw [List.getElem?_append_right (by omega)] at ht
      simpa [hlen] using ht
    subst ha
    have hnd := hok.2.2
    rw [hsplit] at hnd ⊢
    simp only [List.map_append, List.map_cons] at hnd
    rw [ghost_tree_elements_append, ghost_tree_elements_cons,
      ghost_tree_elements_append A, ghost_tree_elements_cons a B,
      ghost_tree_elements_single, ghost_tree_elements_single]
    by_cases hgid : r.global_id = gid
    · subst hgid
      have hA : ghost_tree_elements A r.global_id = [] := by
        apply ghost_tree_elements_none
        intro x hx hxg
        have h1 := (List.nodup_append.mp hnd).2.2
        exact h1 (List.mem_map.mpr ⟨x, hx, hxg.trans hg.symm⟩) (by simp)
      have hB : ghost_tree_elements B r.global_id = [] := by
        apply ghost_tree_elements_none
        intro x hx hxg
        have h1 := (List.nodup_append.mp hnd).2.1
        have h2 := (List.nodup_cons.mp h1).1
        exact h2 (List.mem_map.mpr ⟨x, hx, hxg.trans hg.symm⟩)
      simp [hA, hB, hg, ghost_tree_append]
    · have hne : ¬ a.global_id = gid := fun h => hgid (hg.symm.trans h)
      simp [hgid, hne, ghost_tree_append]

theorem foldl_ghost_add_record_elements (forest : t8_forest_t)
    (rs : List tree_record) {g : t8_forest_ghost} (hok : ghost_index_ok g)
    (gid : Int) :
    ghost_tree_elements (rs.foldl (ghost_add_record forest) g).ghost_trees gid =
      ghost_tree_elements g.ghost_trees gid ++ records_block rs gid := by
  induction rs generalizing g with
  | nil => simp [records_block]
  | cons r rs ih =>
    simp only [List.foldl_cons]
    rw [ih (ghost_add_record_index_ok forest hok r),
      ghost_add_record_elements forest hok, List.append_assoc]
    congr 1
    by_cases h : r.global_id = gid <;> simp [records_block, List.filter, h]

theorem parse_received_message_elements {P : Nat} {forest : t8_forest_t}
    {g g' : t8_forest_ghost} {r : Int} {buf : List Nat} {n : Int}
    (hok : ghost_index_ok g)
    (h : t8_forest_ghost_parse_received_message P forest g r buf n = .ok g')
    (gid : Int) :
    ghost_tree_elements g'.ghost_trees gid =
      ghost_tree_elements g.ghost_trees gid ++ message_block P forest buf gid := by
  obtain ⟨rs, fti, fei, hrs, _, hg⟩ := parse_received_message_ok h
  subst hg
  simp only [message_block, hrs]
  exact foldl_ghost_add_record_elements forest rs hok gid

theorem parse_calls_elements {P : Nat} {forest : t8_forest_t}
    (calls : List parse_call) :
    ∀ {g g' : t8_forest_ghost}, ghost_index_ok g →
      parse_calls P forest g calls = .ok g' → ∀ gid : Int,
      ghost_tree_elements g'.ghost_trees gid =
        ghost_tree_elements g.ghost_trees gid ++
          calls.flatMap (fun c => message_block P forest c.recv_buffer gid) := by
  induction calls with
  | nil =>
    intro g g' _ h gid
    simp only [parse_calls, List.foldlM_nil, pure, Except.pure, Except.ok.injEq] at h
    subst h
    simp
  | cons c calls ih =>
    intro g g' hok h gid
    simp only [parse_calls, List.foldlM_cons, bind, Except.bind] at h
    cases h1 : t8_forest_ghost_parse_received_message P forest g c.recv_rank
        c.recv_buffer c.recv_bytes with
    | error e => simp [h1] at h
    | ok g1 =>
      simp only [h1] at h
      have hok1 := parse_received_message_index_ok hok h1
      have := ih hok1 h gid
      rw [this, parse_received_message_elements hok h1, List.append_assoc]
      simp

/-- With pairwise different global ids, the elements held for the global id of
a ghost tree are the elements of that tree. -/
theorem ghost_tree_elements_of_mem {l : List t8_ghost_tree_t}
    (hnd : (l.map (·.global_id)).Nodup) {t : t8_ghost_tree_t} (ht : t ∈ l) :
    ghost_tree_elements l t.global_id = t.elements.elems := by
  obtain ⟨A, B, hsplit⟩ := List.append_of_mem ht
  subst hsplit
  simp only [List.map_append, List.map_cons] at hnd
  rw [ghost_tree_elements_append, ghost_tree_elements_cons,
    ghost_tree_elements_single]
  have hA : ghost_tree_elements A t.global_id = [] := by
    apply ghost_tree_elements_none
    intro x hx hxg
    exact (List.nodup_append.mp hnd).2.2 (List.mem_map.mpr ⟨x, hx, hxg⟩) (by simp)
  have hB : ghost_tree_elements B t.global_id = [] := by
    apply ghost_tree_elements_none
    intro x hx hxg
    exact (List.nodup_cons.mp (List.nodup_append.mp hnd).2.1).1
      (List.mem_map.mpr ⟨x, hx, hxg⟩)
  simp [hA, hB]

/-- C7 (blocks within a ghost tree): after any sequence of parse calls on the
empty ghost structure that runs to the end, the element array of every ghost
tree is the concatenation, in the order of the calls, of the blocks that the
messages hold for the global id of the tree.  So the elements of one sender
are contiguous, the blocks of different senders appear in the order in which
their messages were ingested, and every call appends its block at the end. -/
theorem C7_sender_blocks_in_order (P : Nat) (forest : t8_forest_t)
    (calls : List parse_call) (ghost : t8_forest_ghost)
    (h : parse_calls P forest ghost_new calls = .ok ghost) :
    ∀ t ∈ ghost.ghost_trees,
      t.elements.elems =
        calls.flatMap (fun c => message_block P forest c.recv_buffer t.global_id) := by
  intro t ht
  have hok := parse_calls_index_ok calls ghost_index_ok_new h
  have := parse_calls_elements calls ghost_index_ok_new h t.global_id
  rw [ghost_tree_elements_of_mem hok.2.2 ht] at this
  rw [this]
  simp [ghost_new, ghost_tree_elements]

theorem C7_sender_blocks_in_order_witness :
    parse_calls 8 example_forest ghost_new example_parse_calls =
      .ok example_ghost_parsed ∧
    ∀ t ∈ example_ghost_parsed.ghost_trees,
      t.elements.elems =
        example_parse_calls.flatMap
          (fun c => message_block 8 example_forest c.recv_buffer t.global_id) :=
  ⟨rfl, C7_sender_blocks_in_order 8 example_forest example_parse_calls
    example_ghost_parsed rfl⟩


theorem process_hash_lookup_append_new {table : List t8_ghost_process_hash_t}
    {r : Int} (h : process_hash_lookup table r = none)
    (e : t8_ghost_process_hash_t) (he : e.mpirank = r) :
    process_hash_lookup (table ++ [e]) r = some e := by
  unfold process_hash_lookup at *
  rw [List.find?_append, h]
  simp [he]

/-- The entry that a successful call of the parse routine stores for the
sender when the message holds at least one tree: the position of the ghost
tree of the first tree and the number of elements it held before. -/
theorem parse_received_message_first {P : Nat} {forest : t8_forest_t}
    {g g' : t8_forest_ghost} {r : Int} {buf : List Nat} {n : Int}
    (h : t8_forest_ghost_parse_received_message P forest g r buf n = .ok g')
    {rec0 : tree_record} {rest : List tree_record}
    (hrec : message_records P forest buf = .ok (rec0 :: rest)) :
    ∃ (i k : Nat),
      g' = { (rest.foldl (ghost_add_record forest)
              (ghost_add_record forest g rec0)) with
             process_offsets := g.process_offsets ++
               [{ mpirank := r, tree_index := some i, first_element := some k }] } ∧
      process_hash_lookup g.process_offsets r = none ∧
      ((gtree_hash_lookup g.global_tree_to_ghost_tree rec0.global_id = none ∧
          i = g.ghost_trees.length ∧ k = 0) ∨
       (∃ found t,
          gtree_hash_lookup g.global_tree_to_ghost_tree rec0.global_id = some found ∧
          i = found.index ∧ g.ghost_trees[i]? = some t ∧
          t.global_id = rec0.global_id ∧ k = t.elements.elems.length)) := by
  unfold t8_forest_ghost_parse_received_message at h
  simp only [bind, Except.bind, pure, Except.pure] at h
  unfold message_records at hrec
  cases hc : read_size_t buf 0 with
  | error e => simp [hc] at h
  | ok count =>
    simp only [hc, Nat.zero_add] at h hrec
    cases hp : parse_trees P forest buf (locidx_of_size_t count).toNat 0
        { ghost := g,
          bytes_read := sizeof_size_t + T8_ADD_PADDING P sizeof_size_t,
          first_tree_index := none, first_element_index := none } with
    | error e => rw [hp] at h; simp at h
    | ok st =>
      rw [hp] at h
      simp only [] at h
      cases ha : T8_ASSERT 1070 (decide (st.bytes_read = size_t_of_int n)) with
      | error e => simp [ha] at h
      | ok u =>
        simp only [ha] at h
        obtain ⟨rs, hrs, hg, hlen⟩ := parse_trees_ok _ _ _ _ hp
        simp only at hrs hg
        rw [hrs] at hrec
        simp only [Except.ok.injEq] at hrec
        subst hrec
        have hframe := (foldl_ghost_add_record_frame forest (rec0 :: rest) g).1
        cases hl : process_hash_lookup st.ghost.process_offsets r with
        | some x => simp [hl, throw, throwThe, MonadExceptOf.throw] at h
        | none =>
          simp only [hl, Except.ok.injEq] at h
          rw [hg, hframe] at hl
          -- the first round of the tree loop
          obtain ⟨m, hm⟩ : ∃ m, (locidx_of_size_t count).toNat = m + 1 :=
            ⟨rest.length, by rw [← hlen]; simp⟩
          rw [hm] at hp hrs
          simp only [parse_trees] at hp
          cases h1 : parse_tree P forest buf 0
              { ghost := g,
                bytes_read := sizeof_size_t + T8_ADD_PADDING P sizeof_size_t,
                first_tree_index := none, first_element_index := none } with
          | error e => simp [h1] at hp
          | ok st1 =>
            simp only [h1] at hp
            obtain ⟨r0, hr0, hg0, hfound, hnone, _⟩ := parse_tree_ok h1
            simp only at hr0 hfound hnone
            have hr0eq : r0 = rec0 := by
              simp only [read_tree_records, hr0] at hrs
              cases hrr : read_tree_records P forest buf m st1.bytes_read with
              | error e => simp [hrr] at hrs
              | ok rr =>
                simp only [hrr, Except.ok.injEq, Prod.mk.injEq, List.cons.injEq] at hrs
                exact hrs.1.1
            subst hr0eq
            obtain ⟨k1, k2⟩ := parse_trees_first _ _ _ _ hp (by omega)
            cases hlk : gtree_hash_lookup g.global_tree_to_ghost_tree r0.global_id with
            | none =>
              obtain ⟨f1, f2⟩ := hnone hlk trivial
              refine ⟨g.ghost_trees.length, 0, ?_, hl, Or.inl ⟨rfl, rfl, rfl⟩⟩
              rw [← h, hg, hframe, k1, k2, f1, f2]
              rfl
            | some found =>
              obtain ⟨_, t, ht, _, htg, _, hfirst⟩ := hfound found hlk
              obtain ⟨f1, f2⟩ := hfirst trivial
              refine ⟨found.index, t.elements.elems.length, ?_, hl,
                Or.inr ⟨found, t, rfl, rfl, ht, htg, rfl⟩⟩
              rw [← h, hg, hframe, k1, k2, f1, f2]
              rfl

/-- What the parse routine does with a hand-made message whose first tree
holds no element, which `t8_forest_ghost_send_start` never builds: it stores
the offsets `(0, 0)` for the sender, the ghost tree at position 0 holds no
element at all, and the first element of the message is in the ghost tree at
position 1. -/
theorem parse_empty_first_tree :
    ∃ g, t8_forest_ghost_parse_received_message 8 example_forest ghost_new 1
        example_message_empty_first 64 = .ok g ∧
      message_records 8 example_forest example_message_empty_first =
        .ok [{ global_id := 10, eclass := 2, elems := [] },
             { global_id := 11, eclass := 2, elems := [[2, 4, 9]] }] ∧
      process_hash_lookup g.process_offsets 1 =
        some { mpirank := 1, tree_index := some 0, first_element := some 0 } ∧
      (g.ghost_trees[0]?).map (·.elements.elems) = some [] ∧
      (g.ghost_trees[1]?).map (·.elements.elems) = some [[2, 4, 9]] :=
  ⟨_, rfl, rfl, rfl, rfl, rfl⟩

/-- C5 (rank offset entry): after the parse routine has ingested a message
from the sender `recv_rank` that holds at least one tree, the first of them
with at least one element (as in every message that
`t8_forest_ghost_send_start` builds: no remote tree is empty), the map
`process_offsets` holds for the sender the pair `(i, k)` where `i` is the
position in `ghost_trees` of the ghost tree of the first tree of the message
and `k` is the number of elements that this ghost tree held before the call;
the elements of the first tree of the message are stored in that ghost tree
from position `k` on, and `ghost_trees[i].elements[k]` is the first element
received from the sender. -/
theorem C5_rank_offset_entry (P : Nat) (forest : t8_forest_t)
    (ghost ghost' : t8_forest_ghost) (recv_rank : Int) (recv_buffer : List Nat)
    (recv_bytes : Int) (first : tree_record) (rest : List tree_record)
    (h : t8_forest_ghost_parse_received_message P forest ghost recv_rank
      recv_buffer recv_bytes = .ok ghost')
    (hrec : message_records P forest recv_buffer = .ok (first :: rest))
    (hne : first.elems ≠ []) :
    ∃ (i k : Nat) (t' : t8_ghost_tree_t),
      process_hash_lookup ghost'.process_offsets recv_rank =
        some { mpirank := recv_rank, tree_index := some i,
               first_element := some k } ∧
      ghost'.ghost_trees[i]? = some t' ∧
      t'.global_id = first.global_id ∧
      k = ((ghost.ghost_trees[i]?).map (·.elements.elems.length)).getD 0 ∧
      (∀ (j : Nat) (e : List Nat), first.elems[j]? = some e →
        t'.elements.elems[k + j]? = some e) ∧
      ∃ e, (records_elements (first :: rest))[0]? = some e ∧
        t'.elements.elems[k]? = some e := by
  obtain ⟨i, k, hg, hl, hcase⟩ := parse_received_message_first h hrec
  have hext := foldl_ghost_add_record_extend forest rest
    (ghost_add_record forest ghost first)
  -- the ghost tree of the first tree right after the first round
  have h1 : ∃ t1, (ghost_add_record forest ghost first).ghost_trees[i]? = some t1 ∧
      t1.global_id = first.global_id ∧
      (∃ old, t1.elements.elems = old ++ first.elems ∧ old.length = k) ∧
      k = ((ghost.ghost_trees[i]?).map (·.elements.elems.length)).getD 0 := by
    rcases hcase with ⟨hn, hi, hk⟩ | ⟨found, t, hf, hi, ht, htg, hk⟩
    · subst hi hk
      refine ⟨{ global_id := first.global_id, eclass := first.eclass,
                elements := { elem_size := (forest.scheme first.eclass).t8_element_size,
                              elems := first.elems } },
        ?_, rfl, ⟨[], by simp, rfl⟩, by simp⟩
      simp [ghost_add_record, hn]
    · subst hi hk
      refine ⟨ghost_tree_append first.elems t, ?_, htg, ⟨t.elements.elems, rfl, rfl⟩,
        by simp [ht]⟩
      simp [ghost_add_record, hf, ht]
  obtain ⟨t1, ht1, hg1, ⟨old, hold, holdlen⟩, hk⟩ := h1
  obtain ⟨t', ht', hg', _, _, added, hadd⟩ := hext.2 i t1 ht1
  have hall : ∀ (j : Nat) (e : List Nat), first.elems[j]? = some e →
      t'.elements.elems[k + j]? = some e := by
    intro j e hj
    have hjlt : j < first.elems.length := (List.getElem?_eq_some_iff.mp hj).1
    rw [hadd, hold, List.append_assoc, ← holdlen,
      List.getElem?_append_right (by omega)]
    simp only [Nat.add_sub_cancel_left]
    rw [List.getElem?_append_left hjlt]
    exact hj
  refine ⟨i, k, t', ?_, ?_, hg'.trans hg1, hk, hall, ?_⟩
  · rw [hg]
    exact process_hash_lookup_append_new hl _ rfl
  · rw [hg]
    exact ht'
  · cases hfe : first.elems with
    | nil => exact absurd hfe hne
    | cons e0 tl =>
      refine ⟨e0, ?_, ?_⟩
      · simp [records_elements, hfe]
      · have := hall 0 e0 (by rw [hfe]; simp)
        simpa using this

theorem C5_rank_offset_entry_witness :
    t8_forest_ghost_parse_received_message 8 example_forest example_ghost_first 2
      example_message_b 72 = .ok example_ghost_parsed ∧
    message_records 8 example_forest example_message_b =
      .ok [{ global_id := 11, eclass := 2, elems := [[3, 5, 9]] },
           { global_id := 12, eclass := 2, elems := [[4, 6, 9]] }] ∧
    ∃ (i k : Nat) (t' : t8_ghost_tree_t),
      process_hash_lookup example_ghost_parsed.process_offsets 2 =
        some { mpirank := 2, tree_index := some i, first_element := some k } ∧
      example_ghost_parsed.ghost_trees[i]? = some t' ∧
      t'.global_id = 11 ∧
      k = ((example_ghost_first.ghost_trees[i]?).map
            (·.elements.elems.length)).getD 0 ∧
      (∀ (j : Nat) (e : List Nat), [[3, 5, 9]][j]? = some e →
        t'.elements.elems[k + j]? = some e) ∧
      ∃ e, (records_elements
          [{ global_id := 11, eclass := 2, elems := [[3, 5, 9]] },
           { global_id := 12, eclass := 2, elems := [[4, 6, 9]] }])[0]? = some e ∧
        t'.elements.elems[k]? = some e :=
  ⟨rfl, rfl, C5_rank_offset_entry 8 example_forest example_ghost_first
    example_ghost_parsed 2 example_message_b 72
    { global_id := 11, eclass := 2, elems := [[3, 5, 9]] }
    [{ global_id := 12, eclass := 2, elems := [[4, 6, 9]] }] rfl rfl
    (by decide)⟩


/-! ### The wire codec -/

theorem bytes_of_uint_length (w v : Nat) : (bytes_of_uint w v).length = w := by
  induction w generalizing v with
  | zero => rfl
  | succ w ih => simp [bytes_of_uint, ih]

theorem uint_of_bytes_of_uint (w v : Nat) :
    uint_of_bytes (bytes_of_uint w v) = v % 256 ^ w := by
  induction w generalizing v with
  | zero => simp [bytes_of_uint, uint_of_bytes, Nat.mod_one]
  | succ w ih =>
    simp only [bytes_of_uint, uint_of_bytes, ih]
    rw [Nat.pow_succ, Nat.mul_comm (256 ^ w) 256, Nat.mod_mul]

theorem uint_of_bytes_of_uint_lt {w v : Nat} (h : v < 256 ^ w) :
    uint_of_bytes (bytes_of_uint w v) = v := by
  rw [uint_of_bytes_of_uint, Nat.mod_eq_of_lt h]

theorem bytes_of_sint_length (w : Nat) (v : Int) :
    (bytes_of_sint w v).length = w := by
  simp [bytes_of_sint, bytes_of_uint_length]

theorem sint_of_bytes_of_sint {v : Int} (h1 : -(2 : Int) ^ 63 ≤ v)
    (h2 : v < (2 : Int) ^ 63) :
    sint_of_bytes sizeof_t8_gloidx_t (bytes_of_sint sizeof_t8_gloidx_t v) = v := by
  unfold sint_of_bytes bytes_of_sint
  simp only [sizeof_t8_gloidx_t]
  have hpos : (0 : Int) ≤ v % (2 : Int) ^ (8 * 8) := Int.emod_nonneg _ (by norm_num)
  have hlt : v % (2 : Int) ^ (8 * 8) < (2 : Int) ^ (8 * 8) := Int.emod_lt_of_pos _ (by norm_num)
  have hnat : (v % (2 : Int) ^ (8 * 8)).toNat < 256 ^ 8 := by
    have : ((v % (2 : Int) ^ (8 * 8)).toNat : Int) < (256 ^ 8 : Nat) := by
      rw [Int.toNat_of_nonneg hpos]
      norm_num at hlt ⊢
      exact hlt
    exact_mod_cast this
  rw [uint_of_bytes_of_uint_lt hnat]
  have hcast : ((v % (2 : Int) ^ (8 * 8)).toNat : Int) = v % (2 : Int) ^ (8 * 8) :=
    Int.toNat_of_nonneg hpos
  by_cases hv : 0 ≤ v
  · have hmod : v % (2 : Int) ^ (8 * 8) = v := by
      apply Int.emod_eq_of_lt hv
      norm_num at h2 ⊢
      omega
    have : (v % (2 : Int) ^ (8 * 8)).toNat < 2 ^ (8 * 8 - 1) := by
      have : ((v % (2 : Int) ^ (8 * 8)).toNat : Int) < (2 ^ (8 * 8 - 1) : Nat) := by
        rw [hcast, hmod]
        norm_num at h2 ⊢
        exact h2
      exact_mod_cast this
    rw [if_pos this, hcast, hmod]
  · have hmod : v % (2 : Int) ^ (8 * 8) = v + (2 : Int) ^ (8 * 8) := by
      have h3 : (v + (2 : Int) ^ (8 * 8)) % (2 : Int) ^ (8 * 8) = v + (2 : Int) ^ (8 * 8) := by
        apply Int.emod_eq_of_lt
        · norm_num at h1 ⊢
          omega
        · omega
      rw [← h3]
      simp
    have : ¬ (v % (2 : Int) ^ (8 * 8)).toNat < 2 ^ (8 * 8 - 1) := by
      intro hc
      have : ((v % (2 : Int) ^ (8 * 8)).toNat : Int) < (2 ^ (8 * 8 - 1) : Nat) := by
        exact_mod_cast hc
      rw [hcast, hmod] at this
      norm_num at h1 this
      omega
    rw [if_neg this, hcast, hmod]
    omega

theorem locidx_of_size_t_small {v : Nat} (h : v < 2 ^ 31) :
    locidx_of_size_t v = (v : Int) := by
  unfold locidx_of_size_t
  have h1 : v % 2 ^ 32 = v := Nat.mod_eq_of_lt (by omega)
  simp only [h1]
  rw [if_pos h]

theorem size_t_of_int_small {n : Nat} (h : n < 2 ^ 64) :
    size_t_of_int (n : Int) = n := by
  unfold size_t_of_int
  have : ((n : Int) % (2 : Int) ^ 64) = (n : Int) := by
    apply Int.emod_eq_of_lt (by omega)
    have : ((2 : Int) ^ 64) = ((2 ^ 64 : Nat) : Int) := by norm_num
    rw [this]
    exact_mod_cast h
  rw [this]
  simp

/-- Storing a field at the end of what was written so far, in a buffer whose
remainder is still zero, and skipping `pad` bytes behind it. -/
theorem memcpy_fresh (pre src : List Nat) (k pad : Nat)
    (h : src.length + pad ≤ k) :
    memcpy (pre ++ List.replicate k 0) pre.length src =
      .ok ((pre ++ (src ++ List.replicate pad 0)) ++
        List.replicate (k - (src.length + pad)) 0) := by
  unfold memcpy
  have hlen : pre.length + src.length ≤ (pre ++ List.replicate k 0).length := by
    simp
    omega
  rw [if_pos hlen]
  congr 1
  have e1 : List.take pre.length (pre ++ List.replicate k 0) = pre := by simp
  have e2 : List.drop (pre.length + src.length) (pre ++ List.replicate k 0) =
      List.replicate (k - src.length) 0 := by
    rw [List.drop_append_eq_append_drop]
    simp [List.drop_eq_nil_of_le]
  rw [e1, e2]
  have e3 : List.replicate (k - src.length) 0 =
      List.replicate pad 0 ++ List.replicate (k - (src.length + pad)) (0 : Nat) := by
    rw [List.append_replicate_replicate]
    congr 1
    omega
  rw [e3]
  simp [List.append_assoc]

/-- Reading a field that lies in the middle of a buffer. -/
theorem read_bytes_mid (a src b : List Nat) :
    read_bytes (a ++ (src ++ b)) a.length src.length = .ok src := by
  unfold read_bytes
  have : a.length + src.length ≤ (a ++ (src ++ b)).length := by simp
  rw [if_pos this]
  simp

theorem slots_flatten (size : Nat) (elems : List (List Nat)) (rest : List Nat)
    (h : ∀ e ∈ elems, e.length = size) :
    slots size elems.length (elems.flatten ++ rest) = elems := by
  induction elems with
  | nil => rfl
  | cons e es ih =>
    have he : e.length = size := h e (by simp)
    simp only [List.length_cons, slots, List.flatten_cons, List.append_assoc]
    rw [← he]
    simp only [List.take_left', List.drop_left']
    rw [he, ih (fun x hx => h x (by simp [hx]))]

theorem flatten_length_of_size (size : Nat) (elems : List (List Nat))
    (h : ∀ e ∈ elems, e.length = size) :
    elems.flatten.length = size * elems.length := by
  induction elems with
  | nil => simp
  | cons e es ih =>
    simp only [List.flatten_cons, List.length_append, List.length_cons]
    rw [ih (fun x hx => h x (by simp [hx])), h e (by simp)]
    ring

theorem read_bytes_all (src : List Nat) (size : Nat) (h : src.length = size) :
    read_bytes src 0 size = .ok src := by
  unfold read_bytes
  rw [if_pos (by omega)]
  simp [← h]

/-- One field stored behind what was written so far, in a buffer whose
remainder is still zero. -/
theorem send_store_fresh (P : Nat) (pre src : List Nat) (k size : Nat)
    (hsize : src.length = size)
    (h : (encode_field P pre.length src).length ≤ k) :
    send_store P (pre ++ List.replicate k 0) pre.length src size =
      .ok ((pre ++ encode_field P pre.length src) ++
            List.replicate (k - (encode_field P pre.length src).length) 0,
          (pre ++ encode_field P pre.length src).length) := by
  unfold send_store
  simp only [bind, Except.bind, pure, Except.pure]
  rw [read_bytes_all src size hsize]
  simp only [encode_field, List.length_append, List.length_replicate] at h ⊢
  rw [memcpy_fresh pre src k (T8_ADD_PADDING P (pre.length + src.length)) h]
  simp only [hsize, List.length_append, List.length_replicate, Nat.add_assoc]

theorem encode_field_length (P off : Nat) (field : List Nat) :
    (encode_field P off field).length =
      field.length + T8_ADD_PADDING P (off + field.length) := by
  simp [encode_field]

theorem encode_tree_length (P off : Nat) (rt : t8_ghost_remote_tree_t)
    (h : ∀ e ∈ rt.elements.elems, e.length = rt.elements.elem_size) :
    off + (encode_tree P off rt).length = send_count_tree P off rt := by
  have ha : rt.elements.array.length =
      rt.elements.elem_size * rt.elements.elem_count :=
    flatten_length_of_size _ _ h
  simp only [encode_tree, send_count_tree, List.length_append, encode_field_length,
    bytes_of_uint_length, bytes_of_sint_length, ha, Nat.add_assoc]

/-- One round of the writing pass on a buffer whose remainder is still zero
and long enough: the bytes of the tree are stored behind what was written so
far. -/
theorem send_write_tree_fresh (P : Nat) (r : Int) (pre : List Nat) (k nre : Nat)
    (rt : t8_ghost_remote_tree_t) (hwt : remote_tree_well_typed r rt)
    (hk : (encode_tree P pre.length rt).length ≤ k) :
    send_write_tree P r
        { buffer := pre ++ List.replicate k 0, bytes_written := pre.length,
          num_remote_elements := nre } rt =
      .ok { buffer := (pre ++ encode_tree P pre.length rt) ++
              List.replicate (k - (encode_tree P pre.length rt).length) 0,
            bytes_written := (pre ++ encode_tree P pre.length rt).length,
            num_remote_elements := nre + rt.elements.elem_count } := by
  obtain ⟨_, _, _, _, helems, hrank⟩ := hwt
  have ha : rt.elements.array.length =
      rt.elements.elem_size * rt.elements.elem_count :=
    flatten_length_of_size _ _ helems
  unfold encode_tree at hk ⊢
  simp only [List.length_append] at hk
  generalize he1 : encode_field P pre.length
    (bytes_of_sint sizeof_t8_gloidx_t rt.global_id) = e1 at hk ⊢
  generalize he2 : encode_field P (pre.length + e1.length)
    (bytes_of_uint sizeof_t8_eclass_t rt.eclass) = e2 at hk ⊢
  generalize he3 : encode_field P (pre.length + e1.length + e2.length)
    (bytes_of_uint sizeof_size_t rt.elements.elem_count) = e3 at hk ⊢
  generalize he4 : encode_field P (pre.length + e1.length + e2.length + e3.length)
    rt.elements.array = e4 at hk ⊢
  unfold send_write_tree
  simp only [bind, Except.bind, pure, Except.pure, T8_ASSERT, hrank, decide_True,
    if_true]
  rw [send_store_fresh P pre _ k sizeof_t8_gloidx_t (bytes_of_sint_length _ _)
    (by rw [he1]; omega), he1]
  simp only
  have hl1 : (pre ++ e1).length = pre.length + e1.length := List.length_append _ _
  rw [send_store_fresh P (pre ++ e1) _ _ sizeof_t8_eclass_t (bytes_of_uint_length _ _)
    (by rw [hl1, he2]; omega), hl1, he2]
  simp only
  have hl2 : (pre ++ e1 ++ e2).length = pre.length + e1.length + e2.length := by
    simp [Nat.add_assoc]
  rw [send_store_fresh P (pre ++ e1 ++ e2) _ _ sizeof_size_t (bytes_of_uint_length _ _)
    (by rw [hl2, he3]; omega), hl2, he3]
  simp only
  have hl3 : (pre ++ e1 ++ e2 ++ e3).length =
      pre.length + e1.length + e2.length + e3.length := by
    simp [Nat.add_assoc]
  rw [send_store_fresh P (pre ++ e1 ++ e2 ++ e3) _ _
    (rt.elements.elem_size * rt.elements.elem_count) ha
    (by rw [hl3, he4]; omega), hl3, he4]
  simp only [Except.ok.injEq, send_write_state.mk.injEq, and_true,
    List.append_assoc, List.length_append, true_and]
  have hsub : k - e1.length - e2.length - e3.length - e4.length =
      k - (e1.length + (e2.length + (e3.length + e4.length))) := by omega
  rw [hsub]

theorem encode_trees_length (P : Nat) (rts : List t8_ghost_remote_tree_t) :
    ∀ off : Nat,
      (∀ rt ∈ rts, ∀ e ∈ rt.elements.elems, e.length = rt.elements.elem_size) →
      off + (encode_trees P off rts).length = rts.foldl (send_count_tree P) off := by
  induction rts with
  | nil => intro off _; simp [encode_trees]
  | cons rt rts ih =>
    intro off h
    simp only [encode_trees, List.length_append, List.foldl_cons]
    rw [← ih (send_count_tree P off rt) (fun x hx => h x (by simp [hx])),
      ← encode_tree_length P off rt (h rt (by simp))]
    omega

/-- The writing pass over the trees of one rank, on a buffer whose remainder
is still zero and long enough. -/
theorem send_write_trees_fresh (P : Nat) (r : Int)
    (rts : List t8_ghost_remote_tree_t) :
    ∀ (pre : List Nat) (k nre : Nat),
      (∀ rt ∈ rts, remote_tree_well_typed r rt) →
      (encode_trees P pre.length rts).length ≤ k →
      rts.foldlM (send_write_tree P r)
          { buffer := pre ++ List.replicate k 0, bytes_written := pre.length,
            num_remote_elements := nre } =
        .ok { buffer := (pre ++ encode_trees P pre.length rts) ++
                List.replicate (k - (encode_trees P pre.length rts).length) 0,
              bytes_written := (pre ++ encode_trees P pre.length rts).length,
              num_remote_elements :=
                nre + (rts.map (·.elements.elem_count)).sum } := by
  induction rts with
  | nil =>
    intro pre k nre _ _
    simp [encode_trees, pure, Except.pure]
  | cons rt rts ih =>
    intro pre k nre hwt hk
    have hwt0 := hwt rt (by simp)
    have hlen := encode_tree_length P pre.length rt hwt0.2.2.2.2.1
    simp only [encode_trees, List.length_append] at hk
    rw [← hlen] at hk
    have hl : (pre ++ encode_tree P pre.length rt).length =
        pre.length + (encode_tree P pre.length rt).length := List.length_append _ _
    simp only [List.foldlM_cons, bind, Except.bind]
    rw [send_write_tree_fresh P r pre k nre rt hwt0 (by omega)]
    simp only
    rw [ih (pre ++ encode_tree P pre.length rt) _ _
      (fun x hx => hwt x (by simp [hx])) (by rw [hl]; omega)]
    simp only [encode_trees, ← hlen, hl, List.append_assoc, List.length_append,
      List.map_cons, List.sum_cons, Except.ok.injEq, send_write_state.mk.injEq]
    refine ⟨?_, trivial, by omega⟩
    rw [Nat.sub_sub]

theorem encode_message_length (P : Nat) (rts : List t8_ghost_remote_tree_t)
    (h : ∀ rt ∈ rts, ∀ e ∈ rt.elements.elems, e.length = rt.elements.elem_size) :
    (encode_message P rts).length = send_count_bytes P rts := by
  simp only [encode_message, send_count_bytes, List.length_append]
  rw [encode_trees_length P rts _ h]
  simp [encode_field_length, bytes_of_uint_length]

/-- The send buffer that `t8_forest_ghost_send_start` fills for one rank: for
an entry whose values fit their types, both passes run to the end, the buffer
is the encoded message, and the counter is raised by the number of
elements. -/
theorem send_start_buffer_ok (P : Nat) (remote_entry : t8_ghost_remote_t)
    (nre : Nat)
    (hwt : ∀ rt ∈ remote_entry.remote_trees,
      remote_tree_well_typed remote_entry.remote_rank rt) :
    send_start_buffer P remote_entry.remote_rank remote_entry nre =
      .ok ({ recv_rank := remote_entry.remote_rank,
             num_bytes := send_count_bytes P remote_entry.remote_trees,
             buffer := encode_message P remote_entry.remote_trees },
           nre + (remote_entry.remote_trees.map (·.elements.elem_count)).sum) := by
  have hel : ∀ rt ∈ remote_entry.remote_trees, ∀ e ∈ rt.elements.elems,
      e.length = rt.elements.elem_size := fun rt hrt => (hwt rt hrt).2.2.2.2.1
  have hlen := encode_message_length P remote_entry.remote_trees hel
  unfold encode_message at hlen ⊢
  simp only [List.length_append] at hlen
  generalize he0 : encode_field P 0
    (bytes_of_uint sizeof_size_t remote_entry.remote_trees.length) = e0 at hlen ⊢
  unfold send_start_buffer
  simp only [bind, Except.bind, pure, Except.pure, T8_ASSERT, decide_True, if_true]
  have h0 := send_store_fresh P [] (bytes_of_uint sizeof_size_t
    remote_entry.remote_trees.length)
    (send_count_bytes P remote_entry.remote_trees) sizeof_size_t
    (bytes_of_uint_length _ _) (by simp only [List.length_nil]; rw [he0]; omega)
  simp only [List.nil_append, List.length_nil] at h0
  rw [h0, he0]
  simp only
  have h1 := send_write_trees_fresh P remote_entry.remote_rank
    remote_entry.remote_trees e0
    (send_count_bytes P remote_entry.remote_trees - e0.length) nre hwt (by omega)
  rw [h1]
  simp only [List.length_append]
  rw [if_pos (by simpa using hlen)]
  have hz : send_count_bytes P remote_entry.remote_trees - e0.length -
      (encode_trees P e0.length remote_entry.remote_trees).length = 0 := by omega
  rw [hz]
  simp only [List.replicate_zero, List.append_nil]
  rw [read_bytes_all _ _ (by simp)]

/-- Reading back a field that was stored with its padding. -/
theorem read_bytes_field (P : Nat) (a field b : List Nat) (w : Nat)
    (hw : field.length = w) :
    read_bytes (a ++ encode_field P a.length field ++ b) a.length w = .ok field := by
  have : a ++ encode_field P a.length field ++ b =
      a ++ (field ++ (List.replicate (T8_ADD_PADDING P (a.length + field.length)) 0 ++ b)) := by
    simp [encode_field, List.append_assoc]
  rw [this, ← hw]
  exact read_bytes_mid a field _

theorem next_offset_field (P : Nat) (a field : List Nat) (w : Nat)
    (hw : field.length = w) :
    a.length + w + T8_ADD_PADDING P (a.length + w) =
      (a ++ encode_field P a.length field).length := by
  simp [encode_field, hw, Nat.add_assoc]

/-- The header of a tree read back from the bytes stored for it. -/
theorem parse_tree_header_encoded (P : Nat) (a b : List Nat) (gid : Int)
    (eclass count : Nat) (h1 : -(2 : Int) ^ 63 ≤ gid) (h2 : gid < (2 : Int) ^ 63)
    (h3 : eclass < 2 ^ 32) (h4 : count < 2 ^ 64)
    (e1 e2 e3 : List Nat)
    (he1 : e1 = encode_field P a.length (bytes_of_sint sizeof_t8_gloidx_t gid))
    (he2 : e2 = encode_field P (a ++ e1).length (bytes_of_uint sizeof_t8_eclass_t eclass))
    (he3 : e3 = encode_field P (a ++ e1 ++ e2).length (bytes_of_uint sizeof_size_t count)) :
    parse_tree_header P (a ++ e1 ++ e2 ++ e3 ++ b) a.length =
      .ok { global_id := gid, eclass := eclass, num_elements := count,
            bytes_read := (a ++ e1 ++ e2 ++ e3).length } := by
  have r1 : read_t8_gloidx_t (a ++ e1 ++ e2 ++ e3 ++ b) a.length = .ok gid := by
    have : a ++ e1 ++ e2 ++ e3 ++ b = a ++ e1 ++ (e2 ++ (e3 ++ b)) := by
      simp [List.append_assoc]
    rw [this, he1]
    unfold read_t8_gloidx_t
    rw [read_bytes_field P a _ _ _ (bytes_of_sint_length _ _)]
    simp [Except.map, sint_of_bytes_of_sint h1 h2]
  have r2 : read_t8_eclass_t (a ++ e1 ++ e2 ++ e3 ++ b) (a ++ e1).length = .ok eclass := by
    have : a ++ e1 ++ e2 ++ e3 ++ b = (a ++ e1) ++ e2 ++ (e3 ++ b) := by
      simp [List.append_assoc]
    rw [this, he2]
    unfold read_t8_eclass_t
    rw [read_bytes_field P (a ++ e1) _ _ _ (bytes_of_uint_length _ _)]
    simp only [Except.map]
    rw [uint_of_bytes_of_uint_lt (by simpa [sizeof_t8_eclass_t] using h3)]
  have r3 : read_size_t (a ++ e1 ++ e2 ++ e3 ++ b) (a ++ e1 ++ e2).length = .ok count := by
    rw [he3]
    unfold read_size_t
    rw [read_bytes_field P (a ++ e1 ++ e2) _ _ _ (bytes_of_uint_length _ _)]
    simp only [Except.map]
    rw [uint_of_bytes_of_uint_lt (by simpa [sizeof_size_t] using h4)]
  have o1 := next_offset_field P a (bytes_of_sint sizeof_t8_gloidx_t gid)
    sizeof_t8_gloidx_t (bytes_of_sint_length _ _)
  rw [← he1] at o1
  have o2 := next_offset_field P (a ++ e1) (bytes_of_uint sizeof_t8_eclass_t eclass)
    sizeof_t8_eclass_t (bytes_of_uint_length _ _)
  rw [← he2] at o2
  have o3 := next_offset_field P (a ++ e1 ++ e2) (bytes_of_uint sizeof_size_t count)
    sizeof_size_t (bytes_of_uint_length _ _)
  rw [← he3] at o3
  unfold parse_tree_header
  simp only [bind, Except.bind, pure, Except.pure]
  rw [r1]
  simp only
  rw [o1, r2]
  simp only
  rw [o2, r3]
  simp only
  rw [o3]

/-- A remote tree read back from the bytes stored for it, when the receiver
has the element size of the sender. -/
theorem read_tree_record_encoded (P : Nat) (forest : t8_forest_t) (r : Int)
    (a b : List Nat) (rt : t8_ghost_remote_tree_t)
    (hwt : remote_tree_well_typed r rt)
    (hsize : (forest.scheme rt.eclass).t8_element_size = rt.elements.elem_size) :
    read_tree_record P forest (a ++ encode_tree P a.length rt ++ b) a.length =
      .ok ({ global_id := rt.global_id, eclass := rt.eclass,
             elems := rt.elements.elems },
           (a ++ encode_tree P a.length rt).length) := by
  obtain ⟨h1, h2, h3, h4, helems, _⟩ := hwt
  have ha : rt.elements.array.length =
      rt.elements.elem_size * rt.elements.elem_count :=
    flatten_length_of_size _ _ helems
  unfold encode_tree
  simp only []
  have hl1 : ∀ e1 : List Nat, a.length + e1.length = (a ++ e1).length :=
    fun e1 => (List.length_append _ _).symm
  have hl2 : ∀ e1 e2 : List Nat, (a ++ e1).length + e2.length = (a ++ e1 ++ e2).length :=
    fun e1 e2 => (List.length_append _ _).symm
  have hl3 : ∀ e1 e2 e3 : List Nat,
      (a ++ e1 ++ e2).length + e3.length = (a ++ e1 ++ e2 ++ e3).length :=
    fun e1 e2 e3 => (List.length_append _ _).symm
  simp only [hl1, hl2, hl3]
  generalize he1 : encode_field P a.length
    (bytes_of_sint sizeof_t8_gloidx_t rt.global_id) = e1
  generalize he2 : encode_field P (a ++ e1).length
    (bytes_of_uint sizeof_t8_eclass_t rt.eclass) = e2
  generalize he3 : encode_field P (a ++ e1 ++ e2).length
    (bytes_of_uint sizeof_size_t rt.elements.elem_count) = e3
  have hbuf : a ++ (e1 ++ (e2 ++ (e3 ++
      encode_field P (a ++ e1 ++ e2 ++ e3).length rt.elements.array))) ++ b =
      a ++ e1 ++ e2 ++ e3 ++
        (encode_field P (a ++ e1 ++ e2 ++ e3).length rt.elements.array ++ b) := by
    simp [List.append_assoc]
  rw [hbuf]
  unfold read_tree_record
  rw [parse_tree_header_encoded P a _ rt.global_id rt.eclass
    rt.elements.elem_count h1 h2 h3 h4 e1 e2 e3 he1.symm he2.symm he3.symm]
  simp only [hsize]
  have hbuf2 : a ++ e1 ++ e2 ++ e3 ++
      (encode_field P (a ++ e1 ++ e2 ++ e3).length rt.elements.array ++ b) =
      (a ++ e1 ++ e2 ++ e3) ++
        encode_field P (a ++ e1 ++ e2 ++ e3).length rt.elements.array ++ b := by
    simp [List.append_assoc]
  rw [hbuf2, Nat.mul_comm rt.elements.elem_count rt.elements.elem_size,
    read_bytes_field P (a ++ e1 ++ e2 ++ e3) rt.elements.array b _ ha]
  simp only [Except.ok.injEq, Prod.mk.injEq, tree_record.mk.injEq, true_and]
  constructor
  · have := slots_flatten rt.elements.elem_size rt.elements.elems [] helems
    simpa [sc_array_t.array, sc_array_t.elem_count] using this
  · rw [next_offset_field P (a ++ e1 ++ e2 ++ e3) rt.elements.array _ ha]
    simp [List.append_assoc]

theorem read_tree_records_encoded (P : Nat) (forest : t8_forest_t) (r : Int)
    (rts : List t8_ghost_remote_tree_t) :
    ∀ (a b : List Nat),
      (∀ rt ∈ rts, remote_tree_well_typed r rt) →
      (∀ rt ∈ rts, (forest.scheme rt.eclass).t8_element_size =
        rt.elements.elem_size) →
      read_tree_records P forest (a ++ encode_trees P a.length rts ++ b)
          rts.length a.length =
        .ok (rts.map record_of_remote_tree,
             (a ++ encode_trees P a.length rts).length) := by
  induction rts with
  | nil => intro a b _ _; simp [read_tree_records, encode_trees]
  | cons rt rts ih =>
    intro a b hwt hsize
    have hwt0 := hwt rt (by simp)
    have hlen := encode_tree_length P a.length rt hwt0.2.2.2.2.1
    have hl : (a ++ encode_tree P a.length rt).length =
        send_count_tree P a.length rt := by
      rw [List.length_append, hlen]
    simp only [encode_trees, List.length_cons, read_tree_records]
    have hbuf : a ++ (encode_tree P a.length rt ++
        encode_trees P (send_count_tree P a.length rt) rts) ++ b =
        a ++ encode_tree P a.length rt ++
          (encode_trees P (send_count_tree P a.length rt) rts ++ b) := by
      simp [List.append_assoc]
    rw [hbuf, read_tree_record_encoded P forest r a _ rt hwt0 (hsize rt (by simp))]
    simp only
    have hbuf2 : a ++ encode_tree P a.length rt ++
        (encode_trees P (send_count_tree P a.length rt) rts ++ b) =
        (a ++ encode_tree P a.length rt) ++
          encode_trees P (a ++ encode_tree P a.length rt).length rts ++ b := by
      rw [hl]
      simp [List.append_assoc]
    rw [hbuf2, ih (a ++ encode_tree P a.length rt) b
      (fun x hx => hwt x (by simp [hx])) (fun x hx => hsize x (by simp [hx]))]
    simp only [List.map_cons, record_of_remote_tree, hl, List.append_assoc]

theorem parse_tree_forward {P : Nat} {forest : t8_forest_t} {buf : List Nat}
    (itree : Nat) {st : parse_state} {r : tree_record} {off : Nat}
    (hr : read_tree_record P forest buf st.bytes_read = .ok (r, off))
    (hacc : record_accepted forest st.ghost r) :
    ∃ fti fei, parse_tree P forest buf itree st =
      .ok { ghost := ghost_add_record forest st.ghost r, bytes_read := off,
            first_tree_index := fti, first_element_index := fei } := by
  unfold read_tree_record at hr
  cases hh : parse_tree_header P buf st.bytes_read with
  | error e => simp [hh] at hr
  | ok header =>
    simp only [hh] at hr
    cases hd : read_bytes buf header.bytes_read
        (header.num_elements * (forest.scheme header.eclass).t8_element_size) with
    | error e => simp [hd] at hr
    | ok data =>
      simp only [hd, Except.ok.injEq, Prod.mk.injEq] at hr
      obtain ⟨hr1, hr2⟩ := hr
      subst hr1 hr2
      unfold parse_tree
      simp only [bind, Except.bind, pure, Except.pure, hh]
      cases hl : gtree_hash_lookup st.ghost.global_tree_to_ghost_tree
          header.global_id with
      | none =>
        simp only [hd]
        refine ⟨if itree = 0 then some st.ghost.ghost_trees.length
          else st.first_tree_index,
          if itree = 0 then some 0 else st.first_element_index, ?_⟩
        simp [ghost_add_record, hl, slots_length, ghost_tree_insert,
          modify_append_last, sc_array_init, ghost_tree_append]
      | some found =>
        obtain ⟨hg, t, ht, hc, htg, hs⟩ := hacc found hl
        simp only at hg hc htg hs
        simp only [ht, T8_ASSERT, hg, hc, htg, hs, decide_True, if_true, hd]
        refine ⟨if itree = 0 then some found.index else st.first_tree_index,
          if itree = 0 then some t.elements.elem_count
          else st.first_element_index, ?_⟩
        simp [ghost_add_record, hl, slots_length, ghost_tree_insert]

theorem parse_trees_forward {P : Nat} {forest : t8_forest_t} {buf : List Nat} :
    ∀ (n itree : Nat) (st : parse_state) (rs : List tree_record) (off : Nat),
      read_tree_records P forest buf n st.bytes_read = .ok (rs, off) →
      records_accepted forest st.ghost rs →
      ∃ fti fei, parse_trees P forest buf n itree st =
        .ok { ghost := rs.foldl (ghost_add_record forest) st.ghost,
              bytes_read := off,
              first_tree_index := fti, first_element_index := fei } := by
  intro n
  induction n with
  | zero =>
    intro itree st rs off hr _
    simp only [read_tree_records, Except.ok.injEq, Prod.mk.injEq] at hr
    obtain ⟨h1, h2⟩ := hr
    subst h1 h2
    exact ⟨st.first_tree_index, st.first_element_index, rfl⟩
  | succ n ih =>
    intro itree st rs off hr hacc
    simp only [read_tree_records] at hr
    cases h1 : read_tree_record P forest buf st.bytes_read with
    | error e => simp [h1] at hr
    | ok r1 =>
      simp only [h1] at hr
      cases h2 : read_tree_records P forest buf n r1.2 with
      | error e => simp [h2] at hr
      | ok rs1 =>
        simp only [h2, Except.ok.injEq, Prod.mk.injEq] at hr
        obtain ⟨hr1, hr2⟩ := hr
        subst hr1 hr2
        obtain ⟨ha1, ha2⟩ := hacc
        obtain ⟨fti, fei, hp⟩ := parse_tree_forward itree
          (show read_tree_record P forest buf st.bytes_read = .ok (r1.1, r1.2) from h1)
          ha1
        obtain ⟨fti2, fei2, hp2⟩ := ih (itree + 1)
          { ghost := ghost_add_record forest st.ghost r1.1, bytes_read := r1.2,
            first_tree_index := fti, first_element_index := fei } rs1.1 rs1.2 h2 ha2
        refine ⟨fti2, fei2, ?_⟩
        simp only [parse_trees, hp, hp2, List.foldl_cons]

/-- A call of the parse routine runs to the end when the trees of the message
can be read, the assertions of the tree loop hold for them, the offset behind
the last tree is the number of bytes received, and the sender is not yet
present in `process_offsets`. -/
theorem parse_received_message_forward {P : Nat} {forest : t8_forest_t}
    {g : t8_forest_ghost} {r : Int} {buf : List Nat} {n : Int} {count : Nat}
    {rs : List tree_record} {off : Nat}
    (hc : read_size_t buf 0 = .ok count)
    (hrs : read_tree_records P forest buf (locidx_of_size_t count).toNat
      (sizeof_size_t + T8_ADD_PADDING P sizeof_size_t) = .ok (rs, off))
    (hacc : records_accepted forest g rs)
    (hoff : off = size_t_of_int n)
    (hl : process_hash_lookup g.process_offsets r = none) :
    ∃ fti fei, t8_forest_ghost_parse_received_message P forest g r buf n =
      .ok { rs.foldl (ghost_add_record forest) g with
            process_offsets := g.process_offsets ++
              [{ mpirank := r, tree_index := fti, first_element := fei }] } := by
  obtain ⟨fti, fei, hp⟩ := parse_trees_forward (locidx_of_size_t count).toNat 0
    { ghost := g, bytes_read := sizeof_size_t + T8_ADD_PADDING P sizeof_size_t,
      first_tree_index := none, first_element_index := none } rs off hrs hacc
  refine ⟨fti, fei, ?_⟩
  unfold t8_forest_ghost_parse_received_message
  simp only [bind, Except.bind, pure, Except.pure, hc, Nat.zero_add]
  rw [hp]
  simp only [T8_ASSERT, hoff, decide_True, if_true,
    (foldl_ghost_add_record_frame forest rs g).1, hl]


theorem ghost_index_lookup_none {g : t8_forest_ghost} (hok : ghost_index_ok g)
    {gid : Int} (h : ∀ t ∈ g.ghost_trees, t.global_id ≠ gid) :
    gtree_hash_lookup g.global_tree_to_ghost_tree gid = none := by
  cases hl : gtree_hash_lookup g.global_tree_to_ghost_tree gid with
  | none => rfl
  | some found =>
    obtain ⟨t, ht, hg⟩ := ghost_index_lookup hok hl
    exact absurd hg (h t (List.getElem?_mem ht))

/-- Trees with new, pairwise different global ids are appended to
`ghost_trees` in their order, and no assertion of the tree loop fails. -/
theorem foldl_ghost_add_record_fresh (forest : t8_forest_t)
    (rs : List tree_record) :
    ∀ g : t8_forest_ghost, ghost_index_ok g →
      (∀ t ∈ g.ghost_trees, ∀ r ∈ rs, t.global_id ≠ r.global_id) →
      (rs.map (·.global_id)).Nodup →
      records_accepted forest g rs ∧
      (rs.foldl (ghost_add_record forest) g).ghost_trees =
        g.ghost_trees ++ rs.map (fun r =>
          { global_id := r.global_id, eclass := r.eclass,
            elements := { elem_size := (forest.scheme r.eclass).t8_element_size,
                          elems := r.elems } }) := by
  induction rs with
  | nil => intro g _ _ _; simp [records_accepted]
  | cons r rs ih =>
    intro g hok hdis hnd
    have hl : gtree_hash_lookup g.global_tree_to_ghost_tree r.global_id = none :=
      ghost_index_lookup_none hok (fun t ht => hdis t ht r (by simp))
    have hadd : (ghost_add_record forest g r).ghost_trees = g.ghost_trees ++
        [{ global_id := r.global_id, eclass := r.eclass,
           elements := { elem_size := (forest.scheme r.eclass).t8_element_size,
                         elems := r.elems } }] := by
      simp [ghost_add_record, hl]
    simp only [List.map_cons, List.nodup_cons] at hnd
    have hdis1 : ∀ t ∈ (ghost_add_record forest g r).ghost_trees, ∀ r' ∈ rs,
        t.global_id ≠ r'.global_id := by
      intro t ht r' hr'
      rw [hadd] at ht
      rcases List.mem_append.mp ht with h1 | h1
      · exact hdis t h1 r' (by simp [hr'])
      · simp only [List.mem_singleton] at h1
        subst h1
        intro heq
        exact hnd.1 (List.mem_map.mpr ⟨r', hr', heq.symm⟩)
    obtain ⟨ha, ht⟩ := ih (ghost_add_record forest g r)
      (ghost_add_record_index_ok forest hok r) hdis1 hnd.2
    refine ⟨⟨?_, ha⟩, ?_⟩
    · intro found hf
      rw [hl] at hf
      cases hf
    · simp only [List.foldl_cons, ht, hadd, List.map_cons, List.append_assoc,
        List.singleton_append]

theorem message_records_encoded (P : Nat) (forest : t8_forest_t) (r : Int)
    (rts : List t8_ghost_remote_tree_t) (hcount : rts.length < 2 ^ 31)
    (hwt : ∀ rt ∈ rts, remote_tree_well_typed r rt)
    (hsize : ∀ rt ∈ rts, (forest.scheme rt.eclass).t8_element_size =
      rt.elements.elem_size) :
    read_size_t (encode_message P rts) 0 = .ok rts.length ∧
    read_tree_records P forest (encode_message P rts)
        (locidx_of_size_t rts.length).toNat
        (sizeof_size_t + T8_ADD_PADDING P sizeof_size_t) =
      .ok (rts.map record_of_remote_tree, (encode_message P rts).length) := by
  unfold encode_message
  simp only []
  have hoff := next_offset_field P [] (bytes_of_uint sizeof_size_t rts.length)
    sizeof_size_t (bytes_of_uint_length _ _)
  simp only [List.length_nil, Nat.zero_add, List.nil_append] at hoff
  constructor
  · have := read_bytes_field P []
      (bytes_of_uint sizeof_size_t rts.length)
      (encode_trees P (encode_field P 0
        (bytes_of_uint sizeof_size_t rts.length)).length rts) sizeof_size_t
      (bytes_of_uint_length _ _)
    simp only [List.nil_append, List.length_nil] at this
    unfold read_size_t
    rw [this]
    simp only [Except.map]
    rw [uint_of_bytes_of_uint_lt (by simp only [sizeof_size_t]; omega)]
  · rw [locidx_of_size_t_small hcount, Int.toNat_ofNat, hoff]
    have := read_tree_records_encoded P forest r rts
      (encode_field P 0 (bytes_of_uint sizeof_size_t rts.length)) [] hwt hsize
    simpa using this

/-- The message that `t8_forest_ghost_send_start` builds for an entry whose
values fit their types is parsed into the empty ghost structure without
failure, and the ghost trees then are the remote trees. -/
theorem codec_round_trip_ok (P : Nat) (forest : t8_forest_t)
    (remote_entry : t8_ghost_remote_t) (recv_rank : Int) (nre : Nat)
    (hwt : remote_entry_well_typed P remote_entry)
    (hnd : (remote_entry.remote_trees.map (·.global_id)).Nodup)
    (hcount : remote_entry.remote_trees.length < 2 ^ 31)
    (hsize : ∀ rt ∈ remote_entry.remote_trees,
      (forest.scheme rt.eclass).t8_element_size = rt.elements.elem_size) :
    ∃ (info : t8_ghost_mpi_send_info_t) (n : Nat) (ghost : t8_forest_ghost),
      send_start_buffer P remote_entry.remote_rank remote_entry nre =
        .ok (info, n) ∧
      t8_forest_ghost_parse_received_message P forest ghost_new recv_rank
        info.buffer (info.buffer.length : Int) = .ok ghost ∧
      ghost.ghost_trees.map (fun t => (t.global_id, t.eclass, t.elements)) =
        remote_entry.remote_trees.map
          (fun rt => (rt.global_id, rt.eclass, rt.elements)) := by
  obtain ⟨hwt1, hbytes⟩ := hwt
  have hsend := send_start_buffer_ok P remote_entry nre hwt1
  obtain ⟨hc, hrs⟩ := message_records_encoded P forest remote_entry.remote_rank
    remote_entry.remote_trees hcount hwt1 hsize
  have hnd' : ((remote_entry.remote_trees.map record_of_remote_tree).map
      (·.global_id)).Nodup := by
    simpa [List.map_map, record_of_remote_tree, Function.comp_def] using hnd
  obtain ⟨hacc, htrees⟩ := foldl_ghost_add_record_fresh forest
    (remote_entry.remote_trees.map record_of_remote_tree) ghost_new
    ghost_index_ok_new (by intro t ht; simp [ghost_new] at ht) hnd'
  have hlen := encode_message_length P remote_entry.remote_trees
    (fun rt hrt => (hwt1 rt hrt).2.2.2.2.1)
  obtain ⟨fti, fei, hparse⟩ := parse_received_message_forward
    (r := recv_rank) (n := ((encode_message P remote_entry.remote_trees).length : Int))
    hc hrs hacc
    (by rw [size_t_of_int_small (by omega)])
    (by simp [process_hash_lookup, ghost_new])
  refine ⟨_, _, _, hsend, hparse, ?_⟩
  simp only [htrees]
  simp only [ghost_new, List.nil_append, List.map_map]
  apply List.map_congr_left
  intro rt hrt
  simp only [Function.comp_def, record_of_remote_tree, hsize rt hrt]

/-- C1 (codec round trip): for every entry of `remote_ghosts` whose values fit
their types, with pairwise different global ids of its remote trees and fewer
than `2 ^ 31` trees, `t8_forest_ghost_send_start` builds a message, and when
the element size of the receiver for each class is the element size of the
remote trees, `t8_forest_ghost_parse_received_message` parses this message
into the empty ghost structure without failure; the ghost trees then are, in
the same order, the remote trees with their global id, class and elements. -/
theorem C1_codec_round_trip (P : Nat) (forest : t8_forest_t)
    (remote_entry : t8_ghost_remote_t) (recv_rank : Int) (nre : Nat)
    (hwt : remote_entry_well_typed P remote_entry)
    (hnd : (remote_entry.remote_trees.map (·.global_id)).Nodup)
    (hcount : remote_entry.remote_trees.length < 2 ^ 31)
    (hsize : ∀ rt ∈ remote_entry.remote_trees,
      (forest.scheme rt.eclass).t8_element_size = rt.elements.elem_size) :
    ∃ (info : t8_ghost_mpi_send_info_t) (n : Nat) (ghost : t8_forest_ghost),
      send_start_buffer P remote_entry.remote_rank remote_entry nre =
        .ok (info, n) ∧
      t8_forest_ghost_parse_received_message P forest ghost_new recv_rank
        info.buffer (info.buffer.length : Int) = .ok ghost ∧
      ghost.ghost_trees.map (fun t => (t.global_id, t.eclass, t.elements)) =
        remote_entry.remote_trees.map
          (fun rt => (rt.global_id, rt.eclass, rt.elements)) :=
  codec_round_trip_ok P forest remote_entry recv_rank nre hwt hnd hcount hsize

theorem C1_codec_round_trip_witness :
    remote_entry_well_typed 8
      { remote_rank := 1,
        remote_trees :=
          [{ global_id := 10, mpirank := 1, eclass := 2,
             elements := { elem_size := 3, elems := [[1, 0, 7], [1, 1, 7]] } },
           { global_id := 11, mpirank := 1, eclass := 2,
             elements := { elem_size := 3, elems := [[2, 4, 9]] } }] } ∧
    ∃ (info : t8_ghost_mpi_send_info_t) (n : Nat) (ghost : t8_forest_ghost),
      send_start_buffer 8 1
        { remote_rank := 1,
          remote_trees :=
            [{ global_id := 10, mpirank := 1, eclass := 2,
               elements := { elem_size := 3, elems := [[1, 0, 7], [1, 1, 7]] } },
             { global_id := 11, mpirank := 1, eclass := 2,
               elements := { elem_size := 3, elems := [[2, 4, 9]] } }] } 0 =
        .ok (info, n) ∧
      t8_forest_ghost_parse_received_message 8 example_forest ghost_new 1
        info.buffer (info.buffer.length : Int) = .ok ghost ∧
      ghost.ghost_trees.map (fun t => (t.global_id, t.eclass, t.elements)) =
        [(10, 2, { elem_size := 3, elems := [[1, 0, 7], [1, 1, 7]] }),
         (11, 2, { elem_size := 3, elems := [[2, 4, 9]] })] :=
  have hwt : remote_entry_well_typed 8
      { remote_rank := 1,
        remote_trees :=
          [{ global_id := 10, mpirank := 1, eclass := 2,
             elements := { elem_size := 3, elems := [[1, 0, 7], [1, 1, 7]] } },
           { global_id := 11, mpirank := 1, eclass := 2,
             elements := { elem_size := 3, elems := [[2, 4, 9]] } }] } := by
    refine ⟨?_, by decide⟩
    intro rt hrt
    simp only [List.mem_cons, List.mem_singleton, List.not_mem_nil, or_false] at hrt
    rcases hrt with h | h <;> subst h <;>
      simp [remote_tree_well_typed, sc_array_t.elem_count]
  ⟨hwt, C1_codec_round_trip 8 example_forest _ 1 0 hwt (by decide) (by decide)
    (by intro rt hrt
        simp only [List.mem_cons, List.mem_singleton, List.not_mem_nil,
          or_false] at hrt
        rcases hrt with h | h <;> subst h <;> rfl)⟩


/-! ### The receive loop -/

theorem recv_list_entries_from_find (ranks : List Int) (hnd : ranks.Nodup) :
    ∀ (p i : Nat) (r : Int), ranks[i]? = some r →
      (recv_list_entries_from p ranks).find? (fun e => decide (e.rank = r)) =
        some { rank := r, pos_in_remote_processes := p + i } := by
  induction ranks with
  | nil => intro p i r h; simp at h
  | cons a ranks ih =>
    intro p i r h
    simp only [List.nodup_cons] at hnd
    cases i with
    | zero =>
      simp only [List.getElem?_cons_zero, Option.some.injEq] at h
      subst h
      simp [recv_list_entries_from]
    | succ i =>
      simp only [List.getElem?_cons_succ] at h
      have hne : a ≠ r := by
        intro heq
        subst heq
        exact hnd.1 (List.getElem?_mem h)
      simp only [recv_list_entries_from, List.find?_cons, hne, decide_False]
      rw [ih hnd.2 (p + 1) i r h]
      congr 2
      omega

theorem recv_list_entries_from_find_none (ranks : List Int) (r : Int)
    (h : r ∉ ranks) (p : Nat) :
    (recv_list_entries_from p ranks).find? (fun e => decide (e.rank = r)) = none := by
  induction ranks generalizing p with
  | nil => simp [recv_list_entries_from]
  | cons a ranks ih =>
    simp only [List.mem_cons, not_or] at h
    have hne : a ≠ r := fun heq => h.1 heq.symm
    simp only [recv_list_entries_from, List.find?_cons, hne, decide_False]
    exact ih h.2 (p + 1)

theorem recv_list_entries_build_ok (ranks : List Int) :
    ∀ (p : Nat) (table : List t8_recv_list_entry_t), ranks.Nodup →
      (∀ r ∈ ranks, table.find? (fun e => decide (e.rank = r)) = none) →
      recv_list_entries_build p ranks table =
        .ok (table ++ recv_list_entries_from p ranks) := by
  induction ranks with
  | nil => intro p table _ _; simp [recv_list_entries_build, recv_list_entries_from]
  | cons a ranks ih =>
    intro p table hnd hdis
    simp only [List.nodup_cons] at hnd
    simp only [recv_list_entries_build, hdis a (by simp)]
    rw [ih (p + 1) _ hnd.2]
    · simp [recv_list_entries_from]
    · intro r hr
      rw [List.find?_append, hdis r (by simp [hr])]
      have hne : a ≠ r := by
        intro heq
        subst heq
        exact hnd.1 hr
      simp [hne]

/-- The loop that parses the received messages in order of their rank: it
parses the messages of the ranks from position `p` up to the first rank whose
message has not arrived yet. -/
theorem receive_parse_loop_spec {σ : Type}
    (parse : σ → Int → List Nat → Int → Except Failure σ)
    (ranks : List Int) (arrivals : List mpi_message) :
    ∀ (k p : Nat) (st : receive_state σ), k = ranks.length - p →
      p ≤ ranks.length →
      st.last_rank_parsed = (p : Int) - 1 →
      st.received_flag.length = ranks.length →
      (∀ (i : Nat) (r : Int), ranks[i]? = some r →
        st.received_flag[i]? = some 1 →
        st.buffer[i]? = some (message_from arrivals r) ∧
        st.recv_bytes[i]? = some ((message_from arrivals r).length : Int)) →
      (∀ i : Nat, i < ranks.length →
        st.received_flag[i]? = some 0 ∨ st.received_flag[i]? = some 1) →
      (∀ e, receive_parse_loop parse ranks k p st = .error e →
        parse_in_order parse arrivals (ranks.drop p) st.ghost = .error e) ∧
      (∀ st', receive_parse_loop parse ranks k p st = .ok st' →
        ∃ q : Nat, p ≤ q ∧ q ≤ ranks.length ∧
          st'.buffer = st.buffer ∧ st'.recv_bytes = st.recv_bytes ∧
          st'.received_flag = st.received_flag ∧
          st'.received_messages = st.received_messages ∧
          st'.last_rank_parsed = (q : Int) - 1 ∧
          (∀ i : Nat, p ≤ i → i < q → st.received_flag[i]? = some 1) ∧
          (q < ranks.length → st.received_flag[q]? = some 0) ∧
          parse_in_order parse arrivals (ranks.drop p) st.ghost =
            parse_in_order parse arrivals (ranks.drop q) st'.ghost) := by
  intro k
  induction k with
  | zero =>
    intro p st hk hp hlast _ _ _
    constructor
    · intro e he
      simp [receive_parse_loop] at he
    · intro st' he
      simp only [receive_parse_loop, Except.ok.injEq] at he
      subst he
      refine ⟨p, Nat.le_refl _, hp, rfl, rfl, rfl, rfl, hlast, ?_, ?_, rfl⟩
      · intro i h1 h2; omega
      · intro h; omega
  | succ k ih =>
    intro p st hk hp hlast hflen hbuf hflag
    have hplt : p < ranks.length := by omega
    rcases hflag p hplt with hf | hf
    · -- the message of the rank at position p has not arrived
      constructor
      · intro e he
        simp [receive_parse_loop, hf] at he
      · intro st' he
        simp only [receive_parse_loop, hf] at he
        simp only [zero_ne_one, if_false, Except.ok.injEq] at he
        subst he
        refine ⟨p, Nat.le_refl _, hp, rfl, rfl, rfl, rfl, hlast, ?_, ?_, rfl⟩
        · intro i h1 h2; omega
        · intro _; exact hf
    · have hr : ranks[p]? = some ranks[p] := List.getElem?_eq_getElem hplt
      obtain ⟨hb, hn⟩ := hbuf p _ hr hf
      have hdrop : ranks.drop p = ranks[p] :: ranks.drop (p + 1) :=
        List.drop_eq_getElem_cons hplt
      cases hparse : parse st.ghost ranks[p] (message_from arrivals ranks[p])
          ((message_from arrivals ranks[p]).length : Int) with
      | error e0 =>
        constructor
        · intro e he
          simp only [receive_parse_loop, hf, if_true, hr, hb, hn, hparse,
            Except.error.injEq] at he
          subst he
          rw [hdrop]
          simp only [parse_in_order, List.foldlM_cons, bind, Except.bind, hparse]
        · intro st' he
          simp [receive_parse_loop, hf, hr, hb, hn, hparse] at he
      | ok g =>
        have hih := ih (p + 1)
          { st with ghost := g, last_rank_parsed := st.last_rank_parsed + 1 }
          (by omega) (by omega) (by simp only [hlast]; push_cast; ring) hflen hbuf hflag
        have hF : parse_in_order parse arrivals (ranks.drop p) st.ghost =
            parse_in_order parse arrivals (ranks.drop (p + 1)) g := by
          rw [hdrop]
          simp only [parse_in_order, List.foldlM_cons, bind, Except.bind, hparse]
        constructor
        · intro e he
          simp only [receive_parse_loop, hf, if_true, hr, hb, hn, hparse] at he
          rw [hF]
          exact hih.1 e he
        · intro st' he
          simp only [receive_parse_loop, hf, if_true, hr, hb, hn, hparse] at he
          obtain ⟨q, hq1, hq2, e1, e2, e3, e4, e5, hall, hstop, hFq⟩ := hih.2 st' he
          refine ⟨q, by omega, hq2, e1, e2, e3, e4, e5, ?_, hstop, hF.trans hFq⟩
          intro i h1 h2
          by_cases hi : i = p
          · subst hi; exact hf
          · exact hall i (by omega) h2

theorem message_from_eq {arrivals : List mpi_message}
    (hnd : (arrivals.map (·.MPI_SOURCE)).Nodup) {m : mpi_message}
    (hm : m ∈ arrivals) : message_from arrivals m.MPI_SOURCE = m.bytes := by
  induction arrivals with
  | nil => simp at hm
  | cons a l ih =>
    simp only [List.map_cons, List.nodup_cons] at hnd
    by_cases ha : a.MPI_SOURCE = m.MPI_SOURCE
    · have : m = a := by
        rcases List.mem_cons.mp hm with h | h
        · exact h
        · exact absurd (List.mem_map.mpr ⟨m, h, ha.symm⟩) hnd.1
      subst this
      simp [message_from, List.find?_cons]
    · have hml : m ∈ l := by
        rcases List.mem_cons.mp hm with h | h
        · subst h; exact absurd rfl ha
        · exact h
      have := ih hnd.2 hml
      simpa [message_from, List.find?_cons, ha] using this

/-- The receive loop, followed by the closing assertions of
`t8_forest_ghost_receive`, parses the messages of the ranks that are still to
be parsed in the order of the sorted array. -/
theorem receive_loop_spec {σ : Type}
    (parse : σ → Int → List Nat → Int → Except Failure σ)
    (ranks : List Int) (arrivals : List mpi_message) (hnd : ranks.Nodup)
    (hperm : (arrivals.map (·.MPI_SOURCE)).Perm ranks) :
    ∀ (todo received : List mpi_message) (p : Nat) (st : receive_state σ),
      arrivals = received ++ todo →
      receive_inv ranks arrivals received p st →
      (match receive_loop parse ranks (recv_list_entries_from 0 ranks)
          ranks.length st todo with
        | .error e => .error e
        | .ok st =>
          if st.received_flag.any (fun flag => decide (flag ≠ 1)) then
            .error (.assertion 1302)
          else if st.last_rank_parsed ≠ (ranks.length : Int) - 1 then
            .error (.assertion 1305)
          else .ok st.ghost) =
        parse_in_order parse arrivals (ranks.drop p) st.ghost := by
  have hndA : (arrivals.map (·.MPI_SOURCE)).Nodup := (hperm.nodup_iff).mpr hnd
  have hlenA : arrivals.length = ranks.length := by
    have := hperm.length_eq
    simpa using this
  intro todo
  induction todo with
  | nil =>
    intro received p st harr hinv
    obtain ⟨hb, hrb, hfl, hrm, hlast, hp, hrank, hall, hstop⟩ := hinv
    simp only [List.append_nil] at harr
    subst harr
    have hfull : ∀ i : Nat, i < ranks.length → st.received_flag[i]? = some 1 := by
      intro i hi
      have hr : ranks[i]? = some ranks[i] := List.getElem?_eq_getElem hi
      exact ((hrank i _ hr).1 (hperm.mem_iff.mpr (List.getElem?_mem hr))).1
    have hpn : p = ranks.length := by
      by_contra hne
      have hlt : p < ranks.length := by omega
      have h0 := hstop hlt
      rw [hfull p hlt] at h0
      cases h0
    have hany : st.received_flag.any (fun flag => decide (flag ≠ 1)) = false := by
      rw [List.any_eq_false]
      intro x hx
      obtain ⟨i, hi⟩ := List.mem_iff_getElem?.mp hx
      have hilt : i < ranks.length := by
        have := (List.getElem?_eq_some_iff.mp hi).1
        omega
      rw [hfull i hilt] at hi
      simp only [Option.some.injEq] at hi
      subst hi
      simp
    simp only [receive_loop, hrm, hlenA, Nat.lt_irrefl, if_false, hany]
    rw [hpn] at hlast ⊢
    simp [hlast, parse_in_order, pure, Except.pure]
  | cons m rest ih =>
    intro received p st harr hinv
    obtain ⟨hb, hrb, hfl, hrm, hlast, hp, hrank, hall, hstop⟩ := hinv
    have hmA : m ∈ arrivals := by rw [harr]; simp
    have hsrcS : m.MPI_SOURCE ∈ ranks :=
      hperm.mem_iff.mp (List.mem_map.mpr ⟨m, hmA, rfl⟩)
    obtain ⟨pos, hpos⟩ := List.mem_iff_getElem?.mp hsrcS
    have hposlt : pos < ranks.length := (List.getElem?_eq_some_iff.mp hpos).1
    have hnotrec : m.MPI_SOURCE ∉ received.map (·.MPI_SOURCE) := by
      rw [harr] at hndA
      simp only [List.map_append, List.map_cons] at hndA
      have := (List.nodup_append.mp hndA).2.2
      intro hin
      exact this hin (by simp)
    have hcount : received.length < ranks.length := by
      rw [← hlenA, harr]
      simp
    have hfind := recv_list_entries_from_find ranks hnd 0 pos _ hpos
    simp only [Nat.zero_add] at hfind
    have hflag0 : st.received_flag[pos]? = some 0 := (hrank pos _ hpos).2 hnotrec
    have hppos : p ≤ pos := by
      by_contra hlt
      have := hall pos (by omega)
      rw [hflag0] at this
      cases this
    -- the state after the message was received and marked
    have hmsg : message_from arrivals m.MPI_SOURCE = m.bytes := message_from_eq hndA hmA
    have hdrain := receive_parse_loop_spec parse ranks arrivals
      (ranks.length - p) p
      { st with
        buffer := st.buffer.set pos m.bytes,
        recv_bytes := st.recv_bytes.set pos (m.bytes.length : Int),
        received_flag := st.received_flag.set pos 1,
        received_messages := st.received_messages + 1 }
      rfl hp hlast (by simp [hfl])
      (by
        intro i r hir hfi
        simp only at hfi ⊢
        by_cases hi : pos = i
        · subst hi
          rw [hpos] at hir
          simp only [Option.some.injEq] at hir
          subst hir
          rw [List.getElem?_set_self (by omega), List.getElem?_set_self (by omega), hmsg]
          exact ⟨rfl, rfl⟩
        · rw [List.getElem?_set_ne hi] at hfi ⊢
          rw [List.getElem?_set_ne hi]
          by_cases hrr : r ∈ received.map (·.MPI_SOURCE)
          · exact ((hrank i r hir).1 hrr).2
          · rw [(hrank i r hir).2 hrr] at hfi
            cases hfi)
      (by
        intro i hi
        simp only
        by_cases hpi : pos = i
        · subst hpi
          right
          exact List.getElem?_set_self (by omega)
        · rw [List.getElem?_set_ne hpi]
          have hr : ranks[i]? = some ranks[i] := List.getElem?_eq_getElem hi
          by_cases hrr : ranks[i] ∈ received.map (·.MPI_SOURCE)
          · right; exact ((hrank i _ hr).1 hrr).1
          · left; exact (hrank i _ hr).2 hrr)
    have hlt1 : st.last_rank_parsed < (pos : Int) := by
      rw [hlast]; omega
    have htoNat : (st.last_rank_parsed + 1).toNat = p := by
      rw [hlast]; simp
    simp only [receive_loop, hrm, hcount, if_true, hfind, List.getElem?_set_ne,
      hflag0, ne_eq, not_true_eq_false, if_false, hlt1, htoNat]
    cases hres : receive_parse_loop parse ranks (ranks.length - p) p
        { st with
          buffer := st.buffer.set pos m.bytes,
          recv_bytes := st.recv_bytes.set pos (m.bytes.length : Int),
          received_flag := st.received_flag.set pos 1,
          received_messages := st.received_messages + 1 } with
    | error e =>
      have := hdrain.1 e hres
      simp only at this ⊢
      rw [hrm] at hres
      simp only [hres]
      exact this.symm
    | ok st' =>
      obtain ⟨q, hq1, hq2, e1, e2, e3, e4, e5, hrun, hqstop, hF⟩ := hdrain.2 st' hres
      simp only at e1 e2 e3 e4 hrun hqstop hF
      rw [hrm] at hres
      simp only [hres]
      rw [hF]
      apply ih (received ++ [m]) q st' (by rw [harr]; simp)
      refine ⟨by rw [e1]; simp [hb], by rw [e2]; simp [hrb], by rw [e3]; simp [hfl],
        by rw [e4, hrm]; simp, e5, hq2, ?_, ?_, ?_⟩
      · intro i r hir
        rw [e1, e2, e3]
        constructor
        · intro hin
          simp only [List.map_append, List.map_cons, List.map_nil, List.mem_append,
            List.mem_singleton] at hin
          by_cases hi : pos = i
          · subst hi
            rw [hpos] at hir
            simp only [Option.some.injEq] at hir
            subst hir
            rw [List.getElem?_set_self (by omega), List.getElem?_set_self (by omega),
              List.getElem?_set_self (by omega), hmsg]
            exact ⟨rfl, rfl, rfl⟩
          · rw [List.getElem?_set_ne hi, List.getElem?_set_ne hi,
              List.getElem?_set_ne hi]
            rcases hin with hin | hin
            · exact (hrank i r hir).1 hin
            · exfalso
              subst hin
              -- the same rank at two positions of a list without duplicates
              have h1 := (List.getElem?_eq_some_iff.mp hir)
              have h2 := (List.getElem?_eq_some_iff.mp hpos)
              obtain ⟨hl1, hv1⟩ := h1
              obtain ⟨hl2, hv2⟩ := h2
              exact hi ((List.Nodup.getElem_inj_iff hnd).mp (hv2.trans hv1.symm))
        · intro hnin
          simp only [List.map_append, List.map_cons, List.map_nil, List.mem_append,
            List.mem_singleton, not_or] at hnin
          have hi : pos ≠ i := by
            intro heq
            subst heq
            rw [hpos] at hir
            simp only [Option.some.injEq] at hir
            exact hnin.2 hir.symm
          rw [List.getElem?_set_ne hi]
          exact (hrank i r hir).2 hnin.1
      · intro i hi
        rw [e3]
        by_cases hip : i < p
        · by_cases hpi : pos = i
          · subst hpi
            exact List.getElem?_set_self (by omega)
          · rw [List.getElem?_set_ne hpi]
            exact hall i hip
        · exact hrun i (by omega) hi
      · intro hq
        rw [e3]
        exact hqstop hq

/-- The receive loop, for every arrival order, does what parsing the messages
in the order of the sorted rank list does. -/
theorem ghost_receive_with_in_order {σ : Type}
    (parse : σ → Int → List Nat → Int → Except Failure σ)
    (remote_processes : List Int) (ghost : σ) (arrivals : List mpi_message)
    (hnd : remote_processes.Nodup)
    (hperm : (arrivals.map (·.MPI_SOURCE)).Perm remote_processes) :
    ghost_receive_with parse remote_processes ghost arrivals =
      parse_in_order parse arrivals
        (remote_processes.insertionSort (· ≤ ·)) ghost := by
  have hsp := List.perm_insertionSort (· ≤ ·) remote_processes
  have hlen : (remote_processes.insertionSort (· ≤ ·)).length =
      remote_processes.length := hsp.length_eq
  unfold ghost_receive_with
  by_cases h0 : remote_processes.length = 0
  · have hnil : remote_processes = [] := List.length_eq_zero.mp h0
    subst hnil
    simp [parse_in_order, pure, Except.pure]
  · simp only [h0, if_false]
    have hndS : (remote_processes.insertionSort (· ≤ ·)).Nodup :=
      (hsp.nodup_iff).mpr hnd
    rw [recv_list_entries_build_ok _ 0 [] hndS (by intro r _; rfl)]
    simp only [List.nil_append]
    have hspec := receive_loop_spec parse (remote_processes.insertionSort (· ≤ ·))
      arrivals hndS (hperm.trans hsp.symm) arrivals [] 0
      { ghost := ghost,
        buffer := List.replicate remote_processes.length [],
        recv_bytes := List.replicate remote_processes.length 0,
        received_flag := List.replicate remote_processes.length 0,
        received_messages := 0,
        last_rank_parsed := -1 } (by simp)
      (by
        refine ⟨by simp [hlen], by simp [hlen], by simp [hlen], rfl, by simp,
          Nat.zero_le _, ?_, ?_, ?_⟩
        · intro i r hir
          have hi : i < remote_processes.length := by
            have := (List.getElem?_eq_some_iff.mp hir).1
            omega
          constructor
          · intro hin
            simp at hin
          · intro _
            simp [List.getElem?_replicate, hi]
        · intro i hi
          omega
        · intro hpos
          simp only [List.getElem?_replicate]
          rw [if_pos (by omega)])
    rw [hlen] at hspec
    simpa using hspec



/-- C4 (rank order ingestion): for every remote rank list without duplicates
and every arrival order whose senders are a permutation of that list,
`t8_forest_ghost_receive` (for any parse routine) does exactly what parsing
the messages in the order of the sorted rank list does: the parse routine is
called once for every rank, in ascending order of the ranks, each time with
the buffer received from that rank and its length, whatever the arrival order
is. -/
theorem C4_rank_order_ingestion {σ : Type}
    (parse : σ → Int → List Nat → Int → Except Failure σ)
    (remote_processes : List Int) (ghost : σ) (arrivals : List mpi_message)
    (hnd : remote_processes.Nodup)
    (hperm : (arrivals.map (·.MPI_SOURCE)).Perm remote_processes) :
    (remote_processes.insertionSort (· ≤ ·)).Sorted (· ≤ ·) ∧
    (remote_processes.insertionSort (· ≤ ·)).Perm remote_processes ∧
    ghost_receive_with parse remote_processes ghost arrivals =
      parse_in_order parse arrivals
        (remote_processes.insertionSort (· ≤ ·)) ghost := by
  exact ⟨List.sorted_insertionSort (· ≤ ·) remote_processes,
    List.perm_insertionSort (· ≤ ·) remote_processes,
    ghost_receive_with_in_order parse remote_processes ghost arrivals hnd hperm⟩

theorem C4_rank_order_ingestion_witness :
    ([5, 2, 9] : List Int).Nodup ∧
    (([⟨9, [1]⟩, ⟨5, [2]⟩, ⟨2, [3]⟩] : List mpi_message).map
      (·.MPI_SOURCE)).Perm [5, 2, 9] ∧
    (([5, 2, 9] : List Int).insertionSort (· ≤ ·)).Sorted (· ≤ ·) ∧
    (([5, 2, 9] : List Int).insertionSort (· ≤ ·)).Perm [5, 2, 9] ∧
    ghost_receive_with
        (fun (log : List (Int × List Nat × Int)) rank buffer bytes =>
          Except.ok (log ++ [(rank, buffer, bytes)]))
        [5, 2, 9] [] [⟨9, [1]⟩, ⟨5, [2]⟩, ⟨2, [3]⟩] =
      parse_in_order
        (fun (log : List (Int × List Nat × Int)) rank buffer bytes =>
          Except.ok (log ++ [(rank, buffer, bytes)]))
        [⟨9, [1]⟩, ⟨5, [2]⟩, ⟨2, [3]⟩]
        (([5, 2, 9] : List Int).insertionSort (· ≤ ·)) [] :=
  ⟨by decide, by decide,
   C4_rank_order_ingestion
    (fun (log : List (Int × List Nat × Int)) rank buffer bytes =>
      Except.ok (log ++ [(rank, buffer, bytes)]))
    [5, 2, 9] [] [⟨9, [1]⟩, ⟨5, [2]⟩, ⟨2, [3]⟩] (by decide) (by decide)⟩


/-! ### Discovery -/

/-- A loop whose rounds succeed under an invariant and act on a component of
the state like a list of steps, acts like the concatenated steps. -/
theorem foldlM_flatMap {α σ τ γ : Type} (f : σ → α → Except Failure σ)
    (I : σ → Prop) (proj : σ → τ) (step : τ → γ → τ) (calls : α → List γ) :
    ∀ (l : List α),
      (∀ s a, a ∈ l → I s →
        ∃ s', f s a = .ok s' ∧ I s' ∧ proj s' = (calls a).foldl step (proj s)) →
      ∀ s, I s →
        ∃ s', l.foldlM f s = .ok s' ∧ I s' ∧
          proj s' = (l.flatMap calls).foldl step (proj s) := by
  intro l
  induction l with
  | nil =>
    intro _ s hs
    exact ⟨s, rfl, hs, rfl⟩
  | cons a l ih =>
    intro h s hs
    obtain ⟨s1, h1, hI1, hp1⟩ := h s a (by simp) hs
    obtain ⟨s2, h2, hI2, hp2⟩ := ih (fun s a ha => h s a (by simp [ha])) s1 hI1
    refine ⟨s2, ?_, hI2, ?_⟩
    · simp only [List.foldlM_cons, bind, Except.bind, h1, h2]
    · simp only [List.flatMap_cons, List.foldl_append, hp2, hp1]

theorem add_remote_total_ok {forest : t8_forest_t}
    (hcopy : copy_preserves_key forest) (g : t8_forest_ghost)
    (c : add_remote_call) (h : remote_index_ok forest g) :
    t8_ghost_add_remote forest g c.remote_rank c.ltreeid c.elem =
      .ok (add_remote_total forest g c) ∧
    remote_index_ok forest (add_remote_total forest g c) := by
  obtain ⟨g', hg, hok⟩ := t8_ghost_add_remote_ok hcopy g c.remote_rank c.ltreeid c.elem h
  simp only [add_remote_total, hg]
  exact ⟨trivial, hok⟩

theorem write_half_neighbors_ok (buf : List t8_element_t) (n : Nat)
    (f : Nat → t8_element_t) (h : n ≤ buf.length) :
    write_half_neighbors buf n f = .ok ((List.range n).map f ++ buf.drop n) ∧
    ((List.range n).map f ++ buf.drop n).length = buf.length ∧
    ∀ i, i < n → ((List.range n).map f ++ buf.drop n)[i]? = some (f i) := by
  refine ⟨by simp [write_half_neighbors, h], by simp; omega, ?_⟩
  intro i hi
  rw [List.getElem?_append_left (by simpa using hi)]
  simp [List.getElem?_map, List.getElem?_range hi]

theorem fill_remote_regrow_ok (forest : t8_forest_t) (st : fill_remote_locals)
    (neigh_class : t8_eclass_t) (n : Nat) (h : scratch_ok st) :
    scratch_ok (fill_remote_regrow forest st neigh_class n) ∧
    n ≤ (fill_remote_regrow forest st neigh_class n).half_neighbors.length ∧
    (fill_remote_regrow forest st neigh_class n).ghost = st.ghost := by
  unfold fill_remote_regrow scratch_ok at *
  split
  · simp
  · rename_i hc
    simp only [not_or, not_lt, ne_eq, Decidable.not_not] at hc
    exact ⟨h, by omega, rfl⟩

/-- The loop over the face children when the first `n` slots of the scratch
buffer hold the half neighbours `f 0, ..., f (n - 1)`. -/
theorem fill_remote_children_calls {forest : t8_forest_t}
    (hcopy : copy_preserves_key forest) (hown : owners_valid forest)
    (itree : Nat) (elem : t8_element_t) (nt : Int) (nc : t8_eclass_t)
    (buf : List t8_element_t) (n : Nat) (f : Nat → t8_element_t)
    (hbuf : ∀ i, i < n → buf[i]? = some (f i))
    (g : t8_forest_ghost) (hg : remote_index_ok forest g) :
    ∃ g', (List.range n).foldlM (fill_remote_child forest itree elem nt nc buf) g =
        .ok g' ∧
      remote_index_ok forest g' ∧
      g' = ((List.range n).flatMap fun ichild =>
          if forest.element_find_owner nt (f ichild) nc ≠ forest.mpirank then
            [{ remote_rank := forest.element_find_owner nt (f ichild) nc,
               ltreeid := itree, elem := elem }]
          else []).foldl (add_remote_total forest) g := by
  have := foldlM_flatMap (fill_remote_child forest itree elem nt nc buf)
    (remote_index_ok forest) id (add_remote_total forest)
    (fun ichild =>
      if forest.element_find_owner nt (f ichild) nc ≠ forest.mpirank then
        [{ remote_rank := forest.element_find_owner nt (f ichild) nc,
           ltreeid := itree, elem := elem }]
      else [])
    (List.range n)
    (by
      intro g ichild hmem hgok
      have hlt := List.mem_range.mp hmem
      unfold fill_remote_child
      simp only [hbuf ichild hlt, bind, Except.bind, pure, Except.pure, T8_ASSERT,
        hown _ _ _, and_self, decide_True, if_true, id]
      by_cases hne : forest.element_find_owner nt (f ichild) nc = forest.mpirank
      · simp only [hne, ne_eq, not_true_eq_false, if_false]
        exact ⟨g, rfl, hgok, by simp⟩
      · simp only [ne_eq, hne, not_false_eq_true, if_true]
        have := add_remote_total_ok hcopy g
          { remote_rank := forest.element_find_owner nt (f ichild) nc,
            ltreeid := itree, elem := elem } hgok
        exact ⟨_, this.1, this.2, by simp⟩)
    g hg
  simpa using this

/-- The face loop body for an element below the maximum level (half neighbour
branch): it succeeds and makes the calls `face_calls`. -/
theorem fill_remote_face_calls {forest : t8_forest_t}
    (hcopy : copy_preserves_key forest) (hown : owners_valid forest)
    (itree : Nat) (elem : t8_element_t) (st : fill_remote_locals) (iface : Nat)
    (hst : scratch_ok st ∧ remote_index_ok forest st.ghost) :
    ∃ st', fill_remote_face forest 0 itree elem false st iface = .ok st' ∧
      (scratch_ok st' ∧ remote_index_ok forest st'.ghost) ∧
      st'.ghost = (face_calls forest itree elem iface).foldl
        (add_remote_total forest) st.ghost := by
  obtain ⟨hs, hg⟩ := hst
  unfold fill_remote_face face_calls
  simp only [if_true, Bool.not_false, bind, Except.bind, pure, Except.pure]
  generalize forest.element_neighbor_eclass itree elem iface = nc
  generalize (forest.scheme (forest.tree_class itree)).t8_element_num_face_children
    elem iface = n
  generalize forest.element_half_face_neighbors itree elem iface n = r
  obtain ⟨hs1, hn1, hg1⟩ := fill_remote_regrow_ok forest
    { st with neigh_scheme := some nc } nc n hs
  generalize fill_remote_regrow forest { st with neigh_scheme := some nc } nc n = st1
    at hs1 hn1 hg1 ⊢
  obtain ⟨hw, hwl, hwi⟩ := write_half_neighbors_ok st1.half_neighbors n r.2 hn1
  rw [hw]
  simp only
  have hsc : st1.ghost = st.ghost := hg1
  by_cases hnt : r.1 ≥ 0
  · simp only [hnt, if_true]
    obtain ⟨g', hfold, hok', hproj⟩ := fill_remote_children_calls hcopy hown itree elem
      r.1 nc _ n r.2 hwi st1.ghost (by rw [hsc]; exact hg)
    rw [hfold]
    refine ⟨_, rfl, ⟨?_, hok'⟩, ?_⟩
    · simp only [scratch_ok] at hs1 ⊢
      rw [hwl]
      exact hs1
    · simp only
      rw [hproj, hsc]
  · simp only [hnt, if_false]
    refine ⟨_, rfl, ⟨?_, ?_⟩, ?_⟩
    · simp only [scratch_ok] at hs1 ⊢
      rw [hwl]
      exact hs1
    · simp only [hsc]; exact hg
    · simp only [List.foldl_nil, hsc]

theorem fill_remote_element_calls {forest : t8_forest_t}
    (hcopy : copy_preserves_key forest) (hown : owners_valid forest)
    (itree : Nat) (elem : t8_element_t)
    (hlevel : (forest.scheme (forest.tree_class itree)).t8_element_level elem <
      (forest.scheme (forest.tree_class itree)).t8_element_maxlevel)
    (st : fill_remote_locals)
    (hst : scratch_ok st ∧ remote_index_ok forest st.ghost) :
    ∃ st', fill_remote_element forest 0 itree st elem = .ok st' ∧
      (scratch_ok st' ∧ remote_index_ok forest st'.ghost) ∧
      st'.ghost = (element_calls forest itree elem).foldl
        (add_remote_total forest) st.ghost := by
  unfold fill_remote_element element_calls
  have hne : ¬ (forest.scheme (forest.tree_class itree)).t8_element_level elem =
      (forest.scheme (forest.tree_class itree)).t8_element_maxlevel := by omega
  simp only [hne, decide_False]
  exact foldlM_flatMap (fill_remote_face forest 0 itree elem false)
    (fun st => scratch_ok st ∧ remote_index_ok forest st.ghost) (·.ghost)
    (add_remote_total forest) (face_calls forest itree elem) _
    (fun s a _ hs => fill_remote_face_calls hcopy hown itree elem s a hs) st hst

theorem fill_remote_tree_calls {forest : t8_forest_t}
    (hcopy : copy_preserves_key forest) (hown : owners_valid forest)
    (hlevel : below_maxlevel forest) (itree : Nat) (st : fill_remote_locals)
    (hst : scratch_ok st ∧ remote_index_ok forest st.ghost) :
    ∃ st', fill_remote_tree forest 0 st itree = .ok st' ∧
      (scratch_ok st' ∧ remote_index_ok forest st'.ghost) ∧
      st'.ghost = (tree_calls forest itree).foldl
        (add_remote_total forest) st.ghost := by
  unfold fill_remote_tree tree_calls
  exact foldlM_flatMap (fill_remote_element forest 0 itree)
    (fun st => scratch_ok st ∧ remote_index_ok forest st.ghost) (·.ghost)
    (add_remote_total forest) (element_calls forest itree) _
    (fun s a ha hs =>
      fill_remote_element_calls hcopy hown itree a (hlevel itree a ha) s hs) st hst

/-- The tree loop of Discovery with the half neighbour method, on a forest
whose elements are below the maximum level: it runs to the end and leaves the
ghost structure that the calls `forest_calls` of `t8_ghost_add_remote` build. -/
theorem fill_remote_trees_calls {forest : t8_forest_t}
    (hcopy : copy_preserves_key forest) (hown : owners_valid forest)
    (hlevel : below_maxlevel forest) (ghost : t8_forest_ghost)
    (hg : remote_index_ok forest ghost) :
    ∃ st', (List.range forest.num_local_trees).foldlM (fill_remote_tree forest 0)
        (fill_remote_start ghost) = .ok st' ∧
      remote_index_ok forest st'.ghost ∧
      st'.ghost = (forest_calls forest).foldl (add_remote_total forest) ghost := by
  obtain ⟨st', hfold, ⟨_, hok⟩, hproj⟩ :=
    foldlM_flatMap (fill_remote_tree forest 0)
      (fun st => scratch_ok st ∧ remote_index_ok forest st.ghost) (·.ghost)
      (add_remote_total forest) (tree_calls forest)
      (List.range forest.num_local_trees)
      (fun s a _ hs => fill_remote_tree_calls hcopy hown hlevel a s hs)
      (fill_remote_start ghost) ⟨rfl, hg⟩
  exact ⟨st', hfold, hok, hproj⟩


theorem sc_hash_array_lookup_lt {a : List t8_ghost_remote_t} {r : Int} {i : Nat}
    (h : sc_hash_array_lookup a r = some i) : i < a.length := by
  obtain ⟨e, he, _⟩ := sc_hash_array_lookup_some h
  exact (List.getElem?_eq_some_iff.mp he).1

theorem sc_hash_array_lookup_none {a : List t8_ghost_remote_t} {r : Int}
    (h : sc_hash_array_lookup a r = none) : ∀ e ∈ a, e.remote_rank ≠ r := by
  induction a with
  | nil => intro e he; simp at he
  | cons x xs ih =>
    simp only [sc_hash_array_lookup] at h
    split at h
    · cases h
    · rename_i hx
      cases hl : sc_hash_array_lookup xs r with
      | some j => simp [hl] at h
      | none =>
        intro e he
        rcases List.mem_cons.mp he with h1 | h1
        · subst h1; exact hx
        · exact ih hl e h1

theorem sc_hash_array_lookup_of_mem {a : List t8_ghost_remote_t} {r : Int}
    (h : ∃ e ∈ a, e.remote_rank = r) : ∃ i, sc_hash_array_lookup a r = some i := by
  cases hl : sc_hash_array_lookup a r with
  | some i => exact ⟨i, rfl⟩
  | none =>
    obtain ⟨e, he, her⟩ := h
    exact absurd her (sc_hash_array_lookup_none hl e he)

theorem sc_hash_array_lookup_append (a : List t8_ghost_remote_t)
    (e : t8_ghost_remote_t) (r : Int) :
    sc_hash_array_lookup (a ++ [e]) r =
      match sc_hash_array_lookup a r with
      | some i => some i
      | none => if e.remote_rank = r then some a.length else none := by
  induction a with
  | nil =>
    simp only [List.nil_append, sc_hash_array_lookup, List.length_nil]
    split <;> simp
  | cons x xs ih =>
    simp only [List.cons_append, sc_hash_array_lookup]
    by_cases hx : x.remote_rank = r
    · simp [hx]
    · simp only [hx, if_false]
      show Option.map _ (sc_hash_array_lookup (xs ++ [e]) r) = _
      rw [ih]
      cases hl : sc_hash_array_lookup xs r with
      | some i => simp
      | none =>
        simp only [Option.map_none']
        split <;> simp

theorem sc_hash_array_lookup_set (a : List t8_ghost_remote_t) (i : Nat)
    (b : t8_ghost_remote_t) (ts : List t8_ghost_remote_tree_t) (hb : a[i]? = some b)
    (r : Int) :
    sc_hash_array_lookup (a.set i { remote_rank := b.remote_rank, remote_trees := ts }) r =
      sc_hash_array_lookup a r := by
  induction a generalizing i with
  | nil => simp at hb
  | cons y ys ih =>
    cases i with
    | zero =>
      simp only [List.getElem?_cons_zero, Option.some.injEq] at hb
      subst hb
      simp [sc_hash_array_lookup]
    | succ i =>
      simp only [List.getElem?_cons_succ] at hb
      simp [sc_hash_array_lookup, ih i hb]

/-- What a call of `t8_ghost_add_remote` does on a ghost structure whose
entries hold at least one remote tree each: it succeeds and changes the remote
trees of the addressed rank only, as `remote_trees_add` says. -/
theorem add_remote_total_spec (forest : t8_forest_t) (g : t8_forest_ghost)
    (c : add_remote_call) (hne : remote_entries_nonempty g) :
    t8_ghost_add_remote forest g c.remote_rank c.ltreeid c.elem =
      .ok (add_remote_total forest g c) ∧
    remote_entries_nonempty (add_remote_total forest g c) ∧
    (∀ r' : Int, remote_trees_of (add_remote_total forest g c) r' =
      if r' = c.remote_rank then
        remote_trees_add forest c.remote_rank c.ltreeid c.elem
          (remote_trees_of g c.remote_rank)
      else remote_trees_of g r') := by
  cases hl : sc_hash_array_lookup g.remote_ghosts c.remote_rank with
  | none =>
    have hadd := @t8_ghost_add_remote_new forest g c.remote_rank c.ltreeid c.elem hl
    have htot : add_remote_total forest g c =
        { g with
          remote_ghosts := g.remote_ghosts ++
            [{ remote_rank := c.remote_rank,
               remote_trees := remote_trees_add forest c.remote_rank c.ltreeid c.elem [] }],
          remote_processes := g.remote_processes ++ [c.remote_rank] } := by
      simp only [add_remote_total, hadd]
    refine ⟨by rw [hadd, htot], ?_, ?_⟩
    · rw [htot]
      intro b hb
      simp only [List.mem_append, List.mem_singleton] at hb
      rcases hb with hb | hb
      · exact hne b hb
      · subst hb
        exact remote_trees_add_ne_nil forest c.remote_rank c.ltreeid c.elem []
    · intro r'
      rw [htot]
      simp only [remote_trees_of, sc_hash_array_lookup_append, hl]
      by_cases hr : r' = c.remote_rank
      · subst hr
        simp [hl]
      · simp only [hr, if_false]
        have hr2 : ¬ c.remote_rank = r' := fun h => hr h.symm
        cases hl' : sc_hash_array_lookup g.remote_ghosts r' with
        | none => simp [hr2]
        | some j =>
          simp only
          rw [List.getElem?_append_left (sc_hash_array_lookup_lt hl')]
  | some i =>
    obtain ⟨b, hb, hbr⟩ := sc_hash_array_lookup_some hl
    have hbm : b ∈ g.remote_ghosts := List.getElem?_mem hb
    have hadd := @t8_ghost_add_remote_old forest g c.remote_rank i b c.ltreeid c.elem hl hb
      (hne b hbm)
    have htot : add_remote_total forest g c =
        { g with
          remote_ghosts := g.remote_ghosts.set i
            { remote_rank := b.remote_rank,
              remote_trees :=
                remote_trees_add forest c.remote_rank c.ltreeid c.elem b.remote_trees } } := by
      simp only [add_remote_total, hadd]
    have hilt : i < g.remote_ghosts.length := sc_hash_array_lookup_lt hl
    refine ⟨by rw [hadd, htot], ?_, ?_⟩
    · rw [htot]
      intro b' hb'
      simp only at hb'
      rcases List.mem_or_eq_of_mem_set hb' with h1 | h1
      · exact hne b' h1
      · subst h1
        exact remote_trees_add_ne_nil forest c.remote_rank c.ltreeid c.elem b.remote_trees
    · intro r'
      rw [htot]
      simp only [remote_trees_of]
      rw [sc_hash_array_lookup_set _ i b _ hb]
      by_cases hr : r' = c.remote_rank
      · subst hr
        simp [hl, hb, List.getElem?_set_self hilt]
      · simp only [hr, if_false]
        cases hl' : sc_hash_array_lookup g.remote_ghosts r' with
        | none => rfl
        | some j =>
          simp only
          have hji : i ≠ j := by
            intro heq
            subst heq
            obtain ⟨b', hb', hbr'⟩ := sc_hash_array_lookup_some hl'
            rw [hb] at hb'
            cases hb'
            exact hr (hbr'.symm.trans hbr)
          rw [List.getElem?_set_ne hji]

theorem ghost_new_remote_entries_nonempty : remote_entries_nonempty ghost_new := by
  intro b hb
  simp [ghost_new] at hb

theorem foldl_add_remote_total_spec (forest : t8_forest_t)
    (calls : List add_remote_call) :
    ∀ g : t8_forest_ghost, remote_entries_nonempty g →
      add_remote_calls forest g calls =
        .ok (calls.foldl (add_remote_total forest) g) ∧
      remote_entries_nonempty (calls.foldl (add_remote_total forest) g) ∧
      ∀ r : Int, remote_trees_of (calls.foldl (add_remote_total forest) g) r =
        (calls.filter (fun c => decide (c.remote_rank = r))).foldl
          (fun ts c => remote_trees_add forest r c.ltreeid c.elem ts)
          (remote_trees_of g r) := by
  induction calls with
  | nil => intro g hne; exact ⟨rfl, hne, fun _ => rfl⟩
  | cons c calls ih =>
    intro g hne
    obtain ⟨h1, h2, h3⟩ := add_remote_total_spec forest g c hne
    obtain ⟨i1, i2, i3⟩ := ih (add_remote_total forest g c) h2
    refine ⟨?_, i2, ?_⟩
    · simp only [add_remote_calls, List.foldlM_cons, bind, Except.bind, h1,
        List.foldl_cons]
      exact i1
    · intro r
      simp only [List.foldl_cons]
      rw [i3 r, h3 r]
      by_cases hr : c.remote_rank = r
      · subst hr
        simp [List.filter_cons]
      · have hr' : ¬ r = c.remote_rank := fun h => hr h.symm
        simp [List.filter_cons, hr, hr']


/-! ### The calls of Discovery, rank by rank -/

theorem face_calls_mem {forest : t8_forest_t} {itree : Nat} {e : t8_element_t}
    {iface : Nat} {c : add_remote_call} (h : c ∈ face_calls forest itree e iface) :
    c.ltreeid = itree ∧ c.elem = e ∧ c.remote_rank ≠ forest.mpirank ∧
    0 ≤ (forest.element_half_face_neighbors itree e iface
      ((forest.scheme (forest.tree_class itree)).t8_element_num_face_children e iface)).1 ∧
    ∃ ichild < (forest.scheme (forest.tree_class itree)).t8_element_num_face_children e iface,
      forest.element_find_owner
        (forest.element_half_face_neighbors itree e iface
          ((forest.scheme (forest.tree_class itree)).t8_element_num_face_children e iface)).1
        ((forest.element_half_face_neighbors itree e iface
          ((forest.scheme (forest.tree_class itree)).t8_element_num_face_children e iface)).2
            ichild)
        (forest.element_neighbor_eclass itree e iface) = c.remote_rank := by
  unfold face_calls at h
  simp only [] at h
  split at h
  · rename_i hnb
    rw [List.mem_flatMap] at h
    obtain ⟨ichild, hi, hc⟩ := h
    split at hc
    · rename_i hown
      simp only [List.mem_singleton] at hc
      subst hc
      exact ⟨rfl, rfl, hown, hnb, ichild, List.mem_range.mp hi, rfl⟩
    · simp at hc
  · simp at h

theorem face_calls_of_owner {forest : t8_forest_t} {itree : Nat} {e : t8_element_t}
    {iface ichild : Nat} {r : Int} (hr : r ≠ forest.mpirank)
    (hnb : 0 ≤ (forest.element_half_face_neighbors itree e iface
      ((forest.scheme (forest.tree_class itree)).t8_element_num_face_children e iface)).1)
    (hi : ichild <
      (forest.scheme (forest.tree_class itree)).t8_element_num_face_children e iface)
    (hown : forest.element_find_owner
        (forest.element_half_face_neighbors itree e iface
          ((forest.scheme (forest.tree_class itree)).t8_element_num_face_children e iface)).1
        ((forest.element_half_face_neighbors itree e iface
          ((forest.scheme (forest.tree_class itree)).t8_element_num_face_children e iface)).2
            ichild)
        (forest.element_neighbor_eclass itree e iface) = r) :
    { remote_rank := r, ltreeid := itree, elem := e } ∈ face_calls forest itree e iface := by
  unfold face_calls
  simp only []
  rw [if_pos hnb, List.mem_flatMap]
  refine ⟨ichild, List.mem_range.mpr hi, ?_⟩
  rw [hown, if_pos hr]
  exact List.mem_singleton.mpr rfl

theorem ships_to_iff (forest : t8_forest_t) (itree : Nat) (r : Int) (e : t8_element_t) :
    ships_to forest itree r e = true ↔
      ({ remote_rank := r, ltreeid := itree, elem := e } : add_remote_call) ∈
        element_calls forest itree e := by
  unfold ships_to element_calls
  simp only [Bool.and_eq_true, decide_eq_true_eq, List.any_eq_true, List.mem_range,
    List.mem_flatMap]
  constructor
  · rintro ⟨hr, iface, hf, hnb, ichild, hi, hown⟩
    exact ⟨iface, hf, face_calls_of_owner hr hnb hi hown⟩
  · rintro ⟨iface, hf, hc⟩
    obtain ⟨_, _, hr, hnb, ichild, hi, hown⟩ := face_calls_mem hc
    exact ⟨hr, iface, hf, hnb, ichild, hi, hown⟩

theorem element_calls_filter (forest : t8_forest_t) (itree : Nat) (r : Int)
    (e : t8_element_t) :
    ∃ k : Nat,
      (element_calls forest itree e).filter (fun c => decide (c.remote_rank = r)) =
        List.replicate k { remote_rank := r, ltreeid := itree, elem := e } ∧
      (0 < k ↔ ships_to forest itree r e = true) := by
  refine ⟨((element_calls forest itree e).filter
    (fun c => decide (c.remote_rank = r))).length, ?_, ?_⟩
  · rw [List.eq_replicate_iff]
    refine ⟨rfl, ?_⟩
    intro c hc
    rw [List.mem_filter] at hc
    obtain ⟨hc, hr⟩ := hc
    simp only [decide_eq_true_eq] at hr
    unfold element_calls at hc
    rw [List.mem_flatMap] at hc
    obtain ⟨iface, _, hc⟩ := hc
    obtain ⟨h1, h2, _⟩ := face_calls_mem hc
    cases c
    simp only at h1 h2 hr
    subst h1 h2 hr
    rfl
  · rw [ships_to_iff, List.length_pos_iff_exists_mem]
    constructor
    · rintro ⟨c, hc⟩
      rw [List.mem_filter] at hc
      obtain ⟨hc, hr⟩ := hc
      simp only [decide_eq_true_eq] at hr
      have hc' := hc
      unfold element_calls at hc'
      rw [List.mem_flatMap] at hc'
      obtain ⟨iface, _, hc'⟩ := hc'
      obtain ⟨h1, h2, _⟩ := face_calls_mem hc'
      cases c
      simp only at h1 h2 hr
      subst h1 h2 hr
      exact hc
    · intro hc
      exact ⟨_, List.mem_filter.mpr ⟨hc, by simp⟩⟩


theorem remote_trees_add_extend {forest : t8_forest_t}
    (hcopy : copy_preserves_key forest) (r : Int) (itree : Nat)
    (base : List t8_ghost_remote_tree_t) (acc : List t8_element_t) (e : t8_element_t)
    (hbase : ∀ t, base.getLast? = some t →
      t.global_id ≠ forest.first_local_tree_id + (itree : Int)) :
    remote_trees_add forest r itree e (remote_trees_extend forest r itree base acc) =
      remote_trees_extend forest r itree base
        (match acc.getLast? with
         | none => [e]
         | some l =>
           if element_key (forest.scheme (forest.tree_class itree)) l =
               element_key (forest.scheme (forest.tree_class itree)) e then acc
           else acc ++ [e]) := by
  have hinit : add_remote_element (forest.scheme (forest.tree_class itree))
      (t8_ghost_init_remote_tree forest (forest.first_local_tree_id + (itree : Int)) r
        (forest.tree_class itree)) e = remote_tree_with forest r itree [e] := by
    simp [add_remote_element, t8_ghost_init_remote_tree, sc_array_init, remote_tree_with]
  rcases List.eq_nil_or_concat acc with hacc | ⟨acc', l, hacc⟩
  · subst hacc
    simp only [remote_trees_extend, List.isEmpty_nil, if_true, List.getLast?_nil,
      List.isEmpty_cons]
    unfold remote_trees_add
    simp only []
    cases hl : base.getLast? with
    | none =>
      simp only [hinit]
      rw [List.getLast?_eq_none_iff] at hl
      simp [hl]
    | some t =>
      simp only [hinit, hbase t hl, ne_eq, not_false_eq_true, if_true]
      simp
  · rw [List.concat_eq_append] at hacc
    subst hacc
    have hne : (acc' ++ [l]).isEmpty = false := by simp
    simp only [List.getLast?_concat]
    have hstate : remote_trees_extend forest r itree base (acc' ++ [l]) =
        base ++ [remote_tree_with forest r itree (acc' ++ [l])] := by
      simp [remote_trees_extend]
    rw [hstate]
    unfold remote_trees_add
    simp only [List.getLast?_concat, List.dropLast_concat]
    have hgid : (remote_tree_with forest r itree (acc' ++ [l])).global_id =
        forest.first_local_tree_id + (itree : Int) := rfl
    simp only [hgid, ne_eq, not_true_eq_false, if_false]
    have hkey := element_key_copy hcopy (forest.tree_class itree) l
    by_cases hk : element_key (forest.scheme (forest.tree_class itree)) l =
        element_key (forest.scheme (forest.tree_class itree)) e
    · simp only [hk, if_true, hstate]
      congr 2
      have he := add_remote_element_elems (forest.scheme (forest.tree_class itree))
        (remote_tree_with forest r itree (acc' ++ [l])) e
      obtain ⟨h1, h2, h3, h4⟩ := add_remote_element_eclass
        (forest.scheme (forest.tree_class itree))
        (remote_tree_with forest r itree (acc' ++ [l])) e
      have hlast : (remote_tree_with forest r itree (acc' ++ [l])).elements.elems.getLast? =
          some ((forest.scheme (forest.tree_class itree)).t8_element_copy l) := by
        simp [remote_tree_with]
      rw [hlast] at he
      simp only [hkey, hk, if_true] at he
      generalize add_remote_element (forest.scheme (forest.tree_class itree))
        (remote_tree_with forest r itree (acc' ++ [l])) e = x at h1 h2 h3 h4 he
      generalize remote_tree_with forest r itree (acc' ++ [l]) = y at h1 h2 h3 h4 he
      rcases x with ⟨xg, xm, xe, ⟨xs, xl⟩⟩
      rcases y with ⟨yg, ym, ye, ⟨ys, yl⟩⟩
      simp only at h1 h2 h3 h4 he
      subst h1 h2 h3 h4 he
      rfl
    · simp only [hk, if_false]
      have hne2 : (acc' ++ [l] ++ [e]).isEmpty = false := by simp
      simp only [remote_trees_extend, hne2, Bool.false_eq_true, if_false]
      congr 2
      have he := add_remote_element_elems (forest.scheme (forest.tree_class itree))
        (remote_tree_with forest r itree (acc' ++ [l])) e
      obtain ⟨h1, h2, h3, h4⟩ := add_remote_element_eclass
        (forest.scheme (forest.tree_class itree))
        (remote_tree_with forest r itree (acc' ++ [l])) e
      have hlast : (remote_tree_with forest r itree (acc' ++ [l])).elements.elems.getLast? =
          some ((forest.scheme (forest.tree_class itree)).t8_element_copy l) := by
        simp [remote_tree_with]
      rw [hlast] at he
      simp only [hkey, hk, if_false] at he
      generalize add_remote_element (forest.scheme (forest.tree_class itree))
        (remote_tree_with forest r itree (acc' ++ [l])) e = x at h1 h2 h3 h4 he
      rcases x with ⟨xg, xm, xe, ⟨xs, xl⟩⟩
      simp only at h1 h2 h3 h4 he
      subst h1 h2 h3 h4 he
      simp [remote_tree_with]


theorem remote_trees_after_append (forest : t8_forest_t) (r : Int)
    (trees : List t8_ghost_remote_tree_t) (a b : List add_remote_call) :
    remote_trees_after forest r trees (a ++ b) =
      remote_trees_after forest r (remote_trees_after forest r trees a) b := by
  simp [remote_trees_after, List.filter_append, List.foldl_append]

theorem foldl_replicate_stable {forest : t8_forest_t}
    (hcopy : copy_preserves_key forest) (r : Int) (itree : Nat)
    (base : List t8_ghost_remote_tree_t) (acc : List t8_element_t) (e : t8_element_t)
    (hbase : ∀ t, base.getLast? = some t →
      t.global_id ≠ forest.first_local_tree_id + (itree : Int)) (k : Nat) :
    (List.replicate k ({ remote_rank := r, ltreeid := itree, elem := e } : add_remote_call)).foldl
        (fun ts c => remote_trees_add forest r c.ltreeid c.elem ts)
        (remote_trees_extend forest r itree base (acc ++ [e])) =
      remote_trees_extend forest r itree base (acc ++ [e]) := by
  induction k with
  | zero => rfl
  | succ k ih =>
    rw [List.replicate_succ, List.foldl_cons]
    simp only []
    rw [remote_trees_add_extend hcopy r itree base (acc ++ [e]) e hbase]
    simp only [List.getLast?_concat, if_true]
    exact ih

theorem foldl_replicate_extend {forest : t8_forest_t}
    (hcopy : copy_preserves_key forest) (r : Int) (itree : Nat)
    (base : List t8_ghost_remote_tree_t) (acc : List t8_element_t) (e : t8_element_t)
    (hbase : ∀ t, base.getLast? = some t →
      t.global_id ≠ forest.first_local_tree_id + (itree : Int))
    (hlast : ∀ l, acc.getLast? = some l →
      element_key (forest.scheme (forest.tree_class itree)) l ≠
        element_key (forest.scheme (forest.tree_class itree)) e)
    (k : Nat) (hk : 0 < k) :
    (List.replicate k ({ remote_rank := r, ltreeid := itree, elem := e } : add_remote_call)).foldl
        (fun ts c => remote_trees_add forest r c.ltreeid c.elem ts)
        (remote_trees_extend forest r itree base acc) =
      remote_trees_extend forest r itree base (acc ++ [e]) := by
  obtain ⟨k, rfl⟩ : ∃ j, k = j + 1 := ⟨k - 1, by omega⟩
  rw [List.replicate_succ, List.foldl_cons]
  simp only []
  rw [remote_trees_add_extend hcopy r itree base acc e hbase]
  have hstep : (match acc.getLast? with
      | none => [e]
      | some l =>
        if element_key (forest.scheme (forest.tree_class itree)) l =
            element_key (forest.scheme (forest.tree_class itree)) e then acc
        else acc ++ [e]) = acc ++ [e] := by
    cases hl : acc.getLast? with
    | none =>
      rw [List.getLast?_eq_none_iff] at hl
      simp [hl]
    | some l => simp [hlast l hl]
  rw [hstep]
  exact foldl_replicate_stable hcopy r itree base acc e hbase k

theorem remote_trees_after_elements {forest : t8_forest_t}
    (hcopy : copy_preserves_key forest) (r : Int) (itree : Nat)
    (base : List t8_ghost_remote_tree_t)
    (hbase : ∀ t, base.getLast? = some t →
      t.global_id ≠ forest.first_local_tree_id + (itree : Int)) :
    ∀ (es acc : List t8_element_t),
      no_adjacent_duplicates (forest.scheme (forest.tree_class itree))
        (acc ++ es.filter (ships_to forest itree r)) →
      remote_trees_after forest r (remote_trees_extend forest r itree base acc)
          (es.flatMap (element_calls forest itree)) =
        remote_trees_extend forest r itree base
          (acc ++ es.filter (ships_to forest itree r)) := by
  intro es
  induction es with
  | nil => intro acc _; simp [remote_trees_after]
  | cons e es ih =>
    intro acc hchain
    rw [List.flatMap_cons, remote_trees_after_append]
    obtain ⟨k, hk, hpos⟩ := element_calls_filter forest itree r e
    have hfirst : remote_trees_after forest r
        (remote_trees_extend forest r itree base acc) (element_calls forest itree e) =
        (List.replicate k
          ({ remote_rank := r, ltreeid := itree, elem := e } : add_remote_call)).foldl
          (fun ts c => remote_trees_add forest r c.ltreeid c.elem ts)
          (remote_trees_extend forest r itree base acc) := by
      simp only [remote_trees_after, hk]
    rw [hfirst]
    by_cases hs : ships_to forest itree r e = true
    · have hkpos : 0 < k := hpos.mpr hs
      rw [List.filter_cons_of_pos hs] at hchain ⊢
      have hchain' : no_adjacent_duplicates (forest.scheme (forest.tree_class itree))
          ((acc ++ [e]) ++ es.filter (ships_to forest itree r)) := by
        simpa using hchain
      have hlast : ∀ l, acc.getLast? = some l →
          element_key (forest.scheme (forest.tree_class itree)) l ≠
            element_key (forest.scheme (forest.tree_class itree)) e := by
        intro l hl
        unfold no_adjacent_duplicates at hchain
        rw [List.chain'_append] at hchain
        exact hchain.2.2 l hl e (by simp)
      rw [foldl_replicate_extend hcopy r itree base acc e hbase hlast k hkpos]
      rw [ih (acc ++ [e]) hchain']
      simp
    · have hk0 : k = 0 := by
        rcases Nat.eq_zero_or_pos k with h | h
        · exact h
        · exact absurd (hpos.mp h) hs
      subst hk0
      rw [List.filter_cons_of_neg hs] at hchain ⊢
      simp only [List.replicate_zero, List.foldl_nil]
      exact ih acc hchain

theorem remote_trees_after_forest {forest : t8_forest_t}
    (hcopy : copy_preserves_key forest) (hdist : shipped_distinct forest) (r : Int) :
    ∀ n : Nat,
      remote_trees_after forest r [] ((List.range n).flatMap (tree_calls forest)) =
        (List.range n).filterMap (fun itree =>
          if (shipped_elements forest itree r).isEmpty then none
          else some (remote_tree_with forest r itree (shipped_elements forest itree r))) ∧
      ∀ t ∈ remote_trees_after forest r [] ((List.range n).flatMap (tree_calls forest)),
        t.global_id < forest.first_local_tree_id + (n : Int) := by
  intro n
  induction n with
  | zero => simp [remote_trees_after]
  | succ n ih =>
    obtain ⟨ih1, ih2⟩ := ih
    rw [List.range_succ, List.flatMap_append, remote_trees_after_append,
      List.filterMap_append]
    simp only [List.flatMap_singleton, List.filterMap_cons, List.filterMap_nil]
    generalize remote_trees_after forest r []
      ((List.range n).flatMap (tree_calls forest)) = base at ih1 ih2
    have hbase : ∀ t, base.getLast? = some t →
        t.global_id ≠ forest.first_local_tree_id + (n : Int) := by
      intro t ht
      exact ne_of_lt (ih2 t (List.mem_of_getLast?_eq_some ht))
    have hext : remote_trees_extend forest r n base [] = base := by
      simp [remote_trees_extend]
    have htree := remote_trees_after_elements hcopy r n base hbase
      (forest.tree_elements n) [] (by simpa using hdist n r)
    rw [hext] at htree
    simp only [List.nil_append] at htree
    have htc : tree_calls forest n =
        (forest.tree_elements n).flatMap (element_calls forest n) := rfl
    rw [htc, htree]
    have hse : shipped_elements forest n r =
        (forest.tree_elements n).filter (ships_to forest n r) := rfl
    rw [← hse, ← ih1]
    unfold remote_trees_extend
    by_cases hemp : (shipped_elements forest n r).isEmpty = true
    · simp only [hemp, if_true, List.append_nil, true_and]
      intro t ht
      have := ih2 t ht
      push_cast
      omega
    · simp only [hemp, Bool.false_eq_true, if_false, true_and]
      intro t ht
      rcases List.mem_append.mp ht with h | h
      · have := ih2 t h
        push_cast
        omega
      · rw [List.mem_singleton] at h
        subst h
        simp only [remote_tree_with]
        push_cast
        omega

theorem shipped_distinct_of_pairwise {forest : t8_forest_t}
    (h : ∀ itree : Nat, (forest.tree_elements itree).Pairwise
      (fun a b => element_key (forest.scheme (forest.tree_class itree)) a ≠
        element_key (forest.scheme (forest.tree_class itree)) b)) :
    shipped_distinct forest := by
  intro itree r
  exact ((h itree).sublist (List.filter_sublist _)).chain'


/-! ### Messages whose trees come in the order of the global ids -/

/-- The two ways in which a round of the tree loop changes `ghost_trees`: a
new ghost tree at the end, or further elements for the ghost tree with the
global id of the tree read. -/
theorem ghost_add_record_cases (forest : t8_forest_t) {g : t8_forest_ghost}
    (hok : ghost_index_ok g) (r : tree_record) :
    ((∀ t ∈ g.ghost_trees, t.global_id ≠ r.global_id) ∧
      (ghost_add_record forest g r).ghost_trees = g.ghost_trees ++
        [{ global_id := r.global_id, eclass := r.eclass,
           elements := { elem_size := (forest.scheme r.eclass).t8_element_size,
                         elems := r.elems } }]) ∨
    (∃ A t B, g.ghost_trees = A ++ t :: B ∧ t.global_id = r.global_id ∧
      (ghost_add_record forest g r).ghost_trees =
        A ++ ghost_tree_append r.elems t :: B) := by
  unfold ghost_add_record
  cases hl : gtree_hash_lookup g.global_tree_to_ghost_tree r.global_id with
  | none =>
    left
    exact ⟨ghost_index_no_tree hok hl, rfl⟩
  | some found =>
    right
    simp only
    obtain ⟨t, ht, hg⟩ := ghost_index_lookup hok hl
    have hlt : found.index < g.ghost_trees.length :=
      (List.getElem?_eq_some_iff.mp ht).1
    obtain ⟨A, a, B, hsplit, hlen, hmod⟩ :=
      List.exists_of_modify (ghost_tree_append r.elems) hlt
    have ha : a = t := by
      rw [hsplit] at ht
      rw [List.getElem?_append_right (by omega)] at ht
      simpa [hlen] using ht
    subst ha
    exact ⟨A, a, B, hsplit, hg, hmod⟩

theorem getElem?_append_cons_ne {α : Type} (A B : List α) (x y : α) (j : Nat)
    (hj : j ≠ A.length) : (A ++ x :: B)[j]? = (A ++ y :: B)[j]? := by
  rcases Nat.lt_or_ge j A.length with h | h
  · rw [List.getElem?_append_left h, List.getElem?_append_left h]
  · rw [List.getElem?_append_right h, List.getElem?_append_right h]
    obtain ⟨d, hd⟩ : ∃ d, j - A.length = d + 1 := ⟨j - A.length - 1, by omega⟩
    rw [hd]
    rfl

/-- A round of the tree loop leaves every ghost tree with another global id
as it is. -/
theorem ghost_add_record_other (forest : t8_forest_t) {g : t8_forest_ghost}
    (hok : ghost_index_ok g) (r : tree_record) {j : Nat} {t0 : t8_ghost_tree_t}
    (h0 : g.ghost_trees[j]? = some t0) (hne : t0.global_id ≠ r.global_id) :
    (ghost_add_record forest g r).ghost_trees[j]? = some t0 := by
  rcases ghost_add_record_cases forest hok r with ⟨_, h⟩ | ⟨A, t, B, hs, hg, h⟩
  · rw [h, List.getElem?_append_left (List.getElem?_eq_some_iff.mp h0).1]
    exact h0
  · rw [h]
    rw [hs] at h0
    have hj : j ≠ A.length := by
      intro hj
      subst hj
      rw [List.getElem?_append_right (le_refl _)] at h0
      simp only [Nat.sub_self, List.getElem?_cons_zero, Option.some.injEq] at h0
      subst h0
      exact hne hg
    rw [getElem?_append_cons_ne A B _ t j hj]
    exact h0

theorem foldl_ghost_add_record_other (forest : t8_forest_t)
    (rs : List tree_record) {j : Nat} {t0 : t8_ghost_tree_t} :
    ∀ {g : t8_forest_ghost}, ghost_index_ok g → g.ghost_trees[j]? = some t0 →
      (∀ r ∈ rs, t0.global_id ≠ r.global_id) →
      (rs.foldl (ghost_add_record forest) g).ghost_trees[j]? = some t0 := by
  induction rs with
  | nil => intro g _ h0 _; exact h0
  | cons r rs ih =>
    intro g hok h0 hne
    exact ih (ghost_add_record_index_ok forest hok r)
      (ghost_add_record_other forest hok r h0 (hne r (List.mem_cons_self _ _)))
      (fun r' hr' => hne r' (List.mem_cons_of_mem _ hr'))

/-- A round of the tree loop on a ghost structure with increasing global ids,
for a tree whose global id is not below any of them: the ghost tree of the
tree read is the last one afterwards, the global ids still increase, and the
elements read come behind all ghost elements. -/
theorem ghost_add_record_sorted (forest : t8_forest_t) {g : t8_forest_ghost}
    (hs : ghost_sorted g) (r : tree_record)
    (hb : ∀ t ∈ g.ghost_trees, t.global_id ≤ r.global_id) :
    ghost_sorted (ghost_add_record forest g r) ∧
    (∀ t ∈ (ghost_add_record forest g r).ghost_trees,
      t.global_id ≤ r.global_id ∧
      (t.global_id = r.global_id ∨ ∃ t0 ∈ g.ghost_trees, t0.global_id = t.global_id)) ∧
    (∃ t ∈ (ghost_add_record forest g r).ghost_trees, t.global_id = r.global_id) ∧
    ghost_elements (ghost_add_record forest g r).ghost_trees =
      ghost_elements g.ghost_trees ++ r.elems := by
  obtain ⟨hok, hsorted⟩ := hs
  have hok' := ghost_add_record_index_ok forest hok r
  rcases ghost_add_record_cases forest hok r with ⟨hnone, h⟩ | ⟨A, t, B, hsp, hg, h⟩
  · refine ⟨⟨hok', ?_⟩, ?_, ?_, ?_⟩
    · rw [h, List.map_append, List.pairwise_append]
      refine ⟨hsorted, by simp, ?_⟩
      intro a ha b hb'
      simp only [List.map_cons, List.map_nil, List.mem_singleton] at hb'
      subst hb'
      obtain ⟨t, ht, rfl⟩ := List.mem_map.mp ha
      exact lt_of_le_of_ne (hb t ht) (hnone t ht)
    · intro t ht
      rw [h, List.mem_append, List.mem_singleton] at ht
      rcases ht with ht | ht
      · exact ⟨hb t ht, Or.inr ⟨t, ht, rfl⟩⟩
      · subst ht
        exact ⟨le_refl _, Or.inl rfl⟩
    · refine ⟨{ global_id := r.global_id, eclass := r.eclass,
                elements := { elem_size := (forest.scheme r.eclass).t8_element_size,
                              elems := r.elems } }, ?_, rfl⟩
      rw [h]
      simp
    · rw [h]
      simp [ghost_elements]
  · have hB : B = [] := by
      rcases B with _ | ⟨b, B⟩
      · rfl
      · exfalso
        rw [hsp] at hsorted
        simp only [List.map_append, List.map_cons, List.pairwise_append,
          List.pairwise_cons, List.mem_cons, List.mem_map] at hsorted
        have h1 : t.global_id < b.global_id := hsorted.2.1.1 _ (Or.inl rfl)
        have h2 := hb b (by rw [hsp]; simp)
        omega
    subst hB
    refine ⟨⟨hok', ?_⟩, ?_, ?_, ?_⟩
    · rw [h]
      rw [hsp] at hsorted
      simpa [ghost_tree_append] using hsorted
    · intro t' ht'
      rw [h, List.mem_append, List.mem_singleton] at ht'
      rcases ht' with ht' | ht'
      · exact ⟨hb t' (by rw [hsp]; simp [ht']), Or.inr ⟨t', by rw [hsp]; simp [ht'], rfl⟩⟩
      · subst ht'
        exact ⟨le_of_eq hg, Or.inl hg⟩
    · refine ⟨ghost_tree_append r.elems t, ?_, hg⟩
      rw [h]
      simp
    · rw [h, hsp]
      simp [ghost_elements, ghost_tree_append]


theorem ghost_trees_extend_mem {a b : List t8_ghost_tree_t}
    (h : ghost_trees_extend a b) {t : t8_ghost_tree_t} (ht : t ∈ a) :
    ∃ t' ∈ b, t'.global_id = t.global_id := by
  obtain ⟨i, hi⟩ := List.mem_iff_getElem?.mp ht
  obtain ⟨t', ht', hg, _⟩ := h.2 i t hi
  exact ⟨t', List.getElem?_mem ht', hg⟩

theorem foldl_ghost_add_record_sorted (forest : t8_forest_t)
    (rs : List tree_record) :
    ∀ {g : t8_forest_ghost}, ghost_sorted g → records_sorted rs →
      (∀ t ∈ g.ghost_trees, ∀ r ∈ rs, t.global_id ≤ r.global_id) →
      ghost_sorted (rs.foldl (ghost_add_record forest) g) ∧
      (∀ t ∈ (rs.foldl (ghost_add_record forest) g).ghost_trees,
        (∃ r ∈ rs, r.global_id = t.global_id) ∨
        ∃ t0 ∈ g.ghost_trees, t0.global_id = t.global_id) ∧
      (∀ r ∈ rs, ∃ t ∈ (rs.foldl (ghost_add_record forest) g).ghost_trees,
        t.global_id = r.global_id) ∧
      ghost_elements (rs.foldl (ghost_add_record forest) g).ghost_trees =
        ghost_elements g.ghost_trees ++ records_elements rs := by
  induction rs with
  | nil =>
    intro g hs _ _
    exact ⟨hs, fun t ht => Or.inr ⟨t, ht, rfl⟩, by simp, by simp [records_elements]⟩
  | cons r rs ih =>
    intro g hs hsorted hb
    unfold records_sorted at hsorted
    rw [List.map_cons, List.pairwise_cons] at hsorted
    obtain ⟨h1, h2, h3, h4⟩ := ghost_add_record_sorted forest hs r
      (fun t ht => hb t ht r (List.mem_cons_self _ _))
    have hb1 : ∀ t ∈ (ghost_add_record forest g r).ghost_trees, ∀ r' ∈ rs,
        t.global_id ≤ r'.global_id := by
      intro t ht r' hr'
      exact le_trans (h2 t ht).1 (hsorted.1 _ (List.mem_map.mpr ⟨r', hr', rfl⟩))
    obtain ⟨i1, i2, i3, i4⟩ := ih h1 hsorted.2 hb1
    simp only [List.foldl_cons]
    refine ⟨i1, ?_, ?_, ?_⟩
    · intro t ht
      rcases i2 t ht with ⟨r', hr', hg⟩ | ⟨t0, ht0, hg⟩
      · exact Or.inl ⟨r', List.mem_cons_of_mem _ hr', hg⟩
      · rcases (h2 t0 ht0).2 with h | ⟨t1, ht1, h⟩
        · exact Or.inl ⟨r, List.mem_cons_self _ _, by rw [← hg, h]⟩
        · exact Or.inr ⟨t1, ht1, by rw [h, hg]⟩
    · intro r' hr'
      rcases List.mem_cons.mp hr' with h | h
      · rw [h]
        obtain ⟨t, ht, hg⟩ := h3
        obtain ⟨t', ht', hg'⟩ := ghost_trees_extend_mem
          (foldl_ghost_add_record_extend forest rs (ghost_add_record forest g r)) ht
        exact ⟨t', ht', by rw [hg', hg]⟩
      · exact i3 r' h
    · rw [i4, h4]
      simp [records_elements]

theorem parse_received_message_extend {P : Nat} {forest : t8_forest_t}
    {g g' : t8_forest_ghost} {r : Int} {buf : List Nat} {n : Int}
    (h : t8_forest_ghost_parse_received_message P forest g r buf n = .ok g') :
    ghost_trees_extend g.ghost_trees g'.ghost_trees := by
  obtain ⟨rs, fti, fei, _, _, hg⟩ := parse_received_message_ok h
  subst hg
  exact foldl_ghost_add_record_extend forest rs g

theorem parse_calls_cons {P : Nat} {forest : t8_forest_t} {c : parse_call}
    {calls : List parse_call} {g g' : t8_forest_ghost}
    (h : parse_calls P forest g (c :: calls) = .ok g') :
    ∃ g1, t8_forest_ghost_parse_received_message P forest g c.recv_rank
        c.recv_buffer c.recv_bytes = .ok g1 ∧
      parse_calls P forest g1 calls = .ok g' := by
  simp only [parse_calls, List.foldlM_cons, bind, Except.bind] at h
  cases h1 : t8_forest_ghost_parse_received_message P forest g c.recv_rank
      c.recv_buffer c.recv_bytes with
  | error e => simp [h1] at h
  | ok g1 =>
    simp only [h1] at h
    exact ⟨g1, rfl, h⟩

theorem parse_calls_append {P : Nat} {forest : t8_forest_t}
    (a b : List parse_call) : ∀ {g g' : t8_forest_ghost},
    parse_calls P forest g (a ++ b) = .ok g' →
    ∃ g1, parse_calls P forest g a = .ok g1 ∧ parse_calls P forest g1 b = .ok g' := by
  induction a with
  | nil => intro g g' h; exact ⟨g, rfl, h⟩
  | cons c a ih =>
    intro g g' h
    obtain ⟨g1, h1, h2⟩ := parse_calls_cons h
    obtain ⟨g2, h3, h4⟩ := ih h2
    refine ⟨g2, ?_, h4⟩
    simp only [parse_calls, List.foldlM_cons, bind, Except.bind, h1]
    exact h3

theorem parse_calls_extend {P : Nat} {forest : t8_forest_t}
    (calls : List parse_call) : ∀ {g g' : t8_forest_ghost},
    parse_calls P forest g calls = .ok g' →
    ghost_trees_extend g.ghost_trees g'.ghost_trees := by
  induction calls with
  | nil =>
    intro g g' h
    simp only [parse_calls, List.foldlM_nil, pure, Except.pure, Except.ok.injEq] at h
    subst h
    exact ghost_trees_extend_refl _
  | cons c calls ih =>
    intro g g' h
    obtain ⟨g1, h1, h2⟩ := parse_calls_cons h
    exact ghost_trees_extend_trans (parse_received_message_extend h1) (ih h2)

theorem records_of_ok {P : Nat} {forest : t8_forest_t} {c : parse_call}
    {rs : List tree_record}
    (h : message_records P forest c.recv_buffer = .ok rs) :
    records_of P forest c = rs := by
  simp [records_of, h]

/-- The ghost trees after a sequence of messages whose trees come in the order
of the global ids: the global ids increase along `ghost_trees`, the ghost trees
are those of the trees read, and the ghost elements are the elements read, in
the order of reading. -/
theorem parse_calls_sorted {P : Nat} {forest : t8_forest_t}
    (calls : List parse_call) :
    ∀ {g g' : t8_forest_ghost} (R0 : List tree_record), ghost_sorted g →
      (∀ t ∈ g.ghost_trees, ∃ r ∈ R0, r.global_id = t.global_id) →
      ghost_elements g.ghost_trees = records_elements R0 →
      records_sorted (R0 ++ calls_records P forest calls) →
      parse_calls P forest g calls = .ok g' →
      ghost_sorted g' ∧
      (∀ t ∈ g'.ghost_trees,
        ∃ r ∈ R0 ++ calls_records P forest calls, r.global_id = t.global_id) ∧
      (∀ r ∈ calls_records P forest calls,
        ∃ t ∈ g'.ghost_trees, t.global_id = r.global_id) ∧
      ghost_elements g'.ghost_trees =
        records_elements (R0 ++ calls_records P forest calls) := by
  induction calls with
  | nil =>
    intro g g' R0 hs hcl hel _ h
    simp only [parse_calls, List.foldlM_nil, pure, Except.pure, Except.ok.injEq] at h
    subst h
    simp only [calls_records, List.flatMap_nil, List.append_nil]
    exact ⟨hs, hcl, by simp, hel⟩
  | cons c calls ih =>
    intro g g' R0 hs hcl hel hsorted h
    obtain ⟨g1, h1, h2⟩ := parse_calls_cons h
    obtain ⟨rs, fti, fei, hrs, _, hg1⟩ := parse_received_message_ok h1
    have hrec : calls_records P forest (c :: calls) =
        rs ++ calls_records P forest calls := by
      simp [calls_records, records_of_ok hrs]
    rw [hrec] at hsorted ⊢
    unfold records_sorted at hsorted
    rw [List.map_append, List.map_append, List.pairwise_append] at hsorted
    obtain ⟨hR0, hrest, hcross⟩ := hsorted
    rw [List.pairwise_append] at hrest
    have hb : ∀ t ∈ g.ghost_trees, ∀ r ∈ rs, t.global_id ≤ r.global_id := by
      intro t ht r hr
      obtain ⟨r0, hr0, hg⟩ := hcl t ht
      rw [← hg]
      exact hcross _ (List.mem_map.mpr ⟨r0, hr0, rfl⟩) _
        (List.mem_append_left _ (List.mem_map.mpr ⟨r, hr, rfl⟩))
    obtain ⟨f1, f2, f3, f4⟩ := foldl_ghost_add_record_sorted forest rs hs hrest.1 hb
    have hs1 : ghost_sorted g1 := by
      subst hg1
      exact f1
    have htrees : g1.ghost_trees = (rs.foldl (ghost_add_record forest) g).ghost_trees := by
      subst hg1
      rfl
    have hcl1 : ∀ t ∈ g1.ghost_trees, ∃ r ∈ R0 ++ rs, r.global_id = t.global_id := by
      intro t ht
      rw [htrees] at ht
      rcases f2 t ht with ⟨r, hr, hg⟩ | ⟨t0, ht0, hg⟩
      · exact ⟨r, List.mem_append_right _ hr, hg⟩
      · obtain ⟨r0, hr0, hg0⟩ := hcl t0 ht0
        exact ⟨r0, List.mem_append_left _ hr0, by rw [hg0, hg]⟩
    have hel1 : ghost_elements g1.ghost_trees = records_elements (R0 ++ rs) := by
      rw [htrees, f4, hel]
      simp [records_elements]
    have hsorted1 : records_sorted ((R0 ++ rs) ++ calls_records P forest calls) := by
      unfold records_sorted
      rw [List.append_assoc, List.map_append, List.map_append, List.pairwise_append]
      exact ⟨hR0, List.pairwise_append.mpr hrest, hcross⟩
    obtain ⟨i1, i2, i3, i4⟩ := ih (R0 ++ rs) hs1 hcl1 hel1 hsorted1 h2
    refine ⟨i1, ?_, ?_, ?_⟩
    · intro t ht
      obtain ⟨r, hr, hg⟩ := i2 t ht
      exact ⟨r, by simpa [List.append_assoc] using hr, hg⟩
    · intro r hr
      rcases List.mem_append.mp hr with h | h
      · obtain ⟨t, ht, hg⟩ := f3 r h
        rw [← htrees] at ht
        obtain ⟨t', ht', hg'⟩ := ghost_trees_extend_mem (parse_calls_extend calls h2) ht
        exact ⟨t', ht', by rw [hg', hg]⟩
      · exact i3 r h
    · rw [i4, List.append_assoc]


theorem pairwise_lt_index {l : List t8_ghost_tree_t}
    (hp : (l.map (·.global_id)).Pairwise (· < ·)) {a b : Nat}
    {x y : t8_ghost_tree_t} (hx : l[a]? = some x) (hy : l[b]? = some y) :
    a ≤ b ↔ x.global_id ≤ y.global_id := by
  have hlt : ∀ {a b : Nat} {x y : t8_ghost_tree_t}, l[a]? = some x → l[b]? = some y →
      a < b → x.global_id < y.global_id := by
    intro a b x y hx hy hab
    obtain ⟨ha, hxa⟩ := List.getElem?_eq_some_iff.mp hx
    obtain ⟨hb, hyb⟩ := List.getElem?_eq_some_iff.mp hy
    rw [List.pairwise_iff_getElem] at hp
    have := hp a b (by simpa using ha) (by simpa using hb) hab
    simpa [hxa, hyb] using this
  constructor
  · intro hab
    rcases Nat.lt_or_eq_of_le hab with h | h
    · exact le_of_lt (hlt hx hy h)
    · subst h
      rw [hx] at hy
      cases hy
      exact le_refl _
  · intro hxy
    by_contra hab
    have := hlt hy hx (by omega)
    omega

theorem sorted_split {l : List t8_ghost_tree_t}
    (hp : (l.map (·.global_id)).Pairwise (· < ·)) {i : Nat} {t : t8_ghost_tree_t}
    (ht : l[i]? = some t) (hb : ∀ x ∈ l, x.global_id ≤ t.global_id) :
    l = l.take i ++ [t] ∧ ∀ x ∈ l.take i, x.global_id < t.global_id := by
  obtain ⟨hi, hti⟩ := List.getElem?_eq_some_iff.mp ht
  have hlen : l.length = i + 1 := by
    by_contra hne
    have hlt : i + 1 < l.length := by omega
    have hy : l[i + 1]? = some l[i + 1] := List.getElem?_eq_getElem hlt
    have h1 := (pairwise_lt_index hp hy ht).mpr (hb _ (List.getElem_mem hlt))
    omega
  have hdrop : l.drop i = [t] := by
    rw [List.drop_eq_getElem_cons hi, hti, List.drop_of_length_le (by omega)]
  refine ⟨?_, ?_⟩
  · conv_lhs => rw [← List.take_append_drop i l, hdrop]
  · intro x hx
    obtain ⟨j, hj⟩ := List.mem_iff_getElem?.mp hx
    rw [List.getElem?_take] at hj
    split at hj
    · rename_i hji
      have hle := (pairwise_lt_index hp hj ht).mp (le_of_lt hji)
      have hne : x.global_id ≠ t.global_id := by
        intro heq
        have := (pairwise_lt_index hp ht hj).mpr (le_of_eq heq.symm)
        omega
      omega
    · cases hj

theorem parse_calls_other {P : Nat} {forest : t8_forest_t}
    (calls : List parse_call) {j : Nat} {t0 : t8_ghost_tree_t} :
    ∀ {g g' : t8_forest_ghost}, ghost_index_ok g →
      parse_calls P forest g calls = .ok g' → g.ghost_trees[j]? = some t0 →
      (∀ r ∈ calls_records P forest calls, t0.global_id ≠ r.global_id) →
      g'.ghost_trees[j]? = some t0 := by
  induction calls with
  | nil =>
    intro g g' _ h h0 _
    simp only [parse_calls, List.foldlM_nil, pure, Except.pure, Except.ok.injEq] at h
    subst h
    exact h0
  | cons c calls ih =>
    intro g g' hok h h0 hne
    obtain ⟨g1, h1, h2⟩ := parse_calls_cons h
    obtain ⟨rs, fti, fei, hrs, _, hg1⟩ := parse_received_message_ok h1
    have hrec : calls_records P forest (c :: calls) =
        rs ++ calls_records P forest calls := by
      simp [calls_records, records_of_ok hrs]
    rw [hrec] at hne
    have hok1 := parse_received_message_index_ok hok h1
    apply ih hok1 h2
    · subst hg1
      exact foldl_ghost_add_record_other forest rs hok h0
        (fun r hr => hne r (List.mem_append_left _ hr))
    · exact fun r hr => hne r (List.mem_append_right _ hr)

theorem parse_calls_offsets {P : Nat} {forest : t8_forest_t}
    (calls : List parse_call) {rank : Int} {e : t8_ghost_process_hash_t} :
    ∀ {g g' : t8_forest_ghost}, parse_calls P forest g calls = .ok g' →
      process_hash_lookup g.process_offsets rank = some e →
      process_hash_lookup g'.process_offsets rank = some e := by
  induction calls with
  | nil =>
    intro g g' h h0
    simp only [parse_calls, List.foldlM_nil, pure, Except.pure, Except.ok.injEq] at h
    subst h
    exact h0
  | cons c calls ih =>
    intro g g' h h0
    obtain ⟨g1, h1, h2⟩ := parse_calls_cons h
    obtain ⟨rs, fti, fei, _, _, hg1⟩ := parse_received_message_ok h1
    apply ih h2
    subst hg1
    simp only [process_hash_lookup] at h0 ⊢
    rw [List.find?_append, h0]
    rfl

/-- The ghost tree of the first tree of a message right after the first round
of the tree loop: it sits at the position entered for the sender and holds the
elements of the first tree behind the `k` elements it held before. -/
theorem ghost_add_record_first (forest : t8_forest_t) {g : t8_forest_ghost}
    (rec0 : tree_record) {i k : Nat}
    (hcase : (gtree_hash_lookup g.global_tree_to_ghost_tree rec0.global_id = none ∧
          i = g.ghost_trees.length ∧ k = 0) ∨
       (∃ found t,
          gtree_hash_lookup g.global_tree_to_ghost_tree rec0.global_id = some found ∧
          i = found.index ∧ g.ghost_trees[i]? = some t ∧
          t.global_id = rec0.global_id ∧ k = t.elements.elems.length)) :
    ∃ t1, (ghost_add_record forest g rec0).ghost_trees[i]? = some t1 ∧
      t1.global_id = rec0.global_id ∧
      t1.elements.elems.length = k + rec0.elems.length := by
  rcases hcase with ⟨hn, hi, hk⟩ | ⟨found, t, hf, hi, ht, htg, hk⟩
  · subst hi hk
    refine ⟨{ global_id := rec0.global_id, eclass := rec0.eclass,
              elements := { elem_size := (forest.scheme rec0.eclass).t8_element_size,
                            elems := rec0.elems } }, ?_, rfl, by simp⟩
    simp [ghost_add_record, hn]
  · subst hk
    refine ⟨ghost_tree_append rec0.elems t, ?_, htg, by simp [ghost_tree_append]⟩
    simp only [ghost_add_record, hf]
    rw [List.getElem?_modify, ← hi, ht]
    simp

theorem calls_records_split (P : Nat) (forest : t8_forest_t)
    (pre post : List parse_call) (c : parse_call) {rs : List tree_record}
    (hrec : message_records P forest c.recv_buffer = .ok rs) :
    calls_records P forest (pre ++ c :: post) =
      calls_records P forest pre ++ (rs ++ calls_records P forest post) := by
  simp [calls_records, records_of_ok hrec]

theorem ghost_sorted_new : ghost_sorted ghost_new :=
  ⟨ghost_index_ok_new, by simp [ghost_new]⟩

/-- What the parse routine does with hand-made messages whose trees are not
in the order of the global ids, which the exchange never delivers (the
messages are ingested in the order of the ranks, and the trees of a lower rank
come first in the partition): rank 1 sends the tree 11, then rank 2 sends the
trees 10 and 11.  The entry of rank 2 names ghost tree 1, and the element
`[2, 4, 9]` that rank 2 sent for tree 11 lies in ghost tree 0. -/
theorem parse_unordered_trees :
    ∃ g, parse_calls 8 example_forest ghost_new unordered_parse_calls = .ok g ∧
      calls_records 8 example_forest unordered_parse_calls =
        [{ global_id := 11, eclass := 2, elems := [[3, 5, 9]] },
         { global_id := 10, eclass := 2, elems := [[1, 0, 7], [1, 1, 7]] },
         { global_id := 11, eclass := 2, elems := [[2, 4, 9]] }] ∧
      process_hash_lookup g.process_offsets 2 =
        some { mpirank := 2, tree_index := some 1, first_element := some 0 } ∧
      g.ghost_trees.map (fun t => (t.global_id, t.elements.elems)) =
        [(11, [[3, 5, 9], [2, 4, 9]]), (10, [[1, 0, 7], [1, 1, 7]])] :=
  ⟨_, rfl, rfl, rfl, rfl⟩

/-- C6 (contiguous sender runs): in a ghost layer built by ingesting one
message per sender, in the order of the exchange (the global ids of the trees
never decrease along the messages in the order of ingestion, since the
messages are ingested by ascending rank and every message lists its trees by
ascending id) and with messages as `t8_forest_ghost_send_start` builds them
(at least one tree, no tree without elements), the ghost elements are the
elements of the messages in that order, so the elements of every sender form a
contiguous run; the entry of the sender names the position `(tree_index,
first_element)` at which its run begins, and the ghost trees that received
elements from it are those at `m` consecutive positions from the position
`tree_index` on. -/
theorem C6_contiguous_sender_runs (P : Nat) (forest : t8_forest_t)
    (pre post : List parse_call) (c : parse_call) (ghost : t8_forest_ghost)
    (first : tree_record) (rest : List tree_record)
    (h : parse_calls P forest ghost_new (pre ++ c :: post) = .ok ghost)
    (hrec : message_records P forest c.recv_buffer = .ok (first :: rest))
    (hsorted : records_sorted (calls_records P forest (pre ++ c :: post)))
    (hne : records_nonempty (first :: rest)) :
    ghost_elements ghost.ghost_trees =
      records_elements (calls_records P forest pre) ++
        records_elements (first :: rest) ++
        records_elements (calls_records P forest post) ∧
    ∃ i k m : Nat,
      process_hash_lookup ghost.process_offsets c.recv_rank =
        some { mpirank := c.recv_rank, tree_index := some i,
               first_element := some k } ∧
      ghost_position ghost.ghost_trees i k =
        (records_elements (calls_records P forest pre)).length ∧
      (∃ t, ghost.ghost_trees[i]? = some t ∧ k < t.elements.elems.length) ∧
      ∀ (j : Nat) (t : t8_ghost_tree_t), ghost.ghost_trees[j]? = some t →
        ((∃ r ∈ first :: rest, r.global_id = t.global_id) ↔ i ≤ j ∧ j < i + m) := by
  have hsplit := calls_records_split P forest pre post c hrec
  -- the whole sequence of messages
  obtain ⟨GS, CL, CV, EL⟩ := parse_calls_sorted (pre ++ c :: post) []
    ghost_sorted_new (by simp [ghost_new]) (by simp [ghost_new, ghost_elements,
      records_elements]) (by simpa using hsorted) h
  simp only [List.nil_append] at CL EL
  rw [hsplit] at CL CV EL hsorted
  unfold records_sorted at hsorted
  rw [List.map_append, List.map_append, List.pairwise_append] at hsorted
  obtain ⟨hspre, hsrest, hcross⟩ := hsorted
  rw [List.pairwise_append] at hsrest
  obtain ⟨hsmsg, hspost, hcross2⟩ := hsrest
  -- the three parts of the ingestion
  obtain ⟨g1, hpre, hrest⟩ := parse_calls_append pre (c :: post) h
  obtain ⟨g2, hc, hpost⟩ := parse_calls_cons hrest
  obtain ⟨S1, CL1, _, EL1⟩ := parse_calls_sorted pre []
    ghost_sorted_new (by simp [ghost_new]) (by simp [ghost_new, ghost_elements,
      records_elements]) (by simpa [records_sorted] using hspre) hpre
  simp only [List.nil_append] at CL1 EL1
  obtain ⟨i, k, hg2, hlk, hcase⟩ := parse_received_message_first hc hrec
  have hb1 : ∀ t ∈ g1.ghost_trees, t.global_id ≤ first.global_id := by
    intro t ht
    obtain ⟨r, hr, hg⟩ := CL1 t ht
    rw [← hg]
    exact hcross _ (List.mem_map.mpr ⟨r, hr, rfl⟩) _ (by simp)
  have hfirst_le : ∀ r ∈ first :: rest, first.global_id ≤ r.global_id := by
    intro r hr
    rcases List.mem_cons.mp hr with h | h
    · rw [h]
    · rw [List.map_cons, List.pairwise_cons] at hsmsg
      exact hsmsg.1 _ (List.mem_map.mpr ⟨r, h, rfl⟩)
  have hpost_ge : ∀ r ∈ first :: rest, ∀ r' ∈ calls_records P forest post,
      r.global_id ≤ r'.global_id := fun r hr r' hr' =>
    hcross2 _ (List.mem_map.mpr ⟨r, hr, rfl⟩) _ (List.mem_map.mpr ⟨r', hr', rfl⟩)
  -- the ghost trees before the message, split at the position in the entry
  have hS : ∃ tail, g1.ghost_trees = g1.ghost_trees.take i ++ tail ∧
      (ghost_elements tail).length = k ∧
      ∀ x ∈ g1.ghost_trees.take i, x.global_id < first.global_id := by
    rcases hcase with ⟨hn, hi, hk⟩ | ⟨found, t, hf, hi, ht, htg, hk⟩
    · refine ⟨[], by simp [hi], by simp [hk, ghost_elements], ?_⟩
      intro x hx
      have hx' : x ∈ g1.ghost_trees := List.mem_of_mem_take hx
      exact lt_of_le_of_ne (hb1 x hx') (ghost_index_no_tree S1.1 hn x hx')
    · obtain ⟨h1, h2⟩ := sorted_split S1.2 ht (by rw [htg]; exact hb1)
      exact ⟨[t], h1, by simp [hk, ghost_elements], by rw [← htg]; exact h2⟩
  obtain ⟨tail, htail, hklen, hlow⟩ := hS
  -- the ghost tree of the first tree of the message
  obtain ⟨t1, ht1, ht1g, ht1len⟩ := ghost_add_record_first forest first hcase
  have hext2 : ghost_trees_extend (ghost_add_record forest g1 first).ghost_trees
      g2.ghost_trees := by
    rw [hg2]
    exact foldl_ghost_add_record_extend forest rest _
  have hext := ghost_trees_extend_trans hext2 (parse_calls_extend post hpost)
  obtain ⟨ti, hti, htig, _, _, added, hadded⟩ := hext.2 i t1 ht1
  -- the positions below the entry are those of the ghost trees before
  have hok2 : ghost_index_ok g2 := parse_received_message_index_ok S1.1 hc
  have hkeep : ∀ (j : Nat) (t0 : t8_ghost_tree_t), g1.ghost_trees[j]? = some t0 →
      t0.global_id < first.global_id → ghost.ghost_trees[j]? = some t0 := by
    intro j t0 h0 hlt
    apply parse_calls_other post hok2 hpost
    · rw [hg2]
      exact foldl_ghost_add_record_other forest (first :: rest) S1.1 h0
        (fun r hr => ne_of_lt (lt_of_lt_of_le hlt (hfirst_le r hr)))
    · intro r hr
      exact ne_of_lt (lt_of_lt_of_le hlt
        (hpost_ge first (List.mem_cons_self _ _) r hr))
  have htake : ghost.ghost_trees.take i = g1.ghost_trees.take i := by
    apply List.ext_getElem?
    intro j
    rw [List.getElem?_take, List.getElem?_take]
    split
    · rename_i hji
      have hjlen : j < (g1.ghost_trees.take i).length := by
        have hile : i ≤ g1.ghost_trees.length := by
          rcases Nat.le_total i g1.ghost_trees.length with h | h
          · exact h
          · have := (List.getElem?_eq_some_iff.mp hti).1
            have hl := hext.1
            rcases hcase with ⟨_, hi, _⟩ | ⟨_, t, _, _, ht, _, _⟩
            · omega
            · exact le_of_lt (List.getElem?_eq_some_iff.mp ht).1
        rw [List.length_take]
        omega
      have hj1 : g1.ghost_trees[j]? = some (g1.ghost_trees.take i)[j] := by
        rw [← List.getElem?_eq_getElem hjlen, List.getElem?_take, if_pos hji]
      rw [hj1]
      exact hkeep j _ hj1 (hlow _ (List.getElem_mem hjlen))
    · rfl
  refine ⟨?_, i, k, ?_⟩
  · rw [EL]
    simp [records_elements]
  -- the last tree of the message and its ghost tree
  have hlast_mem : (first :: rest).getLast (by simp) ∈ first :: rest :=
    List.getLast_mem _
  obtain ⟨tl, htl, htlg⟩ := CV _
    (List.mem_append_right _ (List.mem_append_left _ hlast_mem))
  obtain ⟨jl, hjl⟩ := List.mem_iff_getElem?.mp htl
  have hle_last : ∀ r ∈ first :: rest,
      r.global_id ≤ ((first :: rest).getLast (by simp)).global_id := by
    intro r hr
    obtain ⟨A, hA⟩ : ∃ A, first :: rest = A ++ [(first :: rest).getLast (by simp)] :=
      ⟨_, (List.dropLast_append_getLast _).symm⟩
    generalize (first :: rest).getLast (by simp) = lastr at hA ⊢
    rw [hA] at hr hsmsg
    rw [List.map_append, List.pairwise_append] at hsmsg
    rcases List.mem_append.mp hr with h | h
    · exact hsmsg.2.2 _ (List.mem_map.mpr ⟨r, h, rfl⟩) _ (by simp)
    · rw [List.mem_singleton] at h
      rw [h]
  refine ⟨jl + 1 - i, ?_, ?_, ⟨ti, hti, ?_⟩, ?_⟩
  · apply parse_calls_offsets post hpost
    rw [hg2]
    exact process_hash_lookup_append_new hlk _ rfl
  · unfold ghost_position
    rw [htake, ← EL1]
    conv_rhs => rw [htail]
    simp [ghost_elements, hklen] at hklen ⊢
    omega
  · have := hne first (List.mem_cons_self _ _)
    have hpos : 0 < first.elems.length := List.length_pos.mpr this
    rw [hadded, List.length_append, ht1len]
    omega
  · intro j t hjt
    have hile : i ≤ jl := by
      rw [pairwise_lt_index GS.2 hti hjl, htig, ht1g, htlg]
      exact hle_last first (List.mem_cons_self _ _)
    constructor
    · rintro ⟨r, hr, hg⟩
      have h1 : i ≤ j := by
        rw [pairwise_lt_index GS.2 hti hjt, htig, ht1g, ← hg]
        exact hfirst_le r hr
      have h2 : j ≤ jl := by
        rw [pairwise_lt_index GS.2 hjt hjl, htlg, ← hg]
        exact hle_last r hr
      omega
    · rintro ⟨h1, h2⟩
      have hge : first.global_id ≤ t.global_id := by
        rw [← ht1g, ← htig]
        exact (pairwise_lt_index GS.2 hti hjt).mp h1
      have hle : t.global_id ≤ ((first :: rest).getLast (by simp)).global_id := by
        rw [← htlg]
        exact (pairwise_lt_index GS.2 hjt hjl).mp (by omega)
      obtain ⟨r, hr, hg⟩ := CL t (List.getElem?_mem hjt)
      rcases List.mem_append.mp hr with h | h
      · have := hcross _ (List.mem_map.mpr ⟨r, h, rfl⟩) first.global_id (by simp)
        exact ⟨first, List.mem_cons_self _ _, by omega⟩
      · rcases List.mem_append.mp h with h | h
        · exact ⟨r, h, hg⟩
        · have := hpost_ge _ hlast_mem r h
          exact ⟨_, hlast_mem, by omega⟩

theorem C6_contiguous_sender_runs_witness :
    ghost_elements example_ghost_parsed.ghost_trees =
      records_elements (calls_records 8 example_forest
          [{ recv_rank := 1, recv_buffer := example_message_a, recv_bytes := 72 }]) ++
        records_elements
          [{ global_id := 11, eclass := 2, elems := [[3, 5, 9]] },
           { global_id := 12, eclass := 2, elems := [[4, 6, 9]] }] ++
        records_elements (calls_records 8 example_forest []) ∧
    ∃ i k m : Nat,
      process_hash_lookup example_ghost_parsed.process_offsets 2 =
        some { mpirank := 2, tree_index := some i, first_element := some k } ∧
      ghost_position example_ghost_parsed.ghost_trees i k =
        (records_elements (calls_records 8 example_forest
          [{ recv_rank := 1, recv_buffer := example_message_a,
             recv_bytes := 72 }])).length ∧
      (∃ t, example_ghost_parsed.ghost_trees[i]? = some t ∧
        k < t.elements.elems.length) ∧
      ∀ (j : Nat) (t : t8_ghost_tree_t),
        example_ghost_parsed.ghost_trees[j]? = some t →
        ((∃ r ∈ ([{ global_id := 11, eclass := 2, elems := [[3, 5, 9]] },
                  { global_id := 12, eclass := 2, elems := [[4, 6, 9]] }] :
                  List tree_record),
            r.global_id = t.global_id) ↔ i ≤ j ∧ j < i + m) :=
  C6_contiguous_sender_runs 8 example_forest
    [{ recv_rank := 1, recv_buffer := example_message_a, recv_bytes := 72 }] []
    { recv_rank := 2, recv_buffer := example_message_b, recv_bytes := 72 }
    example_ghost_parsed
    { global_id := 11, eclass := 2, elems := [[3, 5, 9]] }
    [{ global_id := 12, eclass := 2, elems := [[4, 6, 9]] }]
    rfl rfl
    (by
      have hcr : calls_records 8 example_forest
          ([{ recv_rank := 1, recv_buffer := example_message_a, recv_bytes := 72 }] ++
            { recv_rank := 2, recv_buffer := example_message_b, recv_bytes := 72 } :: []) =
          [{ global_id := 10, eclass := 2, elems := [[1, 0, 7], [1, 1, 7]] },
           { global_id := 11, eclass := 2, elems := [[2, 4, 9]] },
           { global_id := 11, eclass := 2, elems := [[3, 5, 9]] },
           { global_id := 12, eclass := 2, elems := [[4, 6, 9]] }] := rfl
      rw [hcr]
      unfold records_sorted
      decide)
    (by
      intro r hr
      simp only [List.mem_cons, List.mem_singleton, List.not_mem_nil, or_false] at hr
      rcases hr with h | h <;> subst h <;> simp)


/-! ### The shape of the remote index after `t8_ghost_add_remote` -/

/-- The two ways in which a call of `t8_ghost_add_remote` that runs to the end
changes the ghost structure. -/
theorem t8_ghost_add_remote_cases {forest : t8_forest_t} {g g' : t8_forest_ghost}
    {r : Int} {t : Nat} {e : t8_element_t}
    (h : t8_ghost_add_remote forest g r t e = .ok g') :
    (sc_hash_array_lookup g.remote_ghosts r = none ∧
      g' = { g with
             remote_ghosts := g.remote_ghosts ++
               [{ remote_rank := r,
                  remote_trees := remote_trees_add forest r t e [] }],
             remote_processes := g.remote_processes ++ [r] }) ∨
    (∃ i b, sc_hash_array_lookup g.remote_ghosts r = some i ∧
      g.remote_ghosts[i]? = some b ∧ b.remote_rank = r ∧ b.remote_trees ≠ [] ∧
      g' = { g with
             remote_ghosts := g.remote_ghosts.set i
               { remote_rank := b.remote_rank,
                 remote_trees := remote_trees_add forest r t e b.remote_trees } }) := by
  cases hl : sc_hash_array_lookup g.remote_ghosts r with
  | none =>
    left
    rw [@t8_ghost_add_remote_new forest g r t e hl] at h
    cases h
    exact ⟨rfl, rfl⟩
  | some i =>
    right
    obtain ⟨b, hb, hbr⟩ := sc_hash_array_lookup_some hl
    have hne : b.remote_trees ≠ [] := by
      intro hnil
      simp [t8_ghost_add_remote, hl, hb, hbr, hnil] at h
    rw [@t8_ghost_add_remote_old forest g r i b t e hl hb hne] at h
    cases h
    exact ⟨i, b, rfl, hb, hbr, hne, rfl⟩

/-- The remote trees after `remote_trees_add`: all but the last tree are kept
and the last tree is the one of the local tree. -/
theorem remote_trees_add_shape (forest : t8_forest_t) (r : Int) (t : Nat)
    (e : t8_element_t) (trees : List t8_ghost_remote_tree_t) :
    ∃ pre rt, remote_trees_add forest r t e trees = pre ++ [rt] ∧
      rt.global_id = forest.first_local_tree_id + (t : Int) ∧
      (pre = trees ∨ pre = trees.dropLast) ∧
      (rt = add_remote_element (forest.scheme (forest.tree_class t))
          (t8_ghost_init_remote_tree forest (forest.first_local_tree_id + (t : Int)) r
            (forest.tree_class t)) e ∨
        ∃ last, trees.getLast? = some last ∧
          last.global_id = forest.first_local_tree_id + (t : Int) ∧
          pre = trees.dropLast ∧
          rt = add_remote_element (forest.scheme (forest.tree_class t)) last e) := by
  unfold remote_trees_add
  simp only []
  have hinit : (add_remote_element (forest.scheme (forest.tree_class t))
      (t8_ghost_init_remote_tree forest (forest.first_local_tree_id + (t : Int)) r
        (forest.tree_class t)) e).global_id =
      forest.first_local_tree_id + (t : Int) := by
    rw [(add_remote_element_eclass _ _ _).2.1]
    rfl
  cases hl : trees.getLast? with
  | none =>
    rw [List.getLast?_eq_none_iff] at hl
    subst hl
    exact ⟨[], _, rfl, hinit, Or.inl rfl, Or.inl rfl⟩
  | some last =>
    simp only []
    by_cases hg : last.global_id = forest.first_local_tree_id + (t : Int)
    · rw [if_neg (by simpa using hg)]
      refine ⟨_, _, rfl, ?_, Or.inr rfl, Or.inr ⟨last, rfl, hg, rfl, rfl⟩⟩
      rw [(add_remote_element_eclass _ _ _).2.1]
      exact hg
    · rw [if_pos hg]
      exact ⟨_, _, rfl, hinit, Or.inl rfl, Or.inl rfl⟩

/-- The elements of a remote tree after `add_remote_element` are not empty,
and each is an element that was there or the copy of the element added. -/
theorem add_remote_element_mem (ts : t8_eclass_scheme_c)
    (rt : t8_ghost_remote_tree_t) (e : t8_element_t) :
    (add_remote_element ts rt e).elements.elems ≠ [] ∧
    ∀ x ∈ (add_remote_element ts rt e).elements.elems,
      x ∈ rt.elements.elems ∨ x = ts.t8_element_copy e := by
  rw [add_remote_element_elems]
  cases hl : rt.elements.elems.getLast? with
  | none => simp
  | some last =>
    have hne : rt.elements.elems ≠ [] := by
      intro hnil
      rw [hnil] at hl
      simp at hl
    simp only []
    split
    · exact ⟨hne, fun x hx => Or.inl hx⟩
    · simp


/-! ### The face loop of Discovery -/

theorem fill_remote_regrow_ghost (forest : t8_forest_t) (st : fill_remote_locals)
    (neigh_class : t8_eclass_t) (n : Nat) :
    (fill_remote_regrow forest st neigh_class n).ghost = st.ghost := by
  unfold fill_remote_regrow
  split <;> rfl

/-- The three ways in which a round of the face loop that runs to the end
treats the ghost structure: it leaves it alone when the neighbour tree id is
negative, and otherwise runs the loop over the face children (half neighbour
method) or the loop over the owners at the face. -/
theorem fill_remote_face_cases {forest : t8_forest_t} {ghost_method : Int}
    {itree : Nat} {elem : t8_element_t} {is_atom : Bool}
    {st st' : fill_remote_locals} {iface : Nat}
    (h : fill_remote_face forest ghost_method itree elem is_atom st iface = .ok st') :
    (face_neighbor_tree forest ghost_method itree elem is_atom iface < 0 ∧
      st'.ghost = st.ghost) ∨
    (0 ≤ face_neighbor_tree forest ghost_method itree elem is_atom iface ∧
      ghost_method = 0 ∧
      ∃ buf, face_buffer forest itree elem is_atom st iface = .ok buf ∧
        (List.range ((forest.scheme (forest.tree_class itree)).t8_element_num_face_children
            elem iface)).foldlM
          (fill_remote_child forest itree elem
            (face_neighbor_tree forest ghost_method itree elem is_atom iface)
            (forest.element_neighbor_eclass itree elem iface) buf) st.ghost =
          .ok st'.ghost) ∨
    (0 ≤ face_neighbor_tree forest ghost_method itree elem is_atom iface ∧
      ghost_method ≠ 0 ∧
      (forest.element_owners_at_face (forest.element_face_neighbor itree elem iface).1
          (forest.element_face_neighbor itree elem iface).2.1
          (forest.element_neighbor_eclass itree elem iface)
          (forest.element_face_neighbor itree elem iface).2.2).foldlM
        (fill_remote_owner forest itree elem) st.ghost = .ok st'.ghost) := by
  unfold fill_remote_face at h
  unfold face_neighbor_tree face_buffer
  simp only [bind, Except.bind, pure, Except.pure] at h
  generalize forest.element_neighbor_eclass itree elem iface = nc at h ⊢
  generalize (forest.scheme (forest.tree_class itree)).t8_element_num_face_children
    elem iface = n at h ⊢
  by_cases hm : ghost_method = 0
  · simp only [hm, if_true, true_and, ne_eq, not_true_eq_false, false_and, and_false,
      or_false] at h ⊢
    have hg1 : (fill_remote_regrow forest { st with neigh_scheme := some nc } nc n).ghost =
        st.ghost := fill_remote_regrow_ghost forest _ nc n
    generalize fill_remote_regrow forest { st with neigh_scheme := some nc } nc n = st1
      at h hg1 ⊢
    cases is_atom with
    | false =>
      simp only [Bool.not_false, if_true] at h ⊢
      cases hw : write_half_neighbors st1.half_neighbors n
          (forest.element_half_face_neighbors itree elem iface n).2 with
      | error e => simp [hw] at h
      | ok buf =>
        simp only [hw] at h
        by_cases hnt : (forest.element_half_face_neighbors itree elem iface n).1 ≥ 0
        · simp only [hnt, if_true] at h
          right
          refine ⟨hnt, buf, rfl, ?_⟩
          cases hf : (List.range n).foldlM (fill_remote_child forest itree elem
              (forest.element_half_face_neighbors itree elem iface n).1 nc buf)
              st1.ghost with
          | error e => simp [hf] at h
          | ok g =>
            simp only [hf, Except.ok.injEq] at h
            subst h
            rw [← hg1, hf]
        · simp only [hnt, if_false, Except.ok.injEq] at h
          left
          subst h
          exact ⟨by omega, hg1⟩
    | true =>
      simp only [Bool.not_true, Bool.false_eq_true, Bool.true_eq_false, if_false] at h ⊢
      cases hw : write_half_neighbors st1.half_neighbors 1
          (fun _ => (forest.element_face_neighbor itree elem iface).2.1) with
      | error e => simp [hw] at h
      | ok buf =>
        simp only [hw] at h
        by_cases hnt : (forest.element_face_neighbor itree elem iface).1 ≥ 0
        · simp only [hnt, if_true] at h
          right
          refine ⟨hnt, buf, rfl, ?_⟩
          cases hf : (List.range n).foldlM (fill_remote_child forest itree elem
              (forest.element_face_neighbor itree elem iface).1 nc buf)
              st1.ghost with
          | error e => simp [hf] at h
          | ok g =>
            simp only [hf, Except.ok.injEq] at h
            subst h
            rw [← hg1, hf]
        · simp only [hnt, if_false, Except.ok.injEq] at h
          left
          subst h
          exact ⟨by omega, hg1⟩
  · simp only [hm, if_false, false_and, ne_eq, not_false_eq_true, true_and, and_false,
      false_or] at h ⊢
    by_cases hnt : (forest.element_face_neighbor itree elem iface).1 ≥ 0
    · simp only [hnt, if_true] at h
      right
      refine ⟨hnt, ?_⟩
      cases ha : T8_ASSERT 704 (decide
          ((forest.element_owners_at_face (forest.element_face_neighbor itree elem iface).1
            (forest.element_face_neighbor itree elem iface).2.1 nc
            (forest.element_face_neighbor itree elem iface).2.2).length > 0)) with
      | error e => simp [ha] at h
      | ok u =>
        simp only [ha] at h
        cases hf : (forest.element_owners_at_face
            (forest.element_face_neighbor itree elem iface).1
            (forest.element_face_neighbor itree elem iface).2.1 nc
            (forest.element_face_neighbor itree elem iface).2.2).foldlM
            (fill_remote_owner forest itree elem) st.ghost with
        | error e => simp [hf] at h
        | ok g =>
          simp only [hf, Except.ok.injEq] at h
          subst h
          rfl
    · simp only [hnt, if_false, Except.ok.injEq] at h
      left
      subst h
      exact ⟨by omega, rfl⟩


theorem foldlM_preserves_mem {α σ : Type} (f : σ → α → Except Failure σ)
    (I : σ → Prop) (l : List α)
    (h : ∀ s a s', a ∈ l → I s → f s a = .ok s' → I s') :
    ∀ (s s' : σ), I s → l.foldlM f s = .ok s' → I s' := by
  induction l with
  | nil =>
    intro s s' hs hr
    simp only [List.foldlM_nil, pure, Except.pure, Except.ok.injEq] at hr
    subst hr
    exact hs
  | cons a l ih =>
    intro s s' hs hr
    simp only [List.foldlM_cons, bind, Except.bind] at hr
    cases h1 : f s a with
    | error e => simp [h1] at hr
    | ok s1 =>
      simp only [h1] at hr
      exact ih (fun s a' s' ha => h s a' s' (List.mem_cons_of_mem _ ha)) s1 s'
        (h s a s1 (List.mem_cons_self _ _) hs h1) hr

/-- An invariant of the ghost structure that every call of
`t8_ghost_add_remote` made by Discovery keeps is kept by Discovery.  The calls
are for a rank other than the own one, a local tree, an element of that tree
and a face with a non-negative neighbour tree id. -/
theorem fill_remote_invariant (forest : t8_forest_t) (ghost_method : Int)
    (I : t8_forest_ghost → Prop)
    (hadd : ∀ (g g' : t8_forest_ghost) (r : Int) (itree : Nat) (e : t8_element_t),
      I g → r ≠ forest.mpirank → itree < forest.num_local_trees →
      e ∈ forest.tree_elements itree → open_face forest ghost_method itree e →
      t8_ghost_add_remote forest g r itree e = .ok g' → I g')
    (ghost : t8_forest_ghost) (res : fill_remote_result) (hI : I ghost)
    (h : t8_forest_ghost_fill_remote forest ghost ghost_method = .ok res) :
    I res.ghost := by
  -- the loop over the face children and the loop over the owners
  have hchild : ∀ (itree : Nat) (e : t8_element_t) (nb : Int) (nc : t8_eclass_t)
      (buf : List t8_element_t), itree < forest.num_local_trees →
      e ∈ forest.tree_elements itree → open_face forest ghost_method itree e →
      ∀ (g : t8_forest_ghost) (ichild : Nat) (g' : t8_forest_ghost), I g →
        fill_remote_child forest itree e nb nc buf g ichild = .ok g' → I g' := by
    intro itree e nb nc buf hit he hopen g ichild g' hg hc
    unfold fill_remote_child at hc
    cases hb : buf[ichild]? with
    | none => simp [hb] at hc
    | some child =>
      simp only [hb, bind, Except.bind, pure, Except.pure] at hc
      split at hc
      · cases hc
      · split at hc
        · rename_i hne
          exact hadd g g' _ itree e hg hne hit he hopen hc
        · cases hc
          exact hg
  have howner : ∀ (itree : Nat) (e : t8_element_t), itree < forest.num_local_trees →
      e ∈ forest.tree_elements itree → open_face forest ghost_method itree e →
      ∀ (g : t8_forest_ghost) (owner : Int) (g' : t8_forest_ghost), I g →
        fill_remote_owner forest itree e g owner = .ok g' → I g' := by
    intro itree e hit he hopen g owner g' hg hc
    unfold fill_remote_owner at hc
    simp only [bind, Except.bind, pure, Except.pure] at hc
    split at hc
    · cases hc
    · split at hc
      · rename_i hne
        exact hadd g g' _ itree e hg hne hit he hopen hc
      · cases hc
        exact hg
  -- the face loop, the element loop and the tree loop
  have hface : ∀ (itree : Nat) (e : t8_element_t), itree < forest.num_local_trees →
      e ∈ forest.tree_elements itree →
      ∀ (st : fill_remote_locals) (iface : Nat) (st' : fill_remote_locals),
        iface < (forest.scheme (forest.tree_class itree)).t8_element_num_faces e →
        I st.ghost →
        fill_remote_face forest ghost_method itree e
          (decide ((forest.scheme (forest.tree_class itree)).t8_element_level e =
            (forest.scheme (forest.tree_class itree)).t8_element_maxlevel))
          st iface = .ok st' → I st'.ghost := by
    intro itree e hit he st iface st' hif hg hc
    rcases fill_remote_face_cases hc with ⟨_, h1⟩ | ⟨hnb, _, buf, _, h1⟩ | ⟨hnb, _, h1⟩
    · rw [h1]
      exact hg
    · exact foldlM_preserves _ I
        (hchild itree e _ _ buf hit he ⟨iface, hif, hnb⟩) _ _ _ hg h1
    · exact foldlM_preserves _ I (howner itree e hit he ⟨iface, hif, hnb⟩) _ _ _ hg h1
  have helem : ∀ (itree : Nat), itree < forest.num_local_trees →
      ∀ (st : fill_remote_locals) (e : t8_element_t) (st' : fill_remote_locals),
        e ∈ forest.tree_elements itree → I st.ghost →
        fill_remote_element forest ghost_method itree st e = .ok st' →
        I st'.ghost := by
    intro itree hit st e st' he hg hc
    unfold fill_remote_element at hc
    exact foldlM_preserves_mem _ (fun s => I s.ghost) _
      (fun s a s' ha hs hr => hface itree e hit he s a s' (List.mem_range.mp ha) hs hr)
      _ _ hg hc
  have htree : ∀ (st : fill_remote_locals) (itree : Nat) (st' : fill_remote_locals),
      itree ∈ List.range forest.num_local_trees → I st.ghost →
      fill_remote_tree forest ghost_method st itree = .ok st' → I st'.ghost := by
    intro st itree st' hit hg hc
    unfold fill_remote_tree at hc
    exact foldlM_preserves_mem _ (fun s => I s.ghost) _
      (fun s a s' ha hs hr => helem itree (List.mem_range.mp hit) s a s' ha hs hr)
      _ _ hg hc
  unfold t8_forest_ghost_fill_remote at h
  simp only [bind, Except.bind, pure, Except.pure] at h
  split at h
  · cases h
  · rename_i st hst
    by_cases hc : ghost_method = 0 ∧
        (st.neigh_scheme.isNone = true ∨ st.half_neighbors_owner.isNone = true)
    · rw [if_pos hc] at h
      cases h
    rw [if_neg hc] at h
    cases h
    exact foldlM_preserves_mem _ (fun s => I s.ghost) _
      (fun s a s' ha hs hr => htree s a s' ha hs hr) _ _ hI hst


theorem t8_ghost_add_remote_self_excluded {forest : t8_forest_t}
    {g g' : t8_forest_ghost} {r : Int} {t : Nat} {e : t8_element_t}
    (hg : self_excluded forest g) (hr : r ≠ forest.mpirank)
    (h : t8_ghost_add_remote forest g r t e = .ok g') : self_excluded forest g' := by
  obtain ⟨h1, h2⟩ := hg
  rcases t8_ghost_add_remote_cases h with ⟨_, hg'⟩ | ⟨i, b, _, hb, hbr, _, hg'⟩
  · subst hg'
    refine ⟨?_, ?_⟩
    · intro b hb
      simp only [List.mem_append, List.mem_singleton] at hb
      rcases hb with hb | hb
      · exact h1 b hb
      · subst hb
        exact hr
    · simp only [List.mem_append, List.mem_singleton, not_or]
      exact ⟨h2, fun heq => hr heq.symm⟩
  · subst hg'
    refine ⟨?_, h2⟩
    intro b' hb'
    rcases List.mem_or_eq_of_mem_set hb' with hb' | hb'
    · exact h1 b' hb'
    · subst hb'
      exact h1 b (List.getElem?_mem hb)

/-- C11 (self-exclusion): when no entry of `remote_ghosts` is for the own rank
and the own rank is not in `remote_processes` before, as in the empty ghost
layer, the same holds after `t8_forest_ghost_fill_remote`, with either
method and for every forest. -/
theorem C11_self_exclusion (forest : t8_forest_t) (ghost_method : Int)
    (ghost : t8_forest_ghost) (res : fill_remote_result)
    (hstart : self_excluded forest ghost)
    (h : t8_forest_ghost_fill_remote forest ghost ghost_method = .ok res) :
    (∀ b ∈ res.ghost.remote_ghosts, b.remote_rank ≠ forest.mpirank) ∧
    forest.mpirank ∉ res.ghost.remote_processes :=
  fill_remote_invariant forest ghost_method (self_excluded forest)
    (fun _ _ _ _ _ hg hr _ _ _ hadd => t8_ghost_add_remote_self_excluded hg hr hadd)
    ghost res hstart h

theorem C11_self_exclusion_witness :
    self_excluded example_forest ghost_new ∧
    (∃ res, t8_forest_ghost_fill_remote example_forest ghost_new 0 = .ok res ∧
      res.ghost.remote_processes = [1, 2] ∧
      (∀ b ∈ res.ghost.remote_ghosts, b.remote_rank ≠ example_forest.mpirank) ∧
      example_forest.mpirank ∉ res.ghost.remote_processes) ∧
    (∃ res, t8_forest_ghost_fill_remote example_forest ghost_new 1 = .ok res ∧
      res.ghost.remote_processes = [1] ∧
      (∀ b ∈ res.ghost.remote_ghosts, b.remote_rank ≠ example_forest.mpirank) ∧
      example_forest.mpirank ∉ res.ghost.remote_processes) :=
  ⟨⟨by simp [ghost_new], by simp [ghost_new]⟩,
   ⟨_, rfl, rfl, C11_self_exclusion example_forest 0 ghost_new _
      ⟨by simp [ghost_new], by simp [ghost_new]⟩ rfl⟩,
   ⟨_, rfl, rfl, C11_self_exclusion example_forest 1 ghost_new _
      ⟨by simp [ghost_new], by simp [ghost_new]⟩ rfl⟩⟩


/-! ### Where the remote elements come from -/

theorem remote_trees_add_sound {forest : t8_forest_t} {ghost_method : Int}
    {r : Int} {t : Nat} {e : t8_element_t} {trees : List t8_ghost_remote_tree_t}
    (ht : t < forest.num_local_trees) (he : e ∈ forest.tree_elements t)
    (hopen : open_face forest ghost_method t e)
    (hs : ∀ rt ∈ trees, remote_tree_sound forest ghost_method r rt) :
    ∀ rt ∈ remote_trees_add forest r t e trees,
      remote_tree_sound forest ghost_method r rt := by
  obtain ⟨pre, rt0, hshape, hgid, hpre, hrt⟩ := remote_trees_add_shape forest r t e trees
  rw [hshape]
  intro rt hrt'
  rcases List.mem_append.mp hrt' with hmem | hmem
  · apply hs
    rcases hpre with h | h
    · rw [← h]; exact hmem
    · rw [h] at hmem
      exact List.mem_of_mem_dropLast hmem
  · rw [List.mem_singleton] at hmem
    subst hmem
    rcases hrt with hrt | ⟨last, hlast, hlg, _, hrt⟩
    · subst hrt
      obtain ⟨h1, h2, h3, h4⟩ := add_remote_element_eclass
        (forest.scheme (forest.tree_class t))
        (t8_ghost_init_remote_tree forest (forest.first_local_tree_id + (t : Int)) r
          (forest.tree_class t)) e
      refine ⟨t, ht, hgid, ?_, ?_, ?_, ?_⟩
      · rw [h1]
        simp [t8_ghost_init_remote_tree]
      · rw [h4]
        rfl
      · rw [h3]
        rfl
      · intro x hx
        rcases (add_remote_element_mem _ _ e).2 x hx with h | h
        · simp [t8_ghost_init_remote_tree, sc_array_init] at h
        · exact ⟨e, he, hopen, h⟩
    · subst hrt
      obtain ⟨h1, h2, h3, h4⟩ := add_remote_element_eclass
        (forest.scheme (forest.tree_class t)) last e
      obtain ⟨t', ht', hg', hc', hsz', hr', hel'⟩ :=
        hs last (List.mem_of_getLast?_eq_some hlast)
      have htt : t' = t := by
        rw [hg'] at hlg
        omega
      subst htt
      refine ⟨t', ht', hgid, by rw [h1, hc'], by rw [h4, hsz'], by rw [h3, hr'], ?_⟩
      intro x hx
      rcases (add_remote_element_mem _ _ e).2 x hx with h | h
      · exact hel' x h
      · exact ⟨e, he, hopen, h⟩

theorem t8_ghost_add_remote_sound {forest : t8_forest_t} {ghost_method : Int}
    {g g' : t8_forest_ghost} {r : Int} {t : Nat} {e : t8_element_t}
    (hg : remote_index_sound forest ghost_method g)
    (ht : t < forest.num_local_trees) (he : e ∈ forest.tree_elements t)
    (hopen : open_face forest ghost_method t e)
    (h : t8_ghost_add_remote forest g r t e = .ok g') :
    remote_index_sound forest ghost_method g' := by
  rcases t8_ghost_add_remote_cases h with ⟨_, hg'⟩ | ⟨i, b, _, hb, hbr, _, hg'⟩
  · subst hg'
    intro b hb rt hrt
    simp only [List.mem_append, List.mem_singleton] at hb
    rcases hb with hb | hb
    · exact hg b hb rt hrt
    · subst hb
      exact @remote_trees_add_sound forest ghost_method r t e [] ht he hopen
        (fun rt' hrt' => absurd hrt' (List.not_mem_nil _)) rt hrt
  · subst hg'
    intro b' hb' rt hrt
    rcases List.mem_or_eq_of_mem_set hb' with hb' | hb'
    · exact hg b' hb' rt hrt
    · subst hb'
      have hbm := List.getElem?_mem hb
      simp only at hrt ⊢
      rw [hbr]
      exact remote_trees_add_sound ht he hopen
        (fun rt' hrt' => by rw [← hbr]; exact hg b hbm rt' hrt') rt hrt

/-- After Discovery every remote tree is filed under a local tree, with its
global id, class and element size, and holds copies of elements of that tree
that have a face with a non-negative neighbour tree id. -/
theorem fill_remote_sound (forest : t8_forest_t) (ghost_method : Int)
    (ghost : t8_forest_ghost) (res : fill_remote_result)
    (hstart : remote_index_sound forest ghost_method ghost)
    (h : t8_forest_ghost_fill_remote forest ghost ghost_method = .ok res) :
    remote_index_sound forest ghost_method res.ghost :=
  fill_remote_invariant forest ghost_method (remote_index_sound forest ghost_method)
    (fun _ _ _ _ _ hg _ ht he hopen hadd => t8_ghost_add_remote_sound hg ht he hopen hadd)
    ghost res hstart h

theorem remote_index_sound_new (forest : t8_forest_t) (ghost_method : Int) :
    remote_index_sound forest ghost_method ghost_new := by
  intro b hb
  simp [ghost_new] at hb


theorem fill_remote_face_boundary (forest : t8_forest_t) (ghost_method : Int)
    (itree : Nat) (elem : t8_element_t) (is_atom : Bool) (st : fill_remote_locals)
    (iface : Nat)
    (find_owner : Int → t8_element_t → t8_eclass_t → Int)
    (owners_at_face : Int → t8_element_t → t8_eclass_t → Int → List Int)
    (hneg : face_neighbor_tree forest ghost_method itree elem is_atom iface < 0) :
    fill_remote_face forest ghost_method itree elem is_atom st iface =
      fill_remote_face (with_owners forest find_owner owners_at_face) ghost_method
        itree elem is_atom st iface := by
  unfold face_neighbor_tree at hneg
  unfold fill_remote_face
  simp only [with_owners, bind, Except.bind, pure, Except.pure]
  by_cases hm : ghost_method = 0
  · simp only [hm, if_true, true_and] at hneg ⊢
    cases is_atom with
    | false =>
      simp only [if_true, Bool.not_false] at hneg ⊢
      have hnt : ¬ (forest.element_half_face_neighbors itree elem iface
          ((forest.scheme (forest.tree_class itree)).t8_element_num_face_children
            elem iface)).1 ≥ 0 := by omega
      simp only [hnt, if_false]
      rfl
    | true =>
      simp only [Bool.true_eq_false, if_false, Bool.not_true, Bool.false_eq_true] at hneg ⊢
      have hnt : ¬ (forest.element_face_neighbor itree elem iface).1 ≥ 0 := by omega
      simp only [hnt, if_false]
      rfl
  · simp only [hm, if_false, false_and] at hneg ⊢
    have hnt : ¬ (forest.element_face_neighbor itree elem iface).1 ≥ 0 := by omega
    simp only [hnt, if_false]

/-- C12 (boundary skip): for a face with a negative neighbour tree id the
round of the face loop does not depend on the routines of the owner lookup and
leaves the ghost structure as it is; an element with a negative neighbour tree
id at every face leaves the ghost structure as it is; and after Discovery on
the empty ghost layer every element of every remote tree is the copy of a
local element that has a face with a non-negative neighbour tree id. -/
theorem C12_boundary_skip (forest : t8_forest_t) (ghost_method : Int) :
    (∀ (itree : Nat) (elem : t8_element_t) (is_atom : Bool)
        (st : fill_remote_locals) (iface : Nat),
      face_neighbor_tree forest ghost_method itree elem is_atom iface < 0 →
      (∀ find_owner owners_at_face,
        fill_remote_face forest ghost_method itree elem is_atom st iface =
          fill_remote_face (with_owners forest find_owner owners_at_face)
            ghost_method itree elem is_atom st iface) ∧
      ∀ st', fill_remote_face forest ghost_method itree elem is_atom st iface =
        .ok st' → st'.ghost = st.ghost) ∧
    (∀ (itree : Nat) (elem : t8_element_t) (st st' : fill_remote_locals),
      ¬ open_face forest ghost_method itree elem →
      fill_remote_element forest ghost_method itree st elem = .ok st' →
      st'.ghost = st.ghost) ∧
    (∀ res, t8_forest_ghost_fill_remote forest ghost_new ghost_method = .ok res →
      ∀ b ∈ res.ghost.remote_ghosts, ∀ rt ∈ b.remote_trees,
      ∃ itree : Nat, itree < forest.num_local_trees ∧
        rt.global_id = forest.first_local_tree_id + (itree : Int) ∧
        ∀ x ∈ rt.elements.elems, ∃ e ∈ forest.tree_elements itree,
          open_face forest ghost_method itree e ∧
          x = (forest.scheme (forest.tree_class itree)).t8_element_copy e) := by
  refine ⟨?_, ?_, ?_⟩
  · intro itree elem is_atom st iface hneg
    refine ⟨fun f o => fill_remote_face_boundary forest ghost_method itree elem is_atom
      st iface f o hneg, ?_⟩
    intro st' h
    rcases fill_remote_face_cases h with ⟨_, h1⟩ | ⟨hnb, _⟩ | ⟨hnb, _⟩
    · exact h1
    · omega
    · omega
  · intro itree elem st st' hclosed h
    unfold fill_remote_element at h
    refine foldlM_preserves_mem _ (fun s => s.ghost = st.ghost) _ ?_ st st' rfl h
    intro s iface s' hif hs hr
    rcases fill_remote_face_cases hr with ⟨_, h1⟩ | ⟨hnb, _⟩ | ⟨hnb, _⟩
    · rw [h1, hs]
    · exact absurd ⟨iface, List.mem_range.mp hif, hnb⟩ hclosed
    · exact absurd ⟨iface, List.mem_range.mp hif, hnb⟩ hclosed
  · intro res h b hb rt hrt
    obtain ⟨itree, hit, hg, _, _, _, hel⟩ := fill_remote_sound forest ghost_method
      ghost_new res (remote_index_sound_new forest ghost_method) h b hb rt hrt
    exact ⟨itree, hit, hg, hel⟩

theorem C12_boundary_skip_witness :
    ¬ open_face boundary_forest 0 0 [1, 0, 7] ∧
    (∃ res, t8_forest_ghost_fill_remote boundary_forest ghost_new 0 = .ok res ∧
      res.ghost.remote_ghosts = []) ∧
    ∀ st st' : fill_remote_locals,
      fill_remote_element boundary_forest 0 0 st [1, 0, 7] = .ok st' →
      st'.ghost = st.ghost :=
  have hclosed : ¬ open_face boundary_forest 0 0 [1, 0, 7] := by
    simp [open_face, face_neighbor_tree, boundary_forest, example_forest,
      example_scheme]
  ⟨hclosed, ⟨_, rfl, rfl⟩,
    fun st st' => (C12_boundary_skip boundary_forest 0).2.1 0 [1, 0, 7] st st' hclosed⟩


/-! ### Single calls of `t8_ghost_add_remote` -/

theorem add_remote_element_same (ts : t8_eclass_scheme_c)
    (rt : t8_ghost_remote_tree_t) (e x : t8_element_t)
    (hx : rt.elements.elems.getLast? = some x)
    (hk : element_key ts x = element_key ts e) :
    add_remote_element ts rt e = rt := by
  simp only [element_key, Prod.mk.injEq] at hk
  unfold add_remote_element
  rw [hx]
  simp only []
  rw [if_neg]
  rw [not_or]
  refine ⟨?_, ?_⟩
  · simp only [ne_eq, not_not]
    exact hk.1.symm
  · simp only [ne_eq, not_not]
    exact hk.2

theorem add_remote_element_last {forest : t8_forest_t}
    (hcopy : copy_preserves_key forest) (c : t8_eclass_t)
    (rt : t8_ghost_remote_tree_t) (e : t8_element_t) :
    ∃ x, (add_remote_element (forest.scheme c) rt e).elements.elems.getLast? = some x ∧
      element_key (forest.scheme c) x = element_key (forest.scheme c) e := by
  rw [add_remote_element_elems]
  cases hl : rt.elements.elems.getLast? with
  | none =>
    exact ⟨_, by simp, element_key_copy hcopy c e⟩
  | some last =>
    simp only []
    split
    · rename_i hk
      exact ⟨last, hl, hk⟩
    · exact ⟨_, by simp, element_key_copy hcopy c e⟩

/-- A call of `t8_ghost_add_remote` for an element that has the level and the
linear id of the last element of the last remote tree of the rank, that tree
being the one of the local tree, changes nothing. -/
theorem t8_ghost_add_remote_same {forest : t8_forest_t} {g : t8_forest_ghost}
    {r : Int} {t : Nat} {e x : t8_element_t} {i : Nat} {b : t8_ghost_remote_t}
    {last : t8_ghost_remote_tree_t}
    (hl : sc_hash_array_lookup g.remote_ghosts r = some i)
    (hb : g.remote_ghosts[i]? = some b)
    (hlast : b.remote_trees.getLast? = some last)
    (hg : last.global_id = forest.first_local_tree_id + (t : Int))
    (hx : last.elements.elems.getLast? = some x)
    (hk : element_key (forest.scheme (forest.tree_class t)) x =
      element_key (forest.scheme (forest.tree_class t)) e) :
    t8_ghost_add_remote forest g r t e = .ok g := by
  have hne : b.remote_trees ≠ [] := by
    intro hnil
    rw [hnil] at hlast
    simp at hlast
  rw [@t8_ghost_add_remote_old forest g r i b t e hl hb hne]
  have htrees : remote_trees_add forest r t e b.remote_trees = b.remote_trees := by
    unfold remote_trees_add
    simp only [hlast, hg, ne_eq, not_true_eq_false, if_false]
    rw [add_remote_element_same _ last e x hx hk]
    exact List.dropLast_append_getLast? last hlast
  rw [htrees]
  have hbb : ({ remote_rank := b.remote_rank, remote_trees := b.remote_trees } :
      t8_ghost_remote_t) = b := rfl
  rw [hbb]
  have hset : g.remote_ghosts.set i b = g.remote_ghosts := by
    apply List.ext_getElem?
    intro j
    rw [List.getElem?_set]
    split
    · rename_i hij
      subst hij
      simp [hb]
      exact (List.getElem?_eq_some_iff.mp hb).1
    · rfl
  rw [hset]

/-- After a call of `t8_ghost_add_remote` that ran to the end, the same call
changes nothing. -/
theorem t8_ghost_add_remote_twice {forest : t8_forest_t}
    (hcopy : copy_preserves_key forest) {g g1 : t8_forest_ghost}
    {r : Int} {t : Nat} {e : t8_element_t}
    (h : t8_ghost_add_remote forest g r t e = .ok g1) :
    t8_ghost_add_remote forest g1 r t e = .ok g1 := by
  have hshape : ∀ trees, ∃ last x,
      (remote_trees_add forest r t e trees).getLast? = some last ∧
      last.global_id = forest.first_local_tree_id + (t : Int) ∧
      last.elements.elems.getLast? = some x ∧
      element_key (forest.scheme (forest.tree_class t)) x =
        element_key (forest.scheme (forest.tree_class t)) e := by
    intro trees
    obtain ⟨pre, rt, hs, hgid, _, hrt⟩ := remote_trees_add_shape forest r t e trees
    refine ⟨rt, ?_⟩
    have hx : ∃ x, rt.elements.elems.getLast? = some x ∧
        element_key (forest.scheme (forest.tree_class t)) x =
          element_key (forest.scheme (forest.tree_class t)) e := by
      rcases hrt with hrt | ⟨last, _, _, _, hrt⟩ <;> rw [hrt] <;>
        exact add_remote_element_last hcopy _ _ e
    obtain ⟨x, hx1, hx2⟩ := hx
    exact ⟨x, by rw [hs]; simp, hgid, hx1, hx2⟩
  rcases t8_ghost_add_remote_cases h with ⟨hl, hg'⟩ | ⟨i, b, hl, hb, hbr, _, hg'⟩
  · obtain ⟨last, x, h1, h2, h3, h4⟩ := hshape []
    subst hg'
    refine @t8_ghost_add_remote_same forest _ r t e x g.remote_ghosts.length
      { remote_rank := r, remote_trees := remote_trees_add forest r t e [] } last
      ?_ ?_ h1 h2 h3 h4
    · simp only [sc_hash_array_lookup_append, hl]
      simp
    · simp
  · obtain ⟨last, x, h1, h2, h3, h4⟩ := hshape b.remote_trees
    subst hg'
    refine @t8_ghost_add_remote_same forest _ r t e x i
      { remote_rank := b.remote_rank,
        remote_trees := remote_trees_add forest r t e b.remote_trees } last
      ?_ ?_ h1 h2 h3 h4
    · simp only
      rw [sc_hash_array_lookup_set _ i b _ hb]
      exact hl
    · simp only
      exact List.getElem?_set_self (List.getElem?_eq_some_iff.mp hb).1

/-- C13 (add is idempotent on consecutive duplicates): when the last remote
tree of the entry of rank `r` is the one of the local tree `t` and its last
element has the level and the linear id of `e`, the call
`t8_ghost_add_remote (r, t, e)` returns the ghost structure unchanged; and,
copying keeping level and linear id, a call that ran to the end leaves a
ghost structure that the same call does not change. -/
theorem C13_add_idempotent (forest : t8_forest_t) :
    (∀ (g : t8_forest_ghost) (r : Int) (t : Nat) (e x : t8_element_t) (i : Nat)
        (b : t8_ghost_remote_t) (last : t8_ghost_remote_tree_t),
      sc_hash_array_lookup g.remote_ghosts r = some i →
      g.remote_ghosts[i]? = some b →
      b.remote_trees.getLast? = some last →
      last.global_id = forest.first_local_tree_id + (t : Int) →
      last.elements.elems.getLast? = some x →
      element_key (forest.scheme (forest.tree_class t)) x =
        element_key (forest.scheme (forest.tree_class t)) e →
      t8_ghost_add_remote forest g r t e = .ok g) ∧
    (copy_preserves_key forest →
      ∀ (g g1 : t8_forest_ghost) (r : Int) (t : Nat) (e : t8_element_t),
        t8_ghost_add_remote forest g r t e = .ok g1 →
        t8_ghost_add_remote forest g1 r t e = .ok g1) :=
  ⟨fun _ _ _ _ _ _ _ _ hl hb hlast hg hx hk =>
      t8_ghost_add_remote_same hl hb hlast hg hx hk,
   fun hcopy _ _ _ _ _ h => t8_ghost_add_remote_twice hcopy h⟩

theorem C13_add_idempotent_witness :
    ∃ g1, t8_ghost_add_remote example_forest ghost_new 1 0 [1, 0, 7] = .ok g1 ∧
      g1.remote_processes = [1] ∧
      t8_ghost_add_remote example_forest g1 1 0 [1, 0, 7] = .ok g1 :=
  ⟨_, rfl, rfl, (C13_add_idempotent example_forest).2
    (by intro c e; simp [example_forest, example_scheme])
    ghost_new _ 1 0 [1, 0, 7] rfl⟩

/-- C14 (add with a new rank): when no entry of `remote_ghosts` is for rank
`r`, the call `t8_ghost_add_remote (r, t, e)` runs to the end; afterwards
`remote_processes` is the old list with `r` appended, `remote_ghosts` is the
old array followed by an entry for `r` with one remote tree, whose global id
is `first_local_tree_id + t` and whose only element is the copy of `e`; the
other fields are unchanged. -/
theorem C14_add_new_rank (forest : t8_forest_t) (g : t8_forest_ghost) (r : Int)
    (t : Nat) (e : t8_element_t)
    (hnew : ∀ b ∈ g.remote_ghosts, b.remote_rank ≠ r) :
    ∃ g' rt, t8_ghost_add_remote forest g r t e = .ok g' ∧
      g'.remote_processes = g.remote_processes ++ [r] ∧
      g'.remote_ghosts = g.remote_ghosts ++
        [{ remote_rank := r, remote_trees := [rt] }] ∧
      rt.global_id = forest.first_local_tree_id + (t : Int) ∧
      rt.elements.elems = [(forest.scheme (forest.tree_class t)).t8_element_copy e] ∧
      g'.ghost_trees = g.ghost_trees ∧
      g'.global_tree_to_ghost_tree = g.global_tree_to_ghost_tree ∧
      g'.process_offsets = g.process_offsets ∧
      g'.num_ghosts_elements = g.num_ghosts_elements ∧
      g'.num_remote_elements = g.num_remote_elements := by
  have hl : sc_hash_array_lookup g.remote_ghosts r = none := by
    cases hl : sc_hash_array_lookup g.remote_ghosts r with
    | none => rfl
    | some i =>
      obtain ⟨b, hb, hbr⟩ := sc_hash_array_lookup_some hl
      exact absurd hbr (hnew b (List.getElem?_mem hb))
  refine ⟨_, add_remote_element (forest.scheme (forest.tree_class t))
    (t8_ghost_init_remote_tree forest (forest.first_local_tree_id + (t : Int)) r
      (forest.tree_class t)) e,
    @t8_ghost_add_remote_new forest g r t e hl, rfl, ?_, ?_, ?_, rfl, rfl, rfl, rfl, rfl⟩
  · simp [remote_trees_add]
  · rw [(add_remote_element_eclass _ _ _).2.1]
    rfl
  · simp [add_remote_element, t8_ghost_init_remote_tree, sc_array_init]

theorem C14_add_new_rank_witness :
    ∃ g' rt, t8_ghost_add_remote example_forest ghost_new 2 1 [2, 4, 9] = .ok g' ∧
      g'.remote_processes = ghost_new.remote_processes ++ [2] ∧
      g'.remote_ghosts = ghost_new.remote_ghosts ++
        [{ remote_rank := 2, remote_trees := [rt] }] ∧
      rt.global_id = example_forest.first_local_tree_id + ((1 : Nat) : Int) ∧
      rt.elements.elems =
        [(example_forest.scheme (example_forest.tree_class 1)).t8_element_copy
          [2, 4, 9]] ∧
      g'.ghost_trees = ghost_new.ghost_trees ∧
      g'.global_tree_to_ghost_tree = ghost_new.global_tree_to_ghost_tree ∧
      g'.process_offsets = ghost_new.process_offsets ∧
      g'.num_ghosts_elements = ghost_new.num_ghosts_elements ∧
      g'.num_remote_elements = ghost_new.num_remote_elements :=
  C14_add_new_rank example_forest ghost_new 2 1 [2, 4, 9]
    (by intro b hb; simp [ghost_new] at hb)


/-! ### The list of remote ranks -/

theorem map_set_same {α β : Type} (f : α → β) (l : List α) (i : Nat) (b x : α)
    (hb : l[i]? = some b) (hx : f x = f b) : (l.set i x).map f = l.map f := by
  apply List.ext_getElem?
  intro j
  simp only [List.getElem?_map, List.getElem?_set]
  split
  · rename_i hij
    subst hij
    have hi := (List.getElem?_eq_some_iff.mp hb).1
    simp [hi, hb, hx]
  · rfl

theorem add_remote_total_ranks (forest : t8_forest_t) (g : t8_forest_ghost)
    (c : add_remote_call) (hne : remote_entries_nonempty g)
    (hr : remote_ranks_ok g) : remote_ranks_ok (add_remote_total forest g c) := by
  obtain ⟨hadd, _, _⟩ := add_remote_total_spec forest g c hne
  obtain ⟨h1, h2⟩ := hr
  rcases t8_ghost_add_remote_cases hadd with ⟨hl, hg'⟩ | ⟨i, b, hl, hb, hbr, _, hg'⟩
  · rw [hg']
    refine ⟨by simp [h1], ?_⟩
    simp only [List.map_append, List.map_cons, List.map_nil]
    rw [List.nodup_append]
    refine ⟨h2, by simp, ?_⟩
    intro a ha1 ha2
    rw [List.mem_singleton] at ha2
    subst ha2
    obtain ⟨b, hb, hba⟩ := List.mem_map.mp ha1
    exact sc_hash_array_lookup_none hl b hb hba
  · rw [hg']
    have hmap := map_set_same (fun x : t8_ghost_remote_t => x.remote_rank)
      g.remote_ghosts i b
      { remote_rank := b.remote_rank,
        remote_trees := remote_trees_add forest c.remote_rank c.ltreeid c.elem
          b.remote_trees } hb rfl
    unfold remote_ranks_ok
    rw [hmap]
    exact ⟨h1, h2⟩

theorem remote_ranks_ok_new : remote_ranks_ok ghost_new :=
  ⟨rfl, by simp [ghost_new]⟩

/-- A sequence of calls of `t8_ghost_add_remote` on the empty ghost structure
runs to the end; every entry then holds a remote tree, and `remote_processes`
lists the ranks of the entries without repetition. -/
theorem add_remote_calls_reach (forest : t8_forest_t) (calls : List add_remote_call) :
    ∀ g : t8_forest_ghost, remote_entries_nonempty g → remote_ranks_ok g →
      add_remote_calls forest g calls =
        .ok (calls.foldl (add_remote_total forest) g) ∧
      remote_entries_nonempty (calls.foldl (add_remote_total forest) g) ∧
      remote_ranks_ok (calls.foldl (add_remote_total forest) g) := by
  induction calls with
  | nil => intro g hne hr; exact ⟨rfl, hne, hr⟩
  | cons c calls ih =>
    intro g hne hr
    obtain ⟨h1, h2, _⟩ := add_remote_total_spec forest g c hne
    obtain ⟨i1, i2, i3⟩ := ih (add_remote_total forest g c) h2
      (add_remote_total_ranks forest g c hne hr)
    refine ⟨?_, i2, i3⟩
    simp only [add_remote_calls, List.foldlM_cons, bind, Except.bind, h1,
      List.foldl_cons]
    exact i1

theorem lookup_of_mem_nodup {l : List t8_ghost_remote_t}
    (hnd : (l.map (·.remote_rank)).Nodup) {b : t8_ghost_remote_t} (hb : b ∈ l) :
    ∃ i, sc_hash_array_lookup l b.remote_rank = some i ∧ l[i]? = some b := by
  induction l with
  | nil => simp at hb
  | cons x xs ih =>
    rw [List.map_cons, List.nodup_cons] at hnd
    by_cases hx : x.remote_rank = b.remote_rank
    · have hbx : b = x := by
        rcases List.mem_cons.mp hb with h | h
        · exact h
        · exact absurd (List.mem_map.mpr ⟨b, h, hx.symm⟩) hnd.1
      subst hbx
      exact ⟨0, by simp [sc_hash_array_lookup], by simp⟩
    · have hbxs : b ∈ xs := by
        rcases List.mem_cons.mp hb with h | h
        · subst h
          exact absurd rfl hx
        · exact h
      obtain ⟨i, hi, hbi⟩ := ih hnd.2 hbxs
      exact ⟨i + 1, by simp [sc_hash_array_lookup, hx, hi], by simpa using hbi⟩

theorem remote_trees_of_mem {g : t8_forest_ghost}
    (hnd : (g.remote_ghosts.map (·.remote_rank)).Nodup) {b : t8_ghost_remote_t}
    (hb : b ∈ g.remote_ghosts) : remote_trees_of g b.remote_rank = b.remote_trees := by
  obtain ⟨i, hi, hbi⟩ := lookup_of_mem_nodup hnd hb
  simp [remote_trees_of, hi, hbi]

/-- C15 (remote-rank list invariant): every sequence of calls of
`t8_ghost_add_remote` on the empty ghost structure runs to the end, and
afterwards `remote_processes` has no duplicates, lists exactly the ranks of
the entries of `remote_ghosts`, and holds the rank of every entry exactly
once. -/
theorem C15_remote_rank_list (forest : t8_forest_t) (calls : List add_remote_call) :
    ∃ g, add_remote_calls forest ghost_new calls = .ok g ∧
      g.remote_processes.Nodup ∧
      (∀ r : Int, r ∈ g.remote_processes ↔ ∃ b ∈ g.remote_ghosts, b.remote_rank = r) ∧
      ∀ b ∈ g.remote_ghosts, g.remote_processes.count b.remote_rank = 1 := by
  obtain ⟨h1, _, h3, h4⟩ := add_remote_calls_reach forest calls ghost_new
    ghost_new_remote_entries_nonempty remote_ranks_ok_new
  refine ⟨_, h1, ?_, ?_, ?_⟩
  · rw [h3]; exact h4
  · intro r
    rw [h3, List.mem_map]
  · intro b hb
    apply List.count_eq_one_of_mem
    · rw [h3]; exact h4
    · rw [h3]; exact List.mem_map.mpr ⟨b, hb, rfl⟩


/-! ### The order of the remote trees -/

theorem remote_trees_add_sorted (forest : t8_forest_t) (r : Int) (t : Nat)
    (e : t8_element_t) (trees : List t8_ghost_remote_tree_t)
    (hs : (trees.map (·.global_id)).Pairwise (· < ·))
    (hb : ∀ rt ∈ trees, rt.global_id ≤ forest.first_local_tree_id + (t : Int)) :
    ((remote_trees_add forest r t e trees).map (·.global_id)).Pairwise (· < ·) ∧
    ∀ rt ∈ remote_trees_add forest r t e trees,
      rt.global_id ≤ forest.first_local_tree_id + (t : Int) := by
  have hinit : (add_remote_element (forest.scheme (forest.tree_class t))
      (t8_ghost_init_remote_tree forest (forest.first_local_tree_id + (t : Int)) r
        (forest.tree_class t)) e).global_id =
      forest.first_local_tree_id + (t : Int) := by
    rw [(add_remote_element_eclass _ _ _).2.1]
    rfl
  rcases List.eq_nil_or_concat trees with hnil | ⟨init, last, hcat⟩
  · subst hnil
    simp [remote_trees_add, hinit]
  · rw [List.concat_eq_append] at hcat
    subst hcat
    unfold remote_trees_add
    simp only [List.getLast?_concat, List.dropLast_concat]
    rw [List.map_append, List.pairwise_append] at hs
    obtain ⟨hs1, _, hs3⟩ := hs
    by_cases hg : last.global_id = forest.first_local_tree_id + (t : Int)
    · rw [if_neg (by simpa using hg)]
      have hlast : (add_remote_element (forest.scheme (forest.tree_class t)) last
          e).global_id = forest.first_local_tree_id + (t : Int) := by
        rw [(add_remote_element_eclass _ _ _).2.1]
        exact hg
      refine ⟨?_, ?_⟩
      · rw [List.map_append, List.pairwise_append]
        refine ⟨hs1, by simp, ?_⟩
        intro a ha c hc
        simp only [List.map_cons, List.map_nil, List.mem_singleton] at hc
        rw [hc, hlast, ← hg]
        exact hs3 a ha _ (by simp)
      · intro rt hrt
        rcases List.mem_append.mp hrt with h | h
        · exact hb rt (List.mem_append_left _ h)
        · rw [List.mem_singleton] at h
          rw [h, hlast]
    · rw [if_pos hg]
      have hlt : last.global_id < forest.first_local_tree_id + (t : Int) :=
        lt_of_le_of_ne (hb last (by simp)) hg
      refine ⟨?_, ?_⟩
      · rw [List.map_append, List.map_append, List.pairwise_append]
        refine ⟨List.pairwise_append.mpr ⟨hs1, by simp, hs3⟩, by simp, ?_⟩
        intro a ha c hc
        simp only [List.map_cons, List.map_nil, List.mem_singleton] at hc
        rw [hc, hinit]
        rcases List.mem_append.mp ha with h | h
        · exact lt_trans (hs3 a h _ (by simp)) hlt
        · simp only [List.map_cons, List.map_nil, List.mem_singleton] at h
          rw [h]
          exact hlt
      · intro rt hrt
        rcases List.mem_append.mp hrt with h | h
        · exact hb rt h
        · rw [List.mem_singleton] at h
          rw [h, hinit]

theorem remote_trees_after_sorted (forest : t8_forest_t) (r : Int)
    (calls : List add_remote_call) :
    ∀ trees : List t8_ghost_remote_tree_t,
      (calls.map (·.ltreeid)).Pairwise (· ≤ ·) →
      (trees.map (·.global_id)).Pairwise (· < ·) →
      (∀ rt ∈ trees, ∀ c ∈ calls,
        rt.global_id ≤ forest.first_local_tree_id + (c.ltreeid : Int)) →
      ((remote_trees_after forest r trees calls).map (·.global_id)).Pairwise (· < ·) := by
  induction calls with
  | nil => intro trees _ hs _; simpa [remote_trees_after] using hs
  | cons c calls ih =>
    intro trees hc hs hb
    rw [List.map_cons, List.pairwise_cons] at hc
    by_cases hr : c.remote_rank = r
    · have hstep : remote_trees_after forest r trees (c :: calls) =
          remote_trees_after forest r
            (remote_trees_add forest r c.ltreeid c.elem trees) calls := by
        simp [remote_trees_after, List.filter_cons, hr]
      rw [hstep]
      obtain ⟨h1, h2⟩ := remote_trees_add_sorted forest r c.ltreeid c.elem trees hs
        (fun rt hrt => hb rt hrt c (List.mem_cons_self _ _))
      apply ih _ hc.2 h1
      intro rt hrt c' hc'
      have := hc.1 c'.ltreeid (List.mem_map.mpr ⟨c', hc', rfl⟩)
      have := h2 rt hrt
      omega
    · have hstep : remote_trees_after forest r trees (c :: calls) =
          remote_trees_after forest r trees calls := by
        simp [remote_trees_after, List.filter_cons, hr]
      rw [hstep]
      exact ih trees hc.2 hs (fun rt hrt c' hc' => hb rt hrt c' (List.mem_cons_of_mem _ hc'))

theorem remote_trees_add_prefix (forest : t8_forest_t) (r : Int) (t : Nat)
    (e : t8_element_t) (trees : List t8_ghost_remote_tree_t) :
    trees.dropLast <+: remote_trees_add forest r t e trees := by
  obtain ⟨pre, rt, hs, _, hpre, _⟩ := remote_trees_add_shape forest r t e trees
  rw [hs]
  rcases hpre with h | h
  · rw [h]
    exact (List.dropLast_prefix trees).trans (List.prefix_append _ _)
  · rw [h]
    exact List.prefix_append _ _

/-- C16 (bucket tree order): a sequence of calls of `t8_ghost_add_remote` on
the empty ghost structure with local tree ids that never decrease runs to the
end, and then the global ids of the remote trees of every entry increase
strictly along the entry.  A call that runs to the end changes neither the
remote trees of another rank nor the remote trees of the addressed rank other
than the last one. -/
theorem C16_bucket_tree_order (forest : t8_forest_t) (calls : List add_remote_call)
    (hsorted : (calls.map (·.ltreeid)).Pairwise (· ≤ ·)) :
    (∃ g, add_remote_calls forest ghost_new calls = .ok g ∧
      ∀ b ∈ g.remote_ghosts,
        (b.remote_trees.map (·.global_id)).Pairwise (· < ·)) ∧
    ∀ (g g' : t8_forest_ghost) (r : Int) (t : Nat) (e : t8_element_t),
      remote_entries_nonempty g →
      t8_ghost_add_remote forest g r t e = .ok g' →
      (∀ r' : Int, r' ≠ r → remote_trees_of g' r' = remote_trees_of g r') ∧
      (remote_trees_of g r).dropLast <+: remote_trees_of g' r := by
  refine ⟨?_, ?_⟩
  · obtain ⟨h1, _, h3, h4⟩ := add_remote_calls_reach forest calls ghost_new
      ghost_new_remote_entries_nonempty remote_ranks_ok_new
    obtain ⟨_, _, hof⟩ := foldl_add_remote_total_spec forest calls ghost_new
      ghost_new_remote_entries_nonempty
    refine ⟨_, h1, ?_⟩
    intro b hb
    rw [← remote_trees_of_mem h4 hb, hof b.remote_rank]
    exact remote_trees_after_sorted forest b.remote_rank calls _ hsorted
      (by simp [remote_trees_of, ghost_new, sc_hash_array_lookup])
      (by simp [remote_trees_of, ghost_new, sc_hash_array_lookup])
  · intro g g' r t e hne hadd
    obtain ⟨h1, _, h3⟩ := add_remote_total_spec forest g
      { remote_rank := r, ltreeid := t, elem := e } hne
    simp only at h1 h3
    rw [hadd] at h1
    cases h1
    refine ⟨?_, ?_⟩
    · intro r' hr'
      rw [h3 r', if_neg hr']
    · rw [h3 r, if_pos rfl]
      exact remote_trees_add_prefix forest r t e _

theorem C16_bucket_tree_order_witness :
    (∃ g, add_remote_calls example_forest ghost_new example_add_calls = .ok g ∧
      ∀ b ∈ g.remote_ghosts,
        (b.remote_trees.map (·.global_id)).Pairwise (· < ·)) ∧
    ∀ (g g' : t8_forest_ghost) (r : Int) (t : Nat) (e : t8_element_t),
      remote_entries_nonempty g →
      t8_ghost_add_remote example_forest g r t e = .ok g' →
      (∀ r' : Int, r' ≠ r → remote_trees_of g' r' = remote_trees_of g r') ∧
      (remote_trees_of g r).dropLast <+: remote_trees_of g' r :=
  C16_bucket_tree_order example_forest example_add_calls (by decide)


/-! ### The send loop -/

theorem send_start_loop (P : Nat) (g : t8_forest_ghost)
    (hnd : (g.remote_ghosts.map (·.remote_rank)).Nodup)
    (hwt : remote_index_well_typed g) :
    ∀ (todo : List t8_ghost_remote_t) (nre : Nat)
      (msgs : List t8_ghost_mpi_send_info_t),
      (∀ b ∈ todo, b ∈ g.remote_ghosts) →
      (todo.map (·.remote_rank)).foldlM (send_start_rank P)
          ({ g with num_remote_elements := nre }, msgs) =
        .ok ({ g with num_remote_elements := nre + remote_elements_total todo },
             msgs ++ todo.map (message_of P)) := by
  intro todo
  induction todo with
  | nil =>
    intro nre msgs _
    simp [remote_elements_total, pure, Except.pure]
  | cons b todo ih =>
    intro nre msgs hmem
    have hb : b ∈ g.remote_ghosts := hmem b (List.mem_cons_self _ _)
    obtain ⟨i, hi, hbi⟩ := lookup_of_mem_nodup hnd hb
    have hbuf := send_start_buffer_ok P b nre (hwt b hb)
    simp only [List.map_cons, List.foldlM_cons, bind, Except.bind]
    have hstep : send_start_rank P ({ g with num_remote_elements := nre }, msgs)
        b.remote_rank =
        .ok ({ g with num_remote_elements :=
                nre + (b.remote_trees.map (·.elements.elem_count)).sum },
             msgs ++ [message_of P b]) := by
      simp only [send_start_rank, hi, hbi, hbuf, bind, Except.bind, pure, Except.pure,
        message_of]
    rw [hstep]
    simp only
    rw [ih _ _ (fun b' hb' => hmem b' (List.mem_cons_of_mem _ hb'))]
    simp [remote_elements_total, Nat.add_assoc]

/-- For a ghost structure whose remote ranks are listed without repetition
and whose remote trees hold values that fit their types,
`t8_forest_ghost_send_start` runs to the end: it posts the encoded message of
every entry, in the order of `remote_processes`, and raises
`num_remote_elements` by the number of elements sent. -/
theorem send_start_ok (P : Nat) (g : t8_forest_ghost) (hr : remote_ranks_ok g)
    (hwt : remote_index_well_typed g) :
    t8_forest_ghost_send_start P g =
      .ok ({ g with num_remote_elements :=
              g.num_remote_elements + remote_elements_total g.remote_ghosts },
           g.remote_ghosts.map (message_of P)) := by
  unfold t8_forest_ghost_send_start
  have := send_start_loop P g hr.2 hwt g.remote_ghosts g.num_remote_elements []
    (fun _ h => h)
  rw [← hr.1] at this
  simp only [List.nil_append] at this
  exact this

theorem example_add_calls_run :
    add_remote_calls example_forest ghost_new example_add_calls =
      .ok example_ghost_remote := rfl

theorem example_ghost_remote_well_typed :
    remote_index_well_typed example_ghost_remote := by
  intro b hb rt hrt
  simp only [example_ghost_remote, List.mem_cons, List.mem_singleton,
    List.not_mem_nil, or_false] at hb
  rcases hb with h | h <;> subst h <;>
    simp only [List.mem_cons, List.mem_singleton, List.not_mem_nil, or_false] at hrt
  · rcases hrt with h | h <;> subst h <;>
      simp [remote_tree_well_typed, sc_array_t.elem_count]
  · subst hrt
    simp [remote_tree_well_typed, sc_array_t.elem_count]

theorem example_ghost_remote_ranks : remote_ranks_ok example_ghost_remote :=
  ⟨rfl, by decide⟩


theorem read_count_encoded (P : Nat) (rts : List t8_ghost_remote_tree_t)
    (hcount : rts.length < 2 ^ 64) :
    read_size_t (encode_message P rts) 0 = .ok rts.length := by
  unfold encode_message
  simp only []
  have := read_bytes_field P []
    (bytes_of_uint sizeof_size_t rts.length)
    (encode_trees P (encode_field P 0
      (bytes_of_uint sizeof_size_t rts.length)).length rts) sizeof_size_t
    (bytes_of_uint_length _ _)
  simp only [List.nil_append, List.length_nil] at this
  unfold read_size_t
  rw [this]
  simp only [Except.map]
  rw [uint_of_bytes_of_uint_lt (by simp only [sizeof_size_t]; omega)]

theorem t8_ghost_add_remote_nonempty {forest : t8_forest_t}
    {g g' : t8_forest_ghost} {r : Int} {t : Nat} {e : t8_element_t}
    (hg : remote_trees_nonempty g)
    (h : t8_ghost_add_remote forest g r t e = .ok g') : remote_trees_nonempty g' := by
  have hadd : ∀ trees : List t8_ghost_remote_tree_t,
      (∀ rt ∈ trees, rt.elements.elems ≠ []) →
      ∀ rt ∈ remote_trees_add forest r t e trees, rt.elements.elems ≠ [] := by
    intro trees htrees rt hrt
    obtain ⟨pre, rt0, hs, _, hpre, hrt0⟩ := remote_trees_add_shape forest r t e trees
    rw [hs] at hrt
    rcases List.mem_append.mp hrt with hm | hm
    · apply htrees
      rcases hpre with hp | hp
      · rw [← hp]; exact hm
      · rw [hp] at hm; exact List.mem_of_mem_dropLast hm
    · rw [List.mem_singleton] at hm
      rw [hm]
      rcases hrt0 with h0 | ⟨last, _, _, _, h0⟩ <;> rw [h0] <;>
        exact (add_remote_element_mem _ _ e).1
  rcases t8_ghost_add_remote_cases h with ⟨_, hg'⟩ | ⟨i, b, _, hb, _, _, hg'⟩
  · subst hg'
    intro b hb rt hrt
    simp only [List.mem_append, List.mem_singleton] at hb
    rcases hb with hb | hb
    · exact hg b hb rt hrt
    · subst hb
      exact hadd [] (fun _ h => absurd h (List.not_mem_nil _)) rt hrt
  · subst hg'
    intro b' hb' rt hrt
    rcases List.mem_or_eq_of_mem_set hb' with hb' | hb'
    · exact hg b' hb' rt hrt
    · subst hb'
      exact hadd b.remote_trees (hg b (List.getElem?_mem hb)) rt hrt

/-- C17 (no empty buckets): every sequence of calls of `t8_ghost_add_remote`
on the empty ghost structure runs to the end and leaves entries that hold at
least one remote tree each and remote trees that hold at least one element
each; when the values of the remote trees fit their types,
`t8_forest_ghost_send_start` then runs to the end and every message it posts
starts with a number of trees that is at least 1. -/
theorem C17_no_empty_buckets (forest : t8_forest_t) (calls : List add_remote_call) :
    ∃ g, add_remote_calls forest ghost_new calls = .ok g ∧
      (∀ b ∈ g.remote_ghosts, b.remote_trees ≠ [] ∧
        ∀ rt ∈ b.remote_trees, rt.elements.elems ≠ []) ∧
      ∀ P : Nat, remote_index_well_typed g →
        (∀ b ∈ g.remote_ghosts, b.remote_trees.length < 2 ^ 64) →
        ∃ g' msgs, t8_forest_ghost_send_start P g = .ok (g', msgs) ∧
          msgs.length = g.remote_processes.length ∧
          ∀ m ∈ msgs, ∃ n, read_size_t m.buffer 0 = .ok n ∧ 1 ≤ n := by
  obtain ⟨h1, h2, h3⟩ := add_remote_calls_reach forest calls ghost_new
    ghost_new_remote_entries_nonempty remote_ranks_ok_new
  have h4 : remote_trees_nonempty (calls.foldl (add_remote_total forest) ghost_new) :=
    foldlM_preserves _ remote_trees_nonempty
      (fun _ _ _ hs hr => t8_ghost_add_remote_nonempty hs hr) calls ghost_new _
      (by intro b hb; simp [ghost_new] at hb) h1
  refine ⟨_, h1, fun b hb => ⟨h2 b hb, h4 b hb⟩, ?_⟩
  intro P hwt hlen
  refine ⟨_, _, send_start_ok P _ h3 hwt, ?_, ?_⟩
  · rw [h3.1]
    simp
  · intro m hm
    obtain ⟨b, hb, hbm⟩ := List.mem_map.mp hm
    subst hbm
    refine ⟨b.remote_trees.length, read_count_encoded P _ (hlen b hb), ?_⟩
    exact List.length_pos.mpr (h2 b hb)

theorem C17_no_empty_buckets_witness :
    ∃ g g' msgs,
      add_remote_calls example_forest ghost_new example_add_calls = .ok g ∧
      t8_forest_ghost_send_start 8 g = .ok (g', msgs) ∧
      msgs.length = g.remote_processes.length ∧
      ∀ m ∈ msgs, ∃ n, read_size_t m.buffer 0 = .ok n ∧ 1 ≤ n := by
  obtain ⟨g, h1, _, h3⟩ := C17_no_empty_buckets example_forest example_add_calls
  rw [example_add_calls_run] at h1
  cases h1
  obtain ⟨g', msgs, hs, hl, hm⟩ := h3 8 example_ghost_remote_well_typed (by
    intro b hb
    simp only [example_ghost_remote, List.mem_cons, List.mem_singleton,
      List.not_mem_nil, or_false] at hb
    rcases hb with h | h <;> subst h <;> simp)
  exact ⟨_, g', msgs, example_add_calls_run, hs, hl, hm⟩


/-! ### The two passes of the send loop -/

theorem send_store_offset {P : Nat} {buffer source : List Nat} {off size : Nat}
    {r : List Nat × Nat} (h : send_store P buffer off source size = .ok r) :
    r.2 = off + size + T8_ADD_PADDING P (off + size) ∧
    r.1.length = buffer.length := by
  unfold send_store at h
  simp only [bind, Except.bind, pure, Except.pure] at h
  cases h1 : read_bytes source 0 size with
  | error e => simp [h1] at h
  | ok bytes =>
    simp only [h1] at h
    cases h2 : memcpy buffer off bytes with
    | error e => simp [h2] at h
    | ok buf =>
      simp only [h2, Except.ok.injEq] at h
      subst h
      refine ⟨rfl, ?_⟩
      unfold memcpy at h2
      split at h2
      · cases h2
        simp only [List.length_append, List.length_take, List.length_drop]
        omega
      · cases h2

theorem send_write_tree_offset {P : Nat} {rank : Int} {st st' : send_write_state}
    {rt : t8_ghost_remote_tree_t}
    (h : send_write_tree P rank st rt = .ok st') :
    st'.bytes_written = send_count_tree P st.bytes_written rt ∧
    st'.buffer.length = st.buffer.length := by
  unfold send_write_tree at h
  simp only [bind, Except.bind, pure, Except.pure] at h
  split at h
  · cases h
  · split at h
    · cases h
    · rename_i r1 h1
      split at h
      · cases h
      · rename_i r2 h2
        split at h
        · cases h
        · rename_i r3 h3
          split at h
          · cases h
          · rename_i r4 h4
            cases h
            obtain ⟨a1, b1⟩ := send_store_offset h1
            obtain ⟨a2, b2⟩ := send_store_offset h2
            obtain ⟨a3, b3⟩ := send_store_offset h3
            obtain ⟨a4, b4⟩ := send_store_offset h4
            refine ⟨?_, by simp only; omega⟩
            simp only [send_count_tree]
            rw [a4, a3, a2, a1]

theorem send_write_trees_offset {P : Nat} {rank : Int}
    (rts : List t8_ghost_remote_tree_t) :
    ∀ {st st' : send_write_state},
      rts.foldlM (send_write_tree P rank) st = .ok st' →
      st'.bytes_written = rts.foldl (send_count_tree P) st.bytes_written ∧
      st'.buffer.length = st.buffer.length := by
  induction rts with
  | nil =>
    intro st st' h
    simp only [List.foldlM_nil, pure, Except.pure, Except.ok.injEq] at h
    subst h
    exact ⟨rfl, rfl⟩
  | cons rt rts ih =>
    intro st st' h
    simp only [List.foldlM_cons, bind, Except.bind] at h
    cases h1 : send_write_tree P rank st rt with
    | error e => simp [h1] at h
    | ok s1 =>
      simp only [h1] at h
      obtain ⟨a, b⟩ := send_write_tree_offset h1
      obtain ⟨c, d⟩ := ih h
      exact ⟨by rw [c, a]; rfl, by rw [d, b]⟩


theorem read_bytes_error {buf : List Nat} {off n : Nat} {e : Failure}
    (h : read_bytes buf off n = .error e) : e = .out_of_bounds := by
  unfold read_bytes at h
  split at h
  · cases h
  · cases h
    rfl

theorem memcpy_error {dst src : List Nat} {off : Nat} {e : Failure}
    (h : memcpy dst off src = .error e) : e = .out_of_bounds := by
  unfold memcpy at h
  split at h
  · cases h
  · cases h
    rfl

theorem send_store_error {P : Nat} {buffer source : List Nat} {off size : Nat}
    {e : Failure} (h : send_store P buffer off source size = .error e) :
    e = .out_of_bounds := by
  unfold send_store at h
  simp only [bind, Except.bind, pure, Except.pure] at h
  cases h1 : read_bytes source 0 size with
  | error e1 =>
    simp only [h1, Except.error.injEq] at h
    subst h
    exact read_bytes_error h1
  | ok bytes =>
    simp only [h1] at h
    cases h2 : memcpy buffer off bytes with
    | error e2 =>
      simp only [h2, Except.error.injEq] at h
      subst h
      exact memcpy_error h2
    | ok buf => simp [h2] at h

theorem send_write_tree_error {P : Nat} {rank : Int} {st : send_write_state}
    {rt : t8_ghost_remote_tree_t} {e : Failure}
    (h : send_write_tree P rank st rt = .error e) :
    e = .out_of_bounds ∨ e = .assertion 850 := by
  unfold send_write_tree at h
  simp only [bind, Except.bind, pure, Except.pure] at h
  split at h
  · rename_i e1 h1
    cases h
    unfold T8_ASSERT at h1
    split at h1
    · cases h1
    · cases h1
      exact Or.inr rfl
  · split at h
    · rename_i e1 h1
      cases h
      exact Or.inl (send_store_error h1)
    · split at h
      · rename_i e1 h1
        cases h
        exact Or.inl (send_store_error h1)
      · split at h
        · rename_i e1 h1
          cases h
          exact Or.inl (send_store_error h1)
        · split at h
          · rename_i e1 h1
            cases h
            exact Or.inl (send_store_error h1)
          · cases h

theorem send_write_trees_error {P : Nat} {rank : Int}
    (rts : List t8_ghost_remote_tree_t) :
    ∀ {st : send_write_state} {e : Failure},
      rts.foldlM (send_write_tree P rank) st = .error e →
      e = .out_of_bounds ∨ e = .assertion 850 := by
  induction rts with
  | nil =>
    intro st e h
    simp [pure, Except.pure] at h
  | cons rt rts ih =>
    intro st e h
    simp only [List.foldlM_cons, bind, Except.bind] at h
    cases h1 : send_write_tree P rank st rt with
    | error e1 =>
      simp only [h1, Except.error.injEq] at h
      subst h
      exact send_write_tree_error h1
    | ok s1 =>
      simp only [h1] at h
      exact ih h

/-- The writing pass ends at the offset that the counting pass computed, and
the message posted has that many bytes. -/
theorem send_start_buffer_length {P : Nat} {rank : Int}
    {remote_entry : t8_ghost_remote_t} {nre : Nat} :
    send_start_buffer P rank remote_entry nre ≠ .error (.assertion 881) ∧
    ∀ info n, send_start_buffer P rank remote_entry nre = .ok (info, n) →
      info.num_bytes = send_count_bytes P remote_entry.remote_trees ∧
      info.buffer.length = info.num_bytes := by
  unfold send_start_buffer
  simp only [bind, Except.bind, pure, Except.pure]
  cases ha : T8_ASSERT 790 (decide (remote_entry.remote_rank = rank)) with
  | error e =>
    refine ⟨?_, by intro info n h; cases h⟩
    unfold T8_ASSERT at ha
    split at ha
    · cases ha
    · cases ha
      simp
  | ok u =>
    simp only []
    cases h0 : send_store P (List.replicate (send_count_bytes P remote_entry.remote_trees) 0)
        0 (bytes_of_uint sizeof_size_t remote_entry.remote_trees.length)
        sizeof_size_t with
    | error e =>
      refine ⟨?_, by intro info n h; cases h⟩
      rw [send_store_error h0]
      simp
    | ok r0 =>
      simp only []
      obtain ⟨a0, b0⟩ := send_store_offset h0
      cases h1 : remote_entry.remote_trees.foldlM (send_write_tree P rank)
          { buffer := r0.1, bytes_written := r0.2, num_remote_elements := nre } with
      | error e =>
        refine ⟨?_, by intro info n h; cases h⟩
        rcases send_write_trees_error _ h1 with h | h <;> rw [h] <;> simp
      | ok st =>
        simp only []
        obtain ⟨a1, b1⟩ := send_write_trees_offset _ h1
        simp only at a1 b1
        have hw : st.bytes_written = send_count_bytes P remote_entry.remote_trees := by
          rw [a1, a0]
          rfl
        have hassert : T8_ASSERT 881 (decide (st.bytes_written =
            send_count_bytes P remote_entry.remote_trees)) = .ok () := by
          simp [T8_ASSERT, hw]
        rw [hassert]
        simp only []
        have hlen : st.buffer.length = send_count_bytes P remote_entry.remote_trees := by
          rw [b1, b0]
          simp
        have hread : read_bytes st.buffer 0 st.bytes_written = .ok st.buffer := by
          unfold read_bytes
          rw [if_pos (by omega)]
          simp [hw, ← hlen]
        rw [hread]
        refine ⟨by simp, ?_⟩
        intro info n h
        cases h
        exact ⟨rfl, hlen⟩

/-- C18 (write-side length check): for every entry of `remote_ghosts` the
assertion `bytes_written == num_bytes` of `t8_forest_ghost_send_start` never
fails; the writing pass, from whatever offset, ends at the offset that the
counting pass computes from that offset; a message that is posted has exactly
`num_bytes` bytes; and for an entry whose values fit their types both passes
run to the end. -/
theorem C18_write_length_check (P : Nat) (remote_rank : Int)
    (remote_entry : t8_ghost_remote_t) (num_remote_elements : Nat) :
    send_start_buffer P remote_rank remote_entry num_remote_elements ≠
      .error (.assertion 881) ∧
    (∀ st st' : send_write_state,
      remote_entry.remote_trees.foldlM (send_write_tree P remote_rank) st = .ok st' →
      st'.bytes_written =
        remote_entry.remote_trees.foldl (send_count_tree P) st.bytes_written) ∧
    (∀ info n,
      send_start_buffer P remote_rank remote_entry num_remote_elements =
        .ok (info, n) →
      info.num_bytes = send_count_bytes P remote_entry.remote_trees ∧
      info.buffer.length = info.num_bytes) ∧
    (remote_entry.remote_rank = remote_rank →
      (∀ rt ∈ remote_entry.remote_trees, remote_tree_well_typed remote_rank rt) →
      ∃ info n, send_start_buffer P remote_rank remote_entry num_remote_elements =
        .ok (info, n)) := by
  obtain ⟨h1, h2⟩ := @send_start_buffer_length P remote_rank remote_entry
    num_remote_elements
  refine ⟨h1, fun st st' h => (send_write_trees_offset _ h).1, h2, ?_⟩
  intro hr hwt
  subst hr
  exact ⟨_, _, send_start_buffer_ok P remote_entry num_remote_elements hwt⟩

theorem C18_write_length_check_witness :
    ∃ info n,
      send_start_buffer 8 1
        { remote_rank := 1,
          remote_trees :=
            [{ global_id := 10, mpirank := 1, eclass := 2,
               elements := { elem_size := 3, elems := [[1, 0, 7], [1, 1, 7]] } },
             { global_id := 11, mpirank := 1, eclass := 2,
               elements := { elem_size := 3, elems := [[2, 4, 9]] } }] } 0 =
        .ok (info, n) ∧
      info.num_bytes = 72 ∧ info.buffer.length = info.num_bytes :=
  ⟨_, _, rfl, rfl,
    ((C18_write_length_check 8 1
      { remote_rank := 1,
        remote_trees :=
          [{ global_id := 10, mpirank := 1, eclass := 2,
             elements := { elem_size := 3, elems := [[1, 0, 7], [1, 1, 7]] } },
           { global_id := 11, mpirank := 1, eclass := 2,
             elements := { elem_size := 3, elems := [[2, 4, 9]] } }] } 0).2.2.1
      _ _ rfl).2⟩


/-! ### The length check of the parse routine -/

theorem read_map_error {α : Type} {f : List Nat → α} {buf : List Nat} {off n : Nat}
    {e : Failure} (h : (read_bytes buf off n).map f = .error e) :
    e = .out_of_bounds := by
  cases hr : read_bytes buf off n with
  | error e1 =>
    rw [hr] at h
    simp only [Except.map, Except.error.injEq] at h
    subst h
    exact read_bytes_error hr
  | ok v =>
    rw [hr] at h
    simp [Except.map] at h

theorem parse_tree_header_error {P : Nat} {buf : List Nat} {off : Nat} {e : Failure}
    (h : parse_tree_header P buf off = .error e) : e = .out_of_bounds := by
  unfold parse_tree_header at h
  simp only [bind, Except.bind, pure, Except.pure] at h
  split at h
  · rename_i e1 h1
    cases h
    exact read_map_error h1
  · split at h
    · rename_i e1 h1
      cases h
      exact read_map_error h1
    · split at h
      · rename_i e1 h1
        cases h
        exact read_map_error h1
      · cases h

theorem T8_ASSERT_error {line : Nat} {c : Bool} {e : Failure}
    (h : T8_ASSERT line c = .error e) : e = .assertion line := by
  unfold T8_ASSERT at h
  split at h
  · cases h
  · cases h
    rfl

theorem parse_tree_error {P : Nat} {forest : t8_forest_t} {buf : List Nat}
    {itree : Nat} {st : parse_state} {e : Failure}
    (h : parse_tree P forest buf itree st = .error e) : e ≠ .assertion 1070 := by
  unfold parse_tree at h
  simp only [bind, Except.bind, pure, Except.pure, throw, throwThe,
    MonadExceptOf.throw] at h
  repeat' split at h
  all_goals first
    | (cases h; done)
    | (cases h; simp; done)
    | (cases h; rename_i h1; rw [T8_ASSERT_error h1]; simp)
    | (cases h; rename_i h1; rw [read_bytes_error h1]; simp)
    | (cases h; rename_i h1; rw [parse_tree_header_error h1]; simp)

theorem parse_trees_error {P : Nat} {forest : t8_forest_t} {buf : List Nat} :
    ∀ (n itree : Nat) (st : parse_state) (e : Failure),
      parse_trees P forest buf n itree st = .error e → e ≠ .assertion 1070 := by
  intro n
  induction n with
  | zero => intro itree st e h; simp [parse_trees] at h
  | succ n ih =>
    intro itree st e h
    simp only [parse_trees] at h
    split at h
    · rename_i e1 h1
      cases h
      exact parse_tree_error h1
    · exact ih _ _ _ h

theorem send_count_trees_ge (P : Nat) (rts : List t8_ghost_remote_tree_t) :
    ∀ n : Nat, n + rts.length ≤ rts.foldl (send_count_tree P) n := by
  induction rts with
  | nil => intro n; simp
  | cons rt rts ih =>
    intro n
    have h1 : n + 1 ≤ send_count_tree P n rt := by
      simp only [send_count_tree, sizeof_t8_gloidx_t]
      omega
    have h2 := ih (send_count_tree P n rt)
    simp only [List.foldl_cons, List.length_cons]
    omega

theorem send_count_bytes_ge (P : Nat) (rts : List t8_ghost_remote_tree_t) :
    rts.length ≤ send_count_bytes P rts := by
  unfold send_count_bytes
  have := send_count_trees_ge P rts
    (0 + sizeof_size_t + T8_ADD_PADDING P (0 + sizeof_size_t))
  simp only [] at this ⊢
  omega

/-- The parse routine does not fail at its length check when the trees of the
message can be read up to the number of bytes received. -/
theorem parse_received_message_length {P : Nat} {forest : t8_forest_t}
    {buf : List Nat} {n : Int} {count : Nat} {rs : List tree_record}
    (hc : read_size_t buf 0 = .ok count)
    (hrs : read_tree_records P forest buf (locidx_of_size_t count).toNat
      (sizeof_size_t + T8_ADD_PADDING P sizeof_size_t) = .ok (rs, size_t_of_int n))
    (g : t8_forest_ghost) (r : Int) :
    t8_forest_ghost_parse_received_message P forest g r buf n ≠
      .error (.assertion 1070) := by
  unfold t8_forest_ghost_parse_received_message
  simp only [bind, Except.bind, pure, Except.pure, throw, throwThe,
    MonadExceptOf.throw, hc, Nat.zero_add]
  cases hp : parse_trees P forest buf (locidx_of_size_t count).toNat 0
      { ghost := g, bytes_read := sizeof_size_t + T8_ADD_PADDING P sizeof_size_t,
        first_tree_index := none, first_element_index := none } with
  | error e =>
    simp only []
    intro heq
    cases heq
    exact parse_trees_error _ _ _ _ hp rfl
  | ok st =>
    simp only []
    obtain ⟨rs', hrs', _, _⟩ := parse_trees_ok _ _ _ _ hp
    simp only at hrs'
    rw [hrs] at hrs'
    simp only [Except.ok.injEq, Prod.mk.injEq] at hrs'
    have hassert : T8_ASSERT 1070 (decide (st.bytes_read = size_t_of_int n)) = .ok () := by
      simp [T8_ASSERT, hrs'.2]
    rw [hassert]
    simp only []
    split <;> simp

/-- C19 (parse-side length check): for an entry of `remote_ghosts` whose values
fit their types and a receiver whose schemes have the element sizes of the
sender, `t8_forest_ghost_send_start` builds a message; reading it as
`t8_forest_ghost_parse_received_message` does gives the number of trees and
the trees without leaving the buffer, and ends at the number of bytes
received; so the parse routine never fails at the assertion
`bytes_read == recv_bytes`, and it runs to the end when its other assertions
hold and the sender is new. -/
theorem C19_parse_length_check (P : Nat) (forest : t8_forest_t)
    (remote_entry : t8_ghost_remote_t) (nre : Nat)
    (hwt : remote_entry_well_typed P remote_entry)
    (hsize : ∀ rt ∈ remote_entry.remote_trees,
      (forest.scheme rt.eclass).t8_element_size = rt.elements.elem_size) :
    ∃ (info : t8_ghost_mpi_send_info_t) (n : Nat),
      send_start_buffer P remote_entry.remote_rank remote_entry nre =
        .ok (info, n) ∧
      read_size_t info.buffer 0 = .ok remote_entry.remote_trees.length ∧
      read_tree_records P forest info.buffer
          (locidx_of_size_t remote_entry.remote_trees.length).toNat
          (sizeof_size_t + T8_ADD_PADDING P sizeof_size_t) =
        .ok (remote_entry.remote_trees.map record_of_remote_tree,
             size_t_of_int (info.buffer.length : Int)) ∧
      size_t_of_int (info.buffer.length : Int) = info.buffer.length ∧
      (∀ (g : t8_forest_ghost) (r : Int),
        t8_forest_ghost_parse_received_message P forest g r info.buffer
          (info.buffer.length : Int) ≠ .error (.assertion 1070)) ∧
      ∀ (g : t8_forest_ghost) (r : Int),
        records_accepted forest g
          (remote_entry.remote_trees.map record_of_remote_tree) →
        process_hash_lookup g.process_offsets r = none →
        ∃ g', t8_forest_ghost_parse_received_message P forest g r info.buffer
          (info.buffer.length : Int) = .ok g' := by
  obtain ⟨hwt1, hbytes⟩ := hwt
  have hsend := send_start_buffer_ok P remote_entry nre hwt1
  have hlen := encode_message_length P remote_entry.remote_trees
    (fun rt hrt => (hwt1 rt hrt).2.2.2.2.1)
  have hcount : remote_entry.remote_trees.length < 2 ^ 31 :=
    lt_of_le_of_lt (send_count_bytes_ge P remote_entry.remote_trees) hbytes
  obtain ⟨hc, hrs⟩ := message_records_encoded P forest remote_entry.remote_rank
    remote_entry.remote_trees hcount hwt1 hsize
  have hsz : size_t_of_int ((encode_message P remote_entry.remote_trees).length : Int) =
      (encode_message P remote_entry.remote_trees).length := by
    rw [size_t_of_int_small (by omega)]
  refine ⟨_, _, hsend, hc, ?_, hsz, ?_, ?_⟩
  · simp only
    rw [hsz]
    exact hrs
  · intro g r
    exact parse_received_message_length hc (by rw [hsz]; exact hrs) g r
  · intro g r hacc hl
    obtain ⟨fti, fei, hparse⟩ := @parse_received_message_forward P forest g r
      (encode_message P remote_entry.remote_trees)
      ((encode_message P remote_entry.remote_trees).length : Int)
      remote_entry.remote_trees.length _ _ hc hrs hacc hsz.symm hl
    exact ⟨_, hparse⟩

theorem C19_parse_length_check_witness :
    ∃ (info : t8_ghost_mpi_send_info_t) (n : Nat),
      send_start_buffer 8 1
        { remote_rank := 1,
          remote_trees :=
            [{ global_id := 10, mpirank := 1, eclass := 2,
               elements := { elem_size := 3, elems := [[1, 0, 7], [1, 1, 7]] } },
             { global_id := 11, mpirank := 1, eclass := 2,
               elements := { elem_size := 3, elems := [[2, 4, 9]] } }] } 0 =
        .ok (info, n) ∧
      info.buffer.length = 72 ∧
      ∀ (g : t8_forest_ghost) (r : Int),
        t8_forest_ghost_parse_received_message 8 example_forest g r info.buffer
          (info.buffer.length : Int) ≠ .error (.assertion 1070) := by
  obtain ⟨info, n, h1, _, _, _, h5, _⟩ := C19_parse_length_check 8 example_forest
    { remote_rank := 1,
      remote_trees :=
        [{ global_id := 10, mpirank := 1, eclass := 2,
           elements := { elem_size := 3, elems := [[1, 0, 7], [1, 1, 7]] } },
         { global_id := 11, mpirank := 1, eclass := 2,
           elements := { elem_size := 3, elems := [[2, 4, 9]] } }] } 0
    (by
      refine ⟨?_, by decide⟩
      intro rt hrt
      simp only [List.mem_cons, List.mem_singleton, List.not_mem_nil, or_false] at hrt
      rcases hrt with h | h <;> subst h <;>
        simp [remote_tree_well_typed, sc_array_t.elem_count])
    (by
      intro rt hrt
      simp only [List.mem_cons, List.mem_singleton, List.not_mem_nil, or_false] at hrt
      rcases hrt with h | h <;> subst h <;> rfl)
  refine ⟨info, n, h1, ?_, h5⟩
  have h2 : send_start_buffer 8 1
      { remote_rank := 1,
        remote_trees :=
          [{ global_id := 10, mpirank := 1, eclass := 2,
             elements := { elem_size := 3, elems := [[1, 0, 7], [1, 1, 7]] } },
           { global_id := 11, mpirank := 1, eclass := 2,
             elements := { elem_size := 3, elems := [[2, 4, 9]] } }] } 0 =
      .ok ({ recv_rank := 1, num_bytes := 72, buffer := example_message_a }, 3) := rfl
  rw [h2] at h1
  cases h1
  rfl


/-! ### The exchange in a system of processes -/

theorem ghost_add_record_counters (forest : t8_forest_t) (g : t8_forest_ghost)
    (r : tree_record) :
    (ghost_add_record forest g r).num_ghosts_elements =
      g.num_ghosts_elements + r.elems.length := by
  unfold ghost_add_record
  split <;> rfl

theorem foldl_ghost_add_record_counters (forest : t8_forest_t)
    (rs : List tree_record) : ∀ g : t8_forest_ghost,
    (rs.foldl (ghost_add_record forest) g).num_ghosts_elements =
      g.num_ghosts_elements + (records_elements rs).length := by
  induction rs with
  | nil => intro g; simp [records_elements]
  | cons r rs ih =>
    intro g
    simp only [List.foldl_cons]
    rw [ih, ghost_add_record_counters]
    simp [records_elements, Nat.add_assoc]

theorem parse_calls_counters {P : Nat} {forest : t8_forest_t}
    (calls : List parse_call) : ∀ {g g' : t8_forest_ghost},
    parse_calls P forest g calls = .ok g' →
    g'.num_ghosts_elements = g.num_ghosts_elements +
      (calls.map fun c => (records_elements (records_of P forest c)).length).sum ∧
    g'.num_remote_elements = g.num_remote_elements := by
  induction calls with
  | nil =>
    intro g g' h
    simp only [parse_calls, List.foldlM_nil, pure, Except.pure, Except.ok.injEq] at h
    subst h
    simp
  | cons c calls ih =>
    intro g g' h
    obtain ⟨g1, h1, h2⟩ := parse_calls_cons h
    obtain ⟨rs, fti, fei, hrs, _, hg1⟩ := parse_received_message_ok h1
    obtain ⟨i1, i2⟩ := ih h2
    have hn : g1.num_ghosts_elements =
        g.num_ghosts_elements + (records_elements rs).length := by
      rw [hg1]
      exact foldl_ghost_add_record_counters forest rs g
    have hr : g1.num_remote_elements = g.num_remote_elements := by
      rw [hg1]
      exact (foldl_ghost_add_record_frame forest rs g).2.2.2.1
    refine ⟨?_, by rw [i2, hr]⟩
    rw [i1, hn, List.map_cons, List.sum_cons, records_of_ok hrs]
    omega

theorem system_send_ok (P : Nat) (forest : t8_forest_t) (N : Nat) :
    ∀ gs : List t8_forest_ghost, (∀ g ∈ gs, sender_ok P forest N g) →
    system_send P gs =
      .ok (gs.map fun g =>
        ({ g with num_remote_elements :=
            g.num_remote_elements + remote_elements_total g.remote_ghosts },
         g.remote_ghosts.map (message_of P))) := by
  intro gs
  induction gs with
  | nil => intro _; rfl
  | cons g gs ih =>
    intro h
    obtain ⟨hr, hwt, _⟩ := h g (List.mem_cons_self _ _)
    have hs := send_start_ok P g hr (fun b hb => (hwt b hb).1)
    simp only [system_send, hs, ih (fun g' hg' => h g' (List.mem_cons_of_mem _ hg')),
      List.map_cons]

theorem message_count (P : Nat) (forest : t8_forest_t) (b : t8_ghost_remote_t)
    (i : Int) (hwt : remote_entry_well_typed P b)
    (hsize : ∀ rt ∈ b.remote_trees,
      (forest.scheme rt.eclass).t8_element_size = rt.elements.elem_size) :
    (records_elements (records_of P forest
      { recv_rank := i, recv_buffer := (message_of P b).buffer,
        recv_bytes := ((message_of P b).num_bytes : Int) })).length =
      entry_elements b := by
  have hcount : b.remote_trees.length < 2 ^ 31 :=
    lt_of_le_of_lt (send_count_bytes_ge P b.remote_trees) hwt.2
  obtain ⟨hc, hrs⟩ := message_records_encoded P forest b.remote_rank
    b.remote_trees hcount hwt.1 hsize
  have hrec : message_records P forest (encode_message P b.remote_trees) =
      .ok (b.remote_trees.map record_of_remote_tree) := by
    unfold message_records
    simp only [hc, Nat.zero_add, hrs]
  simp only [records_of, message_of, hrec, records_elements, entry_elements]
  induction b.remote_trees with
  | nil => rfl
  | cons rt rts ih =>
    simp only [List.map_cons, List.flatMap_cons, List.length_append, List.sum_cons, ih]
    rfl

theorem sum_indicator (N k w : Nat) (hk : k < N) :
    ((List.range N).map fun j => if k = j then w else 0).sum = w := by
  induction N with
  | zero => omega
  | succ N ih =>
    rw [List.range_succ, List.map_append, List.sum_append]
    simp only [List.map_cons, List.map_nil, List.sum_cons, List.sum_nil, Nat.add_zero]
    by_cases hkN : k = N
    · subst hkN
      have hz : ((List.range k).map fun j => if k = j then w else 0).sum = 0 := by
        apply List.sum_eq_zero
        intro x hx
        obtain ⟨j, hj, hjx⟩ := List.mem_map.mp hx
        rw [List.mem_range] at hj
        rw [← hjx, if_neg (by omega)]
      rw [hz]
      simp
    · rw [ih (by omega), if_neg hkN]
      rfl

theorem sum_filter_ranks (N : Nat) (w : t8_ghost_remote_t → Nat)
    (L : List t8_ghost_remote_t)
    (hL : ∀ b ∈ L, 0 ≤ b.remote_rank ∧ b.remote_rank < (N : Int)) :
    ((List.range N).map fun j : Nat =>
      ((L.filter (fun b => decide (b.remote_rank = (j : Int)))).map w).sum).sum =
      (L.map w).sum := by
  induction L with
  | nil => simp
  | cons b L ih =>
    obtain ⟨h0, h1⟩ := hL b (List.mem_cons_self _ _)
    have hk : b.remote_rank.toNat < N := by omega
    have hsplit : ∀ j : Nat,
        (((b :: L).filter (fun b => decide (b.remote_rank = (j : Int)))).map w).sum =
        (if b.remote_rank.toNat = j then w b else 0) +
          ((L.filter (fun b => decide (b.remote_rank = (j : Int)))).map w).sum := by
      intro j
      by_cases hj : b.remote_rank = (j : Int)
      · have : b.remote_rank.toNat = j := by omega
        simp [List.filter_cons, hj, this]
      · have : ¬ b.remote_rank.toNat = j := by omega
        simp [List.filter_cons, hj, this]
    simp only [hsplit]
    rw [List.sum_map_add, sum_indicator N _ _ hk,
      ih (fun b' hb' => hL b' (List.mem_cons_of_mem _ hb'))]
    rw [List.map_cons, List.sum_cons]

theorem inbox_count (P : Nat) (forest : t8_forest_t) (N j : Nat) :
    ∀ (gs : List t8_forest_ghost) (i : Nat), (∀ g ∈ gs, sender_ok P forest N g) →
    ((inbox_from j i (gs.map fun g =>
        (({ g with num_remote_elements :=
            g.num_remote_elements + remote_elements_total g.remote_ghosts },
          g.remote_ghosts.map (message_of P)) :
          t8_forest_ghost × List t8_ghost_mpi_send_info_t))).map
      fun c => (records_elements (records_of P forest c)).length).sum =
    (((gs.flatMap (·.remote_ghosts)).filter
      (fun b => decide (b.remote_rank = (j : Int)))).map entry_elements).sum := by
  intro gs
  induction gs with
  | nil => intro i _; rfl
  | cons g gs ih =>
    intro i h
    obtain ⟨_, hwt, hsize, _⟩ := h g (List.mem_cons_self _ _)
    simp only [List.map_cons, inbox_from, List.map_append, List.sum_append,
      List.flatMap_cons, List.filter_append]
    rw [ih (i + 1) (fun g' hg' => h g' (List.mem_cons_of_mem _ hg'))]
    congr 1
    rw [List.filter_map, List.map_map, List.map_map]
    congr 1
    apply List.map_congr_left
    intro b hb
    have hbm : b ∈ g.remote_ghosts := List.mem_of_mem_filter hb
    exact message_count P forest b (i : Int) (hwt b hbm) (hsize b hbm)

theorem system_receive_sums (P : Nat) (forest : t8_forest_t)
    (gs : List t8_forest_ghost) :
    ∀ (js : List Nat) (recv : List t8_forest_ghost),
    system_receive P forest (gs.map fun g =>
        (({ g with num_remote_elements :=
            g.num_remote_elements + remote_elements_total g.remote_ghosts },
          g.remote_ghosts.map (message_of P)) :
          t8_forest_ghost × List t8_ghost_mpi_send_info_t)) js = .ok recv →
    recv.length = js.length ∧
    (recv.map (·.num_ghosts_elements)).sum =
      (js.map fun j => ((gs[j]?).map (·.num_ghosts_elements)).getD 0 +
        ((inbox_from j 0 (gs.map fun g =>
          (({ g with num_remote_elements :=
              g.num_remote_elements + remote_elements_total g.remote_ghosts },
            g.remote_ghosts.map (message_of P)) :
            t8_forest_ghost × List t8_ghost_mpi_send_info_t))).map
          fun c => (records_elements (records_of P forest c)).length).sum).sum ∧
    (recv.map (·.num_remote_elements)).sum =
      (js.map fun j => ((gs[j]?).map fun g =>
        g.num_remote_elements + remote_elements_total g.remote_ghosts).getD 0).sum := by
  intro js
  induction js with
  | nil =>
    intro recv h
    simp only [system_receive, Except.ok.injEq] at h
    subst h
    simp
  | cons j js ih =>
    intro recv h
    simp only [system_receive, List.getElem?_map] at h
    cases hj : gs[j]? with
    | none => simp [hj] at h
    | some g =>
      simp only [hj, Option.map_some'] at h
      split at h
      · cases h
      · rename_i g' hp
        split at h
        · cases h
        · rename_i rest hrest
          cases h
          obtain ⟨i1, i2, i3⟩ := ih rest hrest
          obtain ⟨c1, c2⟩ := parse_calls_counters _ hp
          simp only at c1 c2
          refine ⟨by simp [i1], ?_, ?_⟩
          · simp only [List.map_cons, List.sum_cons, i2, c1, hj, Option.map_some',
              Option.getD_some]
          · simp only [List.map_cons, List.sum_cons, i3, c2, hj, Option.map_some',
              Option.getD_some]

theorem sum_range_getD {α : Type} (l : List α) (f : α → Nat) :
    ((List.range l.length).map fun j => ((l[j]?).map f).getD 0).sum =
      (l.map f).sum := by
  congr 1
  apply List.ext_getElem?
  intro i
  simp only [List.getElem?_map, List.getElem?_range]
  by_cases hi : i < l.length
  · simp [List.getElem?_range hi, List.getElem?_eq_getElem hi]
  · have h1 : l[i]? = none := List.getElem?_eq_none (by omega)
    have h2 : (List.range l.length)[i]? = none :=
      List.getElem?_eq_none (by simp; omega)
    simp [h1, h2]

theorem sum_flatMap_entries (gs : List t8_forest_ghost) :
    ((gs.flatMap (·.remote_ghosts)).map entry_elements).sum =
      (gs.map fun g => remote_elements_total g.remote_ghosts).sum := by
  induction gs with
  | nil => rfl
  | cons g gs ih =>
    simp only [List.flatMap_cons, List.map_append, List.sum_append, ih, List.map_cons,
      List.sum_cons]
    rfl

/-- C20 (volume conservation): in a system of processes whose ghost structures
after Discovery hold remote trees for ranks of the system, with values that
fit their types and counters still zero, when every process sends its
messages and every process parses the messages sent to it, each once, the sum
of `num_remote_elements` over all processes equals the sum of
`num_ghosts_elements` over all processes. -/
theorem C20_volume_conservation (P : Nat) (forest : t8_forest_t)
    (gs recv : List t8_forest_ghost)
    (hok : ∀ g ∈ gs, sender_ok P forest gs.length g)
    (h : system_exchange P forest gs = .ok recv) :
    recv.length = gs.length ∧
    (recv.map (·.num_remote_elements)).sum =
      (recv.map (·.num_ghosts_elements)).sum := by
  unfold system_exchange at h
  rw [system_send_ok P forest gs.length gs hok] at h
  simp only [List.length_map] at h
  obtain ⟨h1, h2, h3⟩ := system_receive_sums P forest gs _ recv h
  refine ⟨by simpa using h1, ?_⟩
  rw [h3, h2, List.sum_map_add]
  rw [sum_range_getD gs (fun g => g.num_remote_elements +
    remote_elements_total g.remote_ghosts)]
  rw [sum_range_getD gs (fun g => g.num_ghosts_elements)]
  have hinbox : ∀ j : Nat,
      ((inbox_from j 0 (gs.map fun g =>
        (({ g with num_remote_elements :=
            g.num_remote_elements + remote_elements_total g.remote_ghosts },
          g.remote_ghosts.map (message_of P)) :
          t8_forest_ghost × List t8_ghost_mpi_send_info_t))).map
        fun c => (records_elements (records_of P forest c)).length).sum =
      (((gs.flatMap (·.remote_ghosts)).filter
        (fun b => decide (b.remote_rank = (j : Int)))).map entry_elements).sum :=
    fun j => inbox_count P forest gs.length j gs 0 hok
  simp only [hinbox]
  rw [sum_filter_ranks gs.length entry_elements (gs.flatMap (·.remote_ghosts)) (by
    intro b hb
    obtain ⟨g, hg, hbg⟩ := List.mem_flatMap.mp hb
    exact (hok g hg).2.2.2.1 b hbg)]
  rw [sum_flatMap_entries]
  have hz1 : (gs.map fun g => g.num_ghosts_elements).sum = 0 := by
    apply List.sum_eq_zero
    intro x hx
    obtain ⟨g, hg, hgx⟩ := List.mem_map.mp hx
    rw [← hgx]
    exact (hok g hg).2.2.2.2.2
  have hz2 : (gs.map fun g => g.num_remote_elements +
      remote_elements_total g.remote_ghosts) =
      gs.map fun g => remote_elements_total g.remote_ghosts := by
    apply List.map_congr_left
    intro g hg
    rw [(hok g hg).2.2.2.2.1]
    simp
  rw [hz1, hz2]
  simp

theorem example_system_ok :
    ∀ g ∈ example_system, sender_ok 8 example_forest example_system.length g := by
  intro g hg
  simp only [example_system, List.mem_cons, List.mem_singleton, List.not_mem_nil,
    or_false] at hg
  rcases hg with h | h | h
  · subst h
    refine ⟨example_ghost_remote_ranks, ?_, ?_, ?_, rfl, rfl⟩
    · intro b hb
      refine ⟨example_ghost_remote_well_typed b hb, ?_⟩
      simp only [example_ghost_remote, List.mem_cons, List.mem_singleton,
        List.not_mem_nil, or_false] at hb
      rcases hb with h | h <;> subst h <;> decide
    · intro b hb rt hrt
      simp only [example_ghost_remote, List.mem_cons, List.mem_singleton,
        List.not_mem_nil, or_false] at hb
      rcases hb with h | h <;> subst h <;>
        simp only [List.mem_cons, List.mem_singleton, List.not_mem_nil,
          or_false] at hrt
      · rcases hrt with h | h <;> subst h <;> rfl
      · subst hrt
        rfl
    · intro b hb
      simp only [example_ghost_remote, List.mem_cons, List.mem_singleton,
        List.not_mem_nil, or_false] at hb
      rcases hb with h | h <;> subst h <;> decide
  · subst h
    refine ⟨⟨rfl, by decide⟩, ?_, ?_, ?_, rfl, rfl⟩
    · intro b hb
      simp only [List.mem_singleton] at hb
      subst hb
      refine ⟨?_, by decide⟩
      intro rt hrt
      simp only [List.mem_singleton] at hrt
      subst hrt
      simp [remote_tree_well_typed, sc_array_t.elem_count]
    · intro b hb rt hrt
      simp only [List.mem_singleton] at hb
      subst hb
      simp only [List.mem_singleton] at hrt
      subst hrt
      rfl
    · intro b hb
      simp only [List.mem_singleton] at hb
      subst hb
      decide
  · subst h
    refine ⟨remote_ranks_ok_new, ?_, ?_, ?_, rfl, rfl⟩ <;>
      (intro b hb; simp [ghost_new] at hb)

theorem C20_volume_conservation_witness :
    ∃ recv, system_exchange 8 example_forest example_system = .ok recv ∧
      recv.map (fun g => (g.num_remote_elements, g.num_ghosts_elements)) =
        [(4, 1), (1, 3), (0, 1)] ∧
      recv.length = example_system.length ∧
      (recv.map (·.num_remote_elements)).sum =
        (recv.map (·.num_ghosts_elements)).sum :=
  ⟨_, rfl, rfl,
    C20_volume_conservation 8 example_forest example_system _ example_system_ok rfl⟩


/-! ### The entries of `process_offsets` along a sequence of messages -/

theorem parse_in_order_eq_calls (P : Nat) (forest : t8_forest_t)
    (arrivals : List mpi_message) (ranks : List Int) :
    ∀ g : t8_forest_ghost,
    parse_in_order
      (fun g recv_rank buffer recv_bytes =>
        t8_forest_ghost_parse_received_message P forest g recv_rank buffer recv_bytes)
      arrivals ranks g =
    parse_calls P forest g (calls_in_order arrivals ranks) := by
  induction ranks with
  | nil => intro g; rfl
  | cons r ranks ih =>
    intro g
    simp only [parse_in_order, parse_calls, calls_in_order, List.map_cons,
      List.foldlM_cons, bind, Except.bind]
    cases t8_forest_ghost_parse_received_message P forest g r (message_from arrivals r)
        ((message_from arrivals r).length : Int) with
    | error e => rfl
    | ok g1 => exact ih g1

theorem read_tree_records_length {P : Nat} {forest : t8_forest_t} {buf : List Nat} :
    ∀ (n off : Nat) (rs : List tree_record) (off' : Nat),
      read_tree_records P forest buf n off = .ok (rs, off') → rs.length = n := by
  intro n
  induction n with
  | zero =>
    intro off rs off' h
    simp only [read_tree_records, Except.ok.injEq, Prod.mk.injEq] at h
    rw [← h.1]
    rfl
  | succ n ih =>
    intro off rs off' h
    simp only [read_tree_records] at h
    split at h
    · cases h
    · rename_i r hr
      split at h
      · cases h
      · rename_i rs1 hrs1
        cases h
        simp [ih _ _ _ hrs1]

/-- The entry that the parse routine stores for the sender of a message
without trees: both fields are the never assigned locals. -/
theorem parse_received_message_empty {P : Nat} {forest : t8_forest_t}
    {g g' : t8_forest_ghost} {r : Int} {buf : List Nat} {n : Int}
    (h : t8_forest_ghost_parse_received_message P forest g r buf n = .ok g')
    (hrec : message_records P forest buf = .ok []) :
    g'.process_offsets = g.process_offsets ++
      [{ mpirank := r, tree_index := none, first_element := none }] := by
  unfold t8_forest_ghost_parse_received_message at h
  simp only [bind, Except.bind, pure, Except.pure, throw, throwThe,
    MonadExceptOf.throw] at h
  unfold message_records at hrec
  cases hc : read_size_t buf 0 with
  | error e => simp [hc] at h
  | ok count =>
    simp only [hc, Nat.zero_add] at h hrec
    have hn : (locidx_of_size_t count).toNat = 0 := by
      cases hr : read_tree_records P forest buf (locidx_of_size_t count).toNat
          (sizeof_size_t + T8_ADD_PADDING P sizeof_size_t) with
      | error e => simp [hr] at hrec
      | ok rs =>
        simp only [hr, Except.ok.injEq] at hrec
        have := read_tree_records_length _ _ rs.1 rs.2 hr
        rw [hrec] at this
        exact this.symm
    rw [hn] at h
    simp only [parse_trees] at h
    split at h
    · cases h
    · split at h
      · cases h
      · cases h
        rfl

theorem parse_calls_ranks {P : Nat} {forest : t8_forest_t}
    (calls : List parse_call) : ∀ {g g' : t8_forest_ghost},
    parse_calls P forest g calls = .ok g' →
    g'.process_offsets.map (·.mpirank) =
      g.process_offsets.map (·.mpirank) ++ calls.map (·.recv_rank) := by
  induction calls with
  | nil =>
    intro g g' h
    simp only [parse_calls, List.foldlM_nil, pure, Except.pure, Except.ok.injEq] at h
    subst h
    simp
  | cons c calls ih =>
    intro g g' h
    obtain ⟨g1, h1, h2⟩ := parse_calls_cons h
    obtain ⟨rs, fti, fei, _, _, hg1⟩ := parse_received_message_ok h1
    rw [ih h2, hg1]
    simp

/-- The entry that a message of a sequence leaves in `process_offsets` is the
one stored when the message was parsed. -/
theorem parse_calls_entry {P : Nat} {forest : t8_forest_t}
    (pre post : List parse_call) (c : parse_call) {g0 g : t8_forest_ghost}
    (h : parse_calls P forest g0 (pre ++ c :: post) = .ok g) :
    ∃ g1 g2, parse_calls P forest g0 pre = .ok g1 ∧
      t8_forest_ghost_parse_received_message P forest g1 c.recv_rank c.recv_buffer
        c.recv_bytes = .ok g2 ∧
      parse_calls P forest g2 post = .ok g ∧
      process_hash_lookup g.process_offsets c.recv_rank =
        g2.process_offsets.getLast? ∧
      ((message_records P forest c.recv_buffer = .ok [] ∧
          g2.process_offsets.getLast? =
            some { mpirank := c.recv_rank, tree_index := none,
                   first_element := none }) ∨
        ∃ first rest i k, message_records P forest c.recv_buffer = .ok (first :: rest) ∧
          g2.process_offsets.getLast? =
            some { mpirank := c.recv_rank, tree_index := some i,
                   first_element := some k } ∧
          ((gtree_hash_lookup g1.global_tree_to_ghost_tree first.global_id = none ∧
              i = g1.ghost_trees.length ∧ k = 0) ∨
           (∃ found t,
              gtree_hash_lookup g1.global_tree_to_ghost_tree first.global_id =
                some found ∧
              i = found.index ∧ g1.ghost_trees[i]? = some t ∧
              t.global_id = first.global_id ∧ k = t.elements.elems.length))) := by
  obtain ⟨g1, hpre, hrest⟩ := parse_calls_append pre (c :: post) h
  obtain ⟨g2, hc, hpost⟩ := parse_calls_cons hrest
  obtain ⟨rs, fti, fei, hrs, hl, hg2⟩ := parse_received_message_ok hc
  have hlast : g2.process_offsets.getLast? =
      some { mpirank := c.recv_rank, tree_index := fti, first_element := fei } := by
    rw [hg2]
    simp
  have hlook : process_hash_lookup g.process_offsets c.recv_rank =
      g2.process_offsets.getLast? := by
    rw [hlast]
    apply parse_calls_offsets post hpost
    rw [hg2]
    exact process_hash_lookup_append_new hl _ rfl
  refine ⟨g1, g2, hpre, hc, hpost, hlook, ?_⟩
  cases rs with
  | nil =>
    left
    refine ⟨hrs, ?_⟩
    rw [parse_received_message_empty hc hrs]
    simp
  | cons first rest =>
    right
    obtain ⟨i, k, hg2', _, hcase⟩ := parse_received_message_first hc hrs
    refine ⟨first, rest, i, k, hrs, ?_, hcase⟩
    rw [hg2']
    simp

/-- A call of `t8_forest_ghost_receive` that returns was made on a committed
forest, and it is the run of the receive loop with the parse routine. -/
theorem t8_forest_ghost_receive_ok {P : Nat} {forest : t8_forest_t}
    {ghost g : t8_forest_ghost} {arrivals : List mpi_message}
    (h : t8_forest_ghost_receive P forest ghost arrivals = .ok g) :
    forest.committed = true ∧
    ghost_receive_with
      (fun g recv_rank buffer recv_bytes =>
        t8_forest_ghost_parse_received_message P forest g recv_rank buffer
          recv_bytes)
      ghost.remote_processes
      { ghost with
        remote_processes := ghost.remote_processes.insertionSort (· ≤ ·) }
      arrivals = .ok g := by
  unfold t8_forest_ghost_receive at h
  cases hc : forest.committed with
  | false =>
    rw [hc] at h
    cases h
  | true =>
    rw [hc] at h
    exact ⟨rfl, h⟩


/-- Two messages of a sequence whose entries name the same ghost tree: the
entry of the later message counts the elements that the earlier message added
to that tree. -/
theorem offsets_monotone {P : Nat} {forest : t8_forest_t}
    (pre mid post : List parse_call) (c1 c2 : parse_call)
    {g0 g : t8_forest_ghost} (hok : ghost_index_ok g0)
    (h : parse_calls P forest g0 (pre ++ c1 :: (mid ++ c2 :: post)) = .ok g)
    {i k1 k2 : Nat}
    (h1 : process_hash_lookup g.process_offsets c1.recv_rank =
      some { mpirank := c1.recv_rank, tree_index := some i, first_element := some k1 })
    (h2 : process_hash_lookup g.process_offsets c2.recv_rank =
      some { mpirank := c2.recv_rank, tree_index := some i, first_element := some k2 }) :
    ∃ t, g.ghost_trees[i]? = some t ∧
      k1 + (message_block P forest c1.recv_buffer t.global_id).length ≤ k2 := by
  obtain ⟨g1, g2, hpre, hc1, hpost1, hlook1, hcase1⟩ :=
    parse_calls_entry pre (mid ++ c2 :: post) c1 h
  obtain ⟨g3, g4, hmid, hc2, hpost2, hlook2, hcase2⟩ :=
    parse_calls_entry mid post c2 hpost1
  rw [hlook1] at h1
  rw [hlook2] at h2
  have hok1 := parse_calls_index_ok pre hok hpre
  have hok2 := parse_received_message_index_ok hok1 hc1
  -- the entry of the first message
  rcases hcase1 with ⟨_, hl1⟩ | ⟨first1, rest1, i1, k1', hrs1, hl1, hcs1⟩
  · rw [hl1] at h1
    simp at h1
  rw [hl1] at h1
  simp only [Option.some.injEq, t8_ghost_process_hash_t.mk.injEq, true_and] at h1
  obtain ⟨hi1, hk1⟩ := h1
  subst hi1 hk1
  -- the entry of the second message
  rcases hcase2 with ⟨_, hl2⟩ | ⟨first2, rest2, i2, k2', hrs2, hl2, hcs2⟩
  · rw [hl2] at h2
    simp at h2
  rw [hl2] at h2
  simp only [Option.some.injEq, t8_ghost_process_hash_t.mk.injEq, true_and] at h2
  obtain ⟨hi2, hk2⟩ := h2
  subst hk2
  rw [hi2] at hcs2
  -- the ghost tree of the first tree of the first message
  obtain ⟨t1, ht1, ht1g, _⟩ := ghost_add_record_first forest first1 hcs1
  obtain ⟨i', k', hg2, _, _⟩ := parse_received_message_first hc1 hrs1
  have hext2 : ghost_trees_extend (ghost_add_record forest g1 first1).ghost_trees
      g2.ghost_trees := by
    rw [hg2]
    exact foldl_ghost_add_record_extend forest rest1 _
  obtain ⟨t2, ht2, ht2g, _, _, _, _⟩ := hext2.2 i1 t1 ht1
  have hext3 := parse_calls_extend mid hmid
  obtain ⟨t3, ht3, ht3g, _, _, added3, hadd3⟩ := hext3.2 i1 t2 ht2
  have hext4 := ghost_trees_extend_trans (parse_received_message_extend hc2)
    (parse_calls_extend post hpost2)
  obtain ⟨tf, htf, htfg, _, _, _, _⟩ := hext4.2 i1 t3 ht3
  have hgid : tf.global_id = first1.global_id := by
    rw [htfg, ht3g, ht2g, ht1g]
  -- the elements of that tree after the first message
  have hel2 : t2.elements.elems.length =
      k1' + (message_block P forest c1.recv_buffer first1.global_id).length := by
    have hsum := parse_received_message_elements hok1 hc1 first1.global_id
    have ht2m : ghost_tree_elements g2.ghost_trees first1.global_id =
        t2.elements.elems := by
      have := ghost_tree_elements_of_mem hok2.2.2 (List.getElem?_mem ht2)
      rw [ht2g, ht1g] at this
      exact this
    have hbefore : (ghost_tree_elements g1.ghost_trees first1.global_id).length =
        k1' := by
      rcases hcs1 with ⟨hn, _, hk⟩ | ⟨found, t, _, _, ht, htg, hk⟩
      · rw [ghost_tree_elements_none _ _ (ghost_index_no_tree hok1 hn), hk]
        rfl
      · have := ghost_tree_elements_of_mem hok1.2.2 (List.getElem?_mem ht)
        rw [htg] at this
        rw [this, hk]
    rw [← ht2m, hsum, List.length_append, hbefore]
  refine ⟨tf, htf, ?_⟩
  rw [hgid]
  rcases hcs2 with ⟨_, hi, _⟩ | ⟨found, t, _, _, ht, _, hk⟩
  · have := (List.getElem?_eq_some_iff.mp ht3).1
    omega
  · rw [ht3] at ht
    cases ht
    rw [hk, hadd3, List.length_append, hel2]
    omega

theorem sorted_split_two {l : List Int} (hs : l.Pairwise (· ≤ ·)) {a b : Int}
    (ha : a ∈ l) (hb : b ∈ l) (hab : a < b) :
    ∃ pre mid post, l = pre ++ a :: (mid ++ b :: post) := by
  obtain ⟨s, t, hst⟩ := List.append_of_mem ha
  subst hst
  rw [List.pairwise_append] at hs
  obtain ⟨_, hs2, hs3⟩ := hs
  rcases List.mem_append.mp hb with h | h
  · have := hs3 b h a (List.mem_cons_self _ _)
    omega
  · rcases List.mem_cons.mp h with h | h
    · omega
    · obtain ⟨m, p, hmp⟩ := List.append_of_mem h
      exact ⟨s, m, p, by rw [hmp]⟩


/-- C21 (rank-monotone offsets): `t8_forest_ghost_receive` is run on a ghost
structure without ghost trees and entries, with a list of remote ranks without
duplicates, and the messages arrive in any order.  When the entries of two
senders `r1 < r2` name the same ghost tree, `first_element (r1)` is at most
`first_element (r2)`, and it is smaller when the message of `r1` holds an
element for that tree. -/
theorem C21_rank_monotone_offsets (P : Nat) (forest : t8_forest_t)
    (ghost0 ghost : t8_forest_ghost) (arrivals : List mpi_message)
    (hnd : ghost0.remote_processes.Nodup)
    (hperm : (arrivals.map (·.MPI_SOURCE)).Perm ghost0.remote_processes)
    (hstart : ghost0.ghost_trees = [] ∧ ghost0.global_tree_to_ghost_tree = [] ∧
      ghost0.process_offsets = [])
    (h : t8_forest_ghost_receive P forest ghost0 arrivals = .ok ghost)
    (r1 r2 : Int) (i k1 k2 : Nat) (hlt : r1 < r2)
    (h1 : process_hash_lookup ghost.process_offsets r1 =
      some { mpirank := r1, tree_index := some i, first_element := some k1 })
    (h2 : process_hash_lookup ghost.process_offsets r2 =
      some { mpirank := r2, tree_index := some i, first_element := some k2 }) :
    k1 ≤ k2 ∧
    ∃ t, ghost.ghost_trees[i]? = some t ∧
      (message_block P forest (message_from arrivals r1) t.global_id ≠ [] →
        k1 < k2) := by
  replace h := (t8_forest_ghost_receive_ok h).2
  rw [ghost_receive_with_in_order _ _ _ _ hnd hperm, parse_in_order_eq_calls] at h
  obtain ⟨ht0, hg0, hp0⟩ := hstart
  have hok : ∀ rp : List Int,
      ghost_index_ok { ghost0 with remote_processes := rp } := by
    intro rp
    refine ⟨?_, ?_, ?_⟩
    · simp [ht0, hg0]
    · intro j t hj
      simp [ht0] at hj
    · simp [ht0]
  have hranks := parse_calls_ranks _ h
  simp only [hp0, List.map_nil, List.nil_append, calls_in_order, List.map_map] at hranks
  have hid : (fun r : Int => r) = id := rfl
  have hranks' : ghost.process_offsets.map (·.mpirank) =
      ghost0.remote_processes.insertionSort (· ≤ ·) := by
    rw [hranks]
    simp [Function.comp_def]
  have hmem : ∀ (r : Int) (e : t8_ghost_process_hash_t),
      process_hash_lookup ghost.process_offsets r = some e →
      r ∈ ghost0.remote_processes.insertionSort (· ≤ ·) := by
    intro r e he
    unfold process_hash_lookup at he
    have hm := List.mem_of_find?_eq_some he
    have hr := List.find?_some he
    simp only [decide_eq_true_eq] at hr
    rw [← hranks', ← hr]
    exact List.mem_map.mpr ⟨e, hm, rfl⟩
  obtain ⟨pre, mid, post, hsplit⟩ := sorted_split_two
    (List.sorted_insertionSort (· ≤ ·) ghost0.remote_processes)
    (hmem r1 _ h1) (hmem r2 _ h2) hlt
  rw [hsplit] at h
  have hcalls : calls_in_order arrivals (pre ++ r1 :: (mid ++ r2 :: post)) =
      calls_in_order arrivals pre ++
        { recv_rank := r1, recv_buffer := message_from arrivals r1,
          recv_bytes := ((message_from arrivals r1).length : Int) } ::
        (calls_in_order arrivals mid ++
          { recv_rank := r2, recv_buffer := message_from arrivals r2,
            recv_bytes := ((message_from arrivals r2).length : Int) } ::
          calls_in_order arrivals post) := by
    simp [calls_in_order]
  rw [hcalls] at h
  obtain ⟨t, ht, hle⟩ := offsets_monotone (calls_in_order arrivals pre)
    (calls_in_order arrivals mid) (calls_in_order arrivals post)
    { recv_rank := r1, recv_buffer := message_from arrivals r1,
      recv_bytes := ((message_from arrivals r1).length : Int) }
    { recv_rank := r2, recv_buffer := message_from arrivals r2,
      recv_bytes := ((message_from arrivals r2).length : Int) } (hok _) h h1 h2
  simp only at hle
  refine ⟨by omega, t, ht, ?_⟩
  intro hne
  have := List.length_pos.mpr hne
  omega

theorem C21_rank_monotone_offsets_witness :
    ∃ ghost, t8_forest_ghost_receive 8 example_forest example_ghost_waiting
        example_arrivals = .ok ghost ∧
      process_hash_lookup ghost.process_offsets 2 =
        some { mpirank := 2, tree_index := some 1, first_element := some 1 } ∧
      process_hash_lookup ghost.process_offsets 3 =
        some { mpirank := 3, tree_index := some 1, first_element := some 2 } ∧
      1 ≤ 2 ∧
      ∃ t, ghost.ghost_trees[1]? = some t ∧
        (message_block 8 example_forest (message_from example_arrivals 2)
            t.global_id ≠ [] → 1 < 2) :=
  ⟨_, rfl, rfl, rfl,
    C21_rank_monotone_offsets 8 example_forest example_ghost_waiting _
      example_arrivals (by decide) (by decide) ⟨rfl, rfl, rfl⟩ rfl 2 3 1 1 2
      (by decide) rfl rfl⟩


/-- C22, what the code does for an element at the maximum level: in
`atom_forest` the only face neighbour that Discovery constructs for the element
`[5, 1, 7]` is owned by this process, rank 0, yet the loop over the face
children also looks up the owner of the second slot of the scratch buffer,
which still holds the contents `t8_element_new` gave it, and the element is
shipped to rank 2. -/
theorem C22_atom_stale_slot :
    (example_scheme 3).t8_element_level [5, 1, 7] =
      (example_scheme 3).t8_element_maxlevel ∧
    atom_forest.element_find_owner
        (atom_forest.element_face_neighbor 0 [5, 1, 7] 1).1
        (atom_forest.element_face_neighbor 0 [5, 1, 7] 1).2.1 2 =
      atom_forest.mpirank ∧
    face_buffer atom_forest 0 [5, 1, 7] true
        { ghost := ghost_new, half_neighbors := [], half_neighbors_owner := none,
          max_num_face_children := 0, last_class := T8_ECLASS_COUNT,
          neigh_scheme := none, prev_neigh_scheme := none, destroyed := [] } 1 =
      .ok [[5, 1, 7], [0, 0, 0]] ∧
    ∃ res, t8_forest_ghost_fill_remote atom_forest ghost_new 0 = .ok res ∧
      res.ghost.remote_processes = [2] ∧
      res.ghost.remote_ghosts.map
          (fun b => (b.remote_rank, b.remote_trees.map (·.elements.elems))) =
        [(2, [[[5, 1, 7]]])] :=
  ⟨rfl, rfl, rfl, _, rfl, rfl, rfl⟩


/-! ### The order of the remote trees after Discovery -/

theorem t8_ghost_add_remote_sorted {forest : t8_forest_t}
    {g g' : t8_forest_ghost} {r : Int} {t : Nat} {e : t8_element_t}
    (hg : remote_trees_sorted forest t g)
    (h : t8_ghost_add_remote forest g r t e = .ok g') :
    remote_trees_sorted forest t g' := by
  rcases t8_ghost_add_remote_cases h with ⟨_, hg'⟩ | ⟨i, b, _, hb, _, _, hg'⟩
  · subst hg'
    intro b hb
    simp only [List.mem_append, List.mem_singleton] at hb
    rcases hb with hb | hb
    · exact hg b hb
    · subst hb
      exact remote_trees_add_sorted forest r t e [] (by simp) (by simp)
  · subst hg'
    intro b' hb'
    rcases List.mem_or_eq_of_mem_set hb' with hb' | hb'
    · exact hg b' hb'
    · subst hb'
      obtain ⟨h1, h2⟩ := hg b (List.getElem?_mem hb)
      exact remote_trees_add_sorted forest r t e b.remote_trees h1 h2

theorem foldlM_range_indexed {σ : Type} (f : σ → Nat → Except Failure σ)
    (J : Nat → σ → Prop)
    (hstep : ∀ (t : Nat) (s s' : σ), J t s → f s t = .ok s' → J (t + 1) s') :
    ∀ (n : Nat) (s s' : σ), J 0 s → (List.range n).foldlM f s = .ok s' → J n s' := by
  intro n
  induction n with
  | zero =>
    intro s s' hs h
    simp only [List.range_zero, List.foldlM_nil, pure, Except.pure,
      Except.ok.injEq] at h
    subst h
    exact hs
  | succ n ih =>
    intro s s' hs h
    rw [List.range_succ, List.foldlM_append] at h
    simp only [bind, Except.bind] at h
    cases h1 : (List.range n).foldlM f s with
    | error e => simp [h1] at h
    | ok s1 =>
      simp only [h1, List.foldlM_cons, List.foldlM_nil, bind, Except.bind, pure,
        Except.pure] at h
      cases h2 : f s1 n with
      | error e => simp [h2] at h
      | ok s2 =>
        simp only [h2, Except.ok.injEq] at h
        subst h
        exact hstep n s1 s2 (ih s s1 hs h1) h2

/-- After Discovery on the empty ghost structure the global ids of the remote
trees of every entry increase along the entry. -/
theorem fill_remote_sorted (forest : t8_forest_t) (ghost_method : Int)
    (res : fill_remote_result)
    (h : t8_forest_ghost_fill_remote forest ghost_new ghost_method = .ok res) :
    remote_trees_sorted forest forest.num_local_trees res.ghost := by
  have hchild : ∀ (itree : Nat) (e : t8_element_t) (nb : Int) (nc : t8_eclass_t)
      (buf : List t8_element_t) (g : t8_forest_ghost) (ichild : Nat)
      (g' : t8_forest_ghost), remote_trees_sorted forest itree g →
      fill_remote_child forest itree e nb nc buf g ichild = .ok g' →
      remote_trees_sorted forest itree g' := by
    intro itree e nb nc buf g ichild g' hg hc
    unfold fill_remote_child at hc
    cases hb : buf[ichild]? with
    | none => simp [hb] at hc
    | some child =>
      simp only [hb, bind, Except.bind, pure, Except.pure] at hc
      split at hc
      · cases hc
      · split at hc
        · exact t8_ghost_add_remote_sorted hg hc
        · cases hc
          exact hg
  have howner : ∀ (itree : Nat) (e : t8_element_t) (g : t8_forest_ghost)
      (owner : Int) (g' : t8_forest_ghost), remote_trees_sorted forest itree g →
      fill_remote_owner forest itree e g owner = .ok g' →
      remote_trees_sorted forest itree g' := by
    intro itree e g owner g' hg hc
    unfold fill_remote_owner at hc
    simp only [bind, Except.bind, pure, Except.pure] at hc
    split at hc
    · cases hc
    · split at hc
      · exact t8_ghost_add_remote_sorted hg hc
      · cases hc
        exact hg
  have hface : ∀ (itree : Nat) (e : t8_element_t) (is_atom : Bool)
      (st : fill_remote_locals) (iface : Nat) (st' : fill_remote_locals),
      remote_trees_sorted forest itree st.ghost →
      fill_remote_face forest ghost_method itree e is_atom st iface = .ok st' →
      remote_trees_sorted forest itree st'.ghost := by
    intro itree e is_atom st iface st' hg hc
    rcases fill_remote_face_cases hc with ⟨_, h1⟩ | ⟨_, _, buf, _, h1⟩ | ⟨_, _, h1⟩
    · rw [h1]
      exact hg
    · exact foldlM_preserves _ (remote_trees_sorted forest itree)
        (hchild itree e _ _ buf) _ _ _ hg h1
    · exact foldlM_preserves _ (remote_trees_sorted forest itree)
        (howner itree e) _ _ _ hg h1
  have htree : ∀ (itree : Nat) (st st' : fill_remote_locals),
      remote_trees_sorted forest itree st.ghost →
      fill_remote_tree forest ghost_method st itree = .ok st' →
      remote_trees_sorted forest (itree + 1) st'.ghost := by
    intro itree st st' hg hc
    unfold fill_remote_tree at hc
    have hsame : remote_trees_sorted forest itree st'.ghost :=
      foldlM_preserves _ (fun s => remote_trees_sorted forest itree s.ghost)
        (fun s e s' hs hr => by
          unfold fill_remote_element at hr
          exact foldlM_preserves _
            (fun s => remote_trees_sorted forest itree s.ghost)
            (fun s a s' hs hr => hface itree e _ s a s' hs hr) _ _ _ hs hr)
        _ _ _ hg hc
    intro b hb
    obtain ⟨h1, h2⟩ := hsame b hb
    refine ⟨h1, fun rt hrt => ?_⟩
    have := h2 rt hrt
    push_cast
    omega
  unfold t8_forest_ghost_fill_remote at h
  simp only [bind, Except.bind, pure, Except.pure] at h
  split at h
  · cases h
  · rename_i st hst
    by_cases hc : ghost_method = 0 ∧
        (st.neigh_scheme.isNone = true ∨ st.half_neighbors_owner.isNone = true)
    · rw [if_pos hc] at h
      cases h
    rw [if_neg hc] at h
    cases h
    exact foldlM_range_indexed _ (fun t s => remote_trees_sorted forest t s.ghost)
      htree _ _ _ (by intro b hb; simp [ghost_new] at hb) hst


/-- C23 (cross-tree ghosts): after Discovery on the empty ghost structure, with
either method, every remote tree is filed under a local tree `itree`: its
global id is `first_local_tree_id + itree`, its class and element size are
those of that tree, and its elements are copies of elements of that tree.
When the values of an entry fit their types and the receiver has the element
sizes of the sender, the message built for the entry is parsed into the empty
ghost structure without failure, and the ghost trees carry the global ids and
classes of the remote trees, in their order. -/
theorem C23_cross_tree_ghosts (forest : t8_forest_t) (ghost_method : Int)
    (res : fill_remote_result)
    (h : t8_forest_ghost_fill_remote forest ghost_new ghost_method = .ok res) :
    (∀ b ∈ res.ghost.remote_ghosts, ∀ rt ∈ b.remote_trees,
      ∃ itree : Nat, itree < forest.num_local_trees ∧
        rt.global_id = forest.first_local_tree_id + (itree : Int) ∧
        rt.eclass = forest.tree_class itree ∧
        rt.elements.elem_size =
          (forest.scheme (forest.tree_class itree)).t8_element_size ∧
        ∀ x ∈ rt.elements.elems, ∃ e ∈ forest.tree_elements itree,
          x = (forest.scheme (forest.tree_class itree)).t8_element_copy e) ∧
    ∀ (P : Nat) (receiver : t8_forest_t) (recv_rank : Int),
      ∀ b ∈ res.ghost.remote_ghosts, remote_entry_well_typed P b →
      (∀ rt ∈ b.remote_trees,
        (receiver.scheme rt.eclass).t8_element_size = rt.elements.elem_size) →
      ∃ (info : t8_ghost_mpi_send_info_t) (n : Nat) (ghost : t8_forest_ghost),
        send_start_buffer P b.remote_rank b res.ghost.num_remote_elements =
          .ok (info, n) ∧
        t8_forest_ghost_parse_received_message P receiver ghost_new recv_rank
          info.buffer (info.buffer.length : Int) = .ok ghost ∧
        ghost.ghost_trees.map (fun t => (t.global_id, t.eclass)) =
          b.remote_trees.map (fun rt => (rt.global_id, rt.eclass)) := by
  refine ⟨?_, ?_⟩
  · intro b hb rt hrt
    obtain ⟨itree, hit, hg, hc, hs, _, hel⟩ := fill_remote_sound forest ghost_method
      ghost_new res (remote_index_sound_new forest ghost_method) h b hb rt hrt
    refine ⟨itree, hit, hg, hc, hs, ?_⟩
    intro x hx
    obtain ⟨e, he, _, hxe⟩ := hel x hx
    exact ⟨e, he, hxe⟩
  · intro P receiver recv_rank b hb hwt hsize
    have hsorted := (fill_remote_sorted forest ghost_method res h b hb).1
    have hnd : (b.remote_trees.map (·.global_id)).Nodup :=
      hsorted.imp (fun hlt => ne_of_lt hlt)
    have hcount : b.remote_trees.length < 2 ^ 31 :=
      lt_of_le_of_lt (send_count_bytes_ge P b.remote_trees) hwt.2
    obtain ⟨info, n, ghost, h1, h2, h3⟩ := codec_round_trip_ok P receiver b
      recv_rank res.ghost.num_remote_elements hwt hnd hcount hsize
    refine ⟨info, n, ghost, h1, h2, ?_⟩
    have := congrArg (List.map (fun p : Int × t8_eclass_t × sc_array_t => (p.1, p.2.1))) h3
    simpa [List.map_map, Function.comp_def] using this

theorem C23_cross_tree_ghosts_witness :
    ∃ res, t8_forest_ghost_fill_remote example_forest ghost_new 0 = .ok res ∧
      res.ghost.remote_ghosts.map
          (fun b => (b.remote_rank, b.remote_trees.map
            (fun rt => (rt.global_id, rt.eclass, rt.elements.elem_size)))) =
        [(1, [(10, 2, 3), (11, 2, 3)]), (2, [(10, 2, 3), (11, 2, 3)])] ∧
      ∀ b ∈ res.ghost.remote_ghosts, ∀ rt ∈ b.remote_trees,
      ∃ itree : Nat, itree < example_forest.num_local_trees ∧
        rt.global_id = example_forest.first_local_tree_id + (itree : Int) ∧
        rt.eclass = example_forest.tree_class itree ∧
        rt.elements.elem_size =
          (example_forest.scheme (example_forest.tree_class itree)).t8_element_size ∧
        ∀ x ∈ rt.elements.elems, ∃ e ∈ example_forest.tree_elements itree,
          x = (example_forest.scheme
            (example_forest.tree_class itree)).t8_element_copy e :=
  ⟨_, rfl, rfl, (C23_cross_tree_ghosts example_forest 0 _ rfl).1⟩


/-! ### The ghost type `T8_GHOST_NONE` -/

/-- C25 (ghost type none): `t8_forest_ghost_create` on a forest whose ghost
type is `T8_GHOST_NONE` returns, whatever messages are waiting, with the
forest as it was and without a message posted; in particular `ghosts` and the
profile are left as they were. -/
theorem C25_ghost_none_no_op (P : Nat) (forest : t8_forest_t) (wtime : Int × Int)
    (arrivals : List mpi_message)
    (hnone : forest.ghost_type = .T8_GHOST_NONE) :
    ∃ res, t8_forest_ghost_create P forest wtime arrivals = .ok res ∧
      res.forest = forest ∧ res.forest.ghosts = forest.ghosts ∧
      res.forest.profile = forest.profile ∧ res.posted = [] := by
  refine ⟨{ forest := forest, posted := [] }, ?_, rfl, rfl, rfl, rfl⟩
  unfold t8_forest_ghost_create
  rw [if_pos hnone]

theorem C25_ghost_none_no_op_witness :
    none_forest.ghost_type = .T8_GHOST_NONE ∧
    ∃ res, t8_forest_ghost_create 8 none_forest (3, 9) example_arrivals = .ok res ∧
      res.forest = none_forest ∧ res.forest.ghosts = none_forest.ghosts ∧
      res.forest.profile = none_forest.profile ∧ res.posted = [] :=
  ⟨rfl, C25_ghost_none_no_op 8 none_forest (3, 9) example_arrivals rfl⟩


/-! ### The empty remote set -/

/-- Discovery on the empty ghost structure changes the remote index only, and
`remote_processes` lists the ranks of its entries. -/
theorem fill_remote_frame (forest : t8_forest_t) (ghost_method : Int)
    (res : fill_remote_result)
    (h : t8_forest_ghost_fill_remote forest ghost_new ghost_method = .ok res) :
    res.ghost = { ghost_new with
      remote_ghosts := res.ghost.remote_ghosts,
      remote_processes := res.ghost.remote_ghosts.map (·.remote_rank) } := by
  refine fill_remote_invariant forest ghost_method
    (fun g => g = { ghost_new with
      remote_ghosts := g.remote_ghosts,
      remote_processes := g.remote_ghosts.map (·.remote_rank) })
    ?_ ghost_new res rfl h
  intro g g' r itree e hg _ _ _ _ hadd
  rcases t8_ghost_add_remote_cases hadd with ⟨_, hg'⟩ | ⟨i, b, _, hb, _, _, hg'⟩
  · rw [hg', hg]
    simp
  · have hmap := map_set_same (fun x : t8_ghost_remote_t => x.remote_rank)
      g.remote_ghosts i b
      { remote_rank := b.remote_rank,
        remote_trees := remote_trees_add forest r itree e b.remote_trees } hb rfl
    rw [hg', hg]
    simp only
    rw [hmap]

/-- C24 (empty remote set): when Discovery on the empty ghost structure of a
committed forest leaves the remote index without an entry, the ghost structure
is the empty one, `t8_forest_ghost_send_start` posts no message and keeps it,
`t8_forest_ghost_receive` returns it whatever messages are waiting (also when
none is), and it holds no ghost tree, no rank offset and the counters 0. -/
theorem C24_empty_remote_set (P : Nat) (forest : t8_forest_t) (ghost_method : Int)
    (res : fill_remote_result) (hc : forest.committed = true)
    (hfill : t8_forest_ghost_fill_remote forest ghost_new ghost_method = .ok res)
    (hempty : res.ghost.remote_ghosts = []) :
    res.ghost.remote_processes = [] ∧
    t8_forest_ghost_send_start P res.ghost = .ok (res.ghost, []) ∧
    (∀ arrivals : List mpi_message,
      t8_forest_ghost_receive P forest res.ghost arrivals = .ok res.ghost) ∧
    res.ghost.ghost_trees = [] ∧ res.ghost.process_offsets = [] ∧
    res.ghost.global_tree_to_ghost_tree = [] ∧
    res.ghost.num_ghosts_elements = 0 ∧ res.ghost.num_remote_elements = 0 := by
  have hframe := fill_remote_frame forest ghost_method res hfill
  rw [hempty] at hframe
  have hnew : res.ghost = ghost_new := hframe
  rw [hnew]
  refine ⟨rfl, rfl, ?_, rfl, rfl, rfl, rfl, rfl⟩
  intro arrivals
  unfold t8_forest_ghost_receive
  rw [hc]
  rfl

theorem C24_empty_remote_set_witness :
    boundary_forest.committed = true ∧
    (∃ res, t8_forest_ghost_fill_remote boundary_forest ghost_new 0 = .ok res ∧
      res.ghost.remote_ghosts = [] ∧
      res.ghost.remote_processes = [] ∧
      t8_forest_ghost_send_start 8 res.ghost = .ok (res.ghost, []) ∧
      (∀ arrivals : List mpi_message,
        t8_forest_ghost_receive 8 boundary_forest res.ghost arrivals =
          .ok res.ghost) ∧
      res.ghost.ghost_trees = [] ∧ res.ghost.process_offsets = [] ∧
      res.ghost.global_tree_to_ghost_tree = [] ∧
      res.ghost.num_ghosts_elements = 0 ∧ res.ghost.num_remote_elements = 0) :=
  ⟨rfl, _, rfl, rfl,
    C24_empty_remote_set 8 boundary_forest 0 _ rfl
      (rfl : t8_forest_ghost_fill_remote boundary_forest ghost_new 0 = .ok _) rfl⟩


/-! ### The read queries -/

/-- The ghost tree at an index within the array. -/
theorem t8_forest_ghost_get_tree_in {forest : t8_forest_t} {ghost : t8_forest_ghost}
    (hc : forest.committed = true) (hg : forest.ghosts = some ghost)
    (hn : ghost.ghost_trees.length < 2 ^ 31) {i : Nat} {t : t8_ghost_tree_t}
    (ht : ghost.ghost_trees[i]? = some t) :
    t8_forest_ghost_get_tree forest (i : Int) = .ok t := by
  have hi : i < ghost.ghost_trees.length := by
    rcases Nat.lt_or_ge i ghost.ghost_trees.length with h | h
    · exact h
    · rw [List.getElem?_eq_none h] at ht
      cases ht
  have hnum : t8_forest_ghost_num_trees forest = (ghost.ghost_trees.length : Int) := by
    simp only [t8_forest_ghost_num_trees, hg]
    exact locidx_of_size_t_small hn
  unfold t8_forest_ghost_get_tree
  rw [hc, hg]
  simp only [T8_ASSERT, bind, Except.bind, if_true]
  rw [hnum]
  have hr : (0 ≤ (i : Int) ∧ (i : Int) < (ghost.ghost_trees.length : Int)) :=
    ⟨Int.ofNat_nonneg i, by exact_mod_cast hi⟩
  simp only [hr, and_self, decide_True, if_true]
  unfold t8_sc_array_index_locidx
  rw [if_neg (by omega), Int.toNat_ofNat, ht]

/-- The range assertion of `t8_forest_ghost_get_tree` fails for an index
outside of the array. -/
theorem t8_forest_ghost_get_tree_out {forest : t8_forest_t}
    {ghost : t8_forest_ghost}
    (hc : forest.committed = true) (hg : forest.ghosts = some ghost)
    (hn : ghost.ghost_trees.length < 2 ^ 31) {i : Int}
    (hi : ¬ (0 ≤ i ∧ i < (ghost.ghost_trees.length : Int))) :
    t8_forest_ghost_get_tree forest i = .error (.assertion 239) := by
  have hnum : t8_forest_ghost_num_trees forest = (ghost.ghost_trees.length : Int) := by
    simp only [t8_forest_ghost_num_trees, hg]
    exact locidx_of_size_t_small hn
  unfold t8_forest_ghost_get_tree
  rw [hc, hg]
  simp only [T8_ASSERT, bind, Except.bind, if_true]
  rw [hnum]
  simp only [hi, decide_False]
  rfl

/-- Without a ghost layer `t8_forest_ghost_get_tree` fails. -/
theorem t8_forest_ghost_get_tree_none {forest : t8_forest_t}
    (hc : forest.committed = true) (hg : forest.ghosts = none) (i : Int) :
    t8_forest_ghost_get_tree forest i = .error (.assertion 237) := by
  unfold t8_forest_ghost_get_tree
  rw [hc, hg]
  rfl

/-- The entry of an array at an index within it. -/
theorem t8_sc_array_index_locidx_in {α : Type} {array : List α} {j : Nat} {x : α}
    (h : array[j]? = some x) : t8_sc_array_index_locidx array (j : Int) = .ok x := by
  unfold t8_sc_array_index_locidx
  rw [if_neg (by omega), Int.toNat_ofNat, h]

/-- The element at an index within a ghost tree. -/
theorem t8_forest_ghost_get_element_in {forest : t8_forest_t}
    {ghost : t8_forest_ghost}
    (hc : forest.committed = true) (hg : forest.ghosts = some ghost)
    (hn : ghost.ghost_trees.length < 2 ^ 31) {i : Nat} {t : t8_ghost_tree_t}
    (ht : ghost.ghost_trees[i]? = some t) (hcount : t.elements.elem_count < 2 ^ 31)
    {j : Nat} {e : t8_element_t} (he : t.elements.elems[j]? = some e) :
    t8_forest_ghost_get_element forest (i : Int) (j : Int) = .ok e := by
  have hj : j < t.elements.elems.length := by
    rcases Nat.lt_or_ge j t.elements.elems.length with h | h
    · exact h
    · rw [List.getElem?_eq_none h] at he
      cases he
  unfold t8_forest_ghost_get_element t8_forest_ghost_tree_num_elements
  rw [hc, t8_forest_ghost_get_tree_in hc hg hn ht]
  simp only [T8_ASSERT, bind, Except.bind, pure, Except.pure, if_true]
  rw [locidx_of_size_t_small hcount]
  have hr : (0 ≤ (j : Int) ∧ (j : Int) < (t.elements.elem_count : Int)) :=
    ⟨Int.ofNat_nonneg j, by unfold sc_array_t.elem_count; exact_mod_cast hj⟩
  simp only [hr, and_self, decide_True, if_true]
  exact t8_sc_array_index_locidx_in he

/-- The range assertion of `t8_forest_ghost_get_element` fails for an element
index outside of the ghost tree. -/
theorem t8_forest_ghost_get_element_out {forest : t8_forest_t}
    {ghost : t8_forest_ghost}
    (hc : forest.committed = true) (hg : forest.ghosts = some ghost)
    (hn : ghost.ghost_trees.length < 2 ^ 31) {i : Nat} {t : t8_ghost_tree_t}
    (ht : ghost.ghost_trees[i]? = some t) (hcount : t.elements.elem_count < 2 ^ 31)
    {j : Int} (hj : ¬ (0 ≤ j ∧ j < (t.elements.elem_count : Int))) :
    t8_forest_ghost_get_element forest (i : Int) j = .error (.assertion 295) := by
  unfold t8_forest_ghost_get_element t8_forest_ghost_tree_num_elements
  rw [hc, t8_forest_ghost_get_tree_in hc hg hn ht]
  simp only [T8_ASSERT, bind, Except.bind, pure, Except.pure, if_true]
  rw [locidx_of_size_t_small hcount]
  simp only [hj, decide_False]
  rfl


/-- C26 (read queries): without a ghost layer `t8_forest_ghost_num_trees`
returns 0.  On a committed forest with a ghost layer of `n` ghost trees (the
counts fit the type `t8_locidx_t`) it returns `n`; for every ghost tree index
`i < n` the queries for the number of elements, the class and the global id
return those of `ghost_trees[i]`, and for every `j` below the number of
elements `t8_forest_ghost_get_element (i, j)` returns the `j`-th element of
`ghost_trees[i]`.  The queries return a value only, the forest with its ghost
layer is an argument that they read. -/
theorem C26_read_queries (forest : t8_forest_t) (ghost : t8_forest_ghost)
    (hc : forest.committed = true) (hg : forest.ghosts = some ghost)
    (hn : ghost.ghost_trees.length < 2 ^ 31)
    (hcount : ∀ t ∈ ghost.ghost_trees, t.elements.elem_count < 2 ^ 31) :
    t8_forest_ghost_num_trees { forest with ghosts := none } = 0 ∧
    t8_forest_ghost_num_trees forest = (ghost.ghost_trees.length : Int) ∧
    ∀ (i : Nat) (t : t8_ghost_tree_t), ghost.ghost_trees[i]? = some t →
      t8_forest_ghost_tree_num_elements forest (i : Int) =
        .ok (t.elements.elem_count : Int) ∧
      t8_forest_ghost_get_tree_class forest (i : Int) = .ok t.eclass ∧
      t8_forest_ghost_get_global_treeid forest (i : Int) = .ok t.global_id ∧
      ∀ (j : Nat) (e : t8_element_t), t.elements.elems[j]? = some e →
        t8_forest_ghost_get_element forest (i : Int) (j : Int) = .ok e := by
  refine ⟨rfl, ?_, ?_⟩
  · simp only [t8_forest_ghost_num_trees, hg]
    exact locidx_of_size_t_small hn
  · intro i t ht
    have htree := t8_forest_ghost_get_tree_in hc hg hn ht
    have hsmall := hcount t (List.mem_iff_getElem?.mpr ⟨_, ht⟩)
    refine ⟨?_, ?_, ?_, ?_⟩
    · unfold t8_forest_ghost_tree_num_elements
      rw [hc, htree]
      simp only [T8_ASSERT, bind, Except.bind, pure, Except.pure, if_true]
      rw [locidx_of_size_t_small hsmall]
    · unfold t8_forest_ghost_get_tree_class
      rw [hc, htree]
      rfl
    · unfold t8_forest_ghost_get_global_treeid
      rw [hc, htree]
      rfl
    · intro j e he
      exact t8_forest_ghost_get_element_in hc hg hn ht hsmall he

theorem C26_read_queries_witness :
    ghost_forest.committed = true ∧
    ghost_forest.ghosts = some example_ghost_layer ∧
    example_ghost_layer.ghost_trees.length < 2 ^ 31 ∧
    (∀ t ∈ example_ghost_layer.ghost_trees, t.elements.elem_count < 2 ^ 31) ∧
    t8_forest_ghost_num_trees { ghost_forest with ghosts := none } = 0 ∧
    t8_forest_ghost_num_trees ghost_forest =
      (example_ghost_layer.ghost_trees.length : Int) ∧
    ∀ (i : Nat) (t : t8_ghost_tree_t),
      example_ghost_layer.ghost_trees[i]? = some t →
      t8_forest_ghost_tree_num_elements ghost_forest (i : Int) =
        .ok (t.elements.elem_count : Int) ∧
      t8_forest_ghost_get_tree_class ghost_forest (i : Int) = .ok t.eclass ∧
      t8_forest_ghost_get_global_treeid ghost_forest (i : Int) = .ok t.global_id ∧
      ∀ (j : Nat) (e : t8_element_t), t.elements.elems[j]? = some e →
        t8_forest_ghost_get_element ghost_forest (i : Int) (j : Int) = .ok e :=
  ⟨rfl, rfl, by decide, by decide,
    C26_read_queries ghost_forest example_ghost_layer rfl rfl (by decide)
      (by decide)⟩

/-- C27 (index contract): on a committed forest with a ghost layer of `n`
ghost trees (the counts fit the type `t8_locidx_t`),
`t8_forest_ghost_get_tree` returns a ghost tree if and only if
`0 <= lghost_tree < n` and otherwise fails at its range assertion;
`t8_forest_ghost_get_element` returns an element if and only if additionally
`0 <= lelement` and `lelement` is below the number of elements of that tree,
and for a ghost tree index in range it otherwise fails at its range assertion.
Without a ghost layer every query for a ghost tree fails at the assertion
`ghost != NULL`, and with zero ghost trees at the range assertion. -/
theorem C27_index_contract (forest : t8_forest_t) (ghost : t8_forest_ghost)
    (hc : forest.committed = true) (hg : forest.ghosts = some ghost)
    (hn : ghost.ghost_trees.length < 2 ^ 31)
    (hcount : ∀ t ∈ ghost.ghost_trees, t.elements.elem_count < 2 ^ 31)
    (lghost_tree lelement : Int) :
    ((∃ t, t8_forest_ghost_get_tree forest lghost_tree = .ok t) ↔
      (0 ≤ lghost_tree ∧ lghost_tree < (ghost.ghost_trees.length : Int))) ∧
    (¬ (0 ≤ lghost_tree ∧ lghost_tree < (ghost.ghost_trees.length : Int)) →
      t8_forest_ghost_get_tree forest lghost_tree = .error (.assertion 239)) ∧
    ((∃ e, t8_forest_ghost_get_element forest lghost_tree lelement = .ok e) ↔
      (0 ≤ lghost_tree ∧ lghost_tree < (ghost.ghost_trees.length : Int)) ∧
      ∃ t, ghost.ghost_trees[lghost_tree.toNat]? = some t ∧
        0 ≤ lelement ∧ lelement < (t.elements.elem_count : Int)) ∧
    (∀ t, 0 ≤ lghost_tree → ghost.ghost_trees[lghost_tree.toNat]? = some t →
      ¬ (0 ≤ lelement ∧ lelement < (t.elements.elem_count : Int)) →
      t8_forest_ghost_get_element forest lghost_tree lelement =
        .error (.assertion 295)) ∧
    (t8_forest_ghost_get_tree { forest with ghosts := none } lghost_tree =
        .error (.assertion 237) ∧
      t8_forest_ghost_tree_num_elements { forest with ghosts := none }
        lghost_tree = .error (.assertion 237) ∧
      t8_forest_ghost_get_tree_class { forest with ghosts := none }
        lghost_tree = .error (.assertion 237) ∧
      t8_forest_ghost_get_global_treeid { forest with ghosts := none }
        lghost_tree = .error (.assertion 237) ∧
      t8_forest_ghost_get_element { forest with ghosts := none }
        lghost_tree lelement = .error (.assertion 237)) ∧
    (ghost.ghost_trees = [] →
      t8_forest_ghost_get_tree forest lghost_tree = .error (.assertion 239) ∧
      t8_forest_ghost_tree_num_elements forest lghost_tree =
        .error (.assertion 239) ∧
      t8_forest_ghost_get_tree_class forest lghost_tree =
        .error (.assertion 239) ∧
      t8_forest_ghost_get_global_treeid forest lghost_tree =
        .error (.assertion 239) ∧
      t8_forest_ghost_get_element forest lghost_tree lelement =
        .error (.assertion 239)) := by
  -- a ghost tree index in range is a position of the array
  have hin : (0 ≤ lghost_tree ∧ lghost_tree < (ghost.ghost_trees.length : Int)) →
      ∃ (i : Nat) (t : t8_ghost_tree_t), lghost_tree = (i : Int) ∧
        ghost.ghost_trees[i]? = some t := by
    intro ⟨h0, h1⟩
    have hi : lghost_tree.toNat < ghost.ghost_trees.length := by omega
    exact ⟨lghost_tree.toNat, ghost.ghost_trees[lghost_tree.toNat],
      (Int.toNat_of_nonneg h0).symm, List.getElem?_eq_getElem hi⟩
  -- what the queries return when `t8_forest_ghost_get_tree` fails
  have hfail : ∀ (f : t8_forest_t) (e : Failure), f.committed = true →
      t8_forest_ghost_get_tree f lghost_tree = .error e →
      t8_forest_ghost_tree_num_elements f lghost_tree = .error e ∧
      t8_forest_ghost_get_tree_class f lghost_tree = .error e ∧
      t8_forest_ghost_get_global_treeid f lghost_tree = .error e ∧
      t8_forest_ghost_get_element f lghost_tree lelement = .error e := by
    intro f e hf he
    refine ⟨?_, ?_, ?_, ?_⟩
    · unfold t8_forest_ghost_tree_num_elements
      rw [hf, he]
      rfl
    · unfold t8_forest_ghost_get_tree_class
      rw [hf, he]
      rfl
    · unfold t8_forest_ghost_get_global_treeid
      rw [hf, he]
      rfl
    · unfold t8_forest_ghost_get_element
      rw [hf, he]
      rfl
  have hout := @t8_forest_ghost_get_tree_out forest ghost hc hg hn lghost_tree
  refine ⟨⟨?_, ?_⟩, hout, ⟨?_, ?_⟩, ?_, ?_, ?_⟩
  · intro ⟨t, ht⟩
    by_contra hr
    rw [hout hr] at ht
    cases ht
  · intro hr
    obtain ⟨i, t, hi, ht⟩ := hin hr
    exact ⟨t, by rw [hi]; exact t8_forest_ghost_get_tree_in hc hg hn ht⟩
  · intro ⟨e, he⟩
    by_cases hr : 0 ≤ lghost_tree ∧ lghost_tree < (ghost.ghost_trees.length : Int)
    · obtain ⟨i, t, hi, ht⟩ := hin hr
      refine ⟨hr, t, by rw [hi, Int.toNat_ofNat]; exact ht, ?_⟩
      by_contra hj
      rw [hi, t8_forest_ghost_get_element_out hc hg hn ht
        (hcount t (List.mem_iff_getElem?.mpr ⟨_, ht⟩)) hj] at he
      cases he
    · rw [(hfail forest _ hc (hout hr)).2.2.2] at he
      cases he
  · intro ⟨hr, t, ht, hj0, hj1⟩
    obtain ⟨i, t', hi, ht'⟩ := hin hr
    rw [hi, Int.toNat_ofNat, ht'] at ht
    cases ht
    have hjn : lelement.toNat < t.elements.elems.length := by
      unfold sc_array_t.elem_count at hj1
      omega
    refine ⟨t.elements.elems[lelement.toNat], ?_⟩
    have := t8_forest_ghost_get_element_in hc hg hn ht'
      (hcount t (List.mem_iff_getElem?.mpr ⟨_, ht'⟩)) (List.getElem?_eq_getElem hjn)
    rw [Int.toNat_of_nonneg hj0] at this
    rw [hi]
    exact this
  · intro t h0 ht hj
    have hi := (Int.toNat_of_nonneg h0).symm
    rw [hi]
    exact t8_forest_ghost_get_element_out hc hg hn ht
      (hcount t (List.mem_iff_getElem?.mpr ⟨_, ht⟩)) hj
  · have hnone := @t8_forest_ghost_get_tree_none { forest with ghosts := none }
      hc rfl lghost_tree
    exact ⟨hnone, hfail _ _ hc hnone⟩
  · intro hnil
    have hr : ¬ (0 ≤ lghost_tree ∧ lghost_tree < (ghost.ghost_trees.length : Int)) := by
      rw [hnil]
      simp only [List.length_nil]
      omega
    exact ⟨hout hr, hfail forest _ hc (hout hr)⟩

theorem C27_index_contract_witness :
    ghost_forest.committed = true ∧
    ghost_forest.ghosts = some example_ghost_layer ∧
    example_ghost_layer.ghost_trees.length < 2 ^ 31 ∧
    (∀ t ∈ example_ghost_layer.ghost_trees, t.elements.elem_count < 2 ^ 31) ∧
    ((∃ t, t8_forest_ghost_get_tree ghost_forest 1 = .ok t) ↔
      ((0 : Int) ≤ 1 ∧ (1 : Int) < (example_ghost_layer.ghost_trees.length : Int))) ∧
    (¬ ((0 : Int) ≤ 1 ∧ (1 : Int) < (example_ghost_layer.ghost_trees.length : Int)) →
      t8_forest_ghost_get_tree ghost_forest 1 = .error (.assertion 239)) ∧
    ((∃ e, t8_forest_ghost_get_element ghost_forest 1 1 = .ok e) ↔
      ((0 : Int) ≤ 1 ∧ (1 : Int) < (example_ghost_layer.ghost_trees.length : Int)) ∧
      ∃ t, example_ghost_layer.ghost_trees[(1 : Int).toNat]? = some t ∧
        (0 : Int) ≤ 1 ∧ (1 : Int) < (t.elements.elem_count : Int)) ∧
    (∀ t, (0 : Int) ≤ 1 →
      example_ghost_layer.ghost_trees[(1 : Int).toNat]? = some t →
      ¬ ((0 : Int) ≤ 1 ∧ (1 : Int) < (t.elements.elem_count : Int)) →
      t8_forest_ghost_get_element ghost_forest 1 1 = .error (.assertion 295)) ∧
    (t8_forest_ghost_get_tree { ghost_forest with ghosts := none } 1 =
        .error (.assertion 237) ∧
      t8_forest_ghost_tree_num_elements { ghost_forest with ghosts := none } 1 =
        .error (.assertion 237) ∧
      t8_forest_ghost_get_tree_class { ghost_forest with ghosts := none } 1 =
        .error (.assertion 237) ∧
      t8_forest_ghost_get_global_treeid { ghost_forest with ghosts := none } 1 =
        .error (.assertion 237) ∧
      t8_forest_ghost_get_element { ghost_forest with ghosts := none } 1 1 =
        .error (.assertion 237)) ∧
    (example_ghost_layer.ghost_trees = [] →
      t8_forest_ghost_get_tree ghost_forest 1 = .error (.assertion 239) ∧
      t8_forest_ghost_tree_num_elements ghost_forest 1 = .error (.assertion 239) ∧
      t8_forest_ghost_get_tree_class ghost_forest 1 = .error (.assertion 239) ∧
      t8_forest_ghost_get_global_treeid ghost_forest 1 = .error (.assertion 239) ∧
      t8_forest_ghost_get_element ghost_forest 1 1 = .error (.assertion 239)) :=
  ⟨rfl, rfl, by decide, by decide,
    C27_index_contract ghost_forest example_ghost_layer rfl rfl (by decide)
      (by decide) 1 1⟩


/-! ### The last reference -/

/-- C28 (destroy leaves the handle dangling): on a handle whose ghost
structure has exactly one reference, `t8_forest_ghost_unref` releases the
structure and returns with the handle of the caller still holding its address,
so that `t8_forest_ghost_destroy` fails at its closing assertion
`*pghost == NULL`.  With two references `t8_forest_ghost_destroy` fails at its
opening assertion. -/
theorem C28_destroy_handle_not_null :
    ghost_new.rc = 1 ∧
    t8_forest_ghost_unref (.live ghost_new) = .ok .freed ∧
    t8_forest_ghost_destroy (.live ghost_new) = .error (.assertion 1528) ∧
    t8_forest_ghost_ref (.live ghost_new) = .ok (.live { ghost_new with rc := 2 }) ∧
    t8_forest_ghost_destroy (.live { ghost_new with rc := 2 }) =
      .error (.assertion 1525) := by
  exact ⟨rfl, rfl, rfl, rfl, rfl⟩


/-! ### Padding and alignment -/

/-- With the padding added, an offset is a multiple of the padding size. -/
theorem T8_ADD_PADDING_dvd {P : Nat} (hP : 0 < P) (x : Nat) :
    P ∣ x + T8_ADD_PADDING P x := by
  unfold T8_ADD_PADDING
  have hlt := Nat.mod_lt x hP
  have hdm := Nat.div_add_mod x P
  by_cases h0 : x % P = 0
  · rw [h0, Nat.sub_zero, Nat.mod_self, Nat.add_zero]
    exact Nat.dvd_of_mod_eq_zero h0
  · rw [Nat.mod_eq_of_lt (by omega)]
    refine ⟨x / P + 1, ?_⟩
    rw [Nat.mul_add, Nat.mul_one]
    omega

/-- The padding is the least number that leads to a multiple of the padding
size. -/
theorem T8_ADD_PADDING_least {P : Nat} (hP : 0 < P) (x k : Nat)
    (h : P ∣ x + k) : T8_ADD_PADDING P x ≤ k := by
  unfold T8_ADD_PADDING
  have hlt := Nat.mod_lt x hP
  by_cases h0 : x % P = 0
  · rw [h0, Nat.sub_zero, Nat.mod_self]
    exact Nat.zero_le k
  · rw [Nat.mod_eq_of_lt (by omega)]
    by_contra hk
    have hk' : k < P - x % P := by omega
    have hmod := Nat.mod_eq_zero_of_dvd h
    rw [Nat.add_mod, Nat.mod_eq_of_lt (by omega : k < P),
      Nat.mod_eq_of_lt (by omega : x % P + k < P)] at hmod
    omega

/-- The offset behind a stored field is a multiple of the padding size. -/
theorem encode_field_aligned {P : Nat} (hP : 0 < P) (a field : List Nat) :
    P ∣ (a ++ encode_field P a.length field).length := by
  rw [List.length_append, encode_field_length, ← Nat.add_assoc]
  exact T8_ADD_PADDING_dvd hP _

/-- The byte count behind a tree is a multiple of the padding size. -/
theorem send_count_tree_dvd {P : Nat} (hP : 0 < P) (off : Nat)
    (rt : t8_ghost_remote_tree_t) : P ∣ send_count_tree P off rt := by
  unfold send_count_tree
  exact T8_ADD_PADDING_dvd hP _

/-- The byte counts of the counting pass are multiples of the padding size. -/
theorem send_count_trees_dvd {P : Nat} (hP : 0 < P)
    (rts : List t8_ghost_remote_tree_t) :
    ∀ off : Nat, P ∣ off → P ∣ rts.foldl (send_count_tree P) off := by
  induction rts with
  | nil => intro off h; exact h
  | cons rt rts ih =>
    intro off _
    rw [List.foldl_cons]
    exact ih _ (send_count_tree_dvd hP off rt)

/-- The bytes stored for two lists of remote trees in a row. -/
theorem encode_trees_append (P : Nat) (xs ys : List t8_ghost_remote_tree_t) :
    ∀ off : Nat,
      (∀ rt ∈ xs, ∀ e ∈ rt.elements.elems, e.length = rt.elements.elem_size) →
      encode_trees P off (xs ++ ys) =
        encode_trees P off xs ++
          encode_trees P (off + (encode_trees P off xs).length) ys := by
  induction xs with
  | nil => intro off _; simp [encode_trees]
  | cons x xs ih =>
    intro off h
    have hx := encode_tree_length P off x (h x (by simp))
    have hih := ih (send_count_tree P off x) (fun rt hrt => h rt (by simp [hrt]))
    show encode_tree P off x ++ encode_trees P (send_count_tree P off x) (xs ++ ys) =
      (encode_tree P off x ++ encode_trees P (send_count_tree P off x) xs) ++
        encode_trees P (off + (encode_tree P off x ++
          encode_trees P (send_count_tree P off x) xs).length) ys
    rw [hih, List.length_append, ← Nat.add_assoc, hx, List.append_assoc]


/-- The fields of a remote tree in a message in which the tree is stored at
the end of the bytes `a`: each field is followed by its padding, it starts at
a multiple of the padding size, and the header and the elements are read back
at these offsets. -/
theorem encode_tree_layout {P : Nat} (hP : 0 < P) (forest : t8_forest_t) (r : Int)
    (a b : List Nat) (rt : t8_ghost_remote_tree_t)
    (hwt : remote_tree_well_typed r rt)
    (hsize : (forest.scheme rt.eclass).t8_element_size = rt.elements.elem_size) :
    ∃ e1 e2 e3 e4 : List Nat,
      a ++ encode_tree P a.length rt ++ b = a ++ e1 ++ e2 ++ e3 ++ e4 ++ b ∧
      e1 = encode_field P a.length
        (bytes_of_sint sizeof_t8_gloidx_t rt.global_id) ∧
      e2 = encode_field P (a ++ e1).length
        (bytes_of_uint sizeof_t8_eclass_t rt.eclass) ∧
      e3 = encode_field P (a ++ e1 ++ e2).length
        (bytes_of_uint sizeof_size_t rt.elements.elem_count) ∧
      e4 = encode_field P (a ++ e1 ++ e2 ++ e3).length rt.elements.array ∧
      P ∣ (a ++ e1).length ∧ P ∣ (a ++ e1 ++ e2).length ∧
      P ∣ (a ++ e1 ++ e2 ++ e3).length ∧
      P ∣ (a ++ e1 ++ e2 ++ e3 ++ e4).length ∧
      parse_tree_header P (a ++ e1 ++ e2 ++ e3 ++ e4 ++ b) a.length =
        .ok { global_id := rt.global_id, eclass := rt.eclass,
              num_elements := rt.elements.elem_count,
              bytes_read := (a ++ e1 ++ e2 ++ e3).length } ∧
      read_bytes (a ++ e1 ++ e2 ++ e3 ++ e4 ++ b) (a ++ e1 ++ e2 ++ e3).length
          (rt.elements.elem_count * (forest.scheme rt.eclass).t8_element_size) =
        .ok rt.elements.array := by
  obtain ⟨h1, h2, h3, h4, helems, _⟩ := hwt
  have harr : rt.elements.array.length =
      rt.elements.elem_count * (forest.scheme rt.eclass).t8_element_size := by
    rw [hsize, Nat.mul_comm]
    exact flatten_length_of_size _ _ helems
  refine ⟨_, _, _, _, ?_, rfl, rfl, rfl, rfl, encode_field_aligned hP _ _,
    encode_field_aligned hP _ _, encode_field_aligned hP _ _,
    encode_field_aligned hP _ _, ?_, ?_⟩
  · simp only [encode_tree, List.length_append, List.append_assoc, Nat.add_assoc]
  · have := parse_tree_header_encoded P a
      (encode_field P (a ++ encode_field P a.length
          (bytes_of_sint sizeof_t8_gloidx_t rt.global_id) ++
        encode_field P (a ++ encode_field P a.length
            (bytes_of_sint sizeof_t8_gloidx_t rt.global_id)).length
          (bytes_of_uint sizeof_t8_eclass_t rt.eclass) ++
        encode_field P (a ++ encode_field P a.length
            (bytes_of_sint sizeof_t8_gloidx_t rt.global_id) ++
          encode_field P (a ++ encode_field P a.length
              (bytes_of_sint sizeof_t8_gloidx_t rt.global_id)).length
            (bytes_of_uint sizeof_t8_eclass_t rt.eclass)).length
          (bytes_of_uint sizeof_size_t rt.elements.elem_count)).length
        rt.elements.array ++ b)
      rt.global_id rt.eclass rt.elements.elem_count h1 h2 h3 h4 _ _ _ rfl rfl rfl
    simp only [List.append_assoc] at this ⊢
    exact this
  · exact read_bytes_field P _ rt.elements.array b _ harr


/-- C30 (field alignment): for a padding size `P > 0`, `T8_ADD_PADDING (x)` is
the least `k` such that `x + k` is a multiple of `P`.  In the message that
`t8_forest_ghost_send_start` builds for an entry of the remote index (values
within their types, trees with different global ids, the receiver knows the
element sizes) the length is a multiple of `P`, and for every remote tree of
the entry the message is `a ++ e1 ++ e2 ++ e3 ++ e4 ++ b`, where `e1`, `e2`,
`e3`, `e4` are the global id, the class, the number of elements and the
elements, each followed by its padding, and each starts at a multiple of `P`;
the tree loop of `t8_forest_ghost_parse_received_message` arrives at this tree
with `bytes_read` equal to the length of `a`, reads the stored header there,
and finds the elements at the offset at which `e4` starts. -/
theorem C30_field_alignment (P : Nat) (hP : 0 < P) (forest : t8_forest_t)
    (remote_entry : t8_ghost_remote_t) (nre : Nat)
    (hwt : ∀ rt ∈ remote_entry.remote_trees,
      remote_tree_well_typed remote_entry.remote_rank rt)
    (hnd : (remote_entry.remote_trees.map (·.global_id)).Nodup)
    (hsize : ∀ rt ∈ remote_entry.remote_trees,
      (forest.scheme rt.eclass).t8_element_size = rt.elements.elem_size) :
    (∀ x : Nat, P ∣ x + T8_ADD_PADDING P x ∧
      ∀ k : Nat, P ∣ x + k → T8_ADD_PADDING P x ≤ k) ∧
    ∃ (info : t8_ghost_mpi_send_info_t) (n : Nat),
      send_start_buffer P remote_entry.remote_rank remote_entry nre =
        .ok (info, n) ∧
      P ∣ info.buffer.length ∧
      ∀ (i : Nat) (rt : t8_ghost_remote_tree_t),
        remote_entry.remote_trees[i]? = some rt →
        ∃ (a e1 e2 e3 e4 b : List Nat) (st : parse_state),
          info.buffer = a ++ e1 ++ e2 ++ e3 ++ e4 ++ b ∧
          e1 = encode_field P a.length
            (bytes_of_sint sizeof_t8_gloidx_t rt.global_id) ∧
          e2 = encode_field P (a ++ e1).length
            (bytes_of_uint sizeof_t8_eclass_t rt.eclass) ∧
          e3 = encode_field P (a ++ e1 ++ e2).length
            (bytes_of_uint sizeof_size_t rt.elements.elem_count) ∧
          e4 = encode_field P (a ++ e1 ++ e2 ++ e3).length rt.elements.array ∧
          P ∣ a.length ∧ P ∣ (a ++ e1).length ∧ P ∣ (a ++ e1 ++ e2).length ∧
          P ∣ (a ++ e1 ++ e2 ++ e3).length ∧
          P ∣ (a ++ e1 ++ e2 ++ e3 ++ e4).length ∧
          parse_trees P forest info.buffer i 0
            { ghost := ghost_new,
              bytes_read := 0 + sizeof_size_t + T8_ADD_PADDING P (0 + sizeof_size_t),
              first_tree_index := none, first_element_index := none } = .ok st ∧
          st.bytes_read = a.length ∧
          parse_tree_header P info.buffer st.bytes_read =
            .ok { global_id := rt.global_id, eclass := rt.eclass,
                  num_elements := rt.elements.elem_count,
                  bytes_read := (a ++ e1 ++ e2 ++ e3).length } ∧
          read_bytes info.buffer (a ++ e1 ++ e2 ++ e3).length
              (rt.elements.elem_count * (forest.scheme rt.eclass).t8_element_size) =
            .ok rt.elements.array := by
  have hel : ∀ rt ∈ remote_entry.remote_trees, ∀ e ∈ rt.elements.elems,
      e.length = rt.elements.elem_size := fun rt hrt => (hwt rt hrt).2.2.2.2.1
  have hbase : P ∣ 0 + sizeof_size_t + T8_ADD_PADDING P (0 + sizeof_size_t) :=
    T8_ADD_PADDING_dvd hP _
  refine ⟨fun x => ⟨T8_ADD_PADDING_dvd hP x, fun k => T8_ADD_PADDING_least hP x k⟩,
    _, _, send_start_buffer_ok P remote_entry nre hwt, ?_, ?_⟩
  · show P ∣ (encode_message P remote_entry.remote_trees).length
    rw [encode_message_length P _ hel]
    exact send_count_trees_dvd hP _ _ hbase
  · intro i rt hi
    show ∃ (a e1 e2 e3 e4 b : List Nat) (st : parse_state),
      encode_message P remote_entry.remote_trees = a ++ e1 ++ e2 ++ e3 ++ e4 ++ b ∧ _
    have hlt : i < remote_entry.remote_trees.length := by
      rcases Nat.lt_or_ge i remote_entry.remote_trees.length with h | h
      · exact h
      · rw [List.getElem?_eq_none h] at hi
        cases hi
    have hget : remote_entry.remote_trees[i] = rt := by
      rw [List.getElem?_eq_getElem hlt] at hi
      exact Option.some.inj hi
    have hsplit : remote_entry.remote_trees =
        remote_entry.remote_trees.take i ++
          rt :: remote_entry.remote_trees.drop (i + 1) := by
      rw [← hget, ← List.drop_eq_getElem_cons hlt, List.take_append_drop]
    have hpre_mem : ∀ x ∈ remote_entry.remote_trees.take i,
        x ∈ remote_entry.remote_trees := fun x hx => List.mem_of_mem_take hx
    have hrt_mem : rt ∈ remote_entry.remote_trees := List.mem_iff_getElem?.mpr ⟨i, hi⟩
    have hprelen : (remote_entry.remote_trees.take i).length = i := by
      rw [List.length_take]
      omega
    unfold encode_message
    simp only []
    generalize he0 : encode_field P 0
      (bytes_of_uint sizeof_size_t remote_entry.remote_trees.length) = e0
    have he0len : e0.length =
        0 + sizeof_size_t + T8_ADD_PADDING P (0 + sizeof_size_t) := by
      rw [← he0, encode_field_length, bytes_of_uint_length, Nat.zero_add]
    generalize hpre : remote_entry.remote_trees.take i = pre at hsplit hpre_mem hprelen
    generalize hpost : remote_entry.remote_trees.drop (i + 1) = post at hsplit
    have henc : encode_trees P e0.length remote_entry.remote_trees =
        encode_trees P e0.length pre ++
          (encode_tree P (e0 ++ encode_trees P e0.length pre).length rt ++
            encode_trees P
              (send_count_tree P (e0 ++ encode_trees P e0.length pre).length rt)
              post) := by
      rw [hsplit, encode_trees_append P pre (rt :: post) e0.length
        (fun x hx => hel x (hpre_mem x hx)), List.length_append]
      rfl
    rw [henc]
    have halign : P ∣ (e0 ++ encode_trees P e0.length pre).length := by
      rw [List.length_append, encode_trees_length P pre e0.length
        (fun x hx => hel x (hpre_mem x hx))]
      exact send_count_trees_dvd hP _ _ (by rw [he0len]; exact hbase)
    obtain ⟨e1, e2, e3, e4, hbuf, h1, h2, h3, h4, a1, a2, a3, a4, hhead, hread⟩ :=
      encode_tree_layout hP forest remote_entry.remote_rank
        (e0 ++ encode_trees P e0.length pre)
        (encode_trees P
          (send_count_tree P (e0 ++ encode_trees P e0.length pre).length rt) post)
        rt (hwt rt hrt_mem) (hsize rt hrt_mem)
    have hmsg : e0 ++ (encode_trees P e0.length pre ++
        (encode_tree P (e0 ++ encode_trees P e0.length pre).length rt ++
          encode_trees P
            (send_count_tree P (e0 ++ encode_trees P e0.length pre).length rt)
            post)) =
        (e0 ++ encode_trees P e0.length pre) ++ e1 ++ e2 ++ e3 ++ e4 ++
          encode_trees P
            (send_count_tree P (e0 ++ encode_trees P e0.length pre).length rt)
            post := by
      rw [← hbuf]
      simp only [List.append_assoc]
    rw [hmsg]
    -- the tree loop of the parse routine up to this tree
    have hrec := read_tree_records_encoded P forest remote_entry.remote_rank pre e0
      (e1 ++ e2 ++ e3 ++ e4 ++ encode_trees P
        (send_count_tree P (e0 ++ encode_trees P e0.length pre).length rt) post)
      (fun x hx => hwt x (hpre_mem x hx)) (fun x hx => hsize x (hpre_mem x hx))
    have hndpre : ((pre.map record_of_remote_tree).map (·.global_id)).Nodup := by
      have hsub : (pre.map (·.global_id)).Sublist
          (remote_entry.remote_trees.map (·.global_id)) := by
        rw [← hpre]
        exact (List.take_sublist i _).map _
      have := hnd.sublist hsub
      simpa [List.map_map, record_of_remote_tree, Function.comp_def] using this
    obtain ⟨hacc, _⟩ := foldl_ghost_add_record_fresh forest
      (pre.map record_of_remote_tree) ghost_new ghost_index_ok_new
      (by intro t ht; simp [ghost_new] at ht) hndpre
    rw [hprelen] at hrec
    have hrec' : read_tree_records P forest
        ((e0 ++ encode_trees P e0.length pre) ++ e1 ++ e2 ++ e3 ++ e4 ++
          encode_trees P
            (send_count_tree P (e0 ++ encode_trees P e0.length pre).length rt)
            post) i e0.length =
        .ok (pre.map record_of_remote_tree,
          (e0 ++ encode_trees P e0.length pre).length) := by
      rw [← hrec]
      simp only [List.append_assoc]
    obtain ⟨fti, fei, hparse⟩ := parse_trees_forward i 0
      { ghost := ghost_new, bytes_read := e0.length,
        first_tree_index := none, first_element_index := none }
      (pre.map record_of_remote_tree) _ hrec' hacc
    have hst : parse_state.mk ghost_new
        (0 + sizeof_size_t + T8_ADD_PADDING P (0 + sizeof_size_t)) none none =
        parse_state.mk ghost_new e0.length none none := by
      rw [he0len]
    rw [hst]
    exact ⟨_, e1, e2, e3, e4, _, _, rfl, h1, h2, h3, h4, halign, a1, a2, a3, a4,
      hparse, rfl, hhead, hread⟩

theorem C30_field_alignment_witness :
    0 < 8 ∧
    (∀ rt ∈ example_remote_entry.remote_trees,
      remote_tree_well_typed example_remote_entry.remote_rank rt) ∧
    (example_remote_entry.remote_trees.map (·.global_id)).Nodup ∧
    (∀ rt ∈ example_remote_entry.remote_trees,
      (example_forest.scheme rt.eclass).t8_element_size = rt.elements.elem_size) ∧
    (∀ x : Nat, 8 ∣ x + T8_ADD_PADDING 8 x ∧
      ∀ k : Nat, 8 ∣ x + k → T8_ADD_PADDING 8 x ≤ k) ∧
    ∃ (info : t8_ghost_mpi_send_info_t) (n : Nat),
      send_start_buffer 8 example_remote_entry.remote_rank example_remote_entry 0 =
        .ok (info, n) ∧
      8 ∣ info.buffer.length ∧
      ∀ (i : Nat) (rt : t8_ghost_remote_tree_t),
        example_remote_entry.remote_trees[i]? = some rt →
        ∃ (a e1 e2 e3 e4 b : List Nat) (st : parse_state),
          info.buffer = a ++ e1 ++ e2 ++ e3 ++ e4 ++ b ∧
          e1 = encode_field 8 a.length
            (bytes_of_sint sizeof_t8_gloidx_t rt.global_id) ∧
          e2 = encode_field 8 (a ++ e1).length
            (bytes_of_uint sizeof_t8_eclass_t rt.eclass) ∧
          e3 = encode_field 8 (a ++ e1 ++ e2).length
            (bytes_of_uint sizeof_size_t rt.elements.elem_count) ∧
          e4 = encode_field 8 (a ++ e1 ++ e2 ++ e3).length rt.elements.array ∧
          8 ∣ a.length ∧ 8 ∣ (a ++ e1).length ∧ 8 ∣ (a ++ e1 ++ e2).length ∧
          8 ∣ (a ++ e1 ++ e2 ++ e3).length ∧
          8 ∣ (a ++ e1 ++ e2 ++ e3 ++ e4).length ∧
          parse_trees 8 example_forest info.buffer i 0
            { ghost := ghost_new,
              bytes_read := 0 + sizeof_size_t + T8_ADD_PADDING 8 (0 + sizeof_size_t),
              first_tree_index := none, first_element_index := none } = .ok st ∧
          st.bytes_read = a.length ∧
          parse_tree_header 8 info.buffer st.bytes_read =
            .ok { global_id := rt.global_id, eclass := rt.eclass,
                  num_elements := rt.elements.elem_count,
                  bytes_read := (a ++ e1 ++ e2 ++ e3).length } ∧
          read_bytes info.buffer (a ++ e1 ++ e2 ++ e3).length
              (rt.elements.elem_count *
                (example_forest.scheme rt.eclass).t8_element_size) =
            .ok rt.elements.array :=
  have hwt : ∀ rt ∈ example_remote_entry.remote_trees,
      remote_tree_well_typed example_remote_entry.remote_rank rt := by
    intro rt hrt
    simp only [example_remote_entry, List.mem_cons, List.mem_singleton,
      List.not_mem_nil, or_false] at hrt
    rcases hrt with h | h <;> subst h <;>
      simp [remote_tree_well_typed, sc_array_t.elem_count, example_remote_entry]
  have hsize : ∀ rt ∈ example_remote_entry.remote_trees,
      (example_forest.scheme rt.eclass).t8_element_size =
        rt.elements.elem_size := by
    intro rt hrt
    simp only [example_remote_entry, List.mem_cons, List.mem_singleton,
      List.not_mem_nil, or_false] at hrt
    rcases hrt with h | h <;> subst h <;> rfl
  ⟨by decide, hwt, by decide, hsize,
    C30_field_alignment 8 (by decide) example_forest example_remote_entry 0 hwt
      (by decide) hsize⟩


/-! ### The tail of a bucket -/

/-- A call of `t8_ghost_add_remote` for a local tree whose global id is not
that of the last remote tree of the entry pushes a remote tree with the global
id of the local tree. -/
theorem remote_trees_add_push (forest : t8_forest_t) (r : Int) (t : Nat)
    (e : t8_element_t) :
    ∃ T : t8_ghost_remote_tree_t,
      T.global_id = forest.first_local_tree_id + (t : Int) ∧
      ∀ trees : List t8_ghost_remote_tree_t,
        (∀ last, trees.getLast? = some last →
          last.global_id ≠ forest.first_local_tree_id + (t : Int)) →
        remote_trees_add forest r t e trees = trees ++ [T] := by
  refine ⟨add_remote_element (forest.scheme (forest.tree_class t))
    (t8_ghost_init_remote_tree forest (forest.first_local_tree_id + (t : Int)) r
      (forest.tree_class t)) e, ?_, ?_⟩
  · unfold add_remote_element
    split
    · rfl
    · dsimp only
      split <;> rfl
  · intro trees h
    unfold remote_trees_add
    cases hl : trees.getLast? with
    | none =>
      rw [List.getLast?_eq_none_iff.mp hl]
      rfl
    | some last =>
      simp only []
      rw [if_pos (h last hl)]

/-- C38 (tail-only tree lookup): three calls of `t8_ghost_add_remote` for one
rank on the empty ghost structure, for the local trees `t1`, `t2` and `t1`
again with `t1 != t2`, run to the end and leave one entry for the rank whose
remote trees carry the global ids of `t1`, `t2` and `t1`: the third call
compares the global id with that of the last remote tree only, so that the
entry ends up with two remote trees of the same global id. -/
theorem C38_tail_only_lookup (forest : t8_forest_t) (r : Int) (t1 t2 : Nat)
    (e1 e2 e3 : t8_element_t) (hne : t1 ≠ t2) :
    ∃ g1 g2 g3 b,
      t8_ghost_add_remote forest ghost_new r t1 e1 = .ok g1 ∧
      t8_ghost_add_remote forest g1 r t2 e2 = .ok g2 ∧
      t8_ghost_add_remote forest g2 r t1 e3 = .ok g3 ∧
      g3.remote_ghosts = [b] ∧ b.remote_rank = r ∧
      b.remote_trees.map (·.global_id) =
        [forest.first_local_tree_id + (t1 : Int),
         forest.first_local_tree_id + (t2 : Int),
         forest.first_local_tree_id + (t1 : Int)] := by
  obtain ⟨T1, hT1, hadd1⟩ := remote_trees_add_push forest r t1 e1
  obtain ⟨T2, hT2, hadd2⟩ := remote_trees_add_push forest r t2 e2
  obtain ⟨T3, hT3, hadd3⟩ := remote_trees_add_push forest r t1 e3
  have hlook : ∀ trees : List t8_ghost_remote_tree_t,
      sc_hash_array_lookup [{ remote_rank := r, remote_trees := trees }] r = some 0 := by
    intro trees
    simp [sc_hash_array_lookup]
  have h1 : t8_ghost_add_remote forest ghost_new r t1 e1 =
      .ok { ghost_new with
            remote_ghosts := [{ remote_rank := r, remote_trees := [T1] }],
            remote_processes := [r] } := by
    rw [@t8_ghost_add_remote_new forest ghost_new r t1 e1 rfl,
      hadd1 [] (by intro last h; cases h)]
    rfl
  have h2 : t8_ghost_add_remote forest
      { ghost_new with
        remote_ghosts := [{ remote_rank := r, remote_trees := [T1] }],
        remote_processes := [r] } r t2 e2 =
      .ok { ghost_new with
            remote_ghosts := [{ remote_rank := r, remote_trees := [T1, T2] }],
            remote_processes := [r] } := by
    have hpush := hadd2 [T1] (by
      intro last h
      simp only [List.getLast?_singleton, Option.some.injEq] at h
      rw [← h, hT1]
      omega)
    rw [t8_ghost_add_remote_old (b := { remote_rank := r, remote_trees := [T1] })
      t2 e2 (hlook [T1]) rfl (by simp)]
    dsimp only
    rw [hpush]
    rfl
  have h3 : t8_ghost_add_remote forest
      { ghost_new with
        remote_ghosts := [{ remote_rank := r, remote_trees := [T1, T2] }],
        remote_processes := [r] } r t1 e3 =
      .ok { ghost_new with
            remote_ghosts := [{ remote_rank := r, remote_trees := [T1, T2, T3] }],
            remote_processes := [r] } := by
    have hpush := hadd3 [T1, T2] (by
      intro last h
      have hl : [T1, T2].getLast? = some T2 := rfl
      rw [hl] at h
      cases h
      rw [hT2]
      omega)
    rw [t8_ghost_add_remote_old (b := { remote_rank := r, remote_trees := [T1, T2] })
      t1 e3 (hlook [T1, T2]) rfl (by simp)]
    dsimp only
    rw [hpush]
    rfl
  exact ⟨_, _, _, _, h1, h2, h3, rfl, rfl, by simp [hT1, hT2, hT3]⟩

theorem C38_tail_only_lookup_witness :
    (0 : Nat) ≠ 1 ∧
    ∃ g1 g2 g3 b,
      t8_ghost_add_remote example_forest ghost_new 1 0 [1, 0, 7] = .ok g1 ∧
      t8_ghost_add_remote example_forest g1 1 1 [2, 4, 9] = .ok g2 ∧
      t8_ghost_add_remote example_forest g2 1 0 [1, 1, 7] = .ok g3 ∧
      g3.remote_ghosts = [b] ∧ b.remote_rank = 1 ∧
      b.remote_trees.map (·.global_id) =
        [example_forest.first_local_tree_id + ((0 : Nat) : Int),
         example_forest.first_local_tree_id + ((1 : Nat) : Int),
         example_forest.first_local_tree_id + ((0 : Nat) : Int)] :=
  ⟨by decide, C38_tail_only_lookup example_forest 1 0 1 [1, 0, 7] [2, 4, 9]
    [1, 1, 7] (by decide)⟩


/-! ### The tree count of a message -/

/-- C39, a count with the sign bit set: the message of 8 bytes whose tree
count is `2 ^ 31` is parsed without failure and without a tree record, while
the count reduced modulo `2 ^ 32` as a signed value is `-2 ^ 31`. -/
theorem C39_negative_count_counterexample :
    read_size_t example_message_wide 0 = .ok (2 ^ 31) ∧
    2 ^ 31 - 1 < 2 ^ 31 ∧
    locidx_of_size_t (2 ^ 31) = -(2 : Int) ^ 31 ∧
    message_records 8 example_forest example_message_wide = .ok [] ∧
    (∃ g, t8_forest_ghost_parse_received_message 8 example_forest ghost_new 3
        example_message_wide 8 = .ok g ∧ g.ghost_trees = []) ∧
    ((([] : List tree_record).length : Nat) : Int) ≠ locidx_of_size_t (2 ^ 31) := by
  refine ⟨rfl, by decide, rfl, rfl, ⟨_, rfl, rfl⟩, ?_⟩
  have h : locidx_of_size_t (2 ^ 31) = -(2 : Int) ^ 31 := rfl
  rw [h]
  decide

/-- C39 (tree-count narrowing): a call of
`t8_forest_ghost_parse_received_message` that runs to the end has read the
tree count `count` of the message and parsed the tree records `rs` of the
message; their number is `count` when `count <= 2^31 - 1`; otherwise it is the
count reduced modulo `2^32` as a signed value when that value is positive, and
zero when that value is zero or negative. -/
theorem C39_tree_count_narrowing (P : Nat) (forest : t8_forest_t)
    (g g' : t8_forest_ghost) (r : Int) (buf : List Nat) (n : Int)
    (h : t8_forest_ghost_parse_received_message P forest g r buf n = .ok g') :
    ∃ (count : Nat) (rs : List tree_record) (fti fei : Option Nat),
      read_size_t buf 0 = .ok count ∧
      message_records P forest buf = .ok rs ∧
      g' = { rs.foldl (ghost_add_record forest) g with
             process_offsets := g.process_offsets ++
               [{ mpirank := r, tree_index := fti, first_element := fei }] } ∧
      locidx_of_size_t count =
        (if count % 2 ^ 32 < 2 ^ 31 then ((count % 2 ^ 32 : Nat) : Int)
         else ((count % 2 ^ 32 : Nat) : Int) - (2 : Int) ^ 32) ∧
      (count ≤ 2 ^ 31 - 1 → rs.length = count) ∧
      (2 ^ 31 - 1 < count → 0 < locidx_of_size_t count →
        (rs.length : Int) = locidx_of_size_t count) ∧
      (2 ^ 31 - 1 < count → locidx_of_size_t count ≤ 0 → rs.length = 0) := by
  obtain ⟨rs, fti, fei, hrs, _, hg⟩ := parse_received_message_ok h
  unfold message_records at hrs
  cases hc : read_size_t buf 0 with
  | error e => rw [hc] at hrs; cases hrs
  | ok count =>
    rw [hc] at hrs
    simp only [] at hrs
    cases hr : read_tree_records P forest buf (locidx_of_size_t count).toNat
        (0 + sizeof_size_t + T8_ADD_PADDING P (0 + sizeof_size_t)) with
    | error e => rw [hr] at hrs; cases hrs
    | ok res =>
      rw [hr] at hrs
      simp only [Except.ok.injEq] at hrs
      have hlen := read_tree_records_length _ _ res.1 res.2 hr
      rw [hrs] at hlen
      have hrec : message_records P forest buf = .ok rs := by
        unfold message_records
        rw [hc]
        simp only []
        rw [hr, ← hrs]
      refine ⟨count, rs, fti, fei, rfl, hrec, hg, rfl, ?_, ?_, ?_⟩
      · intro hsmall
        rw [hlen, locidx_of_size_t_small (by omega)]
        rfl
      · intro _ hpos
        rw [hlen]
        omega
      · intro _ hneg
        rw [hlen]
        omega

theorem C39_tree_count_narrowing_witness :
    ∃ g', t8_forest_ghost_parse_received_message 8 example_forest ghost_new 1
        example_message_a 72 = .ok g' ∧
    ∃ (count : Nat) (rs : List tree_record) (fti fei : Option Nat),
      read_size_t example_message_a 0 = .ok count ∧
      message_records 8 example_forest example_message_a = .ok rs ∧
      g' = { rs.foldl (ghost_add_record example_forest) ghost_new with
             process_offsets := ghost_new.process_offsets ++
               [{ mpirank := 1, tree_index := fti, first_element := fei }] } ∧
      locidx_of_size_t count =
        (if count % 2 ^ 32 < 2 ^ 31 then ((count % 2 ^ 32 : Nat) : Int)
         else ((count % 2 ^ 32 : Nat) : Int) - (2 : Int) ^ 32) ∧
      (count ≤ 2 ^ 31 - 1 → rs.length = count) ∧
      (2 ^ 31 - 1 < count → 0 < locidx_of_size_t count →
        (rs.length : Int) = locidx_of_size_t count) ∧
      (2 ^ 31 - 1 < count → locidx_of_size_t count ≤ 0 → rs.length = 0) :=
  ⟨_, rfl, C39_tree_count_narrowing 8 example_forest ghost_new _ 1
    example_message_a 72
    (rfl : t8_forest_ghost_parse_received_message 8 example_forest ghost_new 1
      example_message_a 72 = .ok _)⟩


/-! ### The counter of shipped elements -/

/-- C34 (shipped counter): for a ghost structure whose array of remote ranks
lists the ranks of the entries of the remote index without repetition, whose
remote trees hold values that fit their types and whose counter
`num_remote_elements` is 0, `t8_forest_ghost_send_start` runs to the end;
afterwards `num_remote_elements` is the number of elements of all remote trees
of all entries, and one message is posted for every remote rank, in the order
of `remote_processes`: it is addressed to that rank and its buffer is the
encoded list of remote trees of the entry of that rank. -/
theorem C34_shipped_counter (P : Nat) (g : t8_forest_ghost)
    (hr : remote_ranks_ok g) (hwt : remote_index_well_typed g)
    (h0 : g.num_remote_elements = 0) :
    ∃ (g' : t8_forest_ghost) (msgs : List t8_ghost_mpi_send_info_t),
      t8_forest_ghost_send_start P g = .ok (g', msgs) ∧
      g'.num_remote_elements =
        (g.remote_ghosts.map fun b =>
          (b.remote_trees.map (·.elements.elem_count)).sum).sum ∧
      g'.remote_ghosts = g.remote_ghosts ∧
      msgs.length = g.remote_processes.length ∧
      ∀ (i : Nat) (rank : Int), g.remote_processes[i]? = some rank →
        ∃ (b : t8_ghost_remote_t) (msg : t8_ghost_mpi_send_info_t),
          msgs[i]? = some msg ∧ msg.recv_rank = rank ∧
          g.remote_ghosts[i]? = some b ∧ b.remote_rank = rank ∧
          (∀ b' ∈ g.remote_ghosts, b'.remote_rank = rank → b' = b) ∧
          msg.buffer = encode_message P b.remote_trees ∧
          msg.num_bytes = msg.buffer.length := by
  refine ⟨_, _, send_start_ok P g hr hwt, ?_, rfl, ?_, ?_⟩
  · simp only [h0, Nat.zero_add]
    rfl
  · rw [hr.1, List.length_map, List.length_map]
  · intro i rank hi
    rw [hr.1, List.getElem?_map] at hi
    cases hb : g.remote_ghosts[i]? with
    | none => rw [hb] at hi; cases hi
    | some b =>
      rw [hb] at hi
      simp only [Option.map_some', Option.some.injEq] at hi
      have hbm : b ∈ g.remote_ghosts := List.mem_iff_getElem?.mpr ⟨i, hb⟩
      refine ⟨b, message_of P b, ?_, hi, rfl, hi, ?_, rfl, ?_⟩
      · rw [List.getElem?_map, hb]
        rfl
      · intro b' hb' hrank
        obtain ⟨j, hj⟩ := List.mem_iff_getElem?.mp hb'
        have hnd := hr.2
        have hij : j = i := by
          have hjl : j < (g.remote_ghosts.map (·.remote_rank)).length := by
            rw [List.length_map]
            exact (List.getElem?_eq_some_iff.mp hj).1
          have hil : i < (g.remote_ghosts.map (·.remote_rank)).length := by
            rw [List.length_map]
            exact (List.getElem?_eq_some_iff.mp hb).1
          have e1 : (g.remote_ghosts.map (·.remote_rank))[j] = rank := by
            have : (g.remote_ghosts.map (·.remote_rank))[j]? = some rank := by
              rw [List.getElem?_map, hj]
              exact congrArg some hrank
            rw [List.getElem?_eq_getElem hjl] at this
            exact Option.some.inj this
          have e2 : (g.remote_ghosts.map (·.remote_rank))[i] = rank := by
            have : (g.remote_ghosts.map (·.remote_rank))[i]? = some rank := by
              rw [List.getElem?_map, hb]
              exact congrArg some hi
            rw [List.getElem?_eq_getElem hil] at this
            exact Option.some.inj this
          exact (List.Nodup.getElem_inj_iff hnd).mp (e1.trans e2.symm)
        rw [hij, hb] at hj
        exact (Option.some.inj hj).symm
      · show send_count_bytes P b.remote_trees = (encode_message P b.remote_trees).length
        rw [encode_message_length P b.remote_trees
          (fun rt hrt => (hwt b hbm rt hrt).2.2.2.2.1)]

theorem C34_shipped_counter_witness :
    remote_ranks_ok example_ghost_remote ∧
    remote_index_well_typed example_ghost_remote ∧
    example_ghost_remote.num_remote_elements = 0 ∧
    ∃ (g' : t8_forest_ghost) (msgs : List t8_ghost_mpi_send_info_t),
      t8_forest_ghost_send_start 8 example_ghost_remote = .ok (g', msgs) ∧
      g'.num_remote_elements =
        (example_ghost_remote.remote_ghosts.map fun b =>
          (b.remote_trees.map (·.elements.elem_count)).sum).sum ∧
      g'.remote_ghosts = example_ghost_remote.remote_ghosts ∧
      msgs.length = example_ghost_remote.remote_processes.length ∧
      ∀ (i : Nat) (rank : Int),
        example_ghost_remote.remote_processes[i]? = some rank →
        ∃ (b : t8_ghost_remote_t) (msg : t8_ghost_mpi_send_info_t),
          msgs[i]? = some msg ∧ msg.recv_rank = rank ∧
          example_ghost_remote.remote_ghosts[i]? = some b ∧ b.remote_rank = rank ∧
          (∀ b' ∈ example_ghost_remote.remote_ghosts,
            b'.remote_rank = rank → b' = b) ∧
          msg.buffer = encode_message 8 b.remote_trees ∧
          msg.num_bytes = msg.buffer.length :=
  ⟨example_ghost_remote_ranks, example_ghost_remote_well_typed, rfl,
    C34_shipped_counter 8 example_ghost_remote example_ghost_remote_ranks
      example_ghost_remote_well_typed rfl⟩


/-! ### The counter of received elements -/

theorem sum_map_modify {α : Type} (c : α → Nat) (f : α → α) (k : Nat)
    (hf : ∀ x, c (f x) = c x + k) :
    ∀ (l : List α) (i : Nat) (x : α), l[i]? = some x →
      ((List.modify f i l).map c).sum = (l.map c).sum + k := by
  intro l
  induction l with
  | nil => intro i x h; simp at h
  | cons a l ih =>
    intro i x h
    cases i with
    | zero =>
      simp only [List.modify_zero_cons, List.map_cons, List.sum_cons, hf]
      omega
    | succ i =>
      simp only [List.getElem?_cons_succ] at h
      simp only [List.modify_succ_cons, List.map_cons, List.sum_cons, ih i x h]
      omega

/-- One round of the tree loop keeps the counter of received elements equal to
the number of elements of the ghost trees. -/
theorem ghost_add_record_counter_ok (forest : t8_forest_t) {g : t8_forest_ghost}
    (hok : ghost_index_ok g) (hc : ghost_counter_ok g) (r : tree_record) :
    ghost_counter_ok (ghost_add_record forest g r) := by
  unfold ghost_counter_ok at hc ⊢
  unfold ghost_add_record
  cases hl : gtree_hash_lookup g.global_tree_to_ghost_tree r.global_id with
  | none =>
    simp only [List.map_append, List.sum_append, List.map_cons, List.map_nil,
      List.sum_cons, List.sum_nil, sc_array_t.elem_count, hc]
    rfl
  | some found =>
    obtain ⟨t, ht, _⟩ := ghost_index_lookup hok hl
    simp only []
    rw [sum_map_modify (fun t : t8_ghost_tree_t => t.elements.elem_count)
      (ghost_tree_append r.elems) r.elems.length
      (by intro x; simp [ghost_tree_append, sc_array_t.elem_count])
      g.ghost_trees found.index t ht, hc]

theorem foldl_ghost_add_record_counter_ok (forest : t8_forest_t)
    (rs : List tree_record) : ∀ {g : t8_forest_ghost}, ghost_index_ok g →
    ghost_counter_ok g → ghost_counter_ok (rs.foldl (ghost_add_record forest) g) := by
  induction rs with
  | nil => intro g _ hc; exact hc
  | cons r rs ih =>
    intro g hok hc
    exact ih (ghost_add_record_index_ok forest hok r)
      (ghost_add_record_counter_ok forest hok hc r)

/-- C37 (received counter): after any sequence of calls of
`t8_forest_ghost_parse_received_message` that run to the end on the ghost
structure that `t8_forest_ghost_init` builds, `num_ghosts_elements` is the sum
of the numbers of elements of all ghost trees. -/
theorem C37_received_counter (P : Nat) (forest : t8_forest_t)
    (ghost_type : t8_ghost_type_t) (ghost0 g : t8_forest_ghost)
    (calls : List parse_call)
    (hinit : t8_forest_ghost_init ghost_type = .ok ghost0)
    (h : parse_calls P forest ghost0 calls = .ok g) :
    g.num_ghosts_elements = (g.ghost_trees.map (·.elements.elem_count)).sum := by
  have h0 : ghost0 = ghost_new := by
    unfold t8_forest_ghost_init at hinit
    cases ghost_type <;> first | (cases hinit; rfl) | cases hinit
  subst h0
  have hinv : ghost_index_ok g ∧ ghost_counter_ok g := by
    refine foldlM_preserves _ (fun g => ghost_index_ok g ∧ ghost_counter_ok g)
      ?_ calls ghost_new g ⟨ghost_index_ok_new, rfl⟩ h
    intro s c s' hs hr
    obtain ⟨rs, fti, fei, _, _, hg⟩ := parse_received_message_ok hr
    refine ⟨parse_received_message_index_ok hs.1 hr, ?_⟩
    have := foldl_ghost_add_record_counter_ok forest rs hs.1 hs.2
    rw [hg]
    exact this
  exact hinv.2

theorem C37_received_counter_witness :
    t8_forest_ghost_init .T8_GHOST_FACES = .ok ghost_new ∧
    parse_calls 8 example_forest ghost_new example_parse_calls =
      .ok example_ghost_parsed ∧
    example_ghost_parsed.num_ghosts_elements =
      (example_ghost_parsed.ghost_trees.map (·.elements.elem_count)).sum :=
  ⟨rfl, rfl, C37_received_counter 8 example_forest .T8_GHOST_FACES ghost_new
    example_ghost_parsed example_parse_calls rfl rfl⟩

/-! ### The final clean-up of Discovery -/

/-- C40 (clean-up without allocation): on a process without local trees, and
on one whose local trees hold no element, `t8_forest_ghost_fill_remote` with
the half neighbour method visits no face, so the scratch buffer is never
allocated and `neigh_scheme` is never assigned; the final clean-up still calls
`t8_element_destroy` through the scheme pointer and releases the buffer, and
the run stops there without a result. -/
theorem C40_cleanup_on_unallocated :
    t8_forest_ghost_fill_remote empty_forest ghost_new 0 =
      .error .invalid_pointer ∧
    t8_forest_ghost_fill_remote hollow_forest ghost_new 0 =
      .error .invalid_pointer ∧
    (∃ st, (List.range empty_forest.num_local_trees).foldlM
        (fill_remote_tree empty_forest 0) (fill_remote_start ghost_new) = .ok st ∧
      st.neigh_scheme = none ∧ st.half_neighbors_owner = none) ∧
    (∃ st, (List.range hollow_forest.num_local_trees).foldlM
        (fill_remote_tree hollow_forest 0) (fill_remote_start ghost_new) = .ok st ∧
      st.neigh_scheme = none ∧ st.half_neighbors_owner = none) :=
  ⟨rfl, rfl, ⟨_, rfl, rfl, rfl⟩, ⟨_, rfl, rfl, rfl⟩⟩


/-! ### Progress of the receive loop -/

/-- The loop that parses the messages in order of their rank changes neither
the flags nor the counter of received messages. -/
theorem receive_parse_loop_frame {σ : Type}
    (parse : σ → Int → List Nat → Int → Except Failure σ) (ranks : List Int) :
    ∀ (k p : Nat) (st st' : receive_state σ),
      receive_parse_loop parse ranks k p st = .ok st' →
      st'.received_messages = st.received_messages ∧
      st'.received_flag = st.received_flag := by
  intro k
  induction k with
  | zero =>
    intro p st st' h
    simp only [receive_parse_loop, Except.ok.injEq] at h
    subst h
    exact ⟨rfl, rfl⟩
  | succ k ih =>
    intro p st st' h
    simp only [receive_parse_loop] at h
    split at h
    · cases h
    · split at h
      · split at h
        · split at h
          · cases h
          · obtain ⟨h1, h2⟩ := ih _ _ _ h
            exact ⟨h1, h2⟩
        · cases h
      · cases h
        exact ⟨rfl, rfl⟩

/-- One round of the receive loop that is followed by a run to the end: one
more message is counted, and the round does not depend on the messages that
follow. -/
theorem receive_loop_step {σ : Type}
    (parse : σ → Int → List Nat → Int → Except Failure σ)
    (ranks : List Int) (table : List t8_recv_list_entry_t) (n : Nat)
    (st st' : receive_state σ) (m : mpi_message) (todo : List mpi_message)
    (hlt : st.received_messages < n)
    (h : receive_loop parse ranks table n st (m :: todo) = .ok st') :
    ∃ st1 : receive_state σ,
      st1.received_messages = st.received_messages + 1 ∧
      st1.received_flag.length = st.received_flag.length ∧
      ∀ todo2, receive_loop parse ranks table n st (m :: todo2) =
        receive_loop parse ranks table n st1 todo2 := by
  simp only [receive_loop, hlt, if_true] at h
  cases hfind : table.find? (fun e => decide (e.rank = m.MPI_SOURCE)) with
  | none => rw [hfind] at h; cases h
  | some found =>
    rw [hfind] at h
    simp only [] at h
    cases hflag : st.received_flag[found.pos_in_remote_processes]? with
    | none => rw [hflag] at h; cases h
    | some flag =>
      rw [hflag] at h
      simp only [] at h
      by_cases hf : flag ≠ 0
      · rw [if_pos hf] at h
        cases h
      · rw [if_neg hf] at h
        by_cases hl : ¬ (st.last_rank_parsed < (found.pos_in_remote_processes : Int))
        · rw [if_pos hl] at h
          cases h
        · rw [if_neg hl] at h
          cases hp : receive_parse_loop parse ranks
              (n - (st.last_rank_parsed + 1).toNat) (st.last_rank_parsed + 1).toNat
              { st with
                buffer := st.buffer.set found.pos_in_remote_processes m.bytes,
                recv_bytes := st.recv_bytes.set found.pos_in_remote_processes
                  (m.bytes.length : Int),
                received_flag := st.received_flag.set found.pos_in_remote_processes 1,
                received_messages := st.received_messages + 1 } with
          | error e => rw [hp] at h; cases h
          | ok st1 =>
            obtain ⟨h1, h2⟩ := receive_parse_loop_frame parse ranks _ _ _ _ hp
            refine ⟨st1, h1, by rw [h2]; simp, ?_⟩
            intro todo2
            simp only [receive_loop, hlt, if_true, hfind, hflag]
            rw [if_neg hf, if_neg hl, hp]

/-- A run of the receive loop to the end counts `num_remotes` messages and
does not look at the messages that follow. -/
theorem receive_loop_count {σ : Type}
    (parse : σ → Int → List Nat → Int → Except Failure σ)
    (ranks : List Int) (table : List t8_recv_list_entry_t) (n : Nat) :
    ∀ (todo : List mpi_message) (st st' : receive_state σ),
      st.received_messages ≤ n →
      receive_loop parse ranks table n st todo = .ok st' →
      st'.received_messages = n ∧
      st'.received_flag.length = st.received_flag.length ∧
      n ≤ st.received_messages + todo.length ∧
      ∀ later, receive_loop parse ranks table n st (todo ++ later) = .ok st' := by
  intro todo
  induction todo with
  | nil =>
    intro st st' hle h
    simp only [receive_loop] at h
    split at h
    · cases h
    · rename_i hge
      cases h
      refine ⟨by omega, rfl, by simp only [List.length_nil]; omega, ?_⟩
      intro later
      cases later with
      | nil => simp only [List.append_nil, receive_loop, hge, if_false]
      | cons a l => simp only [List.nil_append, receive_loop, hge, if_false]
  | cons m todo ih =>
    intro st st' hle h
    by_cases hlt : st.received_messages < n
    · obtain ⟨st1, h1, h2, h3⟩ := receive_loop_step parse ranks table n st st' m todo
        hlt h
      rw [h3 todo] at h
      obtain ⟨i1, i2, i3, i4⟩ := ih st1 st' (by omega) h
      refine ⟨i1, by rw [i2, h2], by simp only [List.length_cons]; omega, ?_⟩
      intro later
      rw [List.cons_append, h3 (todo ++ later)]
      exact i4 later
    · simp only [receive_loop, hlt, if_false, Except.ok.injEq] at h
      subst h
      refine ⟨by omega, rfl, by omega, ?_⟩
      intro later
      simp only [List.cons_append, receive_loop, hlt, if_false]


/-- What a call of the body of `t8_forest_ghost_receive` that returns has done
when there are remote ranks: the lookup table was built, the receive loop ran
to the end, and the closing assertions held. -/
theorem ghost_receive_with_ok {σ : Type}
    (parse : σ → Int → List Nat → Int → Except Failure σ)
    (remote_processes : List Int) (ghost g : σ) (arrivals : List mpi_message)
    (hnd : remote_processes.Nodup)
    (h : ghost_receive_with parse remote_processes ghost arrivals = .ok g) :
    recv_list_entries_build 0 (remote_processes.insertionSort (· ≤ ·)) [] =
      .ok (recv_list_entries_from 0 (remote_processes.insertionSort (· ≤ ·))) ∧
    ∃ st, receive_loop parse (remote_processes.insertionSort (· ≤ ·))
        (recv_list_entries_from 0 (remote_processes.insertionSort (· ≤ ·)))
        remote_processes.length (receive_start remote_processes.length ghost)
        arrivals = .ok st ∧
      st.received_messages = remote_processes.length ∧
      remote_processes.length ≤ arrivals.length ∧
      (∀ later, receive_loop parse (remote_processes.insertionSort (· ≤ ·))
        (recv_list_entries_from 0 (remote_processes.insertionSort (· ≤ ·)))
        remote_processes.length (receive_start remote_processes.length ghost)
        (arrivals ++ later) = .ok st) ∧
      (remote_processes ≠ [] →
        st.received_flag = List.replicate remote_processes.length 1 ∧
        st.last_rank_parsed = (remote_processes.length : Int) - 1 ∧
        st.ghost = g) := by
  have hsp := List.perm_insertionSort (· ≤ ·) remote_processes
  have hndS : (remote_processes.insertionSort (· ≤ ·)).Nodup :=
    (hsp.nodup_iff).mpr hnd
  have hbuild := recv_list_entries_build_ok
    (remote_processes.insertionSort (· ≤ ·)) 0 [] hndS (by intro r _; rfl)
  simp only [List.nil_append] at hbuild
  refine ⟨hbuild, ?_⟩
  unfold ghost_receive_with at h
  by_cases h0 : remote_processes.length = 0
  · have hnil : remote_processes = [] := List.length_eq_zero.mp h0
    subst hnil
    have hstop : ∀ todo : List mpi_message,
        receive_loop parse (([] : List Int).insertionSort (· ≤ ·))
          (recv_list_entries_from 0 (([] : List Int).insertionSort (· ≤ ·)))
          ([] : List Int).length (receive_start ([] : List Int).length ghost) todo =
          .ok (receive_start 0 ghost) := by
      intro todo
      cases todo with
      | nil => rfl
      | cons a l => rfl
    refine ⟨receive_start 0 ghost, hstop arrivals, rfl, Nat.zero_le _, ?_, ?_⟩
    · intro later
      exact hstop (arrivals ++ later)
    · intro hne
      exact absurd rfl hne
  · simp only [h0, if_false] at h
    rw [hbuild] at h
    simp only [] at h
    cases hloop : receive_loop parse (remote_processes.insertionSort (· ≤ ·))
        (recv_list_entries_from 0 (remote_processes.insertionSort (· ≤ ·)))
        remote_processes.length (receive_start remote_processes.length ghost)
        arrivals with
    | error e =>
      unfold receive_start at hloop
      rw [hloop] at h
      cases h
    | ok st =>
      obtain ⟨c1, c2, c3, c4⟩ := receive_loop_count parse _ _ _ arrivals
        (receive_start remote_processes.length ghost) st (Nat.zero_le _) hloop
      refine ⟨st, rfl, c1, by simpa [receive_start] using c3, c4, ?_⟩
      intro _
      unfold receive_start at hloop
      rw [hloop] at h
      simp only [] at h
      split at h
      · cases h
      · rename_i hany
        split at h
        · cases h
        · rename_i hlast
          simp only [Except.ok.injEq] at h
          refine ⟨?_, by simpa using hlast, h⟩
          rw [List.eq_replicate_iff]
          refine ⟨by rw [c2]; simp [receive_start], ?_⟩
          intro b hb
          by_contra hne
          exact hany (List.any_eq_true.mpr ⟨b, hb, by simpa using hne⟩)


/-- C31 (receive loop progress): on a committed forest, with a list of remote
ranks without duplicates whose messages arrive in any order,
`t8_forest_ghost_receive` does what parsing the messages in the order of the
sorted ranks does, so that it fails only when the parse routine does.  When it
returns and there are remote ranks, the lookup table was built and the receive
loop ran to the end: it received `num_remotes` messages, which are all the
arrivals, would not look at a further message, and on exit every flag is 1,
`last_rank_parsed == num_remotes - 1`, and the ghost structure is the one
returned. -/
theorem C31_receive_loop_progress (P : Nat) (forest : t8_forest_t)
    (ghost0 : t8_forest_ghost) (arrivals : List mpi_message)
    (hc : forest.committed = true) (hnd : ghost0.remote_processes.Nodup)
    (hperm : (arrivals.map (·.MPI_SOURCE)).Perm ghost0.remote_processes) :
    t8_forest_ghost_receive P forest ghost0 arrivals =
      parse_in_order
        (fun g recv_rank buffer recv_bytes =>
          t8_forest_ghost_parse_received_message P forest g recv_rank buffer
            recv_bytes)
        arrivals (ghost0.remote_processes.insertionSort (· ≤ ·))
        { ghost0 with
          remote_processes := ghost0.remote_processes.insertionSort (· ≤ ·) } ∧
    ∀ g, t8_forest_ghost_receive P forest ghost0 arrivals = .ok g →
      recv_list_entries_build 0 (ghost0.remote_processes.insertionSort (· ≤ ·)) [] =
        .ok (recv_list_entries_from 0
          (ghost0.remote_processes.insertionSort (· ≤ ·))) ∧
      arrivals.length = ghost0.remote_processes.length ∧
      ∃ st, receive_loop
          (fun g recv_rank buffer recv_bytes =>
            t8_forest_ghost_parse_received_message P forest g recv_rank buffer
              recv_bytes)
          (ghost0.remote_processes.insertionSort (· ≤ ·))
          (recv_list_entries_from 0 (ghost0.remote_processes.insertionSort (· ≤ ·)))
          ghost0.remote_processes.length
          (receive_start ghost0.remote_processes.length
            { ghost0 with
              remote_processes := ghost0.remote_processes.insertionSort (· ≤ ·) })
          arrivals = .ok st ∧
        st.received_messages = ghost0.remote_processes.length ∧
        (∀ later, receive_loop
          (fun g recv_rank buffer recv_bytes =>
            t8_forest_ghost_parse_received_message P forest g recv_rank buffer
              recv_bytes)
          (ghost0.remote_processes.insertionSort (· ≤ ·))
          (recv_list_entries_from 0 (ghost0.remote_processes.insertionSort (· ≤ ·)))
          ghost0.remote_processes.length
          (receive_start ghost0.remote_processes.length
            { ghost0 with
              remote_processes := ghost0.remote_processes.insertionSort (· ≤ ·) })
          (arrivals ++ later) = .ok st) ∧
        (ghost0.remote_processes ≠ [] →
          st.received_flag = List.replicate ghost0.remote_processes.length 1 ∧
          st.last_rank_parsed = (ghost0.remote_processes.length : Int) - 1 ∧
          st.ghost = g) := by
  constructor
  · unfold t8_forest_ghost_receive
    rw [hc]
    exact ghost_receive_with_in_order _ _ _ _ hnd hperm
  · intro g hg
    obtain ⟨hb, st, h1, h2, _, h4, h5⟩ := ghost_receive_with_ok _ _ _ _ _ hnd
      (t8_forest_ghost_receive_ok hg).2
    have hlen : arrivals.length = ghost0.remote_processes.length := by
      have := hperm.length_eq
      simpa using this
    exact ⟨hb, hlen, st, h1, h2, h4, h5⟩

theorem C31_receive_loop_progress_witness :
    example_forest.committed = true ∧
    example_ghost_waiting.remote_processes.Nodup ∧
    (example_arrivals.map (·.MPI_SOURCE)).Perm example_ghost_waiting.remote_processes ∧
    (∃ g, t8_forest_ghost_receive 8 example_forest example_ghost_waiting
      example_arrivals = .ok g) ∧
    t8_forest_ghost_receive 8 example_forest example_ghost_waiting example_arrivals =
      parse_in_order
        (fun g recv_rank buffer recv_bytes =>
          t8_forest_ghost_parse_received_message 8 example_forest g recv_rank buffer
            recv_bytes)
        example_arrivals (example_ghost_waiting.remote_processes.insertionSort (· ≤ ·))
        { example_ghost_waiting with
          remote_processes :=
            example_ghost_waiting.remote_processes.insertionSort (· ≤ ·) } ∧
    ∀ g, t8_forest_ghost_receive 8 example_forest example_ghost_waiting
        example_arrivals = .ok g →
      recv_list_entries_build 0
          (example_ghost_waiting.remote_processes.insertionSort (· ≤ ·)) [] =
        .ok (recv_list_entries_from 0
          (example_ghost_waiting.remote_processes.insertionSort (· ≤ ·))) ∧
      example_arrivals.length = example_ghost_waiting.remote_processes.length ∧
      ∃ st, receive_loop
          (fun g recv_rank buffer recv_bytes =>
            t8_forest_ghost_parse_received_message 8 example_forest g recv_rank
              buffer recv_bytes)
          (example_ghost_waiting.remote_processes.insertionSort (· ≤ ·))
          (recv_list_entries_from 0
            (example_ghost_waiting.remote_processes.insertionSort (· ≤ ·)))
          example_ghost_waiting.remote_processes.length
          (receive_start example_ghost_waiting.remote_processes.length
            { example_ghost_waiting with
              remote_processes :=
                example_ghost_waiting.remote_processes.insertionSort (· ≤ ·) })
          example_arrivals = .ok st ∧
        st.received_messages = example_ghost_waiting.remote_processes.length ∧
        (∀ later, receive_loop
          (fun g recv_rank buffer recv_bytes =>
            t8_forest_ghost_parse_received_message 8 example_forest g recv_rank
              buffer recv_bytes)
          (example_ghost_waiting.remote_processes.insertionSort (· ≤ ·))
          (recv_list_entries_from 0
            (example_ghost_waiting.remote_processes.insertionSort (· ≤ ·)))
          example_ghost_waiting.remote_processes.length
          (receive_start example_ghost_waiting.remote_processes.length
            { example_ghost_waiting with
              remote_processes :=
                example_ghost_waiting.remote_processes.insertionSort (· ≤ ·) })
          (example_arrivals ++ later) = .ok st) ∧
        (example_ghost_waiting.remote_processes ≠ [] →
          st.received_flag =
            List.replicate example_ghost_waiting.remote_processes.length 1 ∧
          st.last_rank_parsed =
            (example_ghost_waiting.remote_processes.length : Int) - 1 ∧
          st.ghost = g) :=
  ⟨rfl, by decide, by decide, ⟨_, rfl⟩,
    C31_receive_loop_progress 8 example_forest example_ghost_waiting example_arrivals
      rfl (by decide) (by decide)⟩


/-! ### Unexpected senders -/

/-- C35 (unexpected sender): on a committed forest with remote ranks without
duplicates, a first message from a rank that is not a remote rank makes
`t8_forest_ghost_receive` fail at the assertion of the sender lookup.  In
every state of the receive loop that still waits for a message (the messages
`received` have arrived and the first `p` ranks are parsed), a message from a
rank that is not a remote rank makes the loop fail at that assertion, and a
message from a remote rank whose message has arrived already makes it fail at
the assertion `received_flag[proc_pos] == 0`; the loop fails before the parse
routine is called for the message. -/
theorem C35_unexpected_sender (P : Nat) (forest : t8_forest_t)
    (ghost : t8_forest_ghost) (m : mpi_message) (rest : List mpi_message)
    (hc : forest.committed = true) (hnd : ghost.remote_processes.Nodup)
    (hne : ghost.remote_processes ≠ []) :
    (m.MPI_SOURCE ∉ ghost.remote_processes →
      t8_forest_ghost_receive P forest ghost (m :: rest) =
        .error (.assertion 1231)) ∧
    ∀ (st : receive_state t8_forest_ghost) (arrivals received : List mpi_message)
        (p : Nat),
      receive_inv (ghost.remote_processes.insertionSort (· ≤ ·)) arrivals received
        p st →
      st.received_messages < ghost.remote_processes.length →
      (m.MPI_SOURCE ∉ ghost.remote_processes →
        receive_loop
          (fun g recv_rank buffer recv_bytes =>
            t8_forest_ghost_parse_received_message P forest g recv_rank buffer
              recv_bytes)
          (ghost.remote_processes.insertionSort (· ≤ ·))
          (recv_list_entries_from 0 (ghost.remote_processes.insertionSort (· ≤ ·)))
          ghost.remote_processes.length st (m :: rest) =
          .error (.assertion 1231)) ∧
      (m.MPI_SOURCE ∈ ghost.remote_processes →
        m.MPI_SOURCE ∈ received.map (·.MPI_SOURCE) →
        receive_loop
          (fun g recv_rank buffer recv_bytes =>
            t8_forest_ghost_parse_received_message P forest g recv_rank buffer
              recv_bytes)
          (ghost.remote_processes.insertionSort (· ≤ ·))
          (recv_list_entries_from 0 (ghost.remote_processes.insertionSort (· ≤ ·)))
          ghost.remote_processes.length st (m :: rest) =
          .error (.assertion 1242)) := by
  have hsp := List.perm_insertionSort (· ≤ ·) ghost.remote_processes
  have hndS : (ghost.remote_processes.insertionSort (· ≤ ·)).Nodup :=
    (hsp.nodup_iff).mpr hnd
  have hstranger : ∀ st : receive_state t8_forest_ghost,
      st.received_messages < ghost.remote_processes.length →
      m.MPI_SOURCE ∉ ghost.remote_processes →
      receive_loop
        (fun g recv_rank buffer recv_bytes =>
          t8_forest_ghost_parse_received_message P forest g recv_rank buffer
            recv_bytes)
        (ghost.remote_processes.insertionSort (· ≤ ·))
        (recv_list_entries_from 0 (ghost.remote_processes.insertionSort (· ≤ ·)))
        ghost.remote_processes.length st (m :: rest) =
        .error (.assertion 1231) := by
    intro st hlt hnot
    have hnotS : m.MPI_SOURCE ∉ ghost.remote_processes.insertionSort (· ≤ ·) :=
      fun hin => hnot (hsp.mem_iff.mp hin)
    simp only [receive_loop, hlt, if_true,
      recv_list_entries_from_find_none _ _ hnotS 0]
  refine ⟨?_, ?_⟩
  · intro hnot
    have h0 : ghost.remote_processes.length ≠ 0 := by
      intro h
      exact hne (List.length_eq_zero.mp h)
    have hbuild := recv_list_entries_build_ok
      (ghost.remote_processes.insertionSort (· ≤ ·)) 0 [] hndS (by intro r _; rfl)
    simp only [List.nil_append] at hbuild
    have hloop := hstranger
      (receive_start ghost.remote_processes.length
        { ghost with
          remote_processes := ghost.remote_processes.insertionSort (· ≤ ·) })
      (by show 0 < ghost.remote_processes.length; omega) hnot
    unfold receive_start at hloop
    unfold t8_forest_ghost_receive
    rw [hc]
    show ghost_receive_with _ _ _ _ = _
    unfold ghost_receive_with
    simp only [h0, if_false]
    rw [hbuild]
    simp only []
    rw [hloop]
  · intro st arrivals received p hinv hlt
    refine ⟨hstranger st hlt, ?_⟩
    intro hin hrec
    obtain ⟨_, _, _, _, _, _, hrank, _, _⟩ := hinv
    obtain ⟨i, hi⟩ := List.mem_iff_getElem?.mp (hsp.mem_iff.mpr hin)
    have hfind := recv_list_entries_from_find _ hndS 0 i _ hi
    have hflag := ((hrank i _ hi).1 hrec).1
    rw [Nat.zero_add] at hfind
    simp only [receive_loop, hlt, if_true, hfind, hflag]
    rw [if_pos (by decide)]

theorem example_receive_stranger :
    t8_forest_ghost_receive 8 example_forest example_ghost_waiting
      [example_stranger] = .error (.assertion 1231) := rfl

theorem example_receive_twice :
    t8_forest_ghost_receive 8 example_forest example_ghost_waiting
      [{ MPI_SOURCE := 3, bytes := example_message_c },
       { MPI_SOURCE := 3, bytes := example_message_c }] =
      .error (.assertion 1242) := rfl

theorem C35_unexpected_sender_witness :
    example_forest.committed = true ∧
    example_ghost_waiting.remote_processes.Nodup ∧
    example_ghost_waiting.remote_processes ≠ [] ∧
    ((example_stranger.MPI_SOURCE ∉ example_ghost_waiting.remote_processes →
      t8_forest_ghost_receive 8 example_forest example_ghost_waiting (example_stranger :: []) =
        .error (.assertion 1231)) ∧
    ∀ (st : receive_state t8_forest_ghost) (arrivals received : List mpi_message)
        (p : Nat),
      receive_inv (example_ghost_waiting.remote_processes.insertionSort (· ≤ ·)) arrivals received
        p st →
      st.received_messages < example_ghost_waiting.remote_processes.length →
      (example_stranger.MPI_SOURCE ∉ example_ghost_waiting.remote_processes →
        receive_loop
          (fun g recv_rank buffer recv_bytes =>
            t8_forest_ghost_parse_received_message 8 example_forest g recv_rank buffer
              recv_bytes)
          (example_ghost_waiting.remote_processes.insertionSort (· ≤ ·))
          (recv_list_entries_from 0 (example_ghost_waiting.remote_processes.insertionSort (· ≤ ·)))
          example_ghost_waiting.remote_processes.length st (example_stranger :: []) =
          .error (.assertion 1231)) ∧
      (example_stranger.MPI_SOURCE ∈ example_ghost_waiting.remote_processes →
        example_stranger.MPI_SOURCE ∈ received.map (·.MPI_SOURCE) →
        receive_loop
          (fun g recv_rank buffer recv_bytes =>
            t8_forest_ghost_parse_received_message 8 example_forest g recv_rank buffer
              recv_bytes)
          (example_ghost_waiting.remote_processes.insertionSort (· ≤ ·))
          (recv_list_entries_from 0 (example_ghost_waiting.remote_processes.insertionSort (· ≤ ·)))
          example_ghost_waiting.remote_processes.length st (example_stranger :: []) =
          .error (.assertion 1242))) :=
  ⟨rfl, by decide, by decide,
    C35_unexpected_sender 8 example_forest example_ghost_waiting example_stranger []
      rfl (by decide) (by decide)⟩


/-! ### Mismatches found by the parse routine -/

/-- What a round of the tree loop does with a tree whose global id is already
in the hash table, for a ghost structure whose hash table is in order. -/
theorem parse_tree_found {P : Nat} {forest : t8_forest_t} {buf : List Nat}
    {itree : Nat} {st : parse_state} {header : tree_header}
    {found : t8_ghost_gtree_hash_t} {t : t8_ghost_tree_t}
    (hh : parse_tree_header P buf st.bytes_read = .ok header)
    (hl : gtree_hash_lookup st.ghost.global_tree_to_ghost_tree header.global_id =
      some found)
    (ht : st.ghost.ghost_trees[found.index]? = some t)
    (hg : t.global_id = header.global_id) :
    (t.eclass ≠ header.eclass →
      parse_tree P forest buf itree st = .error (.assertion 1044)) ∧
    (t.eclass = header.eclass →
      t.elements.elem_size ≠ (forest.scheme header.eclass).t8_element_size →
      parse_tree P forest buf itree st = .error (.assertion 1046)) ∧
    (t.eclass = header.eclass →
      t.elements.elem_size = (forest.scheme header.eclass).t8_element_size →
      ∀ e, parse_tree P forest buf itree st = .error e → e = .out_of_bounds) := by
  have hf := (gtree_hash_lookup_some hl).2
  refine ⟨?_, ?_, ?_⟩
  · intro hc
    unfold parse_tree
    simp only [bind, Except.bind, pure, Except.pure, hh, hl, T8_ASSERT, hf, ht, hc,
      decide_True, decide_False, if_true]
    rfl
  · intro hc hs
    unfold parse_tree
    simp only [bind, Except.bind, pure, Except.pure, hh, hl, T8_ASSERT, hf, ht, hc,
      hg, hs, decide_True, decide_False, if_true]
    rfl
  · intro hc hs e he
    unfold parse_tree at he
    simp only [bind, Except.bind, pure, Except.pure, hh, hl, T8_ASSERT, hf, ht, hc,
      hg, hs, decide_True, if_true] at he
    split at he
    · rename_i e1 h1
      cases he
      exact read_bytes_error h1
    · cases he


/-- A round of the tree loop on a ghost structure whose hash table is in order
never fails at an assertion that compares the global ids. -/
theorem parse_tree_gid_error {P : Nat} {forest : t8_forest_t} {buf : List Nat}
    {itree : Nat} {st : parse_state} {e : Failure}
    (hok : ghost_index_ok st.ghost)
    (h : parse_tree P forest buf itree st = .error e) :
    e ≠ .assertion 1040 ∧ e ≠ .assertion 1045 := by
  cases hh : parse_tree_header P buf st.bytes_read with
  | error e0 =>
    have he : e = .out_of_bounds := by
      unfold parse_tree at h
      simp only [bind, Except.bind, hh, Except.error.injEq] at h
      rw [← h]
      exact parse_tree_header_error hh
    rw [he]
    exact ⟨by simp, by simp⟩
  | ok header =>
    cases hl : gtree_hash_lookup st.ghost.global_tree_to_ghost_tree header.global_id with
    | none =>
      have he : e = .out_of_bounds := by
        unfold parse_tree at h
        simp only [bind, Except.bind, pure, Except.pure, hh, hl] at h
        split at h
        · rename_i e1 h1
          cases h
          exact read_bytes_error h1
        · cases h
      rw [he]
      exact ⟨by simp, by simp⟩
    | some found =>
      obtain ⟨t, ht, hg⟩ := ghost_index_lookup hok hl
      obtain ⟨h1, h2, h3⟩ := @parse_tree_found P forest buf itree st header found t
        hh hl ht hg
      by_cases hc : t.eclass = header.eclass
      · by_cases hs : t.elements.elem_size = (forest.scheme header.eclass).t8_element_size
        · rw [h3 hc hs e h]
          exact ⟨by simp, by simp⟩
        · rw [h2 hc hs] at h
          cases h
          exact ⟨by simp, by simp⟩
      · rw [h1 hc] at h
        cases h
        exact ⟨by simp, by simp⟩

theorem parse_trees_gid_error {P : Nat} {forest : t8_forest_t} {buf : List Nat} :
    ∀ (n itree : Nat) (st : parse_state) (e : Failure),
      ghost_index_ok st.ghost →
      parse_trees P forest buf n itree st = .error e →
      e ≠ .assertion 1040 ∧ e ≠ .assertion 1045 := by
  intro n
  induction n with
  | zero => intro itree st e _ h; simp [parse_trees] at h
  | succ n ih =>
    intro itree st e hok h
    simp only [parse_trees] at h
    cases h1 : parse_tree P forest buf itree st with
    | error e1 =>
      rw [h1] at h
      cases h
      exact parse_tree_gid_error hok h1
    | ok st1 =>
      rw [h1] at h
      obtain ⟨r, _, hg, _⟩ := parse_tree_ok h1
      exact ih _ st1 e (by rw [hg]; exact ghost_add_record_index_ok forest hok r) h

/-- The call of the parse routine fails when its tree loop does. -/
theorem parse_received_message_trees_error {P : Nat} {forest : t8_forest_t}
    {g : t8_forest_ghost} {r : Int} {buf : List Nat} {n : Int} {count : Nat}
    {e : Failure} (hc : read_size_t buf 0 = .ok count)
    (h : parse_trees P forest buf (locidx_of_size_t count).toNat 0
      { ghost := g,
        bytes_read := 0 + sizeof_size_t + T8_ADD_PADDING P (0 + sizeof_size_t),
        first_tree_index := none, first_element_index := none } = .error e) :
    t8_forest_ghost_parse_received_message P forest g r buf n = .error e := by
  unfold t8_forest_ghost_parse_received_message
  simp only [bind, Except.bind, hc]
  rw [h]

/-- The errors of the parse routine on a ghost structure whose hash table is in
order. -/
theorem parse_received_message_gid_error {P : Nat} {forest : t8_forest_t}
    {g : t8_forest_ghost} {r : Int} {buf : List Nat} {n : Int} {e : Failure}
    (hok : ghost_index_ok g)
    (h : t8_forest_ghost_parse_received_message P forest g r buf n = .error e) :
    e ≠ .assertion 1040 ∧ e ≠ .assertion 1045 := by
  unfold t8_forest_ghost_parse_received_message at h
  simp only [bind, Except.bind, pure, Except.pure, throw, throwThe,
    MonadExceptOf.throw] at h
  split at h
  · rename_i e1 h1
    cases h
    rw [read_map_error h1]
    exact ⟨by simp, by simp⟩
  · split at h
    · rename_i e1 h1
      cases h
      exact parse_trees_gid_error _ _ _ _ hok h1
    · split at h
      · rename_i e1 h1
        cases h
        rw [T8_ASSERT_error h1]
        exact ⟨by simp, by simp⟩
      · split at h
        · cases h
          exact ⟨by simp, by simp⟩
        · cases h


/-- C36 (mismatch on parse): on a ghost structure whose hash table of global
ids is in order, a call of `t8_forest_ghost_parse_received_message` never
fails at one of the two assertions that compare the stored global id with the
received one.  When a round of the tree loop reads the header of a tree whose
global id is in the hash table, a stored ghost tree of another class makes the
round fail at the class assertion, and one of the same class with another
element size makes it fail at the size assertion; for the first tree of a
message the call itself fails so.  When the sender is already in
`process_offsets`, the call never runs to the end, and it fails at the closing
assertion once the tree loop and the length check have passed. -/
theorem C36_parse_mismatch (P : Nat) (forest : t8_forest_t) (g : t8_forest_ghost)
    (r : Int) (buf : List Nat) (n : Int) (hok : ghost_index_ok g) :
    t8_forest_ghost_parse_received_message P forest g r buf n ≠
      .error (.assertion 1040) ∧
    t8_forest_ghost_parse_received_message P forest g r buf n ≠
      .error (.assertion 1045) ∧
    (∀ (itree : Nat) (st : parse_state) (header : tree_header)
        (found : t8_ghost_gtree_hash_t) (t : t8_ghost_tree_t),
      ghost_index_ok st.ghost →
      parse_tree_header P buf st.bytes_read = .ok header →
      gtree_hash_lookup st.ghost.global_tree_to_ghost_tree header.global_id =
        some found →
      st.ghost.ghost_trees[found.index]? = some t →
      (t.eclass ≠ header.eclass →
        parse_tree P forest buf itree st = .error (.assertion 1044)) ∧
      (t.eclass = header.eclass →
        t.elements.elem_size ≠ (forest.scheme header.eclass).t8_element_size →
        parse_tree P forest buf itree st = .error (.assertion 1046))) ∧
    (∀ (count : Nat) (header : tree_header) (found : t8_ghost_gtree_hash_t)
        (t : t8_ghost_tree_t),
      read_size_t buf 0 = .ok count → 0 < locidx_of_size_t count →
      parse_tree_header P buf
        (0 + sizeof_size_t + T8_ADD_PADDING P (0 + sizeof_size_t)) = .ok header →
      gtree_hash_lookup g.global_tree_to_ghost_tree header.global_id = some found →
      g.ghost_trees[found.index]? = some t →
      (t.eclass ≠ header.eclass →
        t8_forest_ghost_parse_received_message P forest g r buf n =
          .error (.assertion 1044)) ∧
      (t.eclass = header.eclass →
        t.elements.elem_size ≠ (forest.scheme header.eclass).t8_element_size →
        t8_forest_ghost_parse_received_message P forest g r buf n =
          .error (.assertion 1046))) ∧
    (∀ entry, process_hash_lookup g.process_offsets r = some entry →
      (∀ g', t8_forest_ghost_parse_received_message P forest g r buf n ≠ .ok g') ∧
      (∀ (count : Nat) (st : parse_state), read_size_t buf 0 = .ok count →
        parse_trees P forest buf (locidx_of_size_t count).toNat 0
          { ghost := g,
            bytes_read := 0 + sizeof_size_t + T8_ADD_PADDING P (0 + sizeof_size_t),
            first_tree_index := none, first_element_index := none } = .ok st →
        st.bytes_read = size_t_of_int n →
        t8_forest_ghost_parse_received_message P forest g r buf n =
          .error (.assertion 1083))) := by
  have hfound : ∀ (itree : Nat) (st : parse_state) (header : tree_header)
      (found : t8_ghost_gtree_hash_t) (t : t8_ghost_tree_t),
      ghost_index_ok st.ghost →
      parse_tree_header P buf st.bytes_read = .ok header →
      gtree_hash_lookup st.ghost.global_tree_to_ghost_tree header.global_id =
        some found →
      st.ghost.ghost_trees[found.index]? = some t →
      (t.eclass ≠ header.eclass →
        parse_tree P forest buf itree st = .error (.assertion 1044)) ∧
      (t.eclass = header.eclass →
        t.elements.elem_size ≠ (forest.scheme header.eclass).t8_element_size →
        parse_tree P forest buf itree st = .error (.assertion 1046)) := by
    intro itree st header found t hst hh hl ht
    obtain ⟨t', ht', hg⟩ := ghost_index_lookup hst hl
    rw [ht] at ht'
    cases ht'
    obtain ⟨h1, h2, _⟩ := @parse_tree_found P forest buf itree st header found t
      hh hl ht hg
    exact ⟨h1, h2⟩
  refine ⟨?_, ?_, hfound, ?_, ?_⟩
  · intro h
    exact (parse_received_message_gid_error hok h).1 rfl
  · intro h
    exact (parse_received_message_gid_error hok h).2 rfl
  · intro count header found t hc hpos hh hl ht
    obtain ⟨k, hk⟩ : ∃ k, (locidx_of_size_t count).toNat = k + 1 :=
      ⟨(locidx_of_size_t count).toNat - 1, by omega⟩
    obtain ⟨h1, h2⟩ := hfound 0
      { ghost := g,
        bytes_read := 0 + sizeof_size_t + T8_ADD_PADDING P (0 + sizeof_size_t),
        first_tree_index := none, first_element_index := none }
      header found t hok hh hl ht
    constructor
    · intro hne
      apply parse_received_message_trees_error hc
      rw [hk]
      simp only [parse_trees]
      rw [h1 hne]
    · intro heq hs
      apply parse_received_message_trees_error hc
      rw [hk]
      simp only [parse_trees]
      rw [h2 heq hs]
  · intro entry hentry
    constructor
    · intro g' h
      obtain ⟨_, _, _, _, hnone, _⟩ := parse_received_message_ok h
      rw [hentry] at hnone
      cases hnone
    · intro count st hc hst hlen
      obtain ⟨rs, _, hg, _⟩ := parse_trees_ok _ _ _ _ hst
      have hpo : st.ghost.process_offsets = g.process_offsets := by
        rw [hg]
        exact (foldl_ghost_add_record_frame forest rs g).1
      unfold t8_forest_ghost_parse_received_message
      simp only [bind, Except.bind, pure, Except.pure, hc]
      rw [hst]
      simp only [T8_ASSERT, hlen, decide_True, if_true, hpo, hentry]
      rfl

theorem example_ghost_parsed_index_ok : ghost_index_ok example_ghost_parsed :=
  parse_calls_index_ok example_parse_calls ghost_index_ok_new
    (rfl : parse_calls 8 example_forest ghost_new example_parse_calls =
      .ok example_ghost_parsed)

theorem example_parse_size_mismatch :
    t8_forest_ghost_parse_received_message 8
      { example_forest with scheme := fun _ => example_scheme 4 }
      example_ghost_parsed 3 example_message_a 72 = .error (.assertion 1046) := rfl

theorem example_parse_second_run :
    t8_forest_ghost_parse_received_message 8 example_forest example_ghost_parsed 1
      example_message_b 72 = .error (.assertion 1083) := rfl

theorem C36_parse_mismatch_witness :
    ghost_index_ok example_ghost_parsed ∧
    (t8_forest_ghost_parse_received_message 8 example_forest example_ghost_parsed 1 example_message_b 72 ≠
      .error (.assertion 1040) ∧
    t8_forest_ghost_parse_received_message 8 example_forest example_ghost_parsed 1 example_message_b 72 ≠
      .error (.assertion 1045) ∧
    (∀ (itree : Nat) (st : parse_state) (header : tree_header)
        (found : t8_ghost_gtree_hash_t) (t : t8_ghost_tree_t),
      ghost_index_ok st.ghost →
      parse_tree_header 8 example_message_b st.bytes_read = .ok header →
      gtree_hash_lookup st.ghost.global_tree_to_ghost_tree header.global_id =
        some found →
      st.ghost.ghost_trees[found.index]? = some t →
      (t.eclass ≠ header.eclass →
        parse_tree 8 example_forest example_message_b itree st = .error (.assertion 1044)) ∧
      (t.eclass = header.eclass →
        t.elements.elem_size ≠ (example_forest.scheme header.eclass).t8_element_size →
        parse_tree 8 example_forest example_message_b itree st = .error (.assertion 1046))) ∧
    (∀ (count : Nat) (header : tree_header) (found : t8_ghost_gtree_hash_t)
        (t : t8_ghost_tree_t),
      read_size_t example_message_b 0 = .ok count → 0 < locidx_of_size_t count →
      parse_tree_header 8 example_message_b
        (0 + sizeof_size_t + T8_ADD_PADDING 8 (0 + sizeof_size_t)) = .ok header →
      gtree_hash_lookup example_ghost_parsed.global_tree_to_ghost_tree header.global_id = some found →
      example_ghost_parsed.ghost_trees[found.index]? = some t →
      (t.eclass ≠ header.eclass →
        t8_forest_ghost_parse_received_message 8 example_forest example_ghost_parsed 1 example_message_b 72 =
          .error (.assertion 1044)) ∧
      (t.eclass = header.eclass →
        t.elements.elem_size ≠ (example_forest.scheme header.eclass).t8_element_size →
        t8_forest_ghost_parse_received_message 8 example_forest example_ghost_parsed 1 example_message_b 72 =
          .error (.assertion 1046))) ∧
    (∀ entry, process_hash_lookup example_ghost_parsed.process_offsets 1 = some entry →
      (∀ g', t8_forest_ghost_parse_received_message 8 example_forest example_ghost_parsed 1 example_message_b 72 ≠ .ok g') ∧
      (∀ (count : Nat) (st : parse_state), read_size_t example_message_b 0 = .ok count →
        parse_trees 8 example_forest example_message_b (locidx_of_size_t count).toNat 0
          { ghost := example_ghost_parsed,
            bytes_read := 0 + sizeof_size_t + T8_ADD_PADDING 8 (0 + sizeof_size_t),
            first_tree_index := none, first_element_index := none } = .ok st →
        st.bytes_read = size_t_of_int 72 →
        t8_forest_ghost_parse_received_message 8 example_forest example_ghost_parsed 1 example_message_b 72 =
          .error (.assertion 1083)))) :=
  ⟨example_ghost_parsed_index_ok,
    C36_parse_mismatch 8 example_forest example_ghost_parsed 1 example_message_b 72
      example_ghost_parsed_index_ok⟩


/-! ### The scratch buffer of Discovery -/

/-- The regrow step on a state of the scratch buffer that is in order. -/
theorem face_regrown_owned (forest : t8_forest_t) (itree : Nat) (elem : t8_element_t)
    (st : fill_remote_locals) (iface : Nat) (hst : scratch_owned st)
    (hclass : forest.element_neighbor_eclass itree elem iface < T8_ECLASS_COUNT)
    (hn : 0 < (forest.scheme (forest.tree_class itree)).t8_element_num_face_children
      elem iface) :
    scratch_owned (face_regrown forest itree elem st iface) ∧
    (face_regrown forest itree elem st iface).last_class =
      forest.element_neighbor_eclass itree elem iface ∧
    (face_regrown forest itree elem st iface).half_neighbors_owner =
      some (forest.element_neighbor_eclass itree elem iface) ∧
    (forest.scheme (forest.tree_class itree)).t8_element_num_face_children elem iface ≤
      (face_regrown forest itree elem st iface).max_num_face_children ∧
    (face_regrown forest itree elem st iface).ghost = st.ghost ∧
    ((∀ c ∈ st.destroyed, destroy_call_ok c) →
      ∀ c ∈ (face_regrown forest itree elem st iface).destroyed, destroy_call_ok c) ∧
    (st.last_class ≠ forest.element_neighbor_eclass itree elem iface →
      (face_regrown forest itree elem st iface).half_neighbors =
        List.replicate
          ((forest.scheme (forest.tree_class itree)).t8_element_num_face_children
            elem iface)
          (forest.scheme (forest.element_neighbor_eclass itree elem iface)).t8_element_new ∧
      (st.half_neighbors_owner ≠ none →
        (face_regrown forest itree elem st iface).destroyed =
          st.destroyed ++ [{ scheme := st.half_neighbors_owner,
                             length := st.half_neighbors.length,
                             owner := st.half_neighbors_owner,
                             allocated := st.half_neighbors.length }])) := by
  unfold face_regrown
  generalize forest.element_neighbor_eclass itree elem iface = nc at hclass ⊢
  generalize (forest.scheme (forest.tree_class itree)).t8_element_num_face_children
    elem iface = n at hn ⊢
  obtain ⟨hlen, hcase⟩ := hst
  unfold fill_remote_regrow
  by_cases hc : st.max_num_face_children < n ∨ st.last_class ≠ nc
  · rw [if_pos hc]
    refine ⟨⟨List.length_replicate _ _, Or.inr ⟨rfl, rfl, rfl, hn⟩⟩, rfl, rfl,
      Nat.le_refl _, rfl, ?_, ?_⟩
    · intro hcalls c hcmem
      by_cases hmax : st.max_num_face_children > 0
      · have hd : c ∈ st.destroyed ++ [destroy_call.mk st.prev_neigh_scheme
            st.max_num_face_children st.half_neighbors_owner
            st.half_neighbors.length] := by
          have := hcmem
          simp only [hmax, if_true] at this
          exact this
        simp only [List.mem_append, List.mem_singleton] at hd
        rcases hd with h | h
        · exact hcalls c h
        · rcases hcase with ⟨_, h0, _, _⟩ | ⟨ho, hp, _, _⟩
          · omega
          · subst h
            exact ⟨by simp [hp, ho], by simp [ho], by simp [hlen]⟩
      · have hd : c ∈ st.destroyed := by
          have := hcmem
          simp only [hmax, if_false] at this
          exact this
        exact hcalls c hd
    · intro _
      refine ⟨rfl, ?_⟩
      intro hown
      rcases hcase with ⟨ho, _, _, _⟩ | ⟨ho, hp, _, hpos⟩
      · exact absurd ho hown
      · show (if st.max_num_face_children > 0 then _ else _) = _
        rw [if_pos hpos, hp, ho, hlen]
  · rw [if_neg hc]
    simp only [not_or, not_lt, ne_eq, Decidable.not_not] at hc
    obtain ⟨hle, hlast⟩ := hc
    rcases hcase with ⟨_, _, hl, _⟩ | ⟨ho, hp, _, hpos⟩
    · rw [hl] at hlast
      rw [← hlast] at hclass
      exact absurd hclass (Nat.lt_irrefl _)
    · refine ⟨⟨hlen, Or.inr ⟨ho, hp, ?_, hpos⟩⟩, hlast, ?_, hle, rfl,
        fun hcalls => hcalls, ?_⟩
      · show some nc = some st.last_class
        rw [hlast]
      · show st.half_neighbors_owner = some nc
        rw [ho, hlast]
      · intro hne
        exact absurd hlast hne


theorem write_half_neighbors_length {buf buf' : List t8_element_t} {n : Nat}
    {f : Nat → t8_element_t} (h : write_half_neighbors buf n f = .ok buf') :
    buf'.length = buf.length := by
  unfold write_half_neighbors at h
  split at h
  · cases h
    simp only [List.length_append, List.length_map, List.length_range, List.length_drop]
    omega
  · cases h

/-- The local variables after a round of the face loop with the half
neighbour method: those after the regrow step, with the neighbours constructed
into the scratch buffer and with the ghost structure that the loop over the
face children leaves. -/
theorem fill_remote_face_locals {forest : t8_forest_t} {itree : Nat}
    {elem : t8_element_t} {is_atom : Bool} {st st' : fill_remote_locals}
    {iface : Nat}
    (h : fill_remote_face forest 0 itree elem is_atom st iface = .ok st') :
    ∃ buf, face_buffer forest itree elem is_atom st iface = .ok buf ∧
      buf.length = (face_regrown forest itree elem st iface).half_neighbors.length ∧
      st' = { face_regrown forest itree elem st iface with
              half_neighbors := buf, ghost := st'.ghost } := by
  unfold fill_remote_face at h
  unfold face_buffer face_regrown
  simp only [bind, Except.bind, pure, Except.pure, if_true] at h
  dsimp only at h ⊢
  generalize forest.element_neighbor_eclass itree elem iface = nc at h ⊢
  generalize (forest.scheme (forest.tree_class itree)).t8_element_num_face_children
    elem iface = n at h ⊢
  generalize fill_remote_regrow forest { st with neigh_scheme := some nc } nc n = st1
    at h ⊢
  cases is_atom with
  | false =>
    simp only [Bool.not_false, if_true] at h ⊢
    cases hw : write_half_neighbors st1.half_neighbors n
        (forest.element_half_face_neighbors itree elem iface n).2 with
    | error e => simp [hw] at h
    | ok buf =>
      simp only [hw] at h
      refine ⟨buf, rfl, write_half_neighbors_length hw, ?_⟩
      by_cases hnt : (forest.element_half_face_neighbors itree elem iface n).1 ≥ 0
      · simp only [hnt, if_true] at h
        cases hf : (List.range n).foldlM (fill_remote_child forest itree elem
            (forest.element_half_face_neighbors itree elem iface n).1 nc buf)
            st1.ghost with
        | error e => simp [hf] at h
        | ok g =>
          simp only [hf, Except.ok.injEq] at h
          subst h
          rfl
      · simp only [hnt, if_false, Except.ok.injEq] at h
        subst h
        rfl
  | true =>
    simp only [Bool.not_true, Bool.false_eq_true, Bool.true_eq_false, if_false] at h ⊢
    cases hw : write_half_neighbors st1.half_neighbors 1
        (fun _ => (forest.element_face_neighbor itree elem iface).2.1) with
    | error e => simp [hw] at h
    | ok buf =>
      simp only [hw] at h
      refine ⟨buf, rfl, write_half_neighbors_length hw, ?_⟩
      by_cases hnt : (forest.element_face_neighbor itree elem iface).1 ≥ 0
      · simp only [hnt, if_true] at h
        cases hf : (List.range n).foldlM (fill_remote_child forest itree elem
            (forest.element_face_neighbor itree elem iface).1 nc buf)
            st1.ghost with
        | error e => simp [hf] at h
        | ok g =>
          simp only [hf, Except.ok.injEq] at h
          subst h
          rfl
      · simp only [hnt, if_false, Except.ok.injEq] at h
        subst h
        rfl

/-- A round of the face loop with the half neighbour method leaves the scratch
buffer in order, allocated by the scheme of the neighbour class of the face,
and every call of `t8_element_destroy` so far in order. -/
theorem fill_remote_face_owned {forest : t8_forest_t} {itree : Nat}
    {elem : t8_element_t} {is_atom : Bool} {st st' : fill_remote_locals}
    {iface : Nat} (hst : scratch_owned st)
    (hcalls : ∀ c ∈ st.destroyed, destroy_call_ok c)
    (hclass : forest.element_neighbor_eclass itree elem iface < T8_ECLASS_COUNT)
    (hn : 0 < (forest.scheme (forest.tree_class itree)).t8_element_num_face_children
      elem iface)
    (h : fill_remote_face forest 0 itree elem is_atom st iface = .ok st') :
    scratch_owned st' ∧ (∀ c ∈ st'.destroyed, destroy_call_ok c) ∧
    st'.half_neighbors_owner =
      some (forest.element_neighbor_eclass itree elem iface) ∧
    st'.neigh_scheme = st'.half_neighbors_owner := by
  obtain ⟨buf, _, hlen, hst'⟩ := fill_remote_face_locals h
  obtain ⟨⟨h1, h2⟩, _, hown, _, _, hc, _⟩ :=
    face_regrown_owned forest itree elem st iface hst hclass hn
  rw [hst']
  refine ⟨⟨by simp only; rw [hlen, h1], ?_⟩, hc hcalls, hown, ?_⟩
  · rcases h2 with ⟨ho, _, _, _⟩ | h2
    · rw [hown] at ho
      cases ho
    · exact Or.inr h2
  · rcases h2 with ⟨ho, _, _, _⟩ | ⟨ho, _, hns, _⟩
    · rw [hown] at ho
      cases ho
    · show (face_regrown forest itree elem st iface).neigh_scheme =
        (face_regrown forest itree elem st iface).half_neighbors_owner
      rw [hns, ho]


/-- A loop in which every round keeps `J` and keeps `K`, and some round leads
from `J` to `K`, leads from `J` to `K`. -/
theorem foldlM_reaches {α σ : Type} (f : σ → α → Except Failure σ)
    (J K : σ → Prop) :
    ∀ (l : List α),
      (∀ s a s', a ∈ l → J s → f s a = .ok s' → J s') →
      (∀ s a s', a ∈ l → K s → f s a = .ok s' → K s') →
      (∃ a ∈ l, ∀ s s', J s → f s a = .ok s' → K s') →
      ∀ s s', J s → l.foldlM f s = .ok s' → K s' := by
  intro l
  induction l with
  | nil =>
    intro _ _ hE
    obtain ⟨a, ha, _⟩ := hE
    cases ha
  | cons b l ih =>
    intro hJ hK hE s s' hs h
    simp only [List.foldlM_cons, bind, Except.bind] at h
    cases hb : f s b with
    | error e => rw [hb] at h; cases h
    | ok s1 =>
      rw [hb] at h
      simp only [] at h
      obtain ⟨a, ha, hEa⟩ := hE
      rcases List.mem_cons.mp ha with hab | hal
      · subst hab
        exact foldlM_preserves_mem f K l
          (fun s a s' ha' hs' hr => hK s a s' (List.mem_cons_of_mem _ ha') hs' hr)
          s1 s' (hEa s s1 hs hb) h
      · exact ih
          (fun s a s' ha' hs' hr => hJ s a s' (List.mem_cons_of_mem _ ha') hs' hr)
          (fun s a s' ha' hs' hr => hK s a s' (List.mem_cons_of_mem _ ha') hs' hr)
          ⟨a, hal, hEa⟩ s1 s' (hJ s b s1 (List.mem_cons_self _ _) hs hb) h

/-- The tree loop of Discovery with the half neighbour method keeps the
scratch buffer and the calls of `t8_element_destroy` in order; when some local
element has a face, the buffer is allocated at the end. -/
theorem fill_remote_trees_owned (forest : t8_forest_t) (hproper : faces_proper forest)
    (st st' : fill_remote_locals) (hst : scratch_calls_ok st)
    (h : (List.range forest.num_local_trees).foldlM (fill_remote_tree forest 0) st =
      .ok st') :
    scratch_calls_ok st' ∧
    (face_visited forest → st'.half_neighbors_owner ≠ none) := by
  -- a round of the face loop
  have hface : ∀ (itree : Nat) (e : t8_element_t), itree < forest.num_local_trees →
      e ∈ forest.tree_elements itree →
      ∀ (s : fill_remote_locals) (iface : Nat) (s' : fill_remote_locals),
        iface ∈ List.range
          ((forest.scheme (forest.tree_class itree)).t8_element_num_faces e) →
        scratch_calls_ok s →
        fill_remote_face forest 0 itree e
          (decide ((forest.scheme (forest.tree_class itree)).t8_element_level e =
            (forest.scheme (forest.tree_class itree)).t8_element_maxlevel))
          s iface = .ok s' →
        scratch_calls_ok s' ∧ s'.half_neighbors_owner ≠ none := by
    intro itree e hit he s iface s' hif hs hr
    obtain ⟨hcl, hn⟩ := hproper itree hit e he iface (List.mem_range.mp hif)
    obtain ⟨h1, h2, h3, _⟩ := fill_remote_face_owned hs.1 hs.2 hcl hn hr
    exact ⟨⟨h1, h2⟩, by rw [h3]; simp⟩
  -- a round of the element loop
  have helemJ : ∀ (itree : Nat), itree < forest.num_local_trees →
      ∀ (s : fill_remote_locals) (e : t8_element_t) (s' : fill_remote_locals),
        e ∈ forest.tree_elements itree → scratch_calls_ok s →
        fill_remote_element forest 0 itree s e = .ok s' → scratch_calls_ok s' := by
    intro itree hit s e s' he hs hr
    unfold fill_remote_element at hr
    exact foldlM_preserves_mem _ scratch_calls_ok _
      (fun s a s' ha hs hr => (hface itree e hit he s a s' ha hs hr).1) _ _ hs hr
  have helemK : ∀ (itree : Nat), itree < forest.num_local_trees →
      ∀ (s : fill_remote_locals) (e : t8_element_t) (s' : fill_remote_locals),
        e ∈ forest.tree_elements itree →
        (scratch_calls_ok s ∧ s.half_neighbors_owner ≠ none) →
        fill_remote_element forest 0 itree s e = .ok s' →
        (scratch_calls_ok s' ∧ s'.half_neighbors_owner ≠ none) := by
    intro itree hit s e s' he hs hr
    unfold fill_remote_element at hr
    exact foldlM_preserves_mem _
      (fun s => scratch_calls_ok s ∧ s.half_neighbors_owner ≠ none) _
      (fun s a s' ha hs hr => hface itree e hit he s a s' ha hs.1 hr) _ _ hs hr
  have helemE : ∀ (itree : Nat), itree < forest.num_local_trees →
      ∀ (e : t8_element_t), e ∈ forest.tree_elements itree →
        0 < (forest.scheme (forest.tree_class itree)).t8_element_num_faces e →
        ∀ (s s' : fill_remote_locals), scratch_calls_ok s →
          fill_remote_element forest 0 itree s e = .ok s' →
          (scratch_calls_ok s' ∧ s'.half_neighbors_owner ≠ none) := by
    intro itree hit e he hpos s s' hs hr
    unfold fill_remote_element at hr
    exact foldlM_reaches _ scratch_calls_ok
      (fun s => scratch_calls_ok s ∧ s.half_neighbors_owner ≠ none) _
      (fun s a s' ha hs hr => (hface itree e hit he s a s' ha hs hr).1)
      (fun s a s' ha hs hr => hface itree e hit he s a s' ha hs.1 hr)
      ⟨0, List.mem_range.mpr hpos,
        fun s s' hs hr => hface itree e hit he s 0 s' (List.mem_range.mpr hpos) hs hr⟩
      s s' hs hr
  -- a round of the tree loop
  have htreeJ : ∀ (s : fill_remote_locals) (itree : Nat) (s' : fill_remote_locals),
      itree ∈ List.range forest.num_local_trees → scratch_calls_ok s →
      fill_remote_tree forest 0 s itree = .ok s' → scratch_calls_ok s' := by
    intro s itree s' hit hs hr
    unfold fill_remote_tree at hr
    exact foldlM_preserves_mem _ scratch_calls_ok _
      (fun s a s' ha hs hr => helemJ itree (List.mem_range.mp hit) s a s' ha hs hr)
      _ _ hs hr
  have htreeK : ∀ (s : fill_remote_locals) (itree : Nat) (s' : fill_remote_locals),
      itree ∈ List.range forest.num_local_trees →
      (scratch_calls_ok s ∧ s.half_neighbors_owner ≠ none) →
      fill_remote_tree forest 0 s itree = .ok s' →
      (scratch_calls_ok s' ∧ s'.half_neighbors_owner ≠ none) := by
    intro s itree s' hit hs hr
    unfold fill_remote_tree at hr
    exact foldlM_preserves_mem _
      (fun s => scratch_calls_ok s ∧ s.half_neighbors_owner ≠ none) _
      (fun s a s' ha hs hr => helemK itree (List.mem_range.mp hit) s a s' ha hs hr)
      _ _ hs hr
  refine ⟨foldlM_preserves_mem _ scratch_calls_ok _ htreeJ _ _ hst h, ?_⟩
  intro ⟨itree, hit, e, he, hpos⟩
  have := foldlM_reaches (fill_remote_tree forest 0) scratch_calls_ok
    (fun s => scratch_calls_ok s ∧ s.half_neighbors_owner ≠ none)
    (List.range forest.num_local_trees) htreeJ htreeK
    ⟨itree, List.mem_range.mpr hit, by
      intro s s' hs hr
      unfold fill_remote_tree at hr
      exact foldlM_reaches _ scratch_calls_ok
        (fun s => scratch_calls_ok s ∧ s.half_neighbors_owner ≠ none) _
        (fun s a s' ha hs hr => helemJ itree hit s a s' ha hs hr)
        (fun s a s' ha hs hr => helemK itree hit s a s' ha hs hr)
        ⟨e, he, fun s s' hs hr => helemE itree hit e he hpos s s' hs hr⟩
        s s' hs hr⟩
    st st' hst h
  exact this.2

/-- Discovery with the half neighbour method returns when its tree loop does
and some local element has a face: the final clean-up then finds the scheme
pointer assigned and the scratch buffer allocated. -/
theorem fill_remote_returns (forest : t8_forest_t) (hproper : faces_proper forest)
    (hvisit : face_visited forest) (ghost : t8_forest_ghost)
    (st' : fill_remote_locals)
    (hfold : (List.range forest.num_local_trees).foldlM (fill_remote_tree forest 0)
      (fill_remote_start ghost) = .ok st') :
    ∃ res, t8_forest_ghost_fill_remote forest ghost 0 = .ok res ∧
      res.ghost = st'.ghost := by
  obtain ⟨⟨hown, _⟩, hvis⟩ := fill_remote_trees_owned forest hproper
    (fill_remote_start ghost) st' ⟨⟨rfl, Or.inl ⟨rfl, rfl, rfl, rfl⟩⟩, by
      intro c hc
      cases hc⟩ hfold
  have hne := hvis hvisit
  have hc : ¬ (True ∧
      (st'.neigh_scheme.isNone = true ∨ st'.half_neighbors_owner.isNone = true)) := by
    rcases hown.2 with ⟨ho, _, _, _⟩ | ⟨ho, _, hns, _⟩
    · exact absurd ho hne
    · rw [hns, ho]
      simp
  have hfold' : (List.range forest.num_local_trees).foldlM
      (fill_remote_tree forest 0)
      { ghost := ghost, half_neighbors := [], half_neighbors_owner := none,
        max_num_face_children := 0, last_class := T8_ECLASS_COUNT,
        neigh_scheme := none, prev_neigh_scheme := none, destroyed := [] } =
      .ok st' := hfold
  unfold t8_forest_ghost_fill_remote
  simp only [bind, Except.bind, pure, Except.pure, hfold']
  rw [if_neg hc]
  exact ⟨_, rfl, rfl⟩


/-- C32 (scratch buffer invariant): between two rounds of the face loop of
Discovery (half neighbour method) the scratch buffer is either not allocated
yet or holds `max_num_face_children > 0` elements of the scheme of
`last_class`; this holds on entry and is kept by every round.  At a face with
a proper neighbour class and at least one face child, the neighbours are
constructed into the buffer of the state after the regrow step: that buffer
was allocated by the scheme of the neighbour class of the face
(`last_class == neigh_class`) and holds `max_num_face_children >=
num_face_children` elements; when the class differs from `last_class`, the
buffer is a fresh allocation of `num_face_children` elements, and the old
buffer, if there was one, was destroyed before. -/
theorem C32_scratch_buffer_invariant (forest : t8_forest_t) (itree : Nat)
    (elem : t8_element_t) (is_atom : Bool) (iface : Nat) (st : fill_remote_locals)
    (hst : scratch_owned st)
    (hclass : forest.element_neighbor_eclass itree elem iface < T8_ECLASS_COUNT)
    (hn : 0 < (forest.scheme (forest.tree_class itree)).t8_element_num_face_children
      elem iface) :
    (∀ ghost, scratch_owned (fill_remote_start ghost)) ∧
    face_buffer forest itree elem is_atom st iface =
      (if is_atom = false then
        write_half_neighbors (face_regrown forest itree elem st iface).half_neighbors
          ((forest.scheme (forest.tree_class itree)).t8_element_num_face_children
            elem iface)
          (forest.element_half_face_neighbors itree elem iface
            ((forest.scheme (forest.tree_class itree)).t8_element_num_face_children
              elem iface)).2
       else
        write_half_neighbors (face_regrown forest itree elem st iface).half_neighbors
          1 (fun _ => (forest.element_face_neighbor itree elem iface).2.1)) ∧
    (face_regrown forest itree elem st iface).last_class =
      forest.element_neighbor_eclass itree elem iface ∧
    (face_regrown forest itree elem st iface).half_neighbors_owner =
      some (forest.element_neighbor_eclass itree elem iface) ∧
    (face_regrown forest itree elem st iface).half_neighbors.length =
      (face_regrown forest itree elem st iface).max_num_face_children ∧
    (forest.scheme (forest.tree_class itree)).t8_element_num_face_children elem iface ≤
      (face_regrown forest itree elem st iface).max_num_face_children ∧
    (st.last_class ≠ forest.element_neighbor_eclass itree elem iface →
      (face_regrown forest itree elem st iface).half_neighbors =
        List.replicate
          ((forest.scheme (forest.tree_class itree)).t8_element_num_face_children
            elem iface)
          (forest.scheme (forest.element_neighbor_eclass itree elem iface)).t8_element_new ∧
      (st.half_neighbors_owner ≠ none →
        (face_regrown forest itree elem st iface).destroyed =
          st.destroyed ++ [{ scheme := st.half_neighbors_owner,
                             length := st.half_neighbors.length,
                             owner := st.half_neighbors_owner,
                             allocated := st.half_neighbors.length }])) ∧
    (∀ st', fill_remote_face forest 0 itree elem is_atom st iface = .ok st' →
      scratch_owned st' ∧
      st'.half_neighbors_owner =
        some (forest.element_neighbor_eclass itree elem iface)) := by
  obtain ⟨h1, h2, h3, h4, _, _, h7⟩ :=
    face_regrown_owned forest itree elem st iface hst hclass hn
  refine ⟨fun ghost => ⟨rfl, Or.inl ⟨rfl, rfl, rfl, rfl⟩⟩, rfl, h2, h3, h1.1, h4, h7, ?_⟩
  intro st' hface
  obtain ⟨buf, _, hlen, hst'⟩ := fill_remote_face_locals hface
  rw [hst']
  refine ⟨⟨by simp only; rw [hlen, h1.1], ?_⟩, h3⟩
  rcases h1.2 with ⟨ho, _, _, _⟩ | hr
  · rw [h3] at ho
    cases ho
  · exact Or.inr hr

/-- C33 (destroy with the owning class): in a run of
`t8_forest_ghost_fill_remote` with the half neighbour method on a forest whose
faces have proper neighbour classes and at least one face child each, and in
which some local element has a face, calls of `t8_element_destroy` on the
scratch buffer are made, the last one by the final clean-up, and every one of
them is made through the scheme of the class that allocated the buffer and
passes the number of elements that the buffer holds. -/
theorem C33_destroy_with_owner (forest : t8_forest_t) (ghost : t8_forest_ghost)
    (res : fill_remote_result) (hproper : faces_proper forest)
    (hvisit : face_visited forest)
    (h : t8_forest_ghost_fill_remote forest ghost 0 = .ok res) :
    res.destroyed ≠ [] ∧
    ∀ c ∈ res.destroyed,
      c.scheme = c.owner ∧ c.owner ≠ none ∧ c.length = c.allocated := by
  unfold t8_forest_ghost_fill_remote at h
  simp only [bind, Except.bind, pure, Except.pure, if_true, true_and] at h
  split at h
  · cases h
  · rename_i st hfold
    by_cases hc : st.neigh_scheme.isNone = true ∨ st.half_neighbors_owner.isNone = true
    · rw [if_pos hc] at h
      cases h
    rw [if_neg hc] at h
    cases h
    obtain ⟨⟨hown, hcalls⟩, hvis⟩ := fill_remote_trees_owned forest hproper
      (fill_remote_start ghost) st ⟨⟨rfl, Or.inl ⟨rfl, rfl, rfl, rfl⟩⟩, by
        intro c hc
        cases hc⟩ hfold
    have hne := hvis hvisit
    refine ⟨by simp, ?_⟩
    intro c hc
    simp only [List.mem_append, List.mem_singleton] at hc
    rcases hc with hc | hc
    · exact hcalls c hc
    · subst hc
      rcases hown.2 with ⟨ho, _, _, _⟩ | ⟨ho, _, hns, _⟩
      · exact absurd ho hne
      · exact ⟨by simp only [hns, ho], by simp only [ho]; simp, by simp only [hown.1]⟩

theorem C33_destroy_with_owner_witness :
    faces_proper mixed_forest ∧ face_visited mixed_forest ∧
    ∃ res, t8_forest_ghost_fill_remote mixed_forest ghost_new 0 = .ok res ∧
      res.destroyed ≠ [] ∧
      ∀ c ∈ res.destroyed,
        c.scheme = c.owner ∧ c.owner ≠ none ∧ c.length = c.allocated :=
  have hproper : faces_proper mixed_forest := by
    intro itree _ e _ iface _
    refine ⟨?_, ?_⟩
    · show (if iface = 0 then 2 else 3) < 8
      split <;> decide
    · show 0 < 2
      decide
  have hvisit : face_visited mixed_forest :=
    ⟨0, by decide, [1, 0, 7], by simp [mixed_forest, example_forest], by decide⟩
  ⟨hproper, hvisit, _, rfl,
    C33_destroy_with_owner mixed_forest ghost_new _ hproper hvisit
      (rfl : t8_forest_ghost_fill_remote mixed_forest ghost_new 0 = .ok _)⟩

theorem C32_scratch_buffer_invariant_witness :
    scratch_owned example_locals ∧
    mixed_forest.element_neighbor_eclass 0 [1, 0, 7] 1 < T8_ECLASS_COUNT ∧
    0 < (mixed_forest.scheme (mixed_forest.tree_class 0)).t8_element_num_face_children
      [1, 0, 7] 1 ∧
    (∀ ghost, scratch_owned (fill_remote_start ghost)) ∧
    face_buffer mixed_forest 0 [1, 0, 7] false example_locals 1 =
      (if false = false then
        write_half_neighbors
          (face_regrown mixed_forest 0 [1, 0, 7] example_locals 1).half_neighbors
          ((mixed_forest.scheme (mixed_forest.tree_class 0)).t8_element_num_face_children
            [1, 0, 7] 1)
          (mixed_forest.element_half_face_neighbors 0 [1, 0, 7] 1
            ((mixed_forest.scheme (mixed_forest.tree_class 0)).t8_element_num_face_children
              [1, 0, 7] 1)).2
       else
        write_half_neighbors
          (face_regrown mixed_forest 0 [1, 0, 7] example_locals 1).half_neighbors
          1 (fun _ => (mixed_forest.element_face_neighbor 0 [1, 0, 7] 1).2.1)) ∧
    (face_regrown mixed_forest 0 [1, 0, 7] example_locals 1).last_class =
      mixed_forest.element_neighbor_eclass 0 [1, 0, 7] 1 ∧
    (face_regrown mixed_forest 0 [1, 0, 7] example_locals 1).half_neighbors_owner =
      some (mixed_forest.element_neighbor_eclass 0 [1, 0, 7] 1) ∧
    (face_regrown mixed_forest 0 [1, 0, 7] example_locals 1).half_neighbors.length =
      (face_regrown mixed_forest 0 [1, 0, 7] example_locals 1).max_num_face_children ∧
    (mixed_forest.scheme (mixed_forest.tree_class 0)).t8_element_num_face_children
        [1, 0, 7] 1 ≤
      (face_regrown mixed_forest 0 [1, 0, 7] example_locals 1).max_num_face_children ∧
    (example_locals.last_class ≠ mixed_forest.element_neighbor_eclass 0 [1, 0, 7] 1 →
      (face_regrown mixed_forest 0 [1, 0, 7] example_locals 1).half_neighbors =
        List.replicate
          ((mixed_forest.scheme (mixed_forest.tree_class 0)).t8_element_num_face_children
            [1, 0, 7] 1)
          (mixed_forest.scheme
            (mixed_forest.element_neighbor_eclass 0 [1, 0, 7] 1)).t8_element_new ∧
      (example_locals.half_neighbors_owner ≠ none →
        (face_regrown mixed_forest 0 [1, 0, 7] example_locals 1).destroyed =
          example_locals.destroyed ++
            [{ scheme := example_locals.half_neighbors_owner,
               length := example_locals.half_neighbors.length,
               owner := example_locals.half_neighbors_owner,
               allocated := example_locals.half_neighbors.length }])) ∧
    (∀ st', fill_remote_face mixed_forest 0 0 [1, 0, 7] false example_locals 1 =
        .ok st' →
      scratch_owned st' ∧
      st'.half_neighbors_owner =
        some (mixed_forest.element_neighbor_eclass 0 [1, 0, 7] 1)) :=
  have hst : scratch_owned example_locals :=
    ⟨rfl, Or.inr ⟨rfl, rfl, rfl, by decide⟩⟩
  ⟨hst, by decide, by decide,
    C32_scratch_buffer_invariant mixed_forest 0 [1, 0, 7] false 1 example_locals
      hst (by decide) (by decide)⟩

/-- What Discovery does with a list of elements that names one element twice,
which the leaves of a committed forest never do: no two consecutive elements
of `repeat_forest` share level and linear id, the first and the third element
are both selected for rank 1, and the remote tree of rank 1 after Discovery
holds the first element only. -/
theorem repeat_forest_remote_tree :
    consecutive_distinct repeat_forest ∧ ¬ leaves_distinct repeat_forest ∧
    shipped_elements repeat_forest 0 1 = [[1, 0, 7], [1, 0, 7]] ∧
    ∃ res, t8_forest_ghost_fill_remote repeat_forest ghost_new 0 = .ok res ∧
      (remote_trees_of res.ghost 1).map (fun rt => rt.elements.elems) =
        [[[1, 0, 7]]] := by
  refine ⟨?_, ?_, by decide, _, rfl, by decide⟩
  · intro itree
    simp [repeat_forest, no_adjacent_duplicates, element_key, example_scheme]
  · intro h
    have := h 0
    simp [repeat_forest, element_key, example_scheme] at this

/-- C3 (Discovery characterisation): on a forest whose local trees list
distinct leaves (so that, in particular, consecutive elements of a local tree
never share both level and linear id), every one of them below the maximum
level, where copying keeps level and linear id, the owner lookup returns ranks
of the communicator, every face has a proper neighbour class and at least one
face child, and some local element has a face, Discovery with the half
neighbour method returns on the empty ghost layer, and the remote trees of
every rank `r` are those of `discovered_trees`: one remote tree for every
local tree `t` with a selected element, and its element sequence is the
order-preserving sublist of the elements `e` of `t` for which some face has a
non-negative neighbour tree id and some half neighbour across it has the owner
`r`, with `r` different from the own rank, each such element once. -/
theorem C3_discovery_characterisation {forest : t8_forest_t}
    (hcopy : copy_preserves_key forest) (hown : owners_valid forest)
    (hlevel : below_maxlevel forest) (hdist : leaves_distinct forest)
    (hproper : faces_proper forest) (hvisit : face_visited forest) :
    ∃ res, t8_forest_ghost_fill_remote forest ghost_new 0 = .ok res ∧
      ∀ r : Int, remote_trees_of res.ghost r = discovered_trees forest r := by
  obtain ⟨st', hfold, _, hghost⟩ :=
    fill_remote_trees_calls hcopy hown hlevel ghost_new
      (ghost_new_remote_index_ok forest)
  obtain ⟨res, hres, hrg⟩ := fill_remote_returns forest hproper hvisit ghost_new st' hfold
  refine ⟨res, hres, ?_⟩
  intro r
  obtain ⟨_, _, h3⟩ := foldl_add_remote_total_spec forest (forest_calls forest)
    ghost_new ghost_new_remote_entries_nonempty
  rw [hrg, hghost, h3 r]
  have hnew : remote_trees_of ghost_new r = [] := rfl
  rw [hnew]
  exact (remote_trees_after_forest hcopy (shipped_distinct_of_pairwise hdist) r
    forest.num_local_trees).1

theorem C3_discovery_characterisation_witness :
    copy_preserves_key example_forest ∧ owners_valid example_forest ∧
    below_maxlevel example_forest ∧ leaves_distinct example_forest ∧
    faces_proper example_forest ∧ face_visited example_forest ∧
    ∃ res, t8_forest_ghost_fill_remote example_forest ghost_new 0 = .ok res ∧
      ∀ r : Int, remote_trees_of res.ghost r = discovered_trees example_forest r :=
  have hcopy : copy_preserves_key example_forest := by
    intro c e; simp [example_forest, example_scheme]
  have hown : owners_valid example_forest := by
    intro g e c
    simp only [example_forest]
    split <;> decide
  have hlevel : below_maxlevel example_forest := by
    intro itree e he
    by_cases h : itree = 0
    · subst h
      simp only [example_forest, if_true, List.mem_cons, List.mem_singleton,
        List.not_mem_nil, or_false] at he
      rcases he with h | h <;> subst h <;> simp [example_forest, example_scheme]
    · simp only [example_forest, h, if_false, List.mem_singleton] at he
      subst he
      simp [example_forest, example_scheme]
  have hdist : leaves_distinct example_forest := by
    intro itree
    by_cases h : itree = 0
    · subst h
      simp [example_forest, example_scheme, element_key]
    · simp [example_forest, h]
  have hproper : faces_proper example_forest := by
    intro itree _ e _ iface _
    refine ⟨?_, ?_⟩
    · show (2 : Nat) < 8
      decide
    · show 0 < 2
      decide
  have hvisit : face_visited example_forest :=
    ⟨0, by decide, [1, 0, 7], by simp [example_forest], by decide⟩
  ⟨hcopy, hown, hlevel, hdist, hproper, hvisit,
    C3_discovery_characterisation hcopy hown hlevel hdist hproper hvisit⟩

end T8Ghost
